import Mathlib

/-!
# Reaver futures and lexer

A shallow embedding of `include/reaver/future.h`: shared states, packaged tasks,
futures, continuations and executors, and of `tokenize` and the token descriptions
of `lexer.h`, followed by the properties established about them.

Modelling conventions.

* Shared states live in a heap (`World.heap`); the address of a state is its index.
  A `std::shared_ptr` / `std::weak_ptr` to a state is an `Option Nat`. States are
  never reclaimed: the development covers executions in which every state that is
  referred to is still alive, so `weak_ptr::lock` fails only on an empty handle or
  on an address outside the heap.
* Closures are defunctionalised: a deferred function is a `Function`, a queued
  continuation is a `Continuation`, and a unit of work handed to an executor is a
  `Thunk`. User callables are pure Lean functions that either return or raise.
* `assert` failures and undefined behaviour abort the whole computation
  (`Except Abort`); C++ exceptions are ordinary completions (`Completion.throw`).
* An executor is identified by a number; `executor::push` appends to `World.pushed`.
  Running and then discarding a pushed thunk is `run_thunk`.
* `std::size_t` counters wrap modulo `2 ^ 64`.
* The environment acts in `Step`s: it calls a task, or an executor runs its oldest
  pushed thunk. The executors share the one queue `World.pushed`.
* The objects of type `packaged_task` and `future` of a program are kept next to the
  program state (`Tasks`, `Futures`): an object is destroyed, or alive with its handle.
  Flowing off the end of a function that returns a value is undefined behaviour.
* In the lexer a string is a `List Char`, and a `boost::basic_regex` is the function
  that `regex_search` computes on the rest of the input: the offset and the length of
  `match[0]`, if any. The descriptions of a `std::map` are a list sorted by key.
-/

namespace Reaver

/-! ## Data model -/

/-- How the value type `T` of a `_shared_state<T>` is classified by the
`enable_if` / `conditional_t` tests of the source. -/
inductive TypeKind where
  | copyable
  | noncopyable
  | void
  deriving DecidableEq, Repr

/-- What a `std::exception_ptr` can refer to: an error raised by a user callable
or one of the exceptions of the library itself. -/
inductive Exn (E : Type) where
  | user (e : E)
  | broken_promise
  | multiple_noncopyable_continuations
  | multiple_exceptional_continuations
  | exception_list (l : List (Exn E))

/-- A value held in the `T` arm of a slot. `ready` is the only inhabitant of
`ready_type`, the payload of the `void` specialisation; `tuple` is a `std::tuple`,
the result type of `when_all`. -/
inductive Payload (V : Type) where
  | ready
  | obj (v : V)
  | tuple (l : List (Payload V))

/-- The slot type `variant<T, std::exception_ptr, none_t>`. -/
inductive Variant (V E : Type) where
  | value (t : Payload V)
  | exception (ptr : Exn E)
  | none

/-- The member `variant::index()`. -/
def Variant.index {V E : Type} : Variant V E → Nat
  | .value _ => 0
  | .exception _ => 1
  | .none => 2

/-- How a call completes when it does not abort: it returns or it throws. -/
inductive Completion (α E : Type) where
  | normal (a : α)
  | throw (e : Exn E)

/-- The completion of a user callable given as a pure result. -/
def Completion.ofExcept {α E : Type} : Except (Exn E) α → Completion α E
  | .ok a => .normal a
  | .error e => .throw e

/-- Reasons for which the program stops: a failed `assert` or undefined behaviour. -/
inductive Abort where
  /-- The assertion `what do?`: the state is not valid. -/
  | what_do
  /-- The assertion at the end of the `sched` lambda: no executor anywhere. -/
  | no_executor
  /-- The assertion `value.index() != 2` at the head of `_get`. -/
  | get_on_empty
  /-- The two assertions at the end of the pending `on_error` body. -/
  | propagate_value
  /-- Dereferencing `state->function` when it is an empty optional. -/
  | empty_function
  /-- A `get<I>` on a variant that holds another alternative. -/
  | bad_variant_access
  /-- A raw `this` or a handle that refers to no state. -/
  | dangling
  /-- An operation of the wrong specialisation was applied to a state. -/
  | ill_typed
  /-- Dereferencing an empty `optional` other than `state->function`. -/
  | empty_optional
  /-- The assertion in the `abort_on_first_failure` case of `when_all`. -/
  | not_implemented
  /-- Flowing off the end of a function whose return type is not `void`. -/
  | no_return
  deriving DecidableEq, Repr

/-- The captures `[sched, task, state]` shared by the continuation lambdas and
the thunk lambdas of `then` and `on_error`. The lambda `sched` captures `this`
and the provided executor. -/
structure Captures where
  this : Nat
  provided : Option Nat
  task : Option Nat
  state : Option Nat
  deriving DecidableEq, Repr

/-- A queued continuation: the lambda handed to `_add_continuation` or
`_add_exceptional_continuation`. Calling it pushes a `Thunk` to the chosen
executor and moves `task` and `state` out of the lambda. -/
structure Continuation where
  captures : Captures
  deriving DecidableEq, Repr

/-- A unit of work handed to `executor::push`: the lambda with captures
`[sched, task, state]` whose body is `task(sched());`. -/
structure Thunk where
  captures : Captures
  deriving DecidableEq, Repr

/-- The enumeration `exception_policy`. -/
inductive exception_policy where
  | aggregate
  | abort_on_first_failure
  deriving DecidableEq, Repr

/-- The deferred function of a state, defunctionalised. -/
inductive Function (V E : Type) where
  /-- A caller-supplied zero-argument callable, given by the completion of `f()`. -/
  | user (r : Except (Exn E) (Payload V))
  /-- The closure `[this, f]` with body `return f(_get());` made by `then`
  (for `void`: `_get(); return f();`). -/
  | then_body (this : Nat) (f : Payload V → Except (Exn E) (Payload V))
  /-- The closure `[this, f, ptr]` with body `return f(ptr);` made by `on_error`
  on a failed state. -/
  | on_error_ptr (this : Nat) (ptr : Exn E) (f : Exn E → Except (Exn E) (Payload V))
  /-- The closure made by `on_error` on a pending state, which reads the error
  from `this->value` when it runs. -/
  | on_error_body (this : Nat) (f : Exn E → Except (Exn E) (Payload V))
  /-- The closure `[state]` packaged by `when_all`, for the internal state at `ws`. -/
  | when_all_body (ws : Nat)
  /-- The closure made by `then` on a `future<void>` for the `void_handler` of
  `when_all`. -/
  | when_all_void (this ws : Nat)
  /-- The closure made by `then` on a non-void future for `nonvoid_handler(index)` of
  `when_all`. -/
  | when_all_nonvoid (this ws index : Nat)
  /-- The closure made by `on_error` on a failed state for the `on_error` lambda of
  `when_all`. -/
  | when_all_error_ptr (this ws : Nat) (policy : exception_policy) (ptr : Exn E)
  /-- The closure made by `on_error` on a pending state for the `on_error` lambda of
  `when_all`. -/
  | when_all_error_body (this ws : Nat) (policy : exception_policy)

/-- The class `_shared_state<T>` (and its `void` specialisation, `kind = void`).
The mutex is not represented: operations are atomic. For a non-copyable `T` the
member `continuations` is an `optional`, held here as a list of at most one. -/
structure _shared_state (V E : Type) where
  kind : TypeKind
  value : Variant V E
  promise_count : Nat
  shared_count : Nat
  scheduler : Option Nat
  continuations : List Continuation
  exceptional_continuations : Option Continuation
  function : Option (Function V E)

/-- The struct `internal_state` local to `when_all`: the tuple of optional slots, the
remaining-count, the held task, the holder of the continuation-futures and the
collected errors. -/
structure internal_state (V E : Type) where
  buffer : List (Option (Payload V))
  remaining : Nat
  task : Option (Option Nat)
  futures : List (Option Nat)
  exceptions : List (Exn E)

/-- The program state: the heap of shared states, the work pushed to executors
(executor, thunk) in push order, a ghost log of the states whose wrapped user
callable has been applied, and the heap of the internal states of `when_all`. -/
structure World (V E : Type) where
  heap : List (_shared_state V E)
  pushed : List (Nat × Thunk)
  applied : List Nat
  internal : List (internal_state V E)

/-- The initial program state. -/
def World.empty {V E : Type} : World V E :=
  { heap := [], pushed := [], applied := [], internal := [] }

/-- Overwrite the state at an address. -/
def World.put {V E : Type} (w : World V E) (id : Nat) (s : _shared_state V E) : World V E :=
  { w with heap := w.heap.set id s }

/-- Pre-increment of a `std::size_t`. -/
def size_inc (n : Nat) : Nat := (n + 1) % 2 ^ 64

/-- Pre-decrement of a `std::size_t`. -/
def size_dec (n : Nat) : Nat := (n + (2 ^ 64 - 1)) % 2 ^ 64

/-! ## `_detail` helpers -/

/-- The function `_is_valid`: `state.value.index() == 0 || state.function`. -/
def _is_valid {V E : Type} (state : _shared_state V E) : Bool :=
  state.value.index == 0 || state.function.isSome

/-- The function `_is_pending`: `state.value.index() == 2 && state.function`. -/
def _is_pending {V E : Type} (state : _shared_state V E) : Bool :=
  state.value.index == 2 && state.function.isSome

/-- The two overloads of `_move_or_copy`, selected by copyability. Returns the
returned variant and the new content of `v`. -/
def _move_or_copy {V E : Type} (copyable : Bool) (v : Variant V E) (move : Bool) :
    Variant V E × Variant V E :=
  if copyable then
    if move then (v, Variant.none) else (v, v)
  else
    (v, Variant.none)

/-- The two overloads of `_add_continuation`: append for a copyable or `void`
value type; for a non-copyable one, throw when a continuation is already there. -/
def _add_continuation {V E : Type} (state : _shared_state V E) (f : Continuation) :
    _shared_state V E × Completion Unit E :=
  if state.kind = TypeKind.noncopyable then
    if state.continuations ≠ [] then
      (state, Completion.throw Exn.multiple_noncopyable_continuations)
    else
      ({ state with continuations := [f] }, Completion.normal ())
  else
    ({ state with continuations := state.continuations ++ [f] }, Completion.normal ())

/-- The function `_add_exceptional_continuation`. -/
def _add_exceptional_continuation {V E : Type} (state : _shared_state V E) (f : Continuation) :
    _shared_state V E × Completion Unit E :=
  if state.exceptional_continuations.isSome then
    (state, Completion.throw Exn.multiple_exceptional_continuations)
  else
    ({ state with exceptional_continuations := some f }, Completion.normal ())

/-- The function `_detail::_add_promise`. -/
def _add_promise {V E : Type} (state : _shared_state V E) : _shared_state V E :=
  { state with promise_count := size_inc state.promise_count }

/-- The function `_detail::_remove_promise`. -/
def _remove_promise {V E : Type} (state : _shared_state V E) : _shared_state V E :=
  let state1 := { state with promise_count := size_dec state.promise_count }
  if state1.promise_count = 0 then
    if _is_pending state1 then
      { state1 with function := none, value := Variant.exception Exn.broken_promise }
    else state1
  else state1

/-! ## `_shared_state` members -/

/-- The member `_shared_state<T>::try_get` for a non-void `T`. -/
def _shared_state.try_get {V E : Type} (s : _shared_state V E) :
    _shared_state V E × Completion (Option (Payload V)) E :=
  let mc := _move_or_copy (s.kind = TypeKind.copyable) s.value
    (s.shared_count = 1 && s.value.index != 1)
  let s1 := { s with value := mc.2 }
  match mc.1 with
  | Variant.value t =>
    (if s1.shared_count = 1 then { s1 with value := Variant.none } else s1,
      Completion.normal (some t))
  | Variant.exception ptr => (s1, Completion.throw ptr)
  | Variant.none => (s1, Completion.normal none)

/-- The member `_shared_state<void>::try_get`. -/
def _shared_state.try_get_void {V E : Type} (s : _shared_state V E) :
    _shared_state V E × Completion Bool E :=
  match s.value with
  | Variant.value _ =>
    (if s.shared_count = 1 then { s with value := Variant.none } else s, Completion.normal true)
  | Variant.exception ptr => (s, Completion.throw ptr)
  | Variant.none => (s, Completion.normal false)

/-- The private member `_shared_state<T>::_get` for a non-void `T`. -/
def _shared_state._get {V E : Type} (s : _shared_state V E) :
    Except Abort (_shared_state V E × Completion (Payload V) E) :=
  if s.value.index = 2 then Except.error Abort.get_on_empty
  else
    match s.value with
    | Variant.exception ptr => Except.ok (s, Completion.throw ptr)
    | _ =>
      let mc := _move_or_copy (s.kind = TypeKind.copyable) s.value
        (s.shared_count = 1 && s.value.index != 1)
      let s1 := { s with value := mc.2 }
      match mc.1 with
      | Variant.value t =>
        Except.ok (if s1.shared_count = 1 then { s1 with value := Variant.none } else s1,
          Completion.normal t)
      | _ => Except.error Abort.bad_variant_access

/-- The private member `_shared_state<void>::_get`. -/
def _shared_state._get_void {V E : Type} (s : _shared_state V E) :
    Except Abort (_shared_state V E × Completion Unit E) :=
  if s.value.index = 2 then Except.error Abort.get_on_empty
  else
    match s.value with
    | Variant.exception ptr => Except.ok (s, Completion.throw ptr)
    | _ =>
      Except.ok (if s.shared_count = 1 then { s with value := Variant.none } else s,
        Completion.normal ())

/-! ## Handles, factories and executors -/

/-- The struct `future_package_pair`: a task handle (a `weak_ptr`) and a future
handle (a `shared_ptr`). -/
structure future_package_pair where
  packaged_task : Option Nat
  future : Option Nat
  deriving DecidableEq, Repr

/-- The state built by the default constructor `_shared_state()`. -/
def _shared_state.init {V E : Type} (k : TypeKind) : _shared_state V E :=
  { kind := k, value := Variant.none, promise_count := 0, shared_count := 0,
    scheduler := none, continuations := [], exceptional_continuations := none,
    function := none }

/-- The state built by `_shared_state(T t)` or `_shared_state(ready_type)`. -/
def _shared_state.of_value {V E : Type} (k : TypeKind) (t : Payload V) : _shared_state V E :=
  { kind := k, value := Variant.value t, promise_count := 0, shared_count := 0,
    scheduler := none, continuations := [], exceptional_continuations := none,
    function := none }

/-- The member `future::_add_count`. -/
def _add_count {V E : Type} (state : _shared_state V E) : _shared_state V E :=
  { state with shared_count := size_inc state.shared_count }

/-- The member `future::_remove_count`. -/
def _remove_count {V E : Type} (state : _shared_state V E) : _shared_state V E :=
  { state with shared_count := size_dec state.shared_count }

/-- The factory `package`, where `k` classifies the result type of `f`: allocate a
state, store the function, construct the task (`_add_promise`) and the future
(`_add_count`). -/
def package {V E : Type} (w : World V E) (k : TypeKind) (f : Function V E) :
    World V E × future_package_pair :=
  let state : _shared_state V E := _shared_state.init k
  let state := { state with function := some f }
  ({ w with heap := w.heap ++ [_add_count (_add_promise state)] },
    { packaged_task := some w.heap.length, future := some w.heap.length })

/-- The factory `make_ready_future(T && t)`, where `k` classifies `T`. -/
def make_ready_future {V E : Type} (w : World V E) (k : TypeKind) (t : Payload V) :
    World V E × Option Nat :=
  ({ w with heap := w.heap ++ [_add_count (_shared_state.of_value k t)] }, some w.heap.length)

/-- The factory `make_ready_future()` of the `void` specialisation. -/
def make_ready_future_void {V E : Type} (w : World V E) : World V E × Option Nat :=
  ({ w with heap := w.heap ++ [_add_count (_shared_state.of_value TypeKind.void Payload.ready)] },
    some w.heap.length)

/-- The destructor `~packaged_task`: `_remove_promise` when the handle locks. -/
def packaged_task_destroy {V E : Type} (w : World V E) (task : Option Nat) : World V E :=
  match task with
  | none => w
  | some id =>
    match w.heap[id]? with
    | none => w
    | some state => w.put id (_remove_promise state)

/-- The destructor `~future`: `_remove_count` when the handle is not null. -/
def future_destroy {V E : Type} (w : World V E) (fut : Option Nat) : World V E :=
  match fut with
  | none => w
  | some id =>
    match w.heap[id]? with
    | none => w
    | some state => w.put id (_remove_count state)

/-- The lambda `sched` of `then` and `on_error`: the provided executor, else the
scheduler of `this` read at call time, else an assertion failure. -/
def sched {V E : Type} (w : World V E) (c : Captures) : Except Abort Nat :=
  match c.provided with
  | some ex => Except.ok ex
  | none =>
    match w.heap[c.this]? with
    | none => Except.error Abort.dangling
    | some state =>
      match state.scheduler with
      | some ex => Except.ok ex
      | none => Except.error Abort.no_executor

/-- The member `executor::push`. -/
def push {V E : Type} (w : World V E) (ex : Nat) (t : Thunk) : World V E :=
  { w with pushed := w.pushed ++ [(ex, t)] }

/-- The thunk that a queued continuation pushes: the lambda
`[sched, task = std::move(task), state = std::move(state)]`. -/
def Continuation.thunk (c : Continuation) : Thunk :=
  { captures := c.captures }

/-- A queued continuation after it has been called: `task` and `state` are moved from. -/
def Continuation.moved_from (c : Continuation) : Continuation :=
  { captures := { c.captures with task := none, state := none } }

/-- Calling a queued continuation: `sched()->push(...)` with `task` and `state`
moved into the pushed thunk. Returns the continuation as it is left behind. -/
def Continuation.call {V E : Type} (w : World V E) (c : Continuation) :
    Except Abort (World V E × Continuation) :=
  match sched w c.captures with
  | Except.error a => Except.error a
  | Except.ok ex => Except.ok (push w ex c.thunk, c.moved_from)

/-- The function `_remove_optional`: every slot of the tuple is dereferenced, left to
right; `none` when one of them is empty. -/
def _remove_optional {V : Type} : List (Option (Payload V)) → Option (List (Payload V))
  | [] => some []
  | none :: _ => none
  | some t :: rest =>
    match _remove_optional rest with
    | none => none
    | some l => some (t :: l)

/-- Evaluating `(*state->function)()` for the state at address `d`, for the closures
that call no task themselves. The ghost log records `d` when the wrapped user
callable is applied. The handler closures of `when_all` are evaluated by
`eval_function`; they are never the function of the task that a handler calls. -/
def eval_inner {V E : Type} (w : World V E) (d : Nat) :
    Function V E → Except Abort (World V E × Completion (Payload V) E)
  | Function.user r =>
    Except.ok ({ w with applied := w.applied ++ [d] }, Completion.ofExcept r)
  | Function.then_body this f =>
    match w.heap[this]? with
    | none => Except.error Abort.dangling
    | some s =>
      if s.kind = TypeKind.void then
        match s._get_void with
        | Except.error a => Except.error a
        | Except.ok (s1, Completion.throw e) => Except.ok (w.put this s1, Completion.throw e)
        | Except.ok (s1, Completion.normal _) =>
          Except.ok ({ w.put this s1 with applied := w.applied ++ [d] },
            Completion.ofExcept (f Payload.ready))
      else
        match s._get with
        | Except.error a => Except.error a
        | Except.ok (s1, Completion.throw e) => Except.ok (w.put this s1, Completion.throw e)
        | Except.ok (s1, Completion.normal t) =>
          Except.ok ({ w.put this s1 with applied := w.applied ++ [d] },
            Completion.ofExcept (f t))
  | Function.on_error_ptr _ ptr f =>
    Except.ok ({ w with applied := w.applied ++ [d] }, Completion.ofExcept (f ptr))
  | Function.on_error_body this f =>
    match w.heap[this]? with
    | none => Except.error Abort.dangling
    | some s =>
      match s.value with
      | Variant.exception ptr =>
        Except.ok ({ w with applied := w.applied ++ [d] }, Completion.ofExcept (f ptr))
      | _ => Except.error Abort.propagate_value
  | Function.when_all_body ws =>
    match w.internal[ws]? with
    | none => Except.error Abort.dangling
    | some st =>
      if st.exceptions.length ≠ 0 then
        Except.ok
          ({ st.futures.foldl future_destroy w with
              internal := w.internal.set ws { st with futures := [], exceptions := [] } },
            Completion.throw (Exn.exception_list st.exceptions))
      else
        match _remove_optional st.buffer with
        | none => Except.error Abort.empty_optional
        | some l =>
          Except.ok
            ({ st.futures.foldl future_destroy w with
                internal := w.internal.set ws { st with futures := [] } },
              Completion.normal (Payload.tuple l))
  | _ => Except.error Abort.ill_typed

/-! ## `packaged_task::operator()` -/

/-- The loop `fmap(state->continuations, ...)` of `operator()`: `fmap` visits the
elements front to back and each continuation is called when
`state->value.index() != 2`. Returns the continuations as they are left behind. -/
def fire_continuations {V E : Type} (w : World V E) (id : Nat) :
    List Continuation → Except Abort (World V E × List Continuation)
  | [] => Except.ok (w, [])
  | cont :: rest =>
    match w.heap[id]? with
    | none => Except.error Abort.dangling
    | some state =>
      if state.value.index != 2 then
        match cont.call w with
        | Except.error a => Except.error a
        | Except.ok (w1, cont1) =>
          match fire_continuations w1 id rest with
          | Except.error a => Except.error a
          | Except.ok (w2, rest1) => Except.ok (w2, cont1 :: rest1)
      else
        match fire_continuations w id rest with
        | Except.error a => Except.error a
        | Except.ok (w2, rest1) => Except.ok (w2, cont :: rest1)

/-- The `try` / `catch` block of `operator()`, given the completion `c` of the
deferred function: store the result (`ready` for `void`), or store the caught
exception and call the exceptional continuation when there is one. -/
def packaged_task_try {V E : Type} (w : World V E) (id : Nat)
    (c : Completion (Payload V) E) : Except Abort (World V E) :=
  match w.heap[id]? with
  | none => Except.error Abort.dangling
  | some state =>
    match c with
    | Completion.normal r =>
      Except.ok (w.put id
        { state with value := Variant.value (if state.kind = TypeKind.void then Payload.ready else r) })
    | Completion.throw e =>
      let state1 := { state with value := Variant.exception e }
      match state1.exceptional_continuations with
      | none => Except.ok (w.put id state1)
      | some cont =>
        match cont.call (w.put id state1) with
        | Except.error a => Except.error a
        | Except.ok (w1, cont1) =>
          Except.ok (w1.put id { state1 with exceptional_continuations := some cont1 })

/-- The member `packaged_task::operator()(sched)` (both the primary template
and the `void` specialisation), for the task handle `task`, with `ev` evaluating the
deferred function. Dereferencing an empty `state->function` is undefined and stops
the program. -/
def packaged_task_call_with {V E : Type}
    (ev : World V E → Nat → Function V E → Except Abort (World V E × Completion (Payload V) E))
    (w : World V E) (task : Option Nat) (sched_arg : Option Nat) : Except Abort (World V E) :=
  match task with
  | none => Except.ok w
  | some id =>
    match w.heap[id]? with
    | none => Except.ok w
    | some state =>
      match state.function with
      | none => Except.error Abort.empty_function
      | some fn =>
        match ev (w.put id { state with scheduler := sched_arg }) id fn with
        | Except.error a => Except.error a
        | Except.ok (w1, c) =>
          match packaged_task_try w1 id c with
          | Except.error a => Except.error a
          | Except.ok w2 =>
            match w2.heap[id]? with
            | none => Except.error Abort.dangling
            | some state2 =>
              match fire_continuations w2 id state2.continuations with
              | Except.error a => Except.error a
              | Except.ok (w3, conts) =>
                match w3.heap[id]? with
                | none => Except.error Abort.dangling
                | some state3 =>
                  Except.ok (w3.put id { state3 with continuations := conts, function := none })

/-- The statement `if (--state->remaining == 0) (*state->task)();` of the handlers of
`when_all`: the held task is called without an executor. -/
def when_all_arrive {V E : Type} (w : World V E) (ws : Nat) : Except Abort (World V E) :=
  match w.internal[ws]? with
  | none => Except.error Abort.dangling
  | some st =>
    if size_dec st.remaining = 0 then
      match st.task with
      | none => Except.error Abort.empty_optional
      | some task =>
        packaged_task_call_with eval_inner
          { w with internal := w.internal.set ws { st with remaining := size_dec st.remaining } }
          task none
    else
      Except.ok
        { w with internal := w.internal.set ws { st with remaining := size_dec st.remaining } }

/-- The lambda `on_error` of `when_all` applied to `ptr`. -/
def when_all_on_error {V E : Type} (w : World V E) (ws : Nat) (policy : exception_policy)
    (ptr : Exn E) : Except Abort (World V E) :=
  match policy with
  | exception_policy.aggregate =>
    match w.internal[ws]? with
    | none => Except.error Abort.dangling
    | some st =>
      when_all_arrive
        { w with internal := w.internal.set ws { st with exceptions := st.exceptions ++ [ptr] } }
        ws
  | exception_policy.abort_on_first_failure => Except.error Abort.not_implemented

/-- Evaluating `(*state->function)()` for the state at address `d`: the handler
closures of `when_all`, which call the held task when the remaining-count drops to
zero, and the closures of `eval_inner`. -/
def eval_function {V E : Type} (w : World V E) (d : Nat) :
    Function V E → Except Abort (World V E × Completion (Payload V) E)
  | Function.when_all_void this ws =>
    match w.heap[this]? with
    | none => Except.error Abort.dangling
    | some s =>
      match s._get_void with
      | Except.error a => Except.error a
      | Except.ok (s1, Completion.throw e) => Except.ok (w.put this s1, Completion.throw e)
      | Except.ok (s1, Completion.normal _) =>
        match when_all_arrive { w.put this s1 with applied := w.applied ++ [d] } ws with
        | Except.error a => Except.error a
        | Except.ok w1 => Except.ok (w1, Completion.normal Payload.ready)
  | Function.when_all_nonvoid this ws index =>
    match w.heap[this]? with
    | none => Except.error Abort.dangling
    | some s =>
      match s._get with
      | Except.error a => Except.error a
      | Except.ok (s1, Completion.throw e) => Except.ok (w.put this s1, Completion.throw e)
      | Except.ok (s1, Completion.normal t) =>
        match w.internal[ws]? with
        | none => Except.error Abort.dangling
        | some st =>
          match when_all_arrive
            { w.put this s1 with
              applied := w.applied ++ [d]
              internal := w.internal.set ws { st with buffer := st.buffer.set index (some t) } }
            ws with
          | Except.error a => Except.error a
          | Except.ok w1 => Except.ok (w1, Completion.normal Payload.ready)
  | Function.when_all_error_ptr _ ws policy ptr =>
    match when_all_on_error { w with applied := w.applied ++ [d] } ws policy ptr with
    | Except.error a => Except.error a
    | Except.ok w1 => Except.ok (w1, Completion.normal Payload.ready)
  | Function.when_all_error_body this ws policy =>
    match w.heap[this]? with
    | none => Except.error Abort.dangling
    | some s =>
      match s.value with
      | Variant.exception ptr =>
        match when_all_on_error { w with applied := w.applied ++ [d] } ws policy ptr with
        | Except.error a => Except.error a
        | Except.ok w1 => Except.ok (w1, Completion.normal Payload.ready)
      | _ => Except.error Abort.propagate_value
  | fn => eval_inner w d fn

/-- The member `packaged_task::operator()(sched)` for the task handle `task`. -/
def packaged_task_call {V E : Type} (w : World V E) (task : Option Nat)
    (sched_arg : Option Nat) : Except Abort (World V E) :=
  packaged_task_call_with eval_function w task sched_arg

/-- Running a pushed thunk, `task(sched())`, after which the executor discards
the thunk and with it the task handle it holds. -/
def run_thunk {V E : Type} (w : World V E) (t : Thunk) : Except Abort (World V E) :=
  match sched w t.captures with
  | Except.error a => Except.error a
  | Except.ok ex =>
    match packaged_task_call w t.captures.task (some ex) with
    | Except.error a => Except.error a
    | Except.ok w1 => Except.ok (packaged_task_destroy w1 t.captures.task)

/-- The executors run the oldest pushed thunk. -/
def run_next {V E : Type} (w : World V E) : Except Abort (World V E) :=
  match w.pushed with
  | [] => Except.ok w
  | (_, t) :: rest => run_thunk { w with pushed := rest } t

/-- The executors run pushed thunks, oldest first, until none is left or the
fuel is used up. -/
def run_all {V E : Type} : Nat → World V E → Except Abort (World V E)
  | 0, w => Except.ok w
  | fuel + 1, w =>
    match w.pushed with
    | [] => Except.ok w
    | _ :: _ =>
      match run_next w with
      | Except.error a => Except.error a
      | Except.ok w1 => run_all fuel w1

/-! ## `then` and `on_error` -/

/-- The member `_shared_state::then(provided_sched, f)` on the state at address
`this`, with `body` the closure `[this, f]` that is packaged; `k` classifies the
result type of `f`. On success the completion carries the handle of the derived
future. -/
def _shared_state_then_with {V E : Type} (w : World V E) (this : Nat)
    (provided_sched : Option Nat) (k : TypeKind) (body : Function V E) :
    Except Abort (World V E × Completion (Option Nat) E) :=
  match w.heap[this]? with
  | none => Except.error Abort.dangling
  | some state =>
    if !_is_valid state then Except.error Abort.what_do
    else
      let state1 := _add_count state
      let pw := package (w.put this state1) k body
      let caps : Captures :=
        { this := this, provided := provided_sched, task := pw.2.packaged_task, state := some this }
      match state1.value with
      | Variant.none =>
        match _add_continuation state1 { captures := caps } with
        | (state2, Completion.normal _) =>
          Except.ok (pw.1.put this state2, Completion.normal pw.2.future)
        | (state2, Completion.throw e) =>
          Except.ok (future_destroy (packaged_task_destroy (pw.1.put this state2)
            pw.2.packaged_task) pw.2.future, Completion.throw e)
      | _ =>
        match sched pw.1 caps with
        | Except.error a => Except.error a
        | Except.ok ex => Except.ok (push pw.1 ex { captures := caps }, Completion.normal pw.2.future)

/-- The member `_shared_state::then(provided_sched, f)` for a user callable `f`. -/
def _shared_state_then {V E : Type} (w : World V E) (this : Nat) (provided_sched : Option Nat)
    (k : TypeKind) (f : Payload V → Except (Exn E) (Payload V)) :
    Except Abort (World V E × Completion (Option Nat) E) :=
  _shared_state_then_with w this provided_sched k (Function.then_body this f)

/-- Modelled from the spec: what `get<1>` yields in `on_error` when the variant returned
by `fmap` holds the `unit` result of the `T` arm (index 0). The header `variant.h`,
which defines `get`, is not among the sources. Spec 4.B, `on_error`: "If Value: the
produced future is vacuous - it never settles via this path." The vacuous future is a
future without a backing state. -/
def get_1_of_unit {E : Type} : Completion (Option Nat) E :=
  Completion.normal none

/-- The member `_shared_state::on_error(provided_sched, f)` on the state at
address `this`, with `body_ptr` the closure `[this, f, ptr]` packaged on a failed
state and `body` the closure `[this, f]` packaged on a pending one; `k` classifies
the result type of `f`. In the `T` arm the overload returns `unit`, so `get<1>` is
applied to a variant holding index 0. -/
def _shared_state_on_error_with {V E : Type} (w : World V E) (this : Nat)
    (provided_sched : Option Nat) (k : TypeKind) (body_ptr : Exn E → Function V E)
    (body : Function V E) : Except Abort (World V E × Completion (Option Nat) E) :=
  match w.heap[this]? with
  | none => Except.error Abort.dangling
  | some state =>
    if !_is_valid state then Except.error Abort.what_do
    else
      let state1 := _add_count state
      let w1 := w.put this state1
      match state1.value with
      | Variant.value _ => Except.ok (w1, get_1_of_unit)
      | Variant.exception ptr =>
        let pw := package w1 k (body_ptr ptr)
        let caps : Captures :=
          { this := this, provided := provided_sched, task := pw.2.packaged_task,
            state := some this }
        match sched pw.1 caps with
        | Except.error a => Except.error a
        | Except.ok ex => Except.ok (push pw.1 ex { captures := caps }, Completion.normal pw.2.future)
      | Variant.none =>
        let pw := package w1 k body
        let caps : Captures :=
          { this := this, provided := provided_sched, task := pw.2.packaged_task,
            state := some this }
        match _add_exceptional_continuation state1 { captures := caps } with
        | (state2, Completion.normal _) =>
          Except.ok (pw.1.put this state2, Completion.normal pw.2.future)
        | (state2, Completion.throw e) =>
          Except.ok (future_destroy (packaged_task_destroy (pw.1.put this state2)
            pw.2.packaged_task) pw.2.future, Completion.throw e)

/-- The member `_shared_state::on_error(provided_sched, f)` for a user callable `f`. -/
def _shared_state_on_error {V E : Type} (w : World V E) (this : Nat)
    (provided_sched : Option Nat) (k : TypeKind) (f : Exn E → Except (Exn E) (Payload V)) :
    Except Abort (World V E × Completion (Option Nat) E) :=
  _shared_state_on_error_with w this provided_sched k
    (fun ptr => Function.on_error_ptr this ptr f) (Function.on_error_body this f)

/-- The overload `_shared_state::then(f)`: the assertion on a string literal always
holds, and the call is `then(scheduler, f)`. -/
def _shared_state_then_default {V E : Type} (w : World V E) (this : Nat)
    (k : TypeKind) (body : Function V E) :
    Except Abort (World V E × Completion (Option Nat) E) :=
  match w.heap[this]? with
  | none => Except.error Abort.dangling
  | some state => _shared_state_then_with w this state.scheduler k body

/-- The overload `_shared_state::on_error(f)`: the assertion on a string literal
always holds, and the call is `on_error(scheduler, f)`. -/
def _shared_state_on_error_default {V E : Type} (w : World V E) (this : Nat)
    (k : TypeKind) (body_ptr : Exn E → Function V E) (body : Function V E) :
    Except Abort (World V E × Completion (Option Nat) E) :=
  match w.heap[this]? with
  | none => Except.error Abort.dangling
  | some state => _shared_state_on_error_with w this state.scheduler k body_ptr body

/-! ## `future` members -/

/-- The member `future<T>::try_get` for a non-void `T`. -/
def future_try_get {V E : Type} (w : World V E) (fut : Option Nat) :
    Except Abort (World V E × Completion (Option (Payload V)) E) :=
  match fut with
  | none => Except.error Abort.dangling
  | some id =>
    match w.heap[id]? with
    | none => Except.error Abort.dangling
    | some state =>
      if state.kind = TypeKind.void then Except.error Abort.ill_typed
      else Except.ok (w.put id state.try_get.1, state.try_get.2)

/-- The member `future<void>::try_get`. -/
def future_void_try_get {V E : Type} (w : World V E) (fut : Option Nat) :
    Except Abort (World V E × Completion Bool E) :=
  match fut with
  | none => Except.error Abort.dangling
  | some id =>
    match w.heap[id]? with
    | none => Except.error Abort.dangling
    | some state =>
      if state.kind = TypeKind.void then
        Except.ok (w.put id state.try_get_void.1, state.try_get_void.2)
      else Except.error Abort.ill_typed

/-- The member `future::then(sched, f)`. -/
def future_then {V E : Type} (w : World V E) (fut : Option Nat) (sched_arg : Option Nat)
    (k : TypeKind) (f : Payload V → Except (Exn E) (Payload V)) :
    Except Abort (World V E × Completion (Option Nat) E) :=
  match fut with
  | none => Except.error Abort.dangling
  | some id => _shared_state_then w id sched_arg k f

/-- The member `future::on_error(sched, f)`. -/
def future_on_error {V E : Type} (w : World V E) (fut : Option Nat) (sched_arg : Option Nat)
    (k : TypeKind) (f : Exn E → Except (Exn E) (Payload V)) :
    Except Abort (World V E × Completion (Option Nat) E) :=
  match fut with
  | none => Except.error Abort.dangling
  | some id => _shared_state_on_error w id sched_arg k f

/-- The member `future::then(f)`, without an executor. -/
def future_then_default {V E : Type} (w : World V E) (fut : Option Nat)
    (k : TypeKind) (f : Payload V → Except (Exn E) (Payload V)) :
    Except Abort (World V E × Completion (Option Nat) E) :=
  match fut with
  | none => Except.error Abort.dangling
  | some id => _shared_state_then_default w id k (Function.then_body id f)

/-- The member `future::on_error(f)`, without an executor. -/
def future_on_error_default {V E : Type} (w : World V E) (fut : Option Nat)
    (k : TypeKind) (f : Exn E → Except (Exn E) (Payload V)) :
    Except Abort (World V E × Completion (Option Nat) E) :=
  match fut with
  | none => Except.error Abort.dangling
  | some id =>
    _shared_state_on_error_default w id k (fun ptr => Function.on_error_ptr id ptr f)
      (Function.on_error_body id f)

/-- The copy constructor `future(const future &)`: `_add_count` on a non-null handle. -/
def future_copy {V E : Type} (w : World V E) (fut : Option Nat) : World V E :=
  match fut with
  | none => w
  | some id =>
    match w.heap[id]? with
    | none => w
    | some state => w.put id (_add_count state)

/-! ## `when_all` -/

/-- The static value types `Ts...` of the input futures, read off their states. -/
def when_all_kinds {V E : Type} (w : World V E) : List (Option Nat) → Option (List TypeKind)
  | [] => some []
  | none :: _ => none
  | some id :: rest =>
    match w.heap[id]?, when_all_kinds w rest with
    | some state, some kinds => some (state.kind :: kinds)
    | _, _ => none

/-- The classification of `std::tuple<Ts...>`: copyable when every component is. -/
def tuple_kind (kinds : List TypeKind) : TypeKind :=
  if kinds.all (fun k => k = TypeKind.copyable) then TypeKind.copyable else TypeKind.noncopyable

/-- The call `state->futures.push_back(f)` on the internal state at `ws`. -/
def internal_push_future {V E : Type} (w : World V E) (ws : Nat) (f : Option Nat) : World V E :=
  match w.internal[ws]? with
  | none => w
  | some st => { w with internal := w.internal.set ws { st with futures := st.futures ++ [f] } }

/-- The recursion of the overload set `handler` of `when_all` over the input futures:
`then` with the value handler and `on_error` with the error handler are attached to
each input through the overloads without executor, and the two derived futures are
pushed to `state->futures`; `index` counts the non-void inputs seen so far. -/
def when_all_attach {V E : Type} (ws : Nat) (policy : exception_policy) :
    World V E → Nat → List (Option Nat) → Except Abort (World V E × Completion Unit E)
  | w, _, [] => Except.ok (w, Completion.normal ())
  | w, index, fut :: rest =>
    match fut with
    | none => Except.error Abort.dangling
    | some id =>
      match w.heap[id]? with
      | none => Except.error Abort.dangling
      | some s =>
        match _shared_state_then_default w id TypeKind.void
          (if s.kind = TypeKind.void then Function.when_all_void id ws
            else Function.when_all_nonvoid id ws index) with
        | Except.error a => Except.error a
        | Except.ok (w1, Completion.throw e) => Except.ok (w1, Completion.throw e)
        | Except.ok (w1, Completion.normal f1) =>
          match _shared_state_on_error_default (internal_push_future w1 ws f1) id TypeKind.void
            (fun ptr => Function.when_all_error_ptr id ws policy ptr)
            (Function.when_all_error_body id ws policy) with
          | Except.error a => Except.error a
          | Except.ok (w2, Completion.throw e) => Except.ok (w2, Completion.throw e)
          | Except.ok (w2, Completion.normal f2) =>
            when_all_attach ws policy (internal_push_future w2 ws f2)
              (if s.kind = TypeKind.void then index else index + 1) rest

/-- The function `when_all(policy, futures...)`, and for no input the overload
`when_all(policy)`. The arguments are the by-value parameters: they are destroyed when
the call returns. When an attachment throws, the parameters and the future of the pair
are destroyed by the unwinding. -/
def when_all {V E : Type} (w : World V E) (policy : exception_policy)
    (futures : List (Option Nat)) : Except Abort (World V E × Completion (Option Nat) E) :=
  match futures with
  | [] => Except.ok ((make_ready_future_void w).1, Completion.normal (make_ready_future_void w).2)
  | _ :: _ =>
    match when_all_kinds w futures with
    | none => Except.error Abort.dangling
    | some kinds =>
      let nonvoid := kinds.filter (fun k => k ≠ TypeKind.void)
      let st : internal_state V E :=
        { buffer := nonvoid.map (fun _ => none), remaining := futures.length % 2 ^ 64,
          task := none, futures := [], exceptions := [] }
      let pw := package { w with internal := w.internal ++ [st] } (tuple_kind nonvoid)
        (Function.when_all_body w.internal.length)
      let w1 : World V E :=
        { pw.1 with
          internal := (pw.1.internal.set w.internal.length
            { st with task := some pw.2.packaged_task }) }
      match when_all_attach w.internal.length policy w1 0 futures with
      | Except.error a => Except.error a
      | Except.ok (w2, Completion.throw e) =>
        Except.ok (futures.foldl future_destroy (future_destroy w2 pw.2.future),
          Completion.throw e)
      | Except.ok (w2, Completion.normal _) =>
        Except.ok (futures.foldl future_destroy w2, Completion.normal pw.2.future)

/-! ## Sequences of operations -/

/-- One `package(f)` per callable of a list, in order; returns the pairs. -/
def package_all {V E : Type} (w : World V E) :
    List (TypeKind × Except (Exn E) (Payload V)) → World V E × List future_package_pair
  | [] => (w, [])
  | (k, r) :: rest =>
    ((package_all (package w k (Function.user r)).1 rest).1,
      (package w k (Function.user r)).2 :: (package_all (package w k (Function.user r)).1 rest).2)

/-- The tasks of a list are called one after the other, each with its executor. -/
def call_all {V E : Type} (w : World V E) :
    List (Option Nat × Option Nat) → Except Abort (World V E)
  | [] => Except.ok w
  | (task, ex) :: rest =>
    match packaged_task_call w task ex with
    | Except.error a => Except.error a
    | Except.ok w1 => call_all w1 rest

/-! ## Sequences of attachments -/

/-- The arguments of one call `fut.then(sched, f)`; `kind` classifies the result type
of `f`. -/
structure ThenArgs (V E : Type) where
  sched : Option Nat
  kind : TypeKind
  f : Payload V → Except (Exn E) (Payload V)

/-- Sequential calls `fut.then(a.sched, a.f)` for the `a` of a list, in order,
stopping at the first that throws. Returns the derived futures. -/
def then_all {V E : Type} (w : World V E) (fut : Option Nat) :
    List (ThenArgs V E) → Except Abort (World V E × Completion (List (Option Nat)) E)
  | [] => Except.ok (w, Completion.normal [])
  | a :: rest =>
    match future_then w fut a.sched a.kind a.f with
    | Except.error x => Except.error x
    | Except.ok (w1, Completion.throw e) => Except.ok (w1, Completion.throw e)
    | Except.ok (w1, Completion.normal d) =>
      match then_all w1 fut rest with
      | Except.error x => Except.error x
      | Except.ok (w2, Completion.throw e) => Except.ok (w2, Completion.throw e)
      | Except.ok (w2, Completion.normal ds) => Except.ok (w2, Completion.normal (d :: ds))

/-- The continuation that `fut.then(a.sched, a.f)` queues on the pending state at
`this` when the derived state is allocated at `d`. -/
def then_continuation {V E : Type} (this : Nat) (a : ThenArgs V E) (d : Nat) : Continuation :=
  { captures := { this := this, provided := a.sched, task := some d, state := some this } }

/-- The executor and the thunk that a fired continuation pushes when the scheduler of
its state is `ex`. -/
def pushed_by (ex : Nat) (c : Continuation) : Nat × Thunk :=
  (c.captures.provided.getD ex, c.thunk)

/-! ## Concrete states used by the witnesses -/

/-- The state behind `make_ready_future(42)` for a non-copyable payload. -/
def ready_noncopyable_42 : _shared_state Nat Nat :=
  _add_count (_shared_state.of_value TypeKind.noncopyable (Payload.obj 42))

/-- The pair made by `package` from a callable returning 42, in the empty program state. -/
def pending_42 : World Nat Nat × future_package_pair :=
  package World.empty TypeKind.copyable (Function.user (Except.ok (Payload.obj 42)))

/-- The pair made by `package` from a callable of non-copyable result type that raises
the user error 9, in the empty program state. -/
def raising_noncopyable : World Nat Nat × future_package_pair :=
  package World.empty TypeKind.noncopyable (Function.user (Except.error (Exn.user 9)))

/-- The pair made by `package` from a callable of copyable result type that raises
the user error 9, in the empty program state. -/
def raising_copyable : World Nat Nat × future_package_pair :=
  package World.empty TypeKind.copyable (Function.user (Except.error (Exn.user 9)))

/-- The continuation function `x + 1` on integers. -/
def plus_one : Payload Nat → Except (Exn Nat) (Payload Nat)
  | Payload.obj n => Except.ok (Payload.obj (n + 1))
  | t => Except.ok t

/-- Three attachments: to executor 0, to the scheduler of the state, to executor 1. -/
def three_thens : List (ThenArgs Nat Nat) :=
  [⟨some 0, TypeKind.copyable, plus_one⟩, ⟨none, TypeKind.void, plus_one⟩,
   ⟨some 1, TypeKind.noncopyable, plus_one⟩]

/-- The program state after `package` of a raising callable, one `then` and the task call. -/
def raised_after_then : World Nat Nat :=
  match future_then raising_copyable.1 raising_copyable.2.future (some 0) TypeKind.copyable
      plus_one with
  | Except.ok (w1, _) =>
    match packaged_task_call w1 raising_copyable.2.packaged_task none with
    | Except.ok w2 => w2
    | Except.error _ => World.empty
  | Except.error _ => World.empty

/-- The program state after `package` of a raising callable, one `then` to executor 0 and
one `on_error` to executor 1, before the task is called. -/
def pending_with_both : World Nat Nat :=
  match future_then raising_copyable.1 raising_copyable.2.future (some 0) TypeKind.copyable
      plus_one with
  | Except.ok (w1, _) =>
    match future_on_error w1 raising_copyable.2.future (some 1) TypeKind.copyable
        (fun _ => Except.ok (Payload.obj 7)) with
    | Except.ok (w2, _) => w2
    | Except.error _ => World.empty
  | Except.error _ => World.empty

/-- The state behind `make_ready_future(42)` for a non-copyable payload, in the empty
program state. -/
def ready_noncopyable : World Nat Nat × Option Nat :=
  make_ready_future World.empty TypeKind.noncopyable (Payload.obj 42)

/-- The pair made by `package` from a callable of non-copyable result type returning 42. -/
def pending_noncopyable_42 : World Nat Nat × future_package_pair :=
  package World.empty TypeKind.noncopyable (Function.user (Except.ok (Payload.obj 42)))

/-- The future of `make_ready_future(5)`, in the empty program state. -/
def ready_5 : World Nat Nat × Option Nat :=
  make_ready_future World.empty TypeKind.copyable (Payload.obj 5)

/-! ## Effects of the operations, in closed form -/

/-- The state in which `operator()` leaves the invoked state, given the state `s1` after the
deferred function was evaluated and its completion `c`. -/
def settled {V E : Type} (s1 : _shared_state V E) (c : Completion (Payload V) E) :
    _shared_state V E :=
  { s1 with
    value := (match c with
      | Completion.normal r =>
        Variant.value (if s1.kind = TypeKind.void then Payload.ready else r)
      | Completion.throw e => Variant.exception e)
    continuations := s1.continuations.map Continuation.moved_from
    exceptional_continuations := (match c with
      | Completion.normal _ => s1.exceptional_continuations
      | Completion.throw _ => s1.exceptional_continuations.map Continuation.moved_from)
    function := none }

/-- The continuations that `operator()` calls, in call order, given the completion `c`. -/
def fired {V E : Type} (s1 : _shared_state V E) (c : Completion (Payload V) E) :
    List Continuation :=
  (match c with
    | Completion.normal _ => []
    | Completion.throw _ => s1.exceptional_continuations.toList) ++ s1.continuations

/-- The state in which `_get` leaves a state that holds a value. -/
def after_get {V E : Type} (s : _shared_state V E) : _shared_state V E :=
  if s.kind = TypeKind.copyable ∧ s.shared_count ≠ 1 then s else { s with value := Variant.none }

/-- The executor and the thunk that a fired continuation pushes when the scheduler of
its state is `sch`, which may be absent. -/
def pushed_opt (sch : Option Nat) (c : Continuation) : Nat × Thunk :=
  ((c.captures.provided <|> sch).getD 0, c.thunk)

/-! ## The inputs of `when_all` and the actions of the environment -/

/-- An input of `when_all` as the proofs follow it: the address `id` of its state, the
address `T` of the state derived by `then`, its kind, the value its task returns, the
executor its task is called with, and the index of its slot in the buffer. -/
structure Input (V : Type) where
  id : Nat
  T : Nat
  kind : TypeKind
  v : Payload V
  ex : Nat
  index : Nat

/-- The closure that `when_all` packages with `then` for an input. -/
def Input.handler {V : Type} (E : Type) (ws : Nat) (d : Input V) : Function V E :=
  if d.kind = TypeKind.void then Function.when_all_void d.id ws
  else Function.when_all_nonvoid d.id ws d.index

/-- The state of an input after the `_get` of its handler closure. -/
def Input.got {V E : Type} (d : Input V) (s : _shared_state V E) : _shared_state V E :=
  if d.kind = TypeKind.void then
    (if s.shared_count = 1 then { s with value := Variant.none } else s)
  else after_get s

/-- The internal state after the handler of an input has stored its value. -/
def Input.store {V E : Type} (d : Input V) (st : internal_state V E) : internal_state V E :=
  if d.kind = TypeKind.void then st
  else { st with buffer := st.buffer.set d.index (some d.v) }

/-- The value that the task of an input leaves in its slot. -/
def Input.stored {V : Type} (d : Input V) : Payload V :=
  if d.kind = TypeKind.void then Payload.ready else d.v

/-- The continuation that `when_all` queues on an input with `then`. -/
def Input.continuation {V : Type} (d : Input V) : Continuation :=
  { captures := { this := d.id, provided := none, task := some d.T, state := some d.id } }

/-- An action of the environment: a call of a task with an executor argument, or an
executor running its oldest pushed thunk. -/
inductive Step where
  | call (task : Option Nat) (ex : Option Nat)
  | run
  deriving DecidableEq, Repr

/-- Whether an action is a call of a task. -/
def Step.is_call : Step → Bool
  | Step.call _ _ => true
  | Step.run => false

/-- One action of the environment. -/
def step {V E : Type} (w : World V E) : Step → Except Abort (World V E)
  | Step.call task ex => packaged_task_call w task ex
  | Step.run => run_next w

/-- A sequence of actions of the environment, in order. -/
def steps {V E : Type} (w : World V E) : List Step → Except Abort (World V E)
  | [] => Except.ok w
  | a :: rest =>
    match step w a with
    | Except.error e => Except.error e
    | Except.ok w1 => steps w1 rest

/-- The addresses and slots of the inputs do not collide: `R` is the address of the state of
the `when_all` future and `target` the values that the slots receive. -/
structure Layout {V : Type} (R : Nat) (ds : List (Input V)) (target : List (Payload V)) :
    Prop where
  id_ne_T : ∀ d ∈ ds, ∀ d' ∈ ds, d.id ≠ d'.T
  R_ne_id : ∀ d ∈ ds, R ≠ d.id
  R_ne_T : ∀ d ∈ ds, R ≠ d.T
  id_inj : ∀ d ∈ ds, ∀ d' ∈ ds, d.id = d'.id → d = d'
  T_inj : ∀ d ∈ ds, ∀ d' ∈ ds, d.T = d'.T → d = d'
  slot : ∀ d ∈ ds, d.kind ≠ TypeKind.void → target[d.index]? = some d.v
  slots : ∀ j, j < target.length → ∃ d ∈ ds, d.kind ≠ TypeKind.void ∧ d.index = j

/-- The program state while `when_all` waits for its inputs: the tasks of `todo` have not
been called, the thunks of `queued` are pushed in this order, and the handlers of `done`
have run. -/
structure Joining {V E : Type} (ws R : Nat) (ds : List (Input V)) (target : List (Payload V))
    (todo queued done : List (Input V)) (w : World V E) : Prop where
  todo_sub : ∀ d ∈ todo, d ∈ ds
  queued_sub : ∀ d ∈ queued, d ∈ ds
  done_sub : ∀ d ∈ done, d ∈ ds
  cover : ∀ d ∈ ds, d ∈ todo ∨ d ∈ queued ∨ d ∈ done
  nodup : (todo ++ queued).Nodup
  pushed : w.pushed = queued.map (fun d => (d.ex, d.continuation.thunk))
  todo_state : ∀ d ∈ todo, ∃ s, w.heap[d.id]? = some s ∧ s.kind = d.kind ∧
    s.function = some (Function.user (Except.ok d.v)) ∧ s.continuations = [d.continuation]
  queued_state : ∀ d ∈ queued, ∃ s, w.heap[d.id]? = some s ∧
    s.value = Variant.value d.stored ∧ s.scheduler = some d.ex
  handler_state : ∀ d ∈ todo ++ queued, ∃ t, w.heap[d.T]? = some t ∧
    t.function = some (d.handler E ws) ∧ t.continuations = []
  result_state : ∃ r, w.heap[R]? = some r ∧ r.function = some (Function.when_all_body ws) ∧
    r.continuations = [] ∧ r.kind ≠ TypeKind.void
  internal : ∃ st, w.internal[ws]? = some st ∧ st.task = some (some R) ∧
    st.exceptions = [] ∧ st.remaining = todo.length + queued.length ∧
    st.remaining < 2 ^ 64 ∧ 0 < st.remaining ∧ st.buffer.length = target.length ∧
    ∀ d ∈ done, d.kind ≠ TypeKind.void → st.buffer[d.index]? = some (some d.v)

/-- The state that `package` allocates. -/
def fresh {V E : Type} (k : TypeKind) (f : Function V E) : _shared_state V E :=
  { kind := k, value := Variant.none, promise_count := 1, shared_count := 1, scheduler := none,
    continuations := [], exceptional_continuations := none, function := some f }

/-- The state of a pending input after `when_all` has attached its two handlers, the
derived states being allocated at `L` and `L + 1`. -/
def attached {V E : Type} (s : _shared_state V E) (id L : Nat) : _shared_state V E :=
  { s with
    shared_count := size_inc (size_inc s.shared_count)
    continuations := [{ captures := { this := id, provided := none, task := some L, state := some id } }]
    exceptional_continuations :=
      some { captures := { this := id, provided := none, task := some (L + 1), state := some id } } }

/-- The program state after `package` of a callable returning 42 and one `on_error` to
executor 1 on its future, before the task is called. -/
def pending_42_with_on_error : World Nat Nat :=
  match future_on_error pending_42.1 pending_42.2.future (some 1) TypeKind.copyable
      (fun _ => Except.ok (Payload.obj 7)) with
  | Except.ok (w1, _) => w1
  | Except.error _ => World.empty

/-- One `make_ready_future` per value of a list, in order, `make_ready_future()` for a
`void` entry; returns the futures. -/
def make_ready_all {V E : Type} (w : World V E) :
    List (TypeKind × Payload V) → World V E × List (Option Nat)
  | [] => (w, [])
  | (k, v) :: rest =>
    ((make_ready_all
        (if k = TypeKind.void then make_ready_future_void w else make_ready_future w k v).1 rest).1,
      (if k = TypeKind.void then make_ready_future_void w else make_ready_future w k v).2 ::
        (make_ready_all
          (if k = TypeKind.void then make_ready_future_void w else make_ready_future w k v).1
          rest).2)

/-- The state in which `_get` of either specialisation leaves a state that holds a value. -/
def after_get_any {V E : Type} (s : _shared_state V E) : _shared_state V E :=
  if s.kind = TypeKind.void then
    (if s.shared_count = 1 then { s with value := Variant.none } else s)
  else after_get s

/-- The argument that the closure of `then` hands to `f` on an upstream value `v`: nothing
for `void`. -/
def then_argument {V E : Type} (s : _shared_state V E) (v : Payload V) : Payload V :=
  if s.kind = TypeKind.void then Payload.ready else v

/-- The slot that `operator()` writes for the completion `c` of the function of a state of
kind `k`. -/
def slot_of {V E : Type} (k : TypeKind) (c : Completion (Payload V) E) : Variant V E :=
  match c with
  | Completion.normal r => Variant.value (if k = TypeKind.void then Payload.ready else r)
  | Completion.throw e => Variant.exception e

/-- The program state after `make_ready_future(5)` and one `then` to executor 4 with a
function that raises the user error 9. -/
def ready_5_then_raising : World Nat Nat :=
  match future_then ready_5.1 ready_5.2 (some 4) TypeKind.copyable
      (fun _ => Except.error (Exn.user 9)) with
  | Except.ok (w1, _) => w1
  | Except.error _ => World.empty

/-- A pending future handed to `when_all`, with what the scenario does to it: the address
of its state, the classification of its value type, the completion of its callable (a
value or a raised error) and the executor that its task is called with. -/
structure Settling (V E : Type) where
  id : Nat
  kind : TypeKind
  r : Except (Exn E) (Payload V)
  ex : Nat

/-- An input of `when_all` as the attachment loop lays it out: the state derived by `then`
is allocated at `T`, the state derived by `on_error` at `T + 1`, and `index` is the slot of
the input in the buffer. -/
structure Joint (V E : Type) where
  id : Nat
  T : Nat
  kind : TypeKind
  r : Except (Exn E) (Payload V)
  ex : Nat
  index : Nat

/-- The error with which an input fails, if it does. -/
def Joint.error {V E : Type} (d : Joint V E) : Option (Exn E) :=
  match d.r with
  | Except.ok _ => none
  | Except.error e => some e

/-- The slot of an input after its task has been called. -/
def Joint.slot {V E : Type} (d : Joint V E) : Variant V E :=
  slot_of d.kind (Completion.ofExcept d.r)

/-- The closure that `when_all` packages with `then` for an input. -/
def Joint.handler {V E : Type} (ws : Nat) (d : Joint V E) : Function V E :=
  if d.kind = TypeKind.void then Function.when_all_void d.id ws
  else Function.when_all_nonvoid d.id ws d.index

/-- The address of the state whose closure decrements the remaining-count for an input:
the one derived by `then` when the input settles to a value, the one derived by `on_error`
when it fails. -/
def Joint.H {V E : Type} (d : Joint V E) : Nat :=
  match d.r with
  | Except.ok _ => d.T
  | Except.error _ => d.T + 1

/-- The closure that decrements the remaining-count for an input. -/
def Joint.arrival_function {V E : Type} (ws : Nat) (d : Joint V E) : Function V E :=
  match d.r with
  | Except.ok _ => d.handler ws
  | Except.error _ => Function.when_all_error_body d.id ws exception_policy.aggregate

/-- The continuation that `when_all` queues on an input for the derived task at `task`. -/
def Joint.cont {V E : Type} (d : Joint V E) (task : Nat) : Continuation :=
  { captures := { this := d.id, provided := none, task := some task, state := some d.id } }

/-- The state of an input after the closure that decrements for it has read its slot. -/
def Joint.got {V E : Type} (d : Joint V E) (s : _shared_state V E) : _shared_state V E :=
  match d.r with
  | Except.ok _ =>
    if d.kind = TypeKind.void then
      (if s.shared_count = 1 then { s with value := Variant.none } else s)
    else after_get s
  | Except.error _ => s

/-- The internal state after the closure that decrements for an input has stored the value
or the error of the input. -/
def Joint.store {V E : Type} (d : Joint V E) (st : internal_state V E) : internal_state V E :=
  match d.r with
  | Except.ok v =>
    if d.kind = TypeKind.void then st
    else { st with buffer := st.buffer.set d.index (some v) }
  | Except.error e => { st with exceptions := st.exceptions ++ [e] }

/-- A thunk that the call of the task of an input pushes: the one whose closure decrements
the remaining-count, or for a failed input the thunk of the `then` closure, which rethrows
the error of the input. -/
inductive Work (V E : Type) where
  | arrival (d : Joint V E)
  | dud (d : Joint V E)

/-- The input of a thunk. -/
def Work.joint {V E : Type} : Work V E → Joint V E
  | Work.arrival d => d
  | Work.dud d => d

/-- The address of the task that a thunk calls. -/
def Work.task {V E : Type} : Work V E → Nat
  | Work.arrival d => d.H
  | Work.dud d => d.T

/-- The function of the task that a thunk calls. -/
def Work.function {V E : Type} (ws : Nat) : Work V E → Function V E
  | Work.arrival d => d.arrival_function ws
  | Work.dud d => d.handler ws

/-- Whether the closure of a thunk decrements the remaining-count. -/
def Work.is_arrival {V E : Type} : Work V E → Bool
  | Work.arrival _ => true
  | Work.dud _ => false

/-- A thunk as it sits in the queue, with its executor. -/
def Work.pushed {V E : Type} (x : Work V E) : Nat × Thunk :=
  (x.joint.ex, (x.joint.cont x.task).thunk)

/-- The thunks that the call of the task of an input pushes, in push order: the failure
continuation is called first. -/
def Joint.works {V E : Type} (d : Joint V E) : List (Work V E) :=
  match d.r with
  | Except.ok _ => [Work.arrival d]
  | Except.error _ => [Work.arrival d, Work.dud d]

/-- The value that the held task of `when_all` leaves in its state, given the internal
state when the last input arrives: the error list when an error was collected, else the
tuple of the slots. -/
def Gathered {V E : Type} (st : internal_state V E) (value : Variant V E) : Prop :=
  (st.exceptions = [] ∧ ∃ vals, _remove_optional st.buffer = some vals ∧
    value = Variant.value (Payload.tuple vals)) ∨
  (st.exceptions ≠ [] ∧ value = Variant.exception (Exn.exception_list st.exceptions))

/-- The error with which the callable of a pending future fails, if it does. -/
def Settling.error {V E : Type} (p : Settling V E) : Option (Exn E) :=
  match p.r with
  | Except.ok _ => none
  | Except.error e => some e

/-- The inputs of `when_all` as the attachment loop lays them out: the state derived by
`then` for the first input is allocated at `L`, the one derived by `on_error` right after
it, and each input takes two addresses; `j` counts the non-void inputs seen so far. -/
def joints_at {V E : Type} : Nat → Nat → List (Settling V E) → List (Joint V E)
  | _, _, [] => []
  | L, j, p :: rest =>
    { id := p.id, T := L, kind := p.kind, r := p.r, ex := p.ex, index := j } ::
      joints_at (L + 2) (if p.kind = TypeKind.void then j else j + 1) rest

/-- The addresses and slots of the inputs do not collide: `R` is the address of the state of
the `when_all` future and `B` the number of slots of the buffer. -/
structure Placing {V E : Type} (R B : Nat) (ds : List (Joint V E)) : Prop where
  id_lt : ∀ d ∈ ds, d.id < R
  T_gt : ∀ d ∈ ds, R < d.T
  id_inj : ∀ d ∈ ds, ∀ d' ∈ ds, d.id = d'.id → d = d'
  T_sep : ∀ d ∈ ds, ∀ d' ∈ ds, d.T = d'.T ∨ d.T = d'.T + 1 → d = d'
  index_lt : ∀ d ∈ ds, d.kind ≠ TypeKind.void → d.index < B
  slots : ∀ j, j < B → ∃ d ∈ ds, d.kind ≠ TypeKind.void ∧ d.index = j
  bound : ds.length < 2 ^ 64

/-- The value that the held task of `when_all` leaves in its state once the closures of the
inputs `done` have run, in this order: the list of their errors when one of them failed,
else a tuple. -/
def Outcome {V E : Type} (done : List (Joint V E)) (value : Variant V E) : Prop :=
  (done.filterMap Joint.error = [] ∧ ∃ vals, value = Variant.value (Payload.tuple vals)) ∨
  (done.filterMap Joint.error ≠ [] ∧
    value = Variant.exception (Exn.exception_list (done.filterMap Joint.error)))

/-- The program state after `when_all` has returned: the tasks of `todo` have not been
called, the thunks of `queue` are pushed in this order, and the closures that decrement the
remaining-count have run for the inputs of `done`, in this order. The ghost log is `base`
followed by the addresses of the closures applied since. -/
structure Gathering {V E : Type} (ws R B : Nat) (base : List Nat) (ds todo : List (Joint V E))
    (queue : List (Work V E)) (done : List (Joint V E)) (w : World V E) : Prop where
  todo_sub : ∀ d ∈ todo, d ∈ ds
  queue_sub : ∀ x ∈ queue, x.joint ∈ ds
  done_sub : ∀ d ∈ done, d ∈ ds
  cover : ∀ d ∈ ds, d ∈ todo ∨ Work.arrival d ∈ queue ∨ d ∈ done
  todo_nodup : todo.Nodup
  queue_nodup : queue.Nodup
  done_nodup : done.Nodup
  queue_todo : ∀ x ∈ queue, x.joint ∉ todo
  done_todo : ∀ d ∈ done, d ∉ todo
  done_queue : ∀ d ∈ done, Work.arrival d ∉ queue
  dud_failed : ∀ d, Work.dud d ∈ queue → ∃ e, d.r = Except.error e
  queue_length : queue.length + 2 * todo.length ≤ 2 * ds.length
  count : todo.length + (queue.filter Work.is_arrival).length + done.length = ds.length
  pushed : w.pushed = queue.map Work.pushed
  todo_state : ∀ d ∈ todo, ∃ s, w.heap[d.id]? = some s ∧ s.kind = d.kind ∧
    s.function = some (Function.user d.r) ∧ s.continuations = [d.cont d.T] ∧
    s.exceptional_continuations = some (d.cont (d.T + 1))
  todo_then : ∀ d ∈ todo, ∃ t, w.heap[d.T]? = some t ∧ t.function = some (d.handler ws) ∧
    t.continuations = [] ∧ t.exceptional_continuations = none
  todo_error : ∀ d ∈ todo, ∃ t, w.heap[d.T + 1]? = some t ∧
    t.function = some (Function.when_all_error_body d.id ws exception_policy.aggregate) ∧
    t.continuations = [] ∧ t.exceptional_continuations = none
  queue_state : ∀ x ∈ queue, ∃ s, w.heap[x.joint.id]? = some s ∧ s.value = x.joint.slot ∧
    s.scheduler = some x.joint.ex
  queue_task : ∀ x ∈ queue, ∃ t, w.heap[x.task]? = some t ∧
    t.function = some (x.function ws) ∧ t.continuations = [] ∧
    t.exceptional_continuations = none
  log : ∃ l, w.applied = base ++ l ∧ l.filter (fun a => decide (R < a)) = done.map Joint.H
  internal : ∃ st, w.internal[ws]? = some st ∧ st.task = some (some R) ∧
    st.remaining = todo.length + (queue.filter Work.is_arrival).length ∧
    (0 < st.remaining → st.exceptions = done.filterMap Joint.error ∧ st.buffer.length = B ∧
      ∀ d ∈ done, d.kind ≠ TypeKind.void → d.error = none →
        ∃ v, st.buffer[d.index]? = some (some v))
  waiting : 0 < todo.length + (queue.filter Work.is_arrival).length →
    ∃ r, w.heap[R]? = some r ∧ r.function = some (Function.when_all_body ws) ∧
      r.value = Variant.none ∧ r.continuations = [] ∧ r.exceptional_continuations = none ∧
      r.kind ≠ TypeKind.void
  finished : todo.length + (queue.filter Work.is_arrival).length = 0 →
    ∃ r, w.heap[R]? = some r ∧ r.function = none ∧ Outcome done r.value

/-- The number of non-void inputs. -/
def slots_of {V E : Type} (ps : List (Settling V E)) : Nat :=
  (ps.filter (fun p => p.kind ≠ TypeKind.void)).length

/-- Three pending futures made by `package` in the empty program state, from callables
returning 1 (copyable), raising the user error 5 (copyable) and raising the user error 6
(non-copyable). -/
def one_value_two_raising : World Nat Nat :=
  (package_all World.empty
    [(TypeKind.copyable, Except.ok (Payload.obj 1)),
     (TypeKind.copyable, Except.error (Exn.user 5)),
     (TypeKind.noncopyable, Except.error (Exn.user 6))]).1

/-- The three futures of `one_value_two_raising` as inputs of `when_all`, the first two
called with executor 7 and the third with executor 8. -/
def raising_inputs : List (Settling Nat Nat) :=
  [⟨0, TypeKind.copyable, Except.ok (Payload.obj 1), 7⟩,
   ⟨1, TypeKind.copyable, Except.error (Exn.user 5), 7⟩,
   ⟨2, TypeKind.noncopyable, Except.error (Exn.user 6), 8⟩]

/-- The second task is called and one thunk run, then the third and the first task are
called, and the executors run twice. -/
def raising_interleaved : List Step :=
  [Step.call (some 1) (some 7), Step.run, Step.call (some 2) (some 8),
   Step.call (some 0) (some 7), Step.run, Step.run]

/-- What a converter returns. The template parameter `T` of a description is either
`std::basic_string<CharType>`, and the converter returns a string (`text`), or another
type, whose values are those of `T` here (`value`). -/
inductive lexer.Converted (T : Type) where
  | text (s : List Char)
  | value (t : T)

/-- The structs `_token_impl<T, CharType>` and its specialisation for
`std::basic_string<CharType>`, with the member `literal` of the base `_token`. In the
specialisation the member `match` is a reference to `literal`. -/
structure lexer._token_impl (T : Type) where
  literal : List Char
  matched : lexer.Converted T

/-- The class `basic_token`: the type id `_type` and the pointer `_token`, which is null
in a token built by `basic_token(uint64_t type)`. -/
structure lexer.basic_token (T : Type) where
  _type : Nat
  _token : Option (lexer._token_impl T)

/-- The value of `-1` converted to `uint64_t`, the type id of the token that `match`
returns when the regex does not match at `begin`. -/
def lexer.no_match : Nat := 2 ^ 64 - 1

/-- The constructor `basic_token(uint64_t type)`. -/
def lexer.basic_token.of_type {T : Type} (type : Nat) : lexer.basic_token T :=
  { _type := type, _token := none }

/-- The constructor template `basic_token(uint64_t type, const T & t, string s)`, chosen
when the converted value is not a string: the literal is `s`. -/
def lexer.basic_token.of_value {T : Type} (type : Nat) (t : T) (s : List Char) :
    lexer.basic_token T :=
  { _type := type, _token := some { literal := s, matched := lexer.Converted.value t } }

/-- The constructor `basic_token(uint64_t type, string s, const string &)`, chosen over
the template when the converted value is a string: the literal is the first string, the
converted one, and the second string is not used. -/
def lexer.basic_token.of_string {T : Type} (type : Nat) (s : List Char) (_unnamed : List Char) :
    lexer.basic_token T :=
  { _type := type, _token := some { literal := s, matched := lexer.Converted.text s } }

/-- The function `_as<std::basic_string<CharType>, CharType>::get`, which is
`as<std::string>()`: the literal behind the pointer `_token`; nothing when the pointer
is null. -/
def lexer.basic_token.as_string {T : Type} (t : lexer.basic_token T) : Option (List Char) :=
  t._token.map lexer._token_impl.literal

/-- The class `_token_description_impl`. The member `_regex` is given by what
`std::regex_search(begin, end, match, _regex)` finds in the characters from `begin` to
`end`: nothing, or the offset of `match[0]` from `begin` and its length. The converter
returns or raises. -/
structure lexer._token_description_impl (T X : Type) where
  _type : Nat
  _regex : List Char → Option (Nat × Nat)
  _converter : List Char → Except X (lexer.Converted T)

/-- The member `_token_description_impl::match(begin, end)`, where `rest` holds the
characters from `begin` to `end`: returns the token and the characters from the new
`begin`. The iterator is advanced before the converter is called. -/
def lexer._token_description_impl.match_ {T X : Type}
    (d : lexer._token_description_impl T X) (rest : List Char) :
    Except X (lexer.basic_token T × List Char) :=
  match d._regex rest with
  | some (0, len) =>
    match d._converter (rest.take len) with
    | Except.error x => Except.error x
    | Except.ok (lexer.Converted.text s) =>
      Except.ok (lexer.basic_token.of_string d._type s (rest.take len),
        rest.drop (rest.take len).length)
    | Except.ok (lexer.Converted.value t) =>
      Except.ok (lexer.basic_token.of_value d._type t (rest.take len),
        rest.drop (rest.take len).length)
  | _ => Except.ok (lexer.basic_token.of_type lexer.no_match, rest)

/-- The call `_descs.emplace(std::make_pair(desc.type(), desc))` on the map `_descs`,
kept as the list of its values in key order: a description whose type id is already a
key is not inserted. -/
def lexer.emplace {T X : Type} :
    List (lexer._token_description_impl T X) → lexer._token_description_impl T X →
      List (lexer._token_description_impl T X)
  | [], d => [d]
  | e :: rest, d =>
    if d._type < e._type then d :: e :: rest
    else if d._type = e._type then e :: rest
    else e :: lexer.emplace rest d

/-- The class `basic_tokens_description`: the map `_descs`, as the list of its values in
key order. -/
structure lexer.basic_tokens_description (T X : Type) where
  _descs : List (lexer._token_description_impl T X)

/-- The default constructor `basic_tokens_description()`. -/
def lexer.basic_tokens_description.empty {T X : Type} : lexer.basic_tokens_description T X :=
  { _descs := [] }

/-- The member `basic_tokens_description::add(desc)`. -/
def lexer.basic_tokens_description.add {T X : Type} (def_ : lexer.basic_tokens_description T X)
    (desc : lexer._token_description_impl T X) : lexer.basic_tokens_description T X :=
  { _descs := lexer.emplace def_._descs desc }

/-- How a call of `tokenize` ends: it returns the vector `ret`, it throws
`unexpected_characters`, a converter raises, or `*begin` is evaluated with `begin`
equal to `end`, which is undefined. -/
inductive lexer.Result (T X : Type) where
  | returned (ret : List (lexer.basic_token T))
  | unexpected_characters
  | converter_raised (x : X)
  | past_the_end

/-- The `for` loop of `tokenize` over the descriptions from `b` on, where `rest` holds the
characters from `begin` to `end`: returns the token that was pushed before `break`, or
nothing when the loop ends with `b == e`, and the characters from the new `begin`. -/
def lexer.tokenize_for {T X : Type} :
    List (lexer._token_description_impl T X) → List Char →
      Except X (Option (lexer.basic_token T) × List Char)
  | [], rest => Except.ok (none, rest)
  | d :: more, rest =>
    match d.match_ rest with
    | Except.error x => Except.error x
    | Except.ok (matched, rest1) =>
      if matched._type ≠ lexer.no_match then Except.ok (some matched, rest1)
      else lexer.tokenize_for more rest1

/-- What one iteration of the `while` loop of `tokenize` does: the loop goes on with the
characters from the new `begin` and the new vector, or the call ends. -/
inductive lexer.Iteration (T X : Type) where
  | next (rest : List Char) (ret : List (lexer.basic_token T))
  | stop (r : lexer.Result T X)

/-- The body of the `while` loop of `tokenize`, entered with `begin != end`. -/
def lexer.tokenize_body {T X : Type} (descs : List (lexer._token_description_impl T X))
    (rest : List Char) (ret : List (lexer.basic_token T)) : lexer.Iteration T X :=
  match lexer.tokenize_for descs rest with
  | Except.error x => lexer.Iteration.stop (lexer.Result.converter_raised x)
  | Except.ok (some matched, rest1) => lexer.Iteration.next rest1 (ret ++ [matched])
  | Except.ok (none, rest1) =>
    match rest1 with
    | [] => lexer.Iteration.stop lexer.Result.past_the_end
    | c :: _ =>
      if c = Char.ofNat 0 then lexer.Iteration.stop (lexer.Result.returned ret)
      else lexer.Iteration.stop lexer.Result.unexpected_characters

/-- The `while` loop of `tokenize`, with fuel: nothing when the fuel runs out. -/
def lexer.tokenize_while {T X : Type} (descs : List (lexer._token_description_impl T X)) :
    Nat → List Char → List (lexer.basic_token T) → Option (lexer.Result T X)
  | 0, _, _ => none
  | fuel + 1, rest, ret =>
    match rest with
    | [] => some (lexer.Result.returned ret)
    | c :: cs =>
      match lexer.tokenize_body descs (c :: cs) ret with
      | lexer.Iteration.stop r => some r
      | lexer.Iteration.next rest1 ret1 => lexer.tokenize_while descs fuel rest1 ret1

/-- The function `tokenize(str, def)`, with fuel. -/
def lexer.tokenize {T X : Type} (fuel : Nat) (str : List Char)
    (def_ : lexer.basic_tokens_description T X) : Option (lexer.Result T X) :=
  lexer.tokenize_while def_._descs fuel str []

/-- The text `match[0].str()` when the regex of a description matches at `begin`, that is,
when `regex_search` succeeds and `match[0]` starts at `begin`; nothing otherwise. -/
def lexer.matched_text {T X : Type} (d : lexer._token_description_impl T X)
    (rest : List Char) : Option (List Char) :=
  match d._regex rest with
  | some (0, len) => some (rest.take len)
  | _ => none

/-- The token that `match` builds from the converted value `c` and the matched text
`str`, by the overload that the type of `c` selects. -/
def lexer.token_of {T : Type} (type : Nat) (c : lexer.Converted T) (str : List Char) :
    lexer.basic_token T :=
  match c with
  | lexer.Converted.text s => lexer.basic_token.of_string type s str
  | lexer.Converted.value t => lexer.basic_token.of_value type t str

/-- The description set after `add` of each description of a list, in order. -/
def lexer.described {T X : Type} (adds : List (lexer._token_description_impl T X)) :
    lexer.basic_tokens_description T X :=
  adds.foldl lexer.basic_tokens_description.add lexer.basic_tokens_description.empty

/-- What `regex_search` finds for the regex `[c]+`, where `p` tells the characters of the
class: the leftmost longest run of such characters. -/
def lexer.class_plus (p : Char → Bool) (rest : List Char) : Option (Nat × Nat) :=
  if (rest.dropWhile (fun c => !p c)).isEmpty then none
  else some ((rest.takeWhile (fun c => !p c)).length,
    ((rest.dropWhile (fun c => !p c)).takeWhile p).length)

/-- A description of type id 0 for the regex `[0-9]+`, converted to the number of digits. -/
def lexer.digits : lexer._token_description_impl Nat Unit :=
  { _type := 0, _regex := lexer.class_plus Char.isDigit,
    _converter := fun s => Except.ok (lexer.Converted.value s.length) }

/-- A description of type id 1 for the regex `[0-9a-zA-Z]+`, kept as a string. -/
def lexer.words : lexer._token_description_impl Nat Unit :=
  { _type := 1, _regex := lexer.class_plus Char.isAlphanum,
    _converter := fun s => Except.ok (lexer.Converted.text s) }

/-- A description of type id `2 ^ 64 - 1` for the regex `[0-9a-zA-Z]` of one character, kept
as a string. -/
def lexer.marked : lexer._token_description_impl Nat Unit :=
  { _type := 2 ^ 64 - 1,
    _regex := fun rest =>
      if (rest.dropWhile (fun c => !c.isAlphanum)).isEmpty then none
      else some ((rest.takeWhile (fun c => !c.isAlphanum)).length, 1),
    _converter := fun s => Except.ok (lexer.Converted.text s) }

/-- A description of type id 0 for the regex `[a-zA-Z]+`, converted to the string in upper
case. -/
def lexer.shouting : lexer._token_description_impl Nat Unit :=
  { _type := 0, _regex := lexer.class_plus Char.isAlpha,
    _converter := fun s => Except.ok (lexer.Converted.text (s.map Char.toUpper)) }

/-- The member `packaged_task::_add_promise`: `_detail::_add_promise` when the handle
locks. -/
def packaged_task_add_promise {V E : Type} (w : World V E) (task : Option Nat) : World V E :=
  match task with
  | none => w
  | some id =>
    match w.heap[id]? with
    | none => w
    | some state => w.put id (_add_promise state)

/-- The copy constructor `packaged_task(const packaged_task & other)`: the new handle is
that of `other`, and `_add_promise` is applied to it. Returns the new handle. -/
def packaged_task_copy {V E : Type} (w : World V E) (other : Option Nat) :
    World V E × Option Nat :=
  (packaged_task_add_promise w other, other)

/-- The move constructor `packaged_task(packaged_task && other)`: the new handle is that
of `other`, which is left empty. Returns the new handle and the handle of `other`. -/
def packaged_task_move (other : Option Nat) : Option Nat × Option Nat :=
  (other, none)

/-- The move constructor `future(future && other)`: the new handle is that of `other`,
which is left empty. Returns the new handle and the handle of `other`. -/
def future_move (other : Option Nat) : Option Nat × Option Nat :=
  (other, none)

/-- The public operations on tasks and futures, with the handles they are applied to, and
the executors running their oldest pushed thunk. -/
inductive Operation (V E : Type) where
  | package (k : TypeKind) (r : Except (Exn E) (Payload V))
  | make_ready_future (k : TypeKind) (t : Payload V)
  | make_ready_future_void
  | call (task : Option Nat) (sched_arg : Option Nat)
  | task_copy (task : Option Nat)
  | task_move (task : Option Nat)
  | task_destroy (task : Option Nat)
  | future_copy (fut : Option Nat)
  | future_move (fut : Option Nat)
  | future_destroy (fut : Option Nat)
  | try_get (fut : Option Nat)
  | try_get_void (fut : Option Nat)
  | then_to (fut : Option Nat) (sched_arg : Option Nat) (k : TypeKind)
      (f : Payload V → Except (Exn E) (Payload V))
  | then_default (fut : Option Nat) (k : TypeKind) (f : Payload V → Except (Exn E) (Payload V))
  | on_error_to (fut : Option Nat) (sched_arg : Option Nat) (k : TypeKind)
      (f : Exn E → Except (Exn E) (Payload V))
  | on_error_default (fut : Option Nat) (k : TypeKind) (f : Exn E → Except (Exn E) (Payload V))
  | run

/-- The program state after a public operation that completes, by returning or by
throwing; the value that the operation returns is dropped. -/
def perform {V E : Type} (w : World V E) : Operation V E → Except Abort (World V E)
  | Operation.package k r => Except.ok (package w k (Function.user r)).1
  | Operation.make_ready_future k t => Except.ok (make_ready_future w k t).1
  | Operation.make_ready_future_void => Except.ok (make_ready_future_void w).1
  | Operation.call task sched_arg => packaged_task_call w task sched_arg
  | Operation.task_copy task => Except.ok (packaged_task_copy w task).1
  | Operation.task_move _ => Except.ok w
  | Operation.task_destroy task => Except.ok (packaged_task_destroy w task)
  | Operation.future_copy fut => Except.ok (future_copy w fut)
  | Operation.future_move _ => Except.ok w
  | Operation.future_destroy fut => Except.ok (future_destroy w fut)
  | Operation.try_get fut => (future_try_get w fut).map Prod.fst
  | Operation.try_get_void fut => (future_void_try_get w fut).map Prod.fst
  | Operation.then_to fut sched_arg k f => (future_then w fut sched_arg k f).map Prod.fst
  | Operation.then_default fut k f => (future_then_default w fut k f).map Prod.fst
  | Operation.on_error_to fut sched_arg k f =>
    (future_on_error w fut sched_arg k f).map Prod.fst
  | Operation.on_error_default fut k f => (future_on_error_default w fut k f).map Prod.fst
  | Operation.run => run_next w

/-- A sequence of public operations, in order. -/
def perform_all {V E : Type} (w : World V E) : List (Operation V E) → Except Abort (World V E)
  | [] => Except.ok w
  | op :: rest =>
    match perform w op with
    | Except.error a => Except.error a
    | Except.ok w1 => perform_all w1 rest

/-- Invariant 1 of the data model for one state: when the value slot is `Value` or
`Failure`, the deferred function is absent. -/
def _shared_state.invariant_1 {V E : Type} (s : _shared_state V E) : Prop :=
  s.value.index ≠ 2 → s.function.isNone = true

/-- Invariant 1 of the data model for every state of the program. -/
def World.invariant_1 {V E : Type} (w : World V E) : Prop :=
  ∀ s ∈ w.heap, s.invariant_1

/-- A run of the library: a task returning 7 is packaged, a continuation adding one is
attached to its future, the task is called, the executor runs the continuation, both
futures are read, and the task is destroyed. -/
def settle_and_read : List (Operation Nat Nat) :=
  [Operation.package TypeKind.copyable (Except.ok (Payload.obj 7)),
   Operation.then_default (some 0) TypeKind.copyable
     (fun p => match p with
       | Payload.obj v => Except.ok (Payload.obj (v + 1))
       | _ => Except.error (Exn.user 0)),
   Operation.call (some 0) (some 0),
   Operation.run,
   Operation.try_get (some 0),
   Operation.try_get (some 1),
   Operation.task_destroy (some 0)]

/-! ## Task objects, future objects and the counters of a state -/

/-- The member `packaged_task::_remove_promise`: `_detail::_remove_promise` when the handle
locks. -/
def packaged_task_remove_promise {V E : Type} (w : World V E) (task : Option Nat) :
    World V E :=
  match task with
  | none => w
  | some id =>
    match w.heap[id]? with
    | none => w
    | some state => w.put id (_remove_promise state)

/-- A program state with its `packaged_task` objects: an object is destroyed (`none`) or
alive with its member `_state`. -/
structure Tasks (V E : Type) where
  world : World V E
  objects : List (Option (Option Nat))

/-- The program without states or objects. -/
def Tasks.empty {V E : Type} : Tasks V E :=
  { world := World.empty, objects := [] }

/-- The member `_state` of the task object `i`; using an object that is not alive is
undefined. -/
def Tasks._state {V E : Type} (t : Tasks V E) (i : Nat) : Except Abort (Option Nat) :=
  match t.objects[i]? with
  | some (some h) => Except.ok h
  | _ => Except.error Abort.dangling

/-- The number of task objects that are alive and refer to the state at address `a`. -/
def Tasks.handles {V E : Type} (t : Tasks V E) (a : Nat) : Nat :=
  t.objects.count (some (some a))

/-- The statements of `packaged_task::operator=(const packaged_task & other)` on the objects
`this` and `other`: `_remove_promise(); _state = other._state; _add_promise();`. -/
def packaged_task_copy_assign_statements {V E : Type} (t : Tasks V E) (this other : Nat) :
    Except Abort (Tasks V E) :=
  match t._state this with
  | Except.error a => Except.error a
  | Except.ok h =>
    match t._state other with
    | Except.error a => Except.error a
    | Except.ok g =>
      let w1 := packaged_task_remove_promise t.world h
      let objects1 := t.objects.set this (some g)
      Except.ok { world := packaged_task_add_promise w1 g, objects := objects1 }

/-- The statements of `packaged_task::operator=(packaged_task && other)` on the objects
`this` and `other`: `_remove_promise(); _state = other._state; other._state = {};`. -/
def packaged_task_move_assign_statements {V E : Type} (t : Tasks V E) (this other : Nat) :
    Except Abort (Tasks V E) :=
  match t._state this with
  | Except.error a => Except.error a
  | Except.ok h =>
    match t._state other with
    | Except.error a => Except.error a
    | Except.ok g =>
      let w1 := packaged_task_remove_promise t.world h
      let objects1 := t.objects.set this (some g)
      Except.ok { world := w1, objects := objects1.set other (some none) }

/-- The operator `packaged_task::operator=(const packaged_task & other)`: after its
statements control flows off the end of the function, whose return type is
`packaged_task &`. -/
def packaged_task_copy_assign {V E : Type} (t : Tasks V E) (this other : Nat) :
    Except Abort (Tasks V E) :=
  match packaged_task_copy_assign_statements t this other with
  | Except.error a => Except.error a
  | Except.ok _ => Except.error Abort.no_return

/-- The operator `packaged_task::operator=(packaged_task && other)`: after its statements
control flows off the end of the function, whose return type is `packaged_task &`. -/
def packaged_task_move_assign {V E : Type} (t : Tasks V E) (this other : Nat) :
    Except Abort (Tasks V E) :=
  match packaged_task_move_assign_statements t this other with
  | Except.error a => Except.error a
  | Except.ok _ => Except.error Abort.no_return

/-- What a program does with task objects: `package` a callable, copy-construct or
move-construct a new object from the object `other`, execute the statements of an assignment
operator, or destroy an object. -/
inductive Tasks.Action (V E : Type) where
  | package (k : TypeKind) (r : Except (Exn E) (Payload V))
  | copy (other : Nat)
  | move (other : Nat)
  | copy_assign (this other : Nat)
  | move_assign (this other : Nat)
  | destroy (this : Nat)

/-- One action on the task objects. The task of the pair returned by `package` and a newly
constructed object become the last object. An assignment stands for the statements of its
operator, up to the end of the function body. -/
def Tasks.step {V E : Type} (t : Tasks V E) : Tasks.Action V E → Except Abort (Tasks V E)
  | Tasks.Action.package k r =>
    let pw := package t.world k (Function.user r)
    Except.ok { world := pw.1, objects := t.objects ++ [some pw.2.packaged_task] }
  | Tasks.Action.copy other =>
    match t._state other with
    | Except.error a => Except.error a
    | Except.ok g =>
      let p := packaged_task_copy t.world g
      Except.ok { world := p.1, objects := t.objects ++ [some p.2] }
  | Tasks.Action.move other =>
    match t._state other with
    | Except.error a => Except.error a
    | Except.ok g =>
      let p := packaged_task_move g
      Except.ok { world := t.world, objects := t.objects.set other (some p.2) ++ [some p.1] }
  | Tasks.Action.copy_assign this other => packaged_task_copy_assign_statements t this other
  | Tasks.Action.move_assign this other => packaged_task_move_assign_statements t this other
  | Tasks.Action.destroy this =>
    match t._state this with
    | Except.error a => Except.error a
    | Except.ok h =>
      Except.ok { world := packaged_task_destroy t.world h, objects := t.objects.set this none }

/-- A sequence of actions on the task objects, in order. -/
def Tasks.run {V E : Type} (t : Tasks V E) : List (Tasks.Action V E) → Except Abort (Tasks V E)
  | [] => Except.ok t
  | act :: rest =>
    match t.step act with
    | Except.error a => Except.error a
    | Except.ok t1 => t1.run rest

/-- Whether an action is the copy assignment of an object to itself. -/
def Tasks.Action.self_copy {V E : Type} : Tasks.Action V E → Bool
  | Tasks.Action.copy_assign this other => this == other
  | _ => false

/-- A counter `cnt` of the states of a heap agrees, modulo `2 ^ 64`, with the number of
objects alive that refer to the state plus a number `extra` of other contributions. Every
object alive refers to a state of the heap or to none. -/
structure Tallied {V E : Type} (cnt : _shared_state V E → Nat) (heap : List (_shared_state V E))
    (objs : List (Option (Option Nat))) (extra : Nat → Nat) : Prop where
  valid : ∀ a, some (some a) ∈ objs → a < heap.length
  count : ∀ a s, heap[a]? = some s → cnt s = (objs.count (some (some a)) + extra a) % 2 ^ 64

/-- The producer count of every state agrees with the task objects that refer to it. -/
def Tasks.Counted {V E : Type} (t : Tasks V E) : Prop :=
  Tallied _shared_state.promise_count t.world.heap t.objects (fun _ => 0)

/-- Every state whose producer count is not zero is pending. -/
def World.promises_kept {V E : Type} (w : World V E) : Prop :=
  ∀ (a : Nat) (s : _shared_state V E), w.heap[a]? = some s → s.promise_count ≠ 0 →
    _is_pending s = true

/-- A run over three task objects of one state and one of another: package, copy
construction, move construction, copy assignment to the moved-from object, a second
package, move assignment over the task of the second state, and a destruction. -/
def Tasks.sample : List (Tasks.Action Nat Nat) :=
  [Tasks.Action.package TypeKind.copyable (Except.ok (Payload.obj 7)),
   Tasks.Action.copy 0,
   Tasks.Action.move 1,
   Tasks.Action.copy_assign 1 0,
   Tasks.Action.package TypeKind.copyable (Except.ok (Payload.obj 8)),
   Tasks.Action.move_assign 3 0,
   Tasks.Action.destroy 2]

/-- The assignment `task = task` of the task returned by `package`. -/
def Tasks.self_assignment : List (Tasks.Action Nat Nat) :=
  [Tasks.Action.package TypeKind.copyable (Except.ok (Payload.obj 7)),
   Tasks.Action.copy_assign 0 0]

/-- The member `future::_add_count` of a handle: `++_state->shared_count` when the handle
is not null. -/
def future_add_count {V E : Type} (w : World V E) (fut : Option Nat) : World V E :=
  match fut with
  | none => w
  | some id =>
    match w.heap[id]? with
    | none => w
    | some state => w.put id (_add_count state)

/-- The member `future::_remove_count` of a handle: `--_state->shared_count` when the
handle is not null. -/
def future_remove_count {V E : Type} (w : World V E) (fut : Option Nat) : World V E :=
  match fut with
  | none => w
  | some id =>
    match w.heap[id]? with
    | none => w
    | some state => w.put id (_remove_count state)

/-- A program state with its `future` objects, each destroyed (`none`) or alive with its
member `_state`, and a ghost log with the address of the state of every call of `then` or
`on_error` that got past the validity assertion. -/
structure Futures (V E : Type) where
  world : World V E
  objects : List (Option (Option Nat))
  attached : List Nat

/-- The program without states or objects. -/
def Futures.empty {V E : Type} : Futures V E :=
  { world := World.empty, objects := [], attached := [] }

/-- The member `_state` of the future object `i`; using an object that is not alive is
undefined. -/
def Futures._state {V E : Type} (t : Futures V E) (i : Nat) : Except Abort (Option Nat) :=
  match t.objects[i]? with
  | some (some h) => Except.ok h
  | _ => Except.error Abort.dangling

/-- The number of future objects that are alive and refer to the state at address `a`. -/
def Futures.handles {V E : Type} (t : Futures V E) (a : Nat) : Nat :=
  t.objects.count (some (some a))

/-- The number of calls of `then` and `on_error` on the state at address `a`. -/
def Futures.attachments {V E : Type} (t : Futures V E) (a : Nat) : Nat :=
  t.attached.count a

/-- The operator `future::operator=(const future & other)` on the objects `this` and
`other`: `_remove_count(); _state = other._state; _add_count(); return *this;`. -/
def future_copy_assign {V E : Type} (t : Futures V E) (this other : Nat) :
    Except Abort (Futures V E) :=
  match t._state this with
  | Except.error a => Except.error a
  | Except.ok h =>
    match t._state other with
    | Except.error a => Except.error a
    | Except.ok g =>
      let w1 := future_remove_count t.world h
      let objects1 := t.objects.set this (some g)
      Except.ok { t with world := future_add_count w1 g, objects := objects1 }

/-- The operator `future::operator=(future && other)` on the objects `this` and `other`:
`_remove_count(); _state = std::move(other._state); other._state = {}; return *this;`. -/
def future_move_assign {V E : Type} (t : Futures V E) (this other : Nat) :
    Except Abort (Futures V E) :=
  match t._state this with
  | Except.error a => Except.error a
  | Except.ok h =>
    match t._state other with
    | Except.error a => Except.error a
    | Except.ok g =>
      let w1 := future_remove_count t.world h
      let objects1 := t.objects.set this (some g)
      Except.ok { t with world := w1, objects := objects1.set other (some none) }

/-- What a program does with futures: the factories, the special members of `future`, the
members `try_get`, `then` and `on_error` of the future object `this`, the call of a task
and an executor running its oldest pushed thunk. -/
inductive Futures.Action (V E : Type) where
  | package (k : TypeKind) (r : Except (Exn E) (Payload V))
  | make_ready_future (k : TypeKind) (v : Payload V)
  | make_ready_future_void
  | copy (other : Nat)
  | move (other : Nat)
  | copy_assign (this other : Nat)
  | move_assign (this other : Nat)
  | destroy (this : Nat)
  | try_get (this : Nat)
  | try_get_void (this : Nat)
  | then_to (this : Nat) (sched_arg : Option Nat) (k : TypeKind)
      (f : Payload V → Except (Exn E) (Payload V))
  | then_default (this : Nat) (k : TypeKind) (f : Payload V → Except (Exn E) (Payload V))
  | on_error_to (this : Nat) (sched_arg : Option Nat) (k : TypeKind)
      (f : Exn E → Except (Exn E) (Payload V))
  | on_error_default (this : Nat) (k : TypeKind) (f : Exn E → Except (Exn E) (Payload V))
  | call (task : Option Nat) (sched_arg : Option Nat)
  | run

/-- The future objects that a call of `then` or `on_error` adds: the future that it
returns, none when it throws. -/
def Futures.returned {E : Type} : Completion (Option Nat) E → List (Option (Option Nat))
  | Completion.normal fut => [some fut]
  | Completion.throw _ => []

/-- The program after a call of `then` or `on_error` on the handle `h` completed with `r`:
the call is logged, and the future that it returned, if it returned, is a new object. -/
def Futures.attach {V E : Type} (t : Futures V E) (h : Option Nat)
    (r : Except Abort (World V E × Completion (Option Nat) E)) : Except Abort (Futures V E) :=
  match r with
  | Except.error a => Except.error a
  | Except.ok (w1, c) =>
    Except.ok { world := w1, objects := t.objects ++ Futures.returned c,
                attached := t.attached ++ h.toList }

/-- One action on the future objects. The future returned by a factory, by `then` or by
`on_error`, and a newly constructed object, become the last object. -/
def Futures.step {V E : Type} (t : Futures V E) : Futures.Action V E → Except Abort (Futures V E)
  | Futures.Action.package k r =>
    let pw := package t.world k (Function.user r)
    Except.ok { t with world := pw.1, objects := t.objects ++ [some pw.2.future] }
  | Futures.Action.make_ready_future k v =>
    let pw := make_ready_future t.world k v
    Except.ok { t with world := pw.1, objects := t.objects ++ [some pw.2] }
  | Futures.Action.make_ready_future_void =>
    let pw := make_ready_future_void t.world
    Except.ok { t with world := pw.1, objects := t.objects ++ [some pw.2] }
  | Futures.Action.copy other =>
    match t._state other with
    | Except.error a => Except.error a
    | Except.ok g =>
      Except.ok { t with world := future_copy t.world g, objects := t.objects ++ [some g] }
  | Futures.Action.move other =>
    match t._state other with
    | Except.error a => Except.error a
    | Except.ok g =>
      let p := future_move g
      Except.ok { t with objects := t.objects.set other (some p.2) ++ [some p.1] }
  | Futures.Action.copy_assign this other => future_copy_assign t this other
  | Futures.Action.move_assign this other => future_move_assign t this other
  | Futures.Action.destroy this =>
    match t._state this with
    | Except.error a => Except.error a
    | Except.ok h =>
      Except.ok { t with world := future_destroy t.world h, objects := t.objects.set this none }
  | Futures.Action.try_get this =>
    match t._state this with
    | Except.error a => Except.error a
    | Except.ok h =>
      match future_try_get t.world h with
      | Except.error a => Except.error a
      | Except.ok p => Except.ok { t with world := p.1 }
  | Futures.Action.try_get_void this =>
    match t._state this with
    | Except.error a => Except.error a
    | Except.ok h =>
      match future_void_try_get t.world h with
      | Except.error a => Except.error a
      | Except.ok p => Except.ok { t with world := p.1 }
  | Futures.Action.then_to this sched_arg k f =>
    match t._state this with
    | Except.error a => Except.error a
    | Except.ok h => t.attach h (future_then t.world h sched_arg k f)
  | Futures.Action.then_default this k f =>
    match t._state this with
    | Except.error a => Except.error a
    | Except.ok h => t.attach h (future_then_default t.world h k f)
  | Futures.Action.on_error_to this sched_arg k f =>
    match t._state this with
    | Except.error a => Except.error a
    | Except.ok h => t.attach h (future_on_error t.world h sched_arg k f)
  | Futures.Action.on_error_default this k f =>
    match t._state this with
    | Except.error a => Except.error a
    | Except.ok h => t.attach h (future_on_error_default t.world h k f)
  | Futures.Action.call task sched_arg =>
    match packaged_task_call t.world task sched_arg with
    | Except.error a => Except.error a
    | Except.ok w1 => Except.ok { t with world := w1 }
  | Futures.Action.run =>
    match run_next t.world with
    | Except.error a => Except.error a
    | Except.ok w1 => Except.ok { t with world := w1 }

/-- A sequence of actions on the future objects, in order. -/
def Futures.run {V E : Type} (t : Futures V E) :
    List (Futures.Action V E) → Except Abort (Futures V E)
  | [] => Except.ok t
  | act :: rest =>
    match t.step act with
    | Except.error a => Except.error a
    | Except.ok t1 => t1.run rest

/-- The deferred functions that `package`, `then` and `on_error` make for the callables of a
caller, as opposed to the closures of `when_all`. -/
def Function.plain {V E : Type} : Function V E → Bool
  | Function.user _ => true
  | Function.then_body _ _ => true
  | Function.on_error_ptr _ _ _ => true
  | Function.on_error_body _ _ => true
  | _ => false

/-- No state holds a closure of `when_all`. -/
def World.plain {V E : Type} (w : World V E) : Prop :=
  ∀ s ∈ w.heap, ∀ fn, s.function = some fn → fn.plain = true

/-- The states of `w1` are those of `w` with the same consumer counts, and with the same
deferred function or none. -/

def World.Frame {V E : Type} (w w1 : World V E) : Prop :=
  w1.heap.length = w.heap.length ∧
  ∀ (a : Nat) (s s1 : _shared_state V E), w.heap[a]? = some s → w1.heap[a]? = some s1 →
    s1.shared_count = s.shared_count ∧ (s1.function = s.function ∨ s1.function = none)

/-- The consumer count of every state agrees with the future objects that refer to it and
the logged calls of `then` and `on_error`; the logged addresses are states, and no state
holds a closure of `when_all`. -/
structure Futures.Counted {V E : Type} (t : Futures V E) : Prop where
  tally : Tallied _shared_state.shared_count t.world.heap t.objects t.attachments
  logged : ∀ a ∈ t.attached, a < t.world.heap.length
  plain : t.world.plain

/-- Whether an action is a call of `then` or `on_error`. -/
def Futures.Action.attaches {V E : Type} : Futures.Action V E → Bool
  | Futures.Action.then_to _ _ _ _ => true
  | Futures.Action.then_default _ _ _ => true
  | Futures.Action.on_error_to _ _ _ _ => true
  | Futures.Action.on_error_default _ _ _ => true
  | _ => false

/-- A run of the library: a task returning 7 is packaged and a continuation adding one is
attached to its future. -/
def Futures.attach_once : List (Futures.Action Nat Nat) :=
  [Futures.Action.package TypeKind.copyable (Except.ok (Payload.obj 7)),
   Futures.Action.then_default 0 TypeKind.copyable
     (fun p => match p with
       | Payload.obj v => Except.ok (Payload.obj (v + 1))
       | _ => Except.error (Exn.user 0))]

/-- A run of the library: a task returning 7 is packaged, its future is copied, a
continuation and a failure continuation are attached, the copy is destroyed, the task is
called, an executor runs the continuation, and the future is polled. -/
def Futures.attach_and_settle : List (Futures.Action Nat Nat) :=
  [Futures.Action.package TypeKind.copyable (Except.ok (Payload.obj 7)),
   Futures.Action.copy 0,
   Futures.Action.then_to 1 (some 0) TypeKind.copyable
     (fun p => match p with
       | Payload.obj v => Except.ok (Payload.obj (v + 1))
       | _ => Except.error (Exn.user 0)),
   Futures.Action.on_error_default 0 TypeKind.copyable (fun _ => Except.ok (Payload.obj 0)),
   Futures.Action.destroy 1,
   Futures.Action.call (some 0) (some 0),
   Futures.Action.run,
   Futures.Action.try_get 0]

/-- The inputs of the call `when_all(aggregate, ready(1), failed(E1), failed(E2))`: at
address 0 the state of `make_ready_future(1)`, at addresses 1 and 2 the states of two
packaged callables that raise the user errors 5 and 6 and whose tasks have been called. -/
def ready_and_two_failed : World Nat Nat :=
  match call_all
      (package_all (make_ready_future World.empty TypeKind.copyable (Payload.obj 1)).1
        [(TypeKind.copyable, Except.error (Exn.user 5)),
         (TypeKind.copyable, Except.error (Exn.user 6))]).1
      [(some 1, none), (some 2, none)] with
  | Except.ok w => w
  | Except.error _ => World.empty

/-- Three inputs settled by their tasks, each called with executor 7: the callables return
1, raise the user error 5 and raise the user error 6. -/
def settled_by_tasks : World Nat Nat :=
  match call_all one_value_two_raising [(some 0, some 7), (some 1, some 7), (some 2, some 7)] with
  | Except.ok w => w
  | Except.error _ => World.empty

/-- One step of the search of the specification for the description to use at a position:
`best` is the choice among the descriptions seen so far, and `d` replaces it when its
regex matches at the start of `rest` and its type id is smaller. -/
def lexer.spec_better {T X : Type} (rest : List Char)
    (best : Option (lexer._token_description_impl T X × List Char))
    (d : lexer._token_description_impl T X) :
    Option (lexer._token_description_impl T X × List Char) :=
  match lexer.matched_text d rest with
  | none => best
  | some str =>
    match best with
    | none => some (d, str)
    | some (b, s) => if d._type < b._type then some (d, str) else some (b, s)

/-- The description that the specification uses at a position, with the text that it
matches: among the descriptions whose regex matches starting exactly at the start of
`rest`, one with the smallest type id; nothing when no description matches there. This
definition follows the words of the specification; the search of the code is
`lexer.tokenize_for`. -/

def lexer.spec_lowest_match {T X : Type} (descs : List (lexer._token_description_impl T X))
    (rest : List Char) : Option (lexer._token_description_impl T X × List Char) :=
  descs.foldl (lexer.spec_better rest) none

/-- What the specification says `tokenize` does, with fuel: at each position the token of
the description of the smallest type id among those that match there is emitted and the
position advances past the matched text (the call ends with the exception of the
converter when it raises); when no description matches, the tokens collected so far are
returned if the character is NUL and `unexpected_characters` is thrown otherwise; at the
end of the input the tokens are returned. This definition follows the words of the
specification; `lexer.tokenize` is the function of the source. -/
def lexer.spec_tokenize {T X : Type} (descs : List (lexer._token_description_impl T X)) :
    Nat → List Char → List (lexer.basic_token T) → Option (lexer.Result T X)
  | 0, _, _ => none
  | _ + 1, [], ret => some (lexer.Result.returned ret)
  | fuel + 1, c :: cs, ret =>
    match lexer.spec_lowest_match descs (c :: cs) with
    | none =>
      if c = Char.ofNat 0 then some (lexer.Result.returned ret)
      else some lexer.Result.unexpected_characters
    | some (d, str) =>
      match d._converter str with
      | Except.error x => some (lexer.Result.converter_raised x)
      | Except.ok v =>
        lexer.spec_tokenize descs fuel ((c :: cs).drop str.length)
          (ret ++ [lexer.token_of d._type v str])

/-- The choice of the specification after the descriptions `seen`: nothing when none of
them matches, else one of them that matches and whose type id is smallest among those that
match. -/
def lexer.spec_chosen {T X : Type} (rest : List Char)
    (seen : List (lexer._token_description_impl T X))
    (best : Option (lexer._token_description_impl T X × List Char)) : Prop :=
  (best = none → ∀ d ∈ seen, lexer.matched_text d rest = none) ∧
  ∀ b s, best = some (b, s) → b ∈ seen ∧ lexer.matched_text b rest = some s ∧
    ∀ d1 ∈ seen, ∀ s1, lexer.matched_text d1 rest = some s1 → b._type ≤ d1._type

/-! ## Lemmas -/

section lemmas

variable {V E : Type}

/-- Reading back the state just written. -/
theorem World.put_heap_get (w : World V E) (id : Nat) (s : _shared_state V E)
    (h : id < w.heap.length) : (w.put id s).heap[id]? = some s := by
  simp [World.put, h]

/-- Writing back the state that is already there changes nothing. -/
theorem World.put_self (w : World V E) (id : Nat) (s : _shared_state V E)
    (h : w.heap[id]? = some s) : w.put id s = w := by
  obtain ⟨heap, pushed, applied, internal⟩ := w
  simp only [World.put] at *
  congr
  apply List.ext_getElem?
  intro n
  by_cases hn : n = id
  · subst hn
    have hlt : n < heap.length := (List.getElem?_eq_some_iff.mp h).1
    simp [hlt, h]
  · simp [List.getElem?_set, Ne.symm hn]

/-- The lambda `sched` resolves as soon as the state of `this` has a scheduler. -/
theorem sched_of_scheduler (w : World V E) (c : Captures) (s : _shared_state V E) (ex : Nat)
    (hs : w.heap[c.this]? = some s) (hsch : s.scheduler = some ex) :
    sched w c = Except.ok (c.provided.getD ex) := by
  unfold sched
  cases hp : c.provided with
  | some p => simp
  | none => simp [hs, hsch]

/-- On a settled state with a scheduler, the loop of `operator()` pushes the thunk of every
continuation, front to back, and leaves the continuations moved from. -/
theorem fire_continuations_spec (id ex : Nat) (s : _shared_state V E) :
    ∀ (cs : List Continuation) (w : World V E),
      w.heap[id]? = some s → s.value.index ≠ 2 → s.scheduler = some ex →
      (∀ c ∈ cs, c.captures.this = id) →
      fire_continuations w id cs =
        Except.ok
          ({ w with pushed := (w.pushed ++ cs.map (pushed_by ex)) },
            cs.map Continuation.moved_from) := by
  intro cs
  induction cs with
  | nil => intro w _ _ _ _; simp [fire_continuations]
  | cons c rest ih =>
    intro w hs hv hsch hthis
    have hc : c.captures.this = id := hthis c (List.mem_cons_self _ _)
    have hrest : ∀ c ∈ rest, c.captures.this = id :=
      fun c' hc' => hthis c' (List.mem_cons_of_mem _ hc')
    have hsched : sched w c.captures = Except.ok (c.captures.provided.getD ex) :=
      sched_of_scheduler w c.captures s ex (by rw [hc]; exact hs) hsch
    have ih1 := ih (push w (c.captures.provided.getD ex) c.thunk) (by simpa [push] using hs)
      hv hsch hrest
    simp only [push] at ih1
    simp [fire_continuations, hs, hv, Continuation.call, hsched, ih1, push, pushed_by]

/-- The effect of `operator()(ex)` in closed form, given the evaluation of the deferred
function. -/
theorem packaged_task_call_with_spec
    (ev : World V E → Nat → Function V E → Except Abort (World V E × Completion (Payload V) E))
    (w w1 : World V E) (id ex : Nat) (s s1 : _shared_state V E)
    (fn : Function V E) (c : Completion (Payload V) E)
    (hs : w.heap[id]? = some s) (hfn : s.function = some fn)
    (he : ev (w.put id { s with scheduler := some ex }) id fn = Except.ok (w1, c))
    (hs1 : w1.heap[id]? = some s1) (hsch : s1.scheduler = some ex)
    (hthis : ∀ k ∈ fired s1 c, k.captures.this = id) :
    packaged_task_call_with ev w (some id) (some ex) =
      Except.ok
        { heap := w1.heap.set id (settled s1 c)
          pushed := (w1.pushed ++ (fired s1 c).map (pushed_by ex))
          applied := w1.applied
          internal := w1.internal } := by
  have hlt : id < w1.heap.length := (List.getElem?_eq_some_iff.mp hs1).1
  have hcs : ∀ k ∈ s1.continuations, k.captures.this = id :=
    fun k hk => hthis k (by simp [fired, hk])
  obtain ⟨heap1, pushed1, applied1, internal1⟩ := w1
  simp only at hs1 hlt
  simp only [World.put, hfn] at he
  simp only [packaged_task_call_with, hs, hfn, World.put, he, packaged_task_try, hs1]
  cases c with
  | normal r =>
    simp only [World.put, List.getElem?_set_self, hlt, List.set_set]
    rw [fire_continuations_spec id ex _ s1.continuations _ (List.getElem?_set_self hlt)
      (by simp [Variant.index]) (by exact hsch) hcs]
    simp [hlt, settled, fired]
  | throw e =>
    cases hexc : s1.exceptional_continuations with
    | none =>
      simp only [World.put, List.getElem?_set_self, hlt, List.set_set]
      rw [fire_continuations_spec id ex _ s1.continuations _ (List.getElem?_set_self hlt)
        (by simp [Variant.index]) (by exact hsch) hcs]
      simp [hlt, hexc, settled, fired]
    | some k =>
      have hk : k.captures.this = id := hthis k (by simp [fired, hexc])
      have hsched : ∀ (w2 : World V E) (s2 : _shared_state V E), w2.heap[id]? = some s2 →
          s2.scheduler = some ex → sched w2 k.captures = Except.ok (k.captures.provided.getD ex) :=
        fun w2 s2 h1 h2 => sched_of_scheduler w2 k.captures s2 ex (by rw [hk]; exact h1) h2
      simp only [Continuation.call, World.put]
      rw [hsched _ _ (List.getElem?_set_self hlt) (by exact hsch)]
      simp only [push, World.put, List.getElem?_set_self, hlt, List.set_set]
      rw [fire_continuations_spec id ex _ s1.continuations _ (List.getElem?_set_self hlt)
        (by simp [Variant.index]) (by exact hsch) hcs]
      simp [hlt, hexc, settled, fired, pushed_by]

/-- The effect of `operator()(ex)` in closed form, for the full evaluator. -/
theorem packaged_task_call_spec (w w1 : World V E) (id ex : Nat) (s s1 : _shared_state V E)
    (fn : Function V E) (c : Completion (Payload V) E)
    (hs : w.heap[id]? = some s) (hfn : s.function = some fn)
    (he : eval_function (w.put id { s with scheduler := some ex }) id fn = Except.ok (w1, c))
    (hs1 : w1.heap[id]? = some s1) (hsch : s1.scheduler = some ex)
    (hthis : ∀ k ∈ fired s1 c, k.captures.this = id) :
    packaged_task_call w (some id) (some ex) =
      Except.ok
        { heap := w1.heap.set id (settled s1 c)
          pushed := (w1.pushed ++ (fired s1 c).map (pushed_by ex))
          applied := w1.applied
          internal := w1.internal } :=
  packaged_task_call_with_spec eval_function w w1 id ex s s1 fn c hs hfn he hs1 hsch hthis

/-- One `then` on a pending state queues one continuation and allocates the derived state. -/
theorem then_pending (w : World V E) (id : Nat) (s : _shared_state V E) (a : ThenArgs V E)
    (hs : w.heap[id]? = some s) (hv : s.value = Variant.none) (hfn : s.function.isSome = true)
    (hk : s.kind ≠ TypeKind.noncopyable ∨ s.continuations = []) :
    ∃ w1 s1, future_then w (some id) a.sched a.kind a.f =
        Except.ok (w1, Completion.normal (some w.heap.length)) ∧
      w1.heap[id]? = some s1 ∧ w1.heap.length = w.heap.length + 1 ∧
      w1.pushed = w.pushed ∧ w1.applied = w.applied ∧
      s1.value = Variant.none ∧ s1.function = s.function ∧ s1.kind = s.kind ∧
      s1.exceptional_continuations = s.exceptional_continuations ∧
      s1.scheduler = s.scheduler ∧
      s1.continuations = s.continuations ++
        [then_continuation id a w.heap.length] := by
  have hlt : id < w.heap.length := (List.getElem?_eq_some_iff.mp hs).1
  obtain ⟨heap, pushed, applied, internal⟩ := w
  simp only at hs hlt
  rcases hk with hk | hk
  · simp [future_then, _shared_state_then, _shared_state_then_with, hs, _is_valid, hfn, _add_count, hv, _add_continuation,
      hk, package, World.put, hlt, List.getElem?_append_left, then_continuation]
  · by_cases hk2 : s.kind = TypeKind.noncopyable <;>
      simp [future_then, _shared_state_then, _shared_state_then_with, hs, _is_valid, hfn, _add_count, hv,
        _add_continuation, hk, hk2, package, World.put, hlt, List.getElem?_append_left,
        then_continuation]

/-- A sequence of `then` calls on a pending state of copyable or `void` value type queues
the continuations in call order. -/
theorem then_all_pending (id : Nat) :
    ∀ (args : List (ThenArgs V E)) (w : World V E) (s : _shared_state V E),
      w.heap[id]? = some s → s.value = Variant.none → s.function.isSome = true →
      s.kind ≠ TypeKind.noncopyable →
      ∃ w1 s1, then_all w (some id) args =
          Except.ok (w1, Completion.normal ((List.range' w.heap.length args.length).map some)) ∧
        w1.heap[id]? = some s1 ∧ w1.heap.length = w.heap.length + args.length ∧
        w1.pushed = w.pushed ∧ w1.applied = w.applied ∧
        s1.value = Variant.none ∧ s1.function = s.function ∧ s1.kind = s.kind ∧
        s1.exceptional_continuations = s.exceptional_continuations ∧
        s1.scheduler = s.scheduler ∧
        s1.continuations = s.continuations ++
          List.zipWith (then_continuation id) args
            (List.range' w.heap.length args.length) := by
  intro args
  induction args with
  | nil =>
    intro w s hs hv hfn hk
    exact ⟨w, s, by simp [then_all], hs, by simp, rfl, rfl, hv, rfl, rfl, rfl, rfl, by simp⟩
  | cons a rest ih =>
    intro w s hs hv hfn hk
    obtain ⟨w1, s1, h1, hs1, hlen1, hp1, ha1, hv1, hf1, hk1, he1, hsch1, hc1⟩ :=
      then_pending w id s a hs hv hfn (Or.inl hk)
    obtain ⟨w2, s2, h2, hs2, hlen2, hp2, ha2, hv2, hf2, hk2, he2, hsch2, hc2⟩ :=
      ih w1 s1 hs1 hv1 (by rw [hf1]; exact hfn) (by rw [hk1]; exact hk)
    refine ⟨w2, s2, ?_, hs2, ?_, ?_, ?_, hv2, ?_, ?_, ?_, ?_, ?_⟩
    · simp [then_all, h1, h2, hlen1, List.range'_succ]
    · rw [hlen2, hlen1]; simp; omega
    · rw [hp2, hp1]
    · rw [ha2, ha1]
    · rw [hf2, hf1]
    · rw [hk2, hk1]
    · rw [he2, he1]
    · rw [hsch2, hsch1]
    · rw [hc2, hc1, hlen1]
      simp [List.range'_succ]

/-- Writing at one address leaves the other addresses alone. -/
theorem World.put_heap_get_ne (w : World V E) (id j : Nat) (s : _shared_state V E) (h : id ≠ j) :
    (w.put id s).heap[j]? = w.heap[j]? := by
  simp [World.put, List.getElem?_set, h]

/-- The value returned by `try_get` on a `Value` slot. -/
theorem try_get_returns (s : _shared_state V E) (v : Payload V) (hv : s.value = Variant.value v) :
    s.try_get.2 = Completion.normal (some v) := by
  by_cases hk : s.kind = TypeKind.copyable <;> by_cases hc : s.shared_count = 1 <;>
    simp [_shared_state.try_get, _move_or_copy, hv, hk, hc, Variant.index]

/-- With nothing pushed the executors have nothing to run. -/
theorem run_all_idle (fuel : Nat) (w : World V E) (h : w.pushed = []) :
    run_all fuel w = Except.ok w := by
  cases fuel <;> simp [run_all, h]

/-- The member `_get` on a `Value` slot. -/
theorem _get_value (s : _shared_state V E) (v : Payload V) (hv : s.value = Variant.value v) :
    s._get = Except.ok (after_get s, Completion.normal v) := by
  obtain ⟨kind, value, pc, sc, sch, cs, ec, fn⟩ := s
  simp only at hv
  subst hv
  by_cases hk : kind = TypeKind.copyable <;> by_cases hc : sc = 1 <;>
    simp [_shared_state._get, _move_or_copy, hk, hc, Variant.index, after_get]

/-- The body of a `then` closure on an upstream `Value`: `f` is applied to the value. -/
theorem eval_then_body_value (w : World V E) (d this : Nat) (su : _shared_state V E)
    (v : Payload V) (f : Payload V → Except (Exn E) (Payload V))
    (hu : w.heap[this]? = some su) (hk : su.kind ≠ TypeKind.void)
    (hv : su.value = Variant.value v) :
    eval_function w d (Function.then_body this f) =
      Except.ok ({ w.put this (after_get su) with applied := w.applied ++ [d] },
        Completion.ofExcept (f v)) := by
  simp [eval_function, eval_inner, hu, hk, _get_value su v hv]

/-- The body of a `then` closure on an upstream `Failure`: the error is rethrown and `f`
is not applied. -/
theorem eval_then_body_exception (w : World V E) (d this : Nat) (su : _shared_state V E)
    (e : Exn E) (f : Payload V → Except (Exn E) (Payload V))
    (hu : w.heap[this]? = some su) (hv : su.value = Variant.exception e) :
    eval_function w d (Function.then_body this f) = Except.ok (w, Completion.throw e) := by
  by_cases hk : su.kind = TypeKind.void <;>
    simp [eval_function, eval_inner, hu, hk, _shared_state._get, _shared_state._get_void, hv, Variant.index,
      World.put_self w this su hu]

/-- Dropping a producer of a state whose function is cleared only lowers the count. -/
theorem remove_promise_settled (s : _shared_state V E) (h : s.function = none) :
    _remove_promise s = { s with promise_count := size_dec s.promise_count } := by
  simp [_remove_promise, _is_pending, h]

/-- Running the thunk of a `then` continuation, on an upstream `Failure` and on an upstream
`Value`. -/
theorem run_thunk_then (w : World V E) (t : Thunk) (d this ex : Nat)
    (sd su : _shared_state V E) (f : Payload V → Except (Exn E) (Payload V))
    (htask : t.captures.task = some d) (hsched : sched w t.captures = Except.ok ex)
    (hd : w.heap[d]? = some sd) (hfn : sd.function = some (Function.then_body this f))
    (hcs : ∀ k ∈ sd.continuations, k.captures.this = d)
    (hec : ∀ k ∈ sd.exceptional_continuations, k.captures.this = d)
    (hu : w.heap[this]? = some su) (hne : this ≠ d) :
    (∀ e, su.value = Variant.exception e →
      ∃ w1 sd1, run_thunk w t = Except.ok w1 ∧ w1.heap[d]? = some sd1 ∧
        sd1.value = Variant.exception e ∧ sd1.function = none ∧ sd1.kind = sd.kind ∧
        sd1.shared_count = sd.shared_count ∧
        w1.heap[this]? = some su ∧ w1.applied = w.applied ∧
        w1.pushed = w.pushed ++
          (sd.exceptional_continuations.toList ++ sd.continuations).map (pushed_by ex)) ∧
    (∀ v r, su.kind ≠ TypeKind.void → su.value = Variant.value v → f v = Except.ok r →
      ∃ w1 sd1, run_thunk w t = Except.ok w1 ∧ w1.heap[d]? = some sd1 ∧
        sd1.value = Variant.value (if sd.kind = TypeKind.void then Payload.ready else r) ∧
        sd1.function = none ∧ sd1.kind = sd.kind ∧ sd1.shared_count = sd.shared_count ∧
        w1.heap[this]? = some (after_get su) ∧ w1.applied = w.applied ++ [d] ∧
        w1.pushed = w.pushed ++ sd.continuations.map (pushed_by ex)) := by
  have hdlt : d < w.heap.length := (List.getElem?_eq_some_iff.mp hd).1
  have hult : this < w.heap.length := (List.getElem?_eq_some_iff.mp hu).1
  have hu0 : (w.put d { sd with scheduler := some ex }).heap[this]? = some su := by
    rw [World.put_heap_get_ne _ _ _ _ (Ne.symm hne)]; exact hu
  have hd0 : (w.put d { sd with scheduler := some ex }).heap[d]? =
      some { sd with scheduler := some ex } := World.put_heap_get _ _ _ hdlt
  constructor
  · intro e hv
    have he := eval_then_body_exception (w.put d { sd with scheduler := some ex }) d this su e f
      hu0 hv
    have hcall := packaged_task_call_spec w _ d ex sd _ _ _ hd hfn he hd0 rfl
      (by intro k hk
          simp only [fired, List.mem_append, Option.mem_toList] at hk
          rcases hk with hk | hk
          · exact hec k hk
          · exact hcs k hk)
    simp only [run_thunk, hsched, htask, hcall, packaged_task_destroy]
    simp [World.put, hdlt, remove_promise_settled, settled, fired, List.getElem?_set, hne, hu,
      Ne.symm hne]
  · intro v r hk hv hf
    have he := eval_then_body_value (w.put d { sd with scheduler := some ex }) d this su v f
      hu0 hk hv
    rw [hf] at he
    have hd1 : ({ (w.put d { sd with scheduler := some ex }).put this (after_get su) with
        applied := (w.put d { sd with scheduler := some ex }).applied ++ [d] } : World V E).heap[d]? =
        some { sd with scheduler := some ex } := by
      simp [World.put, List.getElem?_set, hne, hdlt]
    have hcall := packaged_task_call_spec w _ d ex sd _ _ _ hd hfn he hd1 rfl
      (by intro k hk
          simp only [fired, Completion.ofExcept, List.nil_append] at hk
          exact hcs k hk)
    simp only [run_thunk, hsched, htask, hcall, packaged_task_destroy]
    simp [World.put, hdlt, hult, remove_promise_settled, settled, fired, List.getElem?_set, hne,
      Ne.symm hne, Completion.ofExcept]

/-- One `then` on a `Value` slot pushes the thunk at once and allocates the derived state. -/
theorem then_settled (w : World V E) (id ex : Nat) (s : _shared_state V E) (a : ThenArgs V E)
    (v : Payload V) (hs : w.heap[id]? = some s) (hv : s.value = Variant.value v)
    (hex : (a.sched <|> s.scheduler) = some ex) :
    ∃ w1 sd, future_then w (some id) a.sched a.kind a.f =
        Except.ok (w1, Completion.normal (some w.heap.length)) ∧
      w1.heap[id]? = some (_add_count s) ∧ w1.heap[w.heap.length]? = some sd ∧
      sd.function = some (Function.then_body id a.f) ∧ sd.kind = a.kind ∧
      sd.value = Variant.none ∧ sd.continuations = [] ∧ sd.exceptional_continuations = none ∧
      sd.shared_count = 1 ∧ sd.promise_count = 1 ∧
      w1.pushed = w.pushed ++ [(ex, (then_continuation id a w.heap.length).thunk)] ∧
      w1.applied = w.applied ∧ w1.heap.length = w.heap.length + 1 := by
  have hlt : id < w.heap.length := (List.getElem?_eq_some_iff.mp hs).1
  obtain ⟨heap, pushed, applied, internal⟩ := w
  obtain ⟨kind, value, pc, sc, sch, cs, ec, fn⟩ := s
  simp only at hs hlt hv hex
  subst hv
  generalize hs0 : _shared_state.mk kind (Variant.value v) pc sc sch cs ec fn = s at hs
  have hval : s.value = Variant.value v := by rw [← hs0]
  have hsch0 : s.scheduler = sch := by rw [← hs0]
  have hsched : ∀ (w2 : World V E) (task : Option Nat), w2.heap[id]? = some (_add_count s) →
      sched w2 { this := id, provided := a.sched, task := task, state := some id } =
        Except.ok ex := by
    intro w2 task h2
    cases hp : a.sched with
    | some p => simp [sched, hp] at hex ⊢; exact hex
    | none => simp [sched, hp, h2, _add_count, hsch0] at hex ⊢; simp [hex]
  simp only [future_then, _shared_state_then, _shared_state_then_with, hs, _is_valid, hval, Variant.index, package, World.put,
    List.length_set, _add_count]
  simp only [_add_count] at hsched
  rw [hsched _ _ (by simp [hlt, List.getElem?_append_left]; exact hval.symm)]
  simp [push, hlt, List.getElem?_append_left, _add_count, _add_promise, _shared_state.init,
    size_inc, then_continuation, Continuation.thunk, hval]

/-- The executors run the single pushed thunk of a `then` on a `Value` slot. -/
theorem ready_then_run (w : World V E) (n d ex : Nat) (su sd : _shared_state V E)
    (f : Payload V → Except (Exn E) (Payload V)) (v r : Payload V) (t : Thunk)
    (hu : w.heap[n]? = some su) (hd : w.heap[d]? = some sd) (hne : n ≠ d)
    (hk : su.kind ≠ TypeKind.void) (hv : su.value = Variant.value v)
    (hfn : sd.function = some (Function.then_body n f)) (hkd : sd.kind ≠ TypeKind.void)
    (hcs : sd.continuations = []) (hec : sd.exceptional_continuations = none)
    (ht : t.captures.task = some d) (htp : t.captures.provided = some ex)
    (hq : w.pushed = [(ex, t)]) (hf : f v = Except.ok r) :
    ∃ w2 w3 s, (∀ fuel, run_all (fuel + 1) w = Except.ok w2) ∧ w2.pushed = [] ∧
      w2.heap[d]? = some s ∧ s.value = Variant.value r ∧ s.function = none ∧
      w2.applied = w.applied ++ [d] ∧
      future_try_get w2 (some d) = Except.ok (w3, Completion.normal (some r)) := by
  have hsched : sched { w with pushed := [] } t.captures = Except.ok ex := by
    simp [sched, htp]
  obtain ⟨w2, sd1, hrun, hd1, hv1, hf1, hk1, hsc1, -, happ, hpush⟩ :=
    (run_thunk_then { w with pushed := [] } t d n ex sd su f ht hsched hd hfn
      (by simp [hcs]) (by simp [hec]) hu hne).2 v r hk hv hf
  simp only [hcs, List.map_nil, List.append_nil] at hpush
  simp only [hkd, if_false] at hv1
  refine ⟨w2, w2.put d sd1.try_get.1, sd1, ?_, hpush, hd1, hv1, hf1, happ, ?_⟩
  · intro fuel
    simp [run_all, run_next, hq, hrun, run_all_idle fuel w2 hpush]
  · simp [future_try_get, hd1, hk1, hkd, try_get_returns sd1 r hv1]

/-- Every continuation queued by `then` on a state captures that state as `this`. -/
theorem then_continuation_this (id : Nat) :
    ∀ (args : List (ThenArgs V E)) (l : List Nat),
      ∀ c ∈ List.zipWith (then_continuation id) args l, c.captures.this = id := by
  intro args
  induction args with
  | nil => intro l c hc; simp at hc
  | cons a rest ih =>
    intro l c hc
    cases l with
    | nil => simp at hc
    | cons n l =>
      simp only [List.zipWith_cons_cons, List.mem_cons] at hc
      rcases hc with hc | hc
      · rw [hc]; rfl
      · exact ih l c hc

/-- The thunks pushed by the continuations of a sequence of `then` calls hold the derived
tasks in call order. -/
theorem then_continuation_tasks (id ex : Nat) :
    ∀ (args : List (ThenArgs V E)) (l : List Nat), l.length = args.length →
      (List.zipWith (then_continuation id) args l).map
        (fun c => (pushed_by ex c).2.captures.task) = l.map some := by
  intro args
  induction args with
  | nil => intro l hl; simp at hl; simp [hl]
  | cons a rest ih =>
    intro l hl
    cases l with
    | nil => simp at hl
    | cons n l =>
      simp only [List.length_cons, Nat.add_right_cancel_iff] at hl
      have ih1 := ih l hl
      simp only [pushed_by, Continuation.thunk] at ih1
      simp [ih1, then_continuation, pushed_by, Continuation.thunk]

/-- The effect of `operator()(ex)` on a state whose function is a user callable. -/
theorem packaged_task_call_user (w : World V E) (id ex : Nat) (s : _shared_state V E)
    (r : Except (Exn E) (Payload V))
    (hs : w.heap[id]? = some s) (hfn : s.function = some (Function.user r))
    (hthis : ∀ k ∈ fired s (Completion.ofExcept r), k.captures.this = id) :
    packaged_task_call w (some id) (some ex) =
      Except.ok
        { heap := w.heap.set id
            (settled { s with scheduler := some ex } (Completion.ofExcept r))
          pushed := (w.pushed ++ (fired s (Completion.ofExcept r)).map (pushed_by ex))
          applied := (w.applied ++ [id])
          internal := w.internal } := by
  have hlt : id < w.heap.length := (List.getElem?_eq_some_iff.mp hs).1
  have he : eval_function (w.put id { s with scheduler := some ex }) id (Function.user r) =
      Except.ok ({ w.put id { s with scheduler := some ex } with applied := w.applied ++ [id] },
        Completion.ofExcept r) := by
    simp [eval_function, eval_inner, World.put]
  have h := packaged_task_call_spec w _ id ex s { s with scheduler := some ex } _ _ hs hfn he
    (by simp [World.put, hlt]) rfl (by simpa [fired] using hthis)
  rw [h]
  simp [World.put, fired]

/-- One `on_error` on a pending state without a failure continuation records one and
allocates the derived state. -/
theorem on_error_pending (w : World V E) (id : Nat) (s : _shared_state V E)
    (p : Option Nat) (k : TypeKind) (h : Exn E → Except (Exn E) (Payload V))
    (hs : w.heap[id]? = some s) (hv : s.value = Variant.none) (hfn : s.function.isSome = true)
    (hec : s.exceptional_continuations = none) :
    ∃ w1 s1 sd, future_on_error w (some id) p k h =
        Except.ok (w1, Completion.normal (some w.heap.length)) ∧
      w1.heap[id]? = some s1 ∧ w1.heap.length = w.heap.length + 1 ∧
      w1.pushed = w.pushed ∧ w1.applied = w.applied ∧ w1.internal = w.internal ∧
      s1.value = Variant.none ∧ s1.function = s.function ∧ s1.kind = s.kind ∧
      s1.continuations = s.continuations ∧ s1.scheduler = s.scheduler ∧
      s1.promise_count = s.promise_count ∧
      s1.exceptional_continuations = some { captures :=
        { this := id, provided := p, task := some w.heap.length, state := some id } } ∧
      w1.heap[w.heap.length]? = some sd ∧ sd.value = Variant.none ∧
      sd.function = some (Function.on_error_body id h) ∧ sd.kind = k ∧
      sd.continuations = [] ∧ sd.exceptional_continuations = none ∧ sd.promise_count = 1 := by
  have hlt : id < w.heap.length := (List.getElem?_eq_some_iff.mp hs).1
  obtain ⟨heap, pushed, applied, internal⟩ := w
  simp only at hs hlt
  simp [future_on_error, _shared_state_on_error, _shared_state_on_error_with, hs, _is_valid, hfn,
    _add_count, hv, _add_exceptional_continuation, hec, package, World.put, hlt,
    List.getElem?_append_left, _add_promise, _shared_state.init, size_inc]

/-- A further `on_error` on a pending state that already has a failure continuation throws
and leaves the state as it was, the consumer count apart. -/
theorem on_error_pending_occupied (w : World V E) (id : Nat) (s : _shared_state V E)
    (p : Option Nat) (k : TypeKind) (h : Exn E → Except (Exn E) (Payload V)) (c : Continuation)
    (hs : w.heap[id]? = some s) (hv : s.value = Variant.none) (hfn : s.function.isSome = true)
    (hec : s.exceptional_continuations = some c) :
    ∃ w1 s1, future_on_error w (some id) p k h =
        Except.ok (w1, Completion.throw Exn.multiple_exceptional_continuations) ∧
      w1.heap[id]? = some s1 ∧ w1.pushed = w.pushed ∧ w1.applied = w.applied ∧
      s1.value = Variant.none ∧ s1.function = s.function ∧ s1.kind = s.kind ∧
      s1.continuations = s.continuations ∧ s1.exceptional_continuations = some c := by
  have hlt : id < w.heap.length := (List.getElem?_eq_some_iff.mp hs).1
  obtain ⟨heap, pushed, applied, internal⟩ := w
  simp only at hs hlt
  simp [future_on_error, _shared_state_on_error, _shared_state_on_error_with, hs, _is_valid, hfn,
    _add_count, hv, _add_exceptional_continuation, hec, package, World.put, hlt,
    List.getElem?_append_left, packaged_task_destroy, future_destroy, List.getElem?_set]

theorem size_inc_zero : size_inc 0 = 1 := rfl

theorem size_dec_one : size_dec 1 = 0 := rfl

/-- The program state that `package` returns, in closed form. -/
theorem package_world (w : World V E) (k : TypeKind) (f : Function V E) :
    (package w k f).1 =
      { w with heap := w.heap ++
          [{ kind := k, value := Variant.none, promise_count := 1, shared_count := 1,
             scheduler := none, continuations := [], exceptional_continuations := none,
             function := some f }] } := by
  simp [package, _add_count, _add_promise, _shared_state.init, size_inc_zero]

/-- Dropping the only producer of a pending state breaks the promise: the function is
dropped and the slot holds `broken_promise`; nothing else changes. -/
theorem remove_promise_pending (s : _shared_state V E) (hv : s.value = Variant.none)
    (hfn : s.function.isSome = true) (hpc : s.promise_count = 1) :
    _remove_promise s =
      { s with promise_count := 0, function := none,
               value := Variant.exception Exn.broken_promise } := by
  simp [_remove_promise, hpc, size_dec_one, _is_pending, hv, hfn, Variant.index]

/-- A further `then` on a pending state of non-copyable value type that already has a
continuation throws and leaves the state as it was, the consumer count apart. -/
theorem then_pending_occupied (w : World V E) (id : Nat) (s : _shared_state V E)
    (a : ThenArgs V E) (c : Continuation)
    (hs : w.heap[id]? = some s) (hv : s.value = Variant.none) (hfn : s.function.isSome = true)
    (hk : s.kind = TypeKind.noncopyable) (hcs : s.continuations = [c]) :
    ∃ w1 s1, future_then w (some id) a.sched a.kind a.f =
        Except.ok (w1, Completion.throw Exn.multiple_noncopyable_continuations) ∧
      w1.heap[id]? = some s1 ∧ w1.pushed = w.pushed ∧ w1.applied = w.applied ∧
      s1.value = Variant.none ∧ s1.function = s.function ∧ s1.kind = s.kind ∧
      s1.continuations = [c] ∧
      s1.exceptional_continuations = s.exceptional_continuations := by
  have hlt : id < w.heap.length := (List.getElem?_eq_some_iff.mp hs).1
  obtain ⟨heap, pushed, applied, internal⟩ := w
  simp only at hs hlt
  simp [future_then, _shared_state_then, _shared_state_then_with, hs, _is_valid, hfn,
    _add_count, hv, _add_continuation, hk, hcs, package, World.put, hlt,
    List.getElem?_append_left, packaged_task_destroy, future_destroy, List.getElem?_set]

/-- The lambda `sched`: the provided executor, else the scheduler, else the assertion. -/
theorem sched_eq (w : World V E) (c : Captures) (s : _shared_state V E)
    (hs : w.heap[c.this]? = some s) :
    sched w c = (match c.provided <|> s.scheduler with
      | some ex => Except.ok ex
      | none => Except.error Abort.no_executor) := by
  unfold sched
  cases hp : c.provided with
  | some p => simp
  | none => cases hsch : s.scheduler <;> simp [hs, hsch]

/-- On a settled state the loop of `operator()` pushes the thunk of every continuation
that finds an executor, front to back. -/
theorem fire_continuations_spec_opt (id : Nat) (sch : Option Nat) (s : _shared_state V E) :
    ∀ (cs : List Continuation) (w : World V E),
      w.heap[id]? = some s → s.value.index ≠ 2 → s.scheduler = sch →
      (∀ c ∈ cs, c.captures.this = id) →
      (∀ c ∈ cs, (c.captures.provided <|> sch).isSome = true) →
      fire_continuations w id cs =
        Except.ok
          ({ w with pushed := (w.pushed ++ cs.map (pushed_opt sch)) },
            cs.map Continuation.moved_from) := by
  intro cs
  induction cs with
  | nil => intro w _ _ _ _ _; simp [fire_continuations]
  | cons c rest ih =>
    intro w hs hv hsch hthis hres
    have hc : c.captures.this = id := hthis c (List.mem_cons_self _ _)
    have hrest : ∀ c ∈ rest, c.captures.this = id :=
      fun c' hc' => hthis c' (List.mem_cons_of_mem _ hc')
    have hres1 : ∀ c ∈ rest, (c.captures.provided <|> sch).isSome = true :=
      fun c' hc' => hres c' (List.mem_cons_of_mem _ hc')
    have hcr := hres c (List.mem_cons_self _ _)
    obtain ⟨ex, hex⟩ := Option.isSome_iff_exists.mp hcr
    have hsched : sched w c.captures = Except.ok ex := by
      rw [sched_eq w c.captures s (by rw [hc]; exact hs), hsch, hex]
    have ih1 := ih (push w ex c.thunk) (by simpa [push] using hs) hv hsch hrest hres1
    simp only [push] at ih1
    simp [fire_continuations, hs, hv, Continuation.call, hsched, ih1, push, pushed_opt, hex]

/-- The effect of `operator()(sch)` in closed form, with or without an executor, when
every fired continuation finds one. -/
theorem packaged_task_call_with_spec_opt
    (ev : World V E → Nat → Function V E → Except Abort (World V E × Completion (Payload V) E))
    (w w1 : World V E) (id : Nat) (sch : Option Nat) (s s1 : _shared_state V E)
    (fn : Function V E) (c : Completion (Payload V) E)
    (hs : w.heap[id]? = some s) (hfn : s.function = some fn)
    (he : ev (w.put id { s with scheduler := sch }) id fn = Except.ok (w1, c))
    (hs1 : w1.heap[id]? = some s1) (hsch : s1.scheduler = sch)
    (hthis : ∀ k ∈ fired s1 c, k.captures.this = id)
    (hres : ∀ k ∈ fired s1 c, (k.captures.provided <|> sch).isSome = true) :
    packaged_task_call_with ev w (some id) sch =
      Except.ok
        { heap := w1.heap.set id (settled s1 c)
          pushed := (w1.pushed ++ (fired s1 c).map (pushed_opt sch))
          applied := w1.applied
          internal := w1.internal } := by
  have hlt : id < w1.heap.length := (List.getElem?_eq_some_iff.mp hs1).1
  have hcs : ∀ k ∈ s1.continuations, k.captures.this = id :=
    fun k hk => hthis k (by simp [fired, hk])
  have hcr : ∀ k ∈ s1.continuations, (k.captures.provided <|> sch).isSome = true :=
    fun k hk => hres k (by simp [fired, hk])
  obtain ⟨heap1, pushed1, applied1, internal1⟩ := w1
  simp only at hs1 hlt
  simp only [World.put, hfn] at he
  simp only [packaged_task_call_with, hs, hfn, World.put, he, packaged_task_try, hs1]
  cases c with
  | normal r =>
    simp only [World.put, List.getElem?_set_self, hlt, List.set_set]
    rw [fire_continuations_spec_opt id sch _ s1.continuations _ (List.getElem?_set_self hlt)
      (by simp [Variant.index]) (by exact hsch) hcs hcr]
    simp [hlt, settled, fired]
  | throw e =>
    cases hexc : s1.exceptional_continuations with
    | none =>
      simp only [World.put, List.getElem?_set_self, hlt, List.set_set]
      rw [fire_continuations_spec_opt id sch _ s1.continuations _ (List.getElem?_set_self hlt)
        (by simp [Variant.index]) (by exact hsch) hcs hcr]
      simp [hlt, hexc, settled, fired]
    | some k =>
      have hk : k.captures.this = id := hthis k (by simp [fired, hexc])
      have hkr := hres k (by simp [fired, hexc])
      obtain ⟨ex, hex⟩ := Option.isSome_iff_exists.mp hkr
      have hsched : ∀ (w2 : World V E) (s2 : _shared_state V E), w2.heap[id]? = some s2 →
          s2.scheduler = sch → sched w2 k.captures = Except.ok ex := by
        intro w2 s2 h1 h2
        rw [sched_eq w2 k.captures s2 (by rw [hk]; exact h1), h2, hex]
      simp only [Continuation.call, World.put]
      rw [hsched _ _ (List.getElem?_set_self hlt) (by exact hsch)]
      simp only [push, World.put, List.getElem?_set_self, hlt, List.set_set]
      rw [fire_continuations_spec_opt id sch _ s1.continuations _ (List.getElem?_set_self hlt)
        (by simp [Variant.index]) (by exact hsch) hcs hcr]
      simp [hlt, hexc, settled, fired, pushed_opt, hex]

/-- The effect of `operator()(sch)` on a state whose function is a user callable. -/
theorem packaged_task_call_user_opt (w : World V E) (id : Nat) (sch : Option Nat)
    (s : _shared_state V E) (r : Except (Exn E) (Payload V))
    (hs : w.heap[id]? = some s) (hfn : s.function = some (Function.user r))
    (hthis : ∀ k ∈ fired s (Completion.ofExcept r), k.captures.this = id)
    (hres : ∀ k ∈ fired s (Completion.ofExcept r), (k.captures.provided <|> sch).isSome = true) :
    packaged_task_call w (some id) sch =
      Except.ok
        { heap := w.heap.set id
            (settled { s with scheduler := sch } (Completion.ofExcept r))
          pushed := (w.pushed ++ (fired s (Completion.ofExcept r)).map (pushed_opt sch))
          applied := (w.applied ++ [id])
          internal := w.internal } := by
  have hlt : id < w.heap.length := (List.getElem?_eq_some_iff.mp hs).1
  have he : eval_function (w.put id { s with scheduler := sch }) id (Function.user r) =
      Except.ok ({ w.put id { s with scheduler := sch } with applied := w.applied ++ [id] },
        Completion.ofExcept r) := by
    simp [eval_function, eval_inner, World.put]
  have h := packaged_task_call_with_spec_opt eval_function w _ id sch s { s with scheduler := sch }
    _ _ hs hfn he (by simp [World.put, hlt]) rfl (by simpa [fired] using hthis)
    (by simpa [fired] using hres)
  rw [packaged_task_call, h]
  simp [World.put, fired]

/-- With no executor anywhere, calling the task stops at the assertion of `sched` as soon
as a continuation has to be fired. -/
theorem packaged_task_call_user_no_executor (w : World V E) (id : Nat)
    (s : _shared_state V E) (r : Except (Exn E) (Payload V)) (c : Continuation)
    (hs : w.heap[id]? = some s) (hfn : s.function = some (Function.user r))
    (hc : (fired s (Completion.ofExcept r)).head? = some c)
    (hthis : c.captures.this = id) (hp : c.captures.provided = none) :
    packaged_task_call w (some id) none = Except.error Abort.no_executor := by
  have hlt : id < w.heap.length := (List.getElem?_eq_some_iff.mp hs).1
  have hsched : ∀ (w2 : World V E) (s2 : _shared_state V E), w2.heap[id]? = some s2 →
      s2.scheduler = none → sched w2 c.captures = Except.error Abort.no_executor := by
    intro w2 s2 h1 h2
    rw [sched_eq w2 c.captures s2 (by rw [hthis]; exact h1), h2, hp]; rfl
  obtain ⟨heap, pushed, applied, internal⟩ := w
  simp only at hs hlt
  cases r with
  | ok v =>
    simp only [fired, Completion.ofExcept, List.nil_append] at hc
    cases hcs : s.continuations with
    | nil => simp [hcs] at hc
    | cons c0 rest =>
      simp only [hcs, List.head?_cons, Option.some.injEq] at hc
      subst hc
      simp only [packaged_task_call, packaged_task_call_with, hs, hfn, eval_function, eval_inner,
        Completion.ofExcept, packaged_task_try, World.put, List.getElem?_set_self hlt,
        List.set_set, hcs, fire_continuations, Variant.index, Continuation.call]
      rw [hsched _ _ (List.getElem?_set_self hlt) rfl]
      simp
  | error e =>
    simp only [fired, Completion.ofExcept] at hc
    cases hexc : s.exceptional_continuations with
    | some k =>
      simp only [hexc, Option.toList_some, List.singleton_append, List.head?_cons,
        Option.some.injEq] at hc
      subst hc
      simp only [packaged_task_call, packaged_task_call_with, hs, hfn, eval_function, eval_inner,
        Completion.ofExcept, packaged_task_try, World.put, List.getElem?_set_self hlt,
        List.set_set, hexc, Continuation.call]
      rw [hsched _ _ (List.getElem?_set_self hlt) rfl]
    | none =>
      simp only [hexc, Option.toList_none, List.nil_append] at hc
      cases hcs : s.continuations with
      | nil => simp [hcs] at hc
      | cons c0 rest =>
        simp only [hcs, List.head?_cons, Option.some.injEq] at hc
        subst hc
        simp only [packaged_task_call, packaged_task_call_with, hs, hfn, eval_function,
          eval_inner, Completion.ofExcept, packaged_task_try, World.put,
          List.getElem?_set_self hlt, List.set_set, hcs, hexc, fire_continuations,
          Variant.index, Continuation.call]
        rw [hsched _ _ (List.getElem?_set_self hlt) rfl]
        simp

/-- With no executor anywhere, `then` on a `Value` slot stops at the assertion of `sched`. -/
theorem then_settled_no_executor (w : World V E) (id : Nat) (s : _shared_state V E)
    (a : ThenArgs V E) (v : Payload V) (hs : w.heap[id]? = some s)
    (hv : s.value = Variant.value v) (hex : (a.sched <|> s.scheduler) = none) :
    future_then w (some id) a.sched a.kind a.f = Except.error Abort.no_executor := by
  have hlt : id < w.heap.length := (List.getElem?_eq_some_iff.mp hs).1
  have hsched : ∀ (w2 : World V E) (task : Option Nat), w2.heap[id]? = some (_add_count s) →
      sched w2 { this := id, provided := a.sched, task := task, state := some id } =
        Except.error Abort.no_executor := by
    intro w2 task h2
    rw [sched_eq w2 _ _ h2]
    simp only [_add_count]
    rw [hex]
  obtain ⟨heap, pushed, applied, internal⟩ := w
  simp only at hs hlt
  simp only [future_then, _shared_state_then, _shared_state_then_with, hs, _is_valid, hv,
    Variant.index, package, World.put, List.length_set]
  have hval : (_add_count s).value = Variant.value v := by simp [_add_count, hv]
  rw [hval]
  simp only
  rw [hsched _ _ (by simp [hlt, List.getElem?_append_left])]
  simp

theorem list_set_self {α : Type} (l : List α) (i : Nat) (a : α) (h : l[i]? = some a) :
    l.set i a = l := by
  apply List.ext_getElem?
  intro n
  by_cases hn : n = i
  · subst hn
    have hlt : n < l.length := (List.getElem?_eq_some_iff.mp h).1
    simp [hlt, h]
  · simp [List.getElem?_set, Ne.symm hn]

/-- Destroying futures only changes consumer counts. -/
theorem fold_future_destroy (fs : List (Option Nat)) :
    ∀ (w : World V E),
      (fs.foldl future_destroy w).pushed = w.pushed ∧
      (fs.foldl future_destroy w).applied = w.applied ∧
      (fs.foldl future_destroy w).internal = w.internal ∧
      (fs.foldl future_destroy w).heap.length = w.heap.length ∧
      ∀ (a : Nat) (s : _shared_state V E), w.heap[a]? = some s →
        ∃ c, (fs.foldl future_destroy w).heap[a]? = some { s with shared_count := c } := by
  induction fs with
  | nil =>
    intro w
    exact ⟨rfl, rfl, rfl, rfl, fun a s h => ⟨s.shared_count, by simpa using h⟩⟩
  | cons f rest ih =>
    intro w
    simp only [List.foldl_cons]
    obtain ⟨h1, h2, h3, h4, h5⟩ := ih (future_destroy w f)
    have hd : (future_destroy w f).pushed = w.pushed ∧ (future_destroy w f).applied = w.applied ∧
        (future_destroy w f).internal = w.internal ∧
        (future_destroy w f).heap.length = w.heap.length ∧
        ∀ (a : Nat) (s : _shared_state V E), w.heap[a]? = some s →
          ∃ c, (future_destroy w f).heap[a]? = some { s with shared_count := c } := by
      cases f with
      | none =>
        exact ⟨rfl, rfl, rfl, rfl, fun a s h => ⟨s.shared_count, by simpa [future_destroy] using h⟩⟩
      | some id =>
        cases hid : w.heap[id]? with
        | none =>
          refine ⟨by simp [future_destroy, hid], by simp [future_destroy, hid],
            by simp [future_destroy, hid], by simp [future_destroy, hid], ?_⟩
          intro a s h
          exact ⟨s.shared_count, by simpa [future_destroy, hid] using h⟩
        | some sid =>
          refine ⟨by simp [future_destroy, hid, World.put], by simp [future_destroy, hid, World.put],
            by simp [future_destroy, hid, World.put], by simp [future_destroy, hid, World.put], ?_⟩
          intro a s h
          by_cases ha : id = a
          · subst ha
            rw [hid] at h
            cases h
            exact ⟨size_dec sid.shared_count, by
              simp [future_destroy, hid, World.put, List.getElem?_set,
                (List.getElem?_eq_some_iff.mp hid).1, _remove_count]⟩
          · exact ⟨s.shared_count, by
              simpa [future_destroy, hid, World.put, List.getElem?_set, ha] using h⟩
    obtain ⟨d1, d2, d3, d4, d5⟩ := hd
    refine ⟨h1.trans d1, h2.trans d2, h3.trans d3, h4.trans d4, ?_⟩
    intro a s h
    obtain ⟨c, hc⟩ := d5 a s h
    obtain ⟨c', hc'⟩ := h5 a _ hc
    exact ⟨c', hc'⟩

/-- The decrement of the handlers when inputs are still missing. -/
theorem when_all_arrive_nonfinal (w : World V E) (ws : Nat) (st : internal_state V E)
    (hst : w.internal[ws]? = some st) (hrem : size_dec st.remaining ≠ 0) :
    when_all_arrive w ws = Except.ok
      { w with internal := w.internal.set ws { st with remaining := size_dec st.remaining } } := by
  simp [when_all_arrive, hst, hrem]

/-- Calling the task of an input settles the input and pushes the thunk of its handler. -/
theorem call_input (w : World V E) (d : Input V) (s : _shared_state V E)
    (hs : w.heap[d.id]? = some s) (hfn : s.function = some (Function.user (Except.ok d.v)))
    (hcs : s.continuations = [d.continuation]) :
    packaged_task_call w (some d.id) (some d.ex) = Except.ok
      { heap := w.heap.set d.id (settled { s with scheduler := some d.ex } (Completion.normal d.v))
        pushed := (w.pushed ++ [(d.ex, d.continuation.thunk)])
        applied := (w.applied ++ [d.id])
        internal := w.internal } := by
  have h := packaged_task_call_user_opt w d.id (some d.ex) s (Except.ok d.v) hs hfn
    (by simp [fired, Completion.ofExcept, hcs, Input.continuation])
    (by simp [fired, Completion.ofExcept, hcs, Input.continuation])
  rw [h]
  simp [fired, Completion.ofExcept, hcs, pushed_opt, Input.continuation]

theorem Input.store_futures (d : Input V) (st : internal_state V E) :
    (d.store st).futures = st.futures := by
  unfold Input.store; split <;> rfl

theorem size_dec_succ (n : Nat) (h : n + 1 < 2 ^ 64) : size_dec (n + 1) = n := by
  unfold size_dec
  omega

/-- Calling the task of an input that has not been called moves it to the queue. -/
theorem Joining.call {ws R : Nat} {ds : List (Input V)} {target : List (Payload V)}
    {l1 l2 queued done : List (Input V)} {w : World V E} (d : Input V)
    (hL : Layout R ds target) (h : Joining ws R ds target (l1 ++ d :: l2) queued done w) :
    ∃ w1, packaged_task_call w (some d.id) (some d.ex) = Except.ok w1 ∧
      Joining ws R ds target (l1 ++ l2) (queued ++ [d]) done w1 := by
  have hdt : d ∈ l1 ++ d :: l2 := by simp
  have hdds : d ∈ ds := h.todo_sub d hdt
  obtain ⟨s, hs, hk, hfn, hcs⟩ := h.todo_state d hdt
  have hslt : d.id < w.heap.length := (List.getElem?_eq_some_iff.mp hs).1
  have hnd := h.nodup
  have hnd1 : ∀ d' ∈ l1 ++ l2 ++ queued, d' ≠ d := by
    intro d' hd' he
    subst he
    simp only [List.append_assoc, List.nodup_append, List.nodup_cons, List.mem_append,
      List.mem_cons, List.Disjoint] at hnd hd'
    tauto
  have hnd2 : ((l1 ++ l2) ++ (queued ++ [d])).Nodup := by
    have hp : ((l1 ++ l2) ++ (queued ++ [d])).Perm ((l1 ++ d :: l2) ++ queued) := by
      simp only [List.append_assoc]
      refine List.Perm.append_left l1 ?_
      have : (d :: l2 ++ queued).Perm (l2 ++ queued ++ [d]) := by
        simpa using (List.perm_append_singleton d (l2 ++ queued)).symm
      simpa using this.symm
    exact hp.nodup_iff.mpr hnd
  have hne_id : ∀ d' ∈ l1 ++ l2 ++ queued, d'.id ≠ d.id := by
    intro d' hd' he
    have hd'ds : d' ∈ ds := by
      simp only [List.mem_append] at hd'
      rcases hd' with (h1 | h1) | h1
      · exact h.todo_sub d' (by simp [h1])
      · exact h.todo_sub d' (by simp [h1])
      · exact h.queued_sub d' h1
    exact hnd1 d' hd' (hL.id_inj d' hd'ds d hdds he)
  refine ⟨_, call_input w d s hs hfn hcs, ?_⟩
  refine
    { todo_sub := ?_, queued_sub := ?_, done_sub := h.done_sub, cover := ?_, nodup := hnd2,
      pushed := ?_, todo_state := ?_, queued_state := ?_, handler_state := ?_,
      result_state := ?_, internal := ?_ }
  · intro d' hd'
    apply h.todo_sub
    simp only [List.mem_append, List.mem_cons] at hd' ⊢
    tauto
  · intro d' hd'
    rcases List.mem_append.mp hd' with h1 | h1
    · exact h.queued_sub d' h1
    · simp only [List.mem_singleton] at h1
      subst h1; exact hdds
  · intro d' hd'
    have := h.cover d' hd'
    simp only [List.mem_append, List.mem_cons, List.mem_singleton] at this ⊢
    tauto
  · simp [h.pushed]
  · intro d' hd'
    obtain ⟨s', hs', rest⟩ := h.todo_state d' (by
      simp only [List.mem_append, List.mem_cons] at hd' ⊢; tauto)
    refine ⟨s', ?_, rest⟩
    have := hne_id d' (by simp only [List.mem_append] at hd' ⊢; tauto)
    simp [List.getElem?_set, Ne.symm this, hs']
  · intro d' hd'
    rcases List.mem_append.mp hd' with h1 | h1
    · obtain ⟨s', hs', rest⟩ := h.queued_state d' h1
      refine ⟨s', ?_, rest⟩
      have := hne_id d' (by simp [h1])
      simp [List.getElem?_set, Ne.symm this, hs']
    · simp only [List.mem_singleton] at h1
      rw [h1]
      refine ⟨settled { s with scheduler := some d.ex } (Completion.normal d.v),
        by simp [hslt], ?_, ?_⟩
      · simp [settled, Input.stored, hk]
      · simp [settled]
  · intro d' hd'
    obtain ⟨t, ht, rest⟩ := h.handler_state d' (by
      simp only [List.mem_append, List.mem_cons, List.mem_singleton] at hd' ⊢; tauto)
    refine ⟨t, ?_, rest⟩
    have hd'ds : d' ∈ ds := by
      simp only [List.mem_append, List.mem_singleton] at hd'
      rcases hd' with (h1 | h1) | (h1 | h1)
      · exact h.todo_sub d' (by simp [h1])
      · exact h.todo_sub d' (by simp [h1])
      · exact h.queued_sub d' h1
      · subst h1; exact hdds
    have := hL.id_ne_T d hdds d' hd'ds
    simp [List.getElem?_set, this, ht]
  · obtain ⟨r, hr, rest⟩ := h.result_state
    refine ⟨r, ?_, rest⟩
    have := hL.R_ne_id d hdds
    simp [List.getElem?_set, Ne.symm this, hr]
  · obtain ⟨st, hst, h1, h2, h3, h4, h5, h6, h7⟩ := h.internal
    refine ⟨st, hst, h1, h2, ?_, h4, h5, h6, h7⟩
    rw [h3]
    simp only [List.length_append, List.length_cons, List.length_nil]
    omega

/-- One round of the attachment loop of `when_all` on a pending input without
continuations. -/
theorem when_all_attach_cons (ws : Nat) (policy : exception_policy) (u : World V E) (j id : Nat)
    (fs : List (Option Nat)) (s : _shared_state V E) (st : internal_state V E)
    (hs : u.heap[id]? = some s) (hv : s.value = Variant.none)
    (hfn : s.function.isSome = true) (hsch : s.scheduler = none)
    (hcs : s.continuations = []) (hec : s.exceptional_continuations = none)
    (hst : u.internal[ws]? = some st) :
    when_all_attach ws policy u j (some id :: fs) =
      when_all_attach ws policy
        { heap := u.heap.set id (attached s id u.heap.length) ++
            [fresh TypeKind.void
              (if s.kind = TypeKind.void then Function.when_all_void id ws
                else Function.when_all_nonvoid id ws j),
             fresh TypeKind.void (Function.when_all_error_body id ws policy)],
          pushed := u.pushed, applied := u.applied,
          internal := u.internal.set ws
            { st with futures := st.futures ++ [some u.heap.length, some (u.heap.length + 1)] } }
        (if s.kind = TypeKind.void then j else j + 1) fs := by
  have hlt : id < u.heap.length := (List.getElem?_eq_some_iff.mp hs).1
  have hwlt : ws < u.internal.length := (List.getElem?_eq_some_iff.mp hst).1
  obtain ⟨heap, pushed, applied, internal⟩ := u
  simp only at hs hlt hst hwlt
  rw [when_all_attach]
  simp [_shared_state_then_default, _shared_state_then_with, hs, _is_valid, hfn, _add_count, hv,
    hsch, _add_continuation, hcs, package, World.put, hlt, List.getElem?_append_left,
    _add_promise, _shared_state.init, size_inc_zero, internal_push_future, hst,
    _shared_state_on_error_default, _shared_state_on_error_with, _add_exceptional_continuation, hec,
    attached, fresh, hwlt]

theorem set_append_get {α : Type} (l extra : List α) (id a : Nat) (x : α)
    (ha : a < l.length) (hne : a ≠ id) : (l.set id x ++ extra)[a]? = l[a]? := by
  rw [List.getElem?_append_left (by simpa using ha), List.getElem?_set_ne (Ne.symm hne)]

theorem set_append_get_self {α : Type} (l extra : List α) (id : Nat) (x : α)
    (hlt : id < l.length) : (l.set id x ++ extra)[id]? = some x := by
  rw [List.getElem?_append_left (by simpa using hlt), List.getElem?_set_self hlt]

theorem set_append_get_length {α : Type} (l extra : List α) (id : Nat) (x y : α) :
    (l.set id x ++ y :: extra)[l.length]? = some y := by
  rw [List.getElem?_append_right (by simp)]
  simp

theorem tuple_kind_ne_void (kinds : List TypeKind) : tuple_kind kinds ≠ TypeKind.void := by
  unfold tuple_kind
  split <;> simp

/-- The body of `when_all` around the attachment loop, when the loop returns normally. -/
theorem when_all_of_attach (w u1 : World V E) (policy : exception_policy)
    (futures : List (Option Nat)) (kinds : List TypeKind)
    (hne : futures ≠ []) (hk : when_all_kinds w futures = some kinds)
    (hatt : when_all_attach w.internal.length policy
      { heap := w.heap ++
          [fresh (tuple_kind (kinds.filter (fun k => k ≠ TypeKind.void)))
            (Function.when_all_body w.internal.length)],
        pushed := w.pushed, applied := w.applied,
        internal := w.internal ++
          [{ buffer := (kinds.filter (fun k => k ≠ TypeKind.void)).map (fun _ => none),
             remaining := futures.length % 2 ^ 64, task := some (some w.heap.length),
             futures := [], exceptions := [] }] } 0 futures =
        Except.ok (u1, Completion.normal ())) :
    when_all w policy futures =
      Except.ok (futures.foldl future_destroy u1, Completion.normal (some w.heap.length)) := by
  cases futures with
  | nil => exact absurd rfl hne
  | cons f fs =>
    have hset : ∀ (l : List (internal_state V E)) (a b : internal_state V E),
        (l ++ [a]).set l.length b = l ++ [b] := by
      intro l a b
      simp
    simp only [when_all, hk, package, _add_count, _add_promise, _shared_state.init,
      size_inc_zero, hset]
    simp only [fresh] at hatt
    rw [hatt]

/-- Dropping the task of a fresh pair breaks the promise of its state. -/
theorem package_destroy_world (w : World V E) (k : TypeKind) (fn : Function V E) :
    packaged_task_destroy (package w k fn).1 (some w.heap.length) =
      { w with heap := w.heap ++
          [_shared_state.mk k (Variant.exception Exn.broken_promise) 0 1 none [] none none] } := by
  have hrm : _remove_promise (_shared_state.mk k Variant.none 1 1 none [] none (some fn)) =
      _shared_state.mk k (Variant.exception Exn.broken_promise) 0 1 none [] none none :=
    remove_promise_pending _ rfl rfl rfl
  rw [package_world]
  simp [packaged_task_destroy, World.put, hrm]

/-- The futures of `make_ready_all`: the states are appended in order, each settled to
`Value` and without scheduler. -/
theorem make_ready_all_spec (l : List (TypeKind × Payload V)) :
    ∀ (w : World V E), ∃ states : List (_shared_state V E),
      (make_ready_all w l).1 = { w with heap := w.heap ++ states } ∧
      states.length = l.length ∧
      (make_ready_all w l).2 = (List.range' w.heap.length l.length).map some ∧
      ∀ s ∈ states, s.scheduler = none ∧ s.function = none ∧ ∃ t, s.value = Variant.value t := by
  induction l with
  | nil => intro w; exact ⟨[], by simp [make_ready_all], rfl, rfl, by simp⟩
  | cons kv rest ih =>
    intro w
    obtain ⟨k, v⟩ := kv
    by_cases hk : k = TypeKind.void
    · obtain ⟨states, h1, h2, h3, h4⟩ := ih (make_ready_future_void w).1
      refine ⟨_add_count (_shared_state.of_value TypeKind.void Payload.ready) :: states, ?_, ?_,
        ?_, ?_⟩
      · simp only [make_ready_all, hk, if_true]
        rw [h1]
        simp [make_ready_future_void]
      · simp [h2]
      · simp only [make_ready_all, hk, if_true]
        rw [h3]
        simp [make_ready_future_void, List.range']
      · intro s hs
        rcases List.mem_cons.mp hs with h | h
        · rw [h]; exact ⟨rfl, rfl, _, rfl⟩
        · exact h4 s h
    · obtain ⟨states, h1, h2, h3, h4⟩ := ih (make_ready_future w k v).1
      refine ⟨_add_count (_shared_state.of_value k v) :: states, ?_, ?_, ?_, ?_⟩
      · simp only [make_ready_all, hk, if_false]
        rw [h1]
        simp [make_ready_future]
      · simp [h2]
      · simp only [make_ready_all, hk, if_false]
        rw [h3]
        simp [make_ready_future, List.range']
      · intro s hs
        rcases List.mem_cons.mp hs with h | h
        · rw [h]; exact ⟨rfl, rfl, _, rfl⟩
        · exact h4 s h

/-- The value types of handles that all refer to a state can be read off. -/
theorem when_all_kinds_some (w : World V E) (futs : List (Option Nat))
    (h : ∀ f ∈ futs, ∃ id, f = some id ∧ id < w.heap.length) :
    ∃ kinds, when_all_kinds w futs = some kinds := by
  induction futs with
  | nil => exact ⟨[], rfl⟩
  | cons f rest ih =>
    obtain ⟨id, hf, hid⟩ := h f (List.mem_cons_self _ _)
    obtain ⟨kinds, hk⟩ := ih (fun f' hf' => h f' (List.mem_cons_of_mem _ hf'))
    subst hf
    have hs : w.heap[id]? = some w.heap[id] := List.getElem?_eq_getElem hid
    exact ⟨w.heap[id].kind :: kinds, by simp [when_all_kinds, hs, hk]⟩

/-- The attachment loop of `when_all` stops at the assertion of `sched` on a first input
that is settled to `Value` and has no scheduler. -/
theorem when_all_attach_ready_aborts (ws : Nat) (policy : exception_policy) (u : World V E)
    (j id : Nat) (fs : List (Option Nat)) (s : _shared_state V E) (t : Payload V)
    (hs : u.heap[id]? = some s) (hv : s.value = Variant.value t) (hsch : s.scheduler = none) :
    when_all_attach ws policy u j (some id :: fs) = Except.error Abort.no_executor := by
  have hlt : id < u.heap.length := (List.getElem?_eq_some_iff.mp hs).1
  obtain ⟨heap, pushed, applied, internal⟩ := u
  simp only at hs hlt
  rw [when_all_attach]
  simp [_shared_state_then_default, _shared_state_then_with, hs, _is_valid, _add_count, hv,
    hsch, package, World.put, hlt, List.getElem?_append_left, sched, Variant.index]

/-- The body of `when_all` around the attachment loop, when the loop aborts. -/
theorem when_all_of_attach_abort (w : World V E) (policy : exception_policy)
    (futures : List (Option Nat)) (kinds : List TypeKind) (a : Abort)
    (hne : futures ≠ []) (hk : when_all_kinds w futures = some kinds)
    (hatt : when_all_attach w.internal.length policy
      { heap := w.heap ++
          [fresh (tuple_kind (kinds.filter (fun k => k ≠ TypeKind.void)))
            (Function.when_all_body w.internal.length)],
        pushed := w.pushed, applied := w.applied,
        internal := w.internal ++
          [{ buffer := (kinds.filter (fun k => k ≠ TypeKind.void)).map (fun _ => none),
             remaining := futures.length % 2 ^ 64, task := some (some w.heap.length),
             futures := [], exceptions := [] }] } 0 futures =
        Except.error a) :
    when_all w policy futures = Except.error a := by
  cases futures with
  | nil => exact absurd rfl hne
  | cons f fs =>
    have hset : ∀ (l : List (internal_state V E)) (a b : internal_state V E),
        (l ++ [a]).set l.length b = l ++ [b] := by
      intro l a b
      simp
    simp only [when_all, hk, package, _add_count, _add_promise, _shared_state.init,
      size_inc_zero, hset]
    simp only [fresh] at hatt
    rw [hatt]

/-- The body of a `then` closure on an upstream `Value`, for either specialisation. -/
theorem eval_then_body_any (w : World V E) (d this : Nat) (su : _shared_state V E)
    (v : Payload V) (f : Payload V → Except (Exn E) (Payload V))
    (hu : w.heap[this]? = some su) (hv : su.value = Variant.value v) :
    eval_function w d (Function.then_body this f) =
      Except.ok ({ w.put this (after_get_any su) with applied := w.applied ++ [d] },
        Completion.ofExcept (f (then_argument su v))) := by
  by_cases hk : su.kind = TypeKind.void
  · simp [eval_function, eval_inner, hu, hk, _shared_state._get_void, hv, Variant.index,
      after_get_any, then_argument]
  · simp [eval_function, eval_inner, hu, hk, _get_value su v hv, after_get_any, then_argument]

theorem settled_value (s1 : _shared_state V E) (c : Completion (Payload V) E) :
    (settled s1 c).value = slot_of s1.kind c := by
  cases c <;> rfl

/-- Running the thunk of a `then` continuation on an upstream `Value`: the closure takes
the value with `_get`, applies `f`, and the completion of `f` settles the derived state;
no other state changes. -/
theorem run_thunk_then_value (w : World V E) (t : Thunk) (d this ex : Nat)
    (sd su : _shared_state V E) (f : Payload V → Except (Exn E) (Payload V)) (v : Payload V)
    (htask : t.captures.task = some d) (hsched : sched w t.captures = Except.ok ex)
    (hd : w.heap[d]? = some sd) (hfn : sd.function = some (Function.then_body this f))
    (hcs : ∀ k ∈ sd.continuations, k.captures.this = d)
    (hec : ∀ k ∈ sd.exceptional_continuations, k.captures.this = d)
    (hu : w.heap[this]? = some su) (hne : this ≠ d) (hv : su.value = Variant.value v) :
    ∃ w1 sd1, run_thunk w t = Except.ok w1 ∧ w1.heap[d]? = some sd1 ∧
      sd1.value = slot_of sd.kind (Completion.ofExcept (f (then_argument su v))) ∧
      sd1.function = none ∧ sd1.kind = sd.kind ∧ sd1.shared_count = sd.shared_count ∧
      w1.heap[this]? = some (after_get_any su) ∧ w1.applied = w.applied ++ [d] ∧
      w1.pushed = w.pushed ++
        (fired sd (Completion.ofExcept (f (then_argument su v)))).map (pushed_by ex) ∧
      w1.heap.length = w.heap.length ∧ w1.internal = w.internal ∧
      ∀ a, a ≠ d → a ≠ this → w1.heap[a]? = w.heap[a]? := by
  have hdlt : d < w.heap.length := (List.getElem?_eq_some_iff.mp hd).1
  have hult : this < w.heap.length := (List.getElem?_eq_some_iff.mp hu).1
  have hu0 : (w.put d { sd with scheduler := some ex }).heap[this]? = some su := by
    rw [World.put_heap_get_ne _ _ _ _ (Ne.symm hne)]; exact hu
  have he := eval_then_body_any (w.put d { sd with scheduler := some ex }) d this su v f hu0 hv
  have hd1 : ({ (w.put d { sd with scheduler := some ex }).put this (after_get_any su) with
      applied := (w.put d { sd with scheduler := some ex }).applied ++ [d] } : World V E).heap[d]? =
      some { sd with scheduler := some ex } := by
    simp [World.put, List.getElem?_set, hne, hdlt]
  have hcall := packaged_task_call_spec w _ d ex sd _ _ _ hd hfn he hd1 rfl
    (by intro k hk
        simp only [fired, List.mem_append] at hk
        rcases hk with hk | hk
        · cases hc : Completion.ofExcept (f (then_argument su v)) with
          | normal r => rw [hc] at hk; simp at hk
          | throw e =>
            rw [hc] at hk
            exact hec k (by simpa using hk)
        · exact hcs k hk)
  have hrun : run_thunk w t = Except.ok (packaged_task_destroy
      ({ heap := (((w.heap.set d { sd with scheduler := some ex }).set this (after_get_any su)).set d
            (settled { sd with scheduler := some ex }
              (Completion.ofExcept (f (then_argument su v))))),
         pushed := (w.pushed ++
            (fired { sd with scheduler := some ex }
              (Completion.ofExcept (f (then_argument su v)))).map (pushed_by ex)),
         applied := (w.applied ++ [d]), internal := w.internal } : World V E) (some d)) := by
    simp only [run_thunk, hsched, htask, hcall]
    rfl
  refine ⟨_, _remove_promise (settled { sd with scheduler := some ex }
      (Completion.ofExcept (f (then_argument su v)))), hrun, ?_, ?_, ?_, ?_, ?_, ?_, ?_, ?_, ?_,
    ?_, ?_⟩
  · simp [packaged_task_destroy, World.put, hdlt]
  · rw [remove_promise_settled _ (by simp [settled])]
    exact settled_value { sd with scheduler := some ex }
      (Completion.ofExcept (f (then_argument su v)))
  · rw [remove_promise_settled _ (by simp [settled])]
    rfl
  · rw [remove_promise_settled _ (by simp [settled])]
    rfl
  · rw [remove_promise_settled _ (by simp [settled])]
    rfl
  · simp [packaged_task_destroy, World.put, hdlt, hult, List.getElem?_set, hne, Ne.symm hne]
  · simp [packaged_task_destroy, World.put, hdlt]
  · simp [packaged_task_destroy, World.put, hdlt, fired]
  · simp [packaged_task_destroy, World.put, hdlt]
  · simp [packaged_task_destroy, World.put, hdlt]
  · intro a h1 h2
    simp [packaged_task_destroy, World.put, hdlt, List.getElem?_set, Ne.symm h1, Ne.symm h2]

/-- What `_get` changes in a state that holds a value: at most the slot, which keeps the
value or becomes Empty. -/
theorem after_get_any_spec (s : _shared_state V E) :
    ((after_get_any s).value = s.value ∨ (after_get_any s).value = Variant.none) ∧
    (after_get_any s).function = s.function ∧
    (after_get_any s).continuations = s.continuations ∧
    (after_get_any s).exceptional_continuations = s.exceptional_continuations ∧
    (after_get_any s).kind = s.kind ∧ (after_get_any s).scheduler = s.scheduler ∧
    (after_get_any s).shared_count = s.shared_count := by
  unfold after_get_any after_get
  split
  · split <;> simp
  · split <;> simp

/-- The program state after one `then` on a pending state without continuations, in
closed form. -/
theorem then_pending_world (w : World V E) (id : Nat) (s : _shared_state V E)
    (a : ThenArgs V E)
    (hs : w.heap[id]? = some s) (hv : s.value = Variant.none) (hfn : s.function.isSome = true)
    (hcs : s.continuations = []) :
    future_then w (some id) a.sched a.kind a.f = Except.ok
      ({ w with heap := (w.heap.set id
            { _add_count s with continuations := [then_continuation id a w.heap.length] } ++
            [fresh a.kind (Function.then_body id a.f)]) },
        Completion.normal (some w.heap.length)) := by
  have hlt : id < w.heap.length := (List.getElem?_eq_some_iff.mp hs).1
  obtain ⟨heap, pushed, applied, internal⟩ := w
  simp only at hs hlt
  by_cases hk : s.kind = TypeKind.noncopyable <;>
  simp [future_then, _shared_state_then, _shared_state_then_with, hs, _is_valid, hfn,
    _add_count, hv, _add_continuation, hcs, hk, package, World.put, hlt, _add_promise,
    _shared_state.init, size_inc_zero, fresh, then_continuation]

/-- The program state after one `then` on a `Value` slot, in closed form. -/
theorem then_settled_world (w : World V E) (id ex : Nat) (s : _shared_state V E)
    (a : ThenArgs V E) (v : Payload V)
    (hs : w.heap[id]? = some s) (hv : s.value = Variant.value v)
    (hex : (a.sched <|> s.scheduler) = some ex) :
    future_then w (some id) a.sched a.kind a.f = Except.ok
      ({ w with
          heap := (w.heap.set id (_add_count s) ++ [fresh a.kind (Function.then_body id a.f)])
          pushed := (w.pushed ++ [(ex, (then_continuation id a w.heap.length).thunk)]) },
        Completion.normal (some w.heap.length)) := by
  have hlt : id < w.heap.length := (List.getElem?_eq_some_iff.mp hs).1
  have hsched : ∀ (w2 : World V E) (task : Option Nat), w2.heap[id]? = some (_add_count s) →
      sched w2 { this := id, provided := a.sched, task := task, state := some id } =
        Except.ok ex := by
    intro w2 task h2
    rw [sched_eq w2 _ _ h2]
    simp only [_add_count]
    rw [hex]
  obtain ⟨heap, pushed, applied, internal⟩ := w
  simp only at hs hlt
  simp only [future_then, _shared_state_then, _shared_state_then_with, hs, _is_valid, hv,
    Variant.index, package, World.put, List.length_set]
  have hval : (_add_count s).value = Variant.value v := by simp [_add_count, hv]
  rw [hval]
  simp only
  rw [hsched _ _ (by simp [hlt, List.getElem?_append_left])]
  simp [push, _add_count, _add_promise, _shared_state.init, size_inc_zero, fresh,
    then_continuation, Continuation.thunk]

theorem size_inc_lt (n : Nat) (h : n + 1 < 2 ^ 64) : size_inc n = n + 1 := by
  unfold size_inc
  exact Nat.mod_eq_of_lt h

/-- On a copyable state with more than one consumer `_get` leaves the value in place. -/
theorem after_get_any_copyable (s : _shared_state V E) (hk : s.kind = TypeKind.copyable)
    (hc : s.shared_count ≠ 1) : after_get_any s = s := by
  simp [after_get_any, after_get, hk, hc]

/-- The executors run two pushed thunks. -/
theorem run_all_two (w w1 w2 : World V E) (p1 p2 : Nat × Thunk)
    (hq : w.pushed = [p1, p2])
    (h1 : run_thunk { w with pushed := [p2] } p1.2 = Except.ok w1) (hq1 : w1.pushed = [p2])
    (h2 : run_thunk { w1 with pushed := [] } p2.2 = Except.ok w2) (hq2 : w2.pushed = []) :
    ∀ fuel, 2 ≤ fuel → run_all fuel w = Except.ok w2 := by
  intro fuel hf
  obtain ⟨n, rfl⟩ : ∃ n, fuel = n + 2 := ⟨fuel - 2, by omega⟩
  simp only [run_all, hq, run_next, h1, hq1, h2]
  exact run_all_idle n w2 hq2

/-- Running the thunk of a `then` whose derived state is as `package` made it, on a
copyable upstream `Value(v)` with more than one consumer: `f` is applied to `v`, the
derived state is settled to the completion of `f v`, and the upstream state is unchanged. -/
theorem run_fresh_then (w : World V E) (id d ex : Nat) (su : _shared_state V E)
    (a : ThenArgs V E) (v : Payload V)
    (hu : w.heap[id]? = some su) (hk : su.kind = TypeKind.copyable)
    (hc : su.shared_count ≠ 1) (hv : su.value = Variant.value v)
    (hd : w.heap[d]? = some (fresh a.kind (Function.then_body id a.f))) (hne : id ≠ d)
    (hex : (a.sched <|> su.scheduler) = some ex) :
    ∃ w1 sd1, run_thunk w (then_continuation id a d).thunk = Except.ok w1 ∧
      w1.heap[d]? = some sd1 ∧
      sd1.value = slot_of a.kind (Completion.ofExcept (a.f v)) ∧ sd1.function = none ∧
      w1.heap[id]? = some su ∧ w1.applied = w.applied ++ [d] ∧ w1.pushed = w.pushed ∧
      w1.heap.length = w.heap.length ∧
      ∀ b, b ≠ d → b ≠ id → w1.heap[b]? = w.heap[b]? := by
  have hsched : sched w (then_continuation id a d).thunk.captures = Except.ok ex := by
    rw [sched_eq w _ su (by simpa [then_continuation, Continuation.thunk] using hu)]
    simp only [then_continuation, Continuation.thunk]
    rw [hex]
  obtain ⟨w1, sd1, hrun, h1, h2, h3, -, -, h6, h7, h8, h9, -, hframe⟩ :=
    run_thunk_then_value w (then_continuation id a d).thunk d id ex
      (fresh a.kind (Function.then_body id a.f)) su a.f v rfl hsched hd rfl
      (by intro k hk; simp [fresh] at hk) (by intro k hk; simp [fresh] at hk) hu hne hv
  have harg : then_argument su v = v := by simp [then_argument, hk]
  rw [harg] at h2 h8
  rw [after_get_any_copyable su hk hc] at h6
  refine ⟨w1, sd1, hrun, h1, h2, h3, h6, h7, ?_, h9, hframe⟩
  rw [h8]
  cases Completion.ofExcept (a.f v) <;> simp [fired, fresh]

/-- A `then` before the task call and a `then` after it, both thunks run afterwards. -/
theorem then_around_settle_queued (w : World V E) (id : Nat) (s : _shared_state V E)
    (v : Payload V) (a1 a2 : ThenArgs V E) (sch : Option Nat) (ex1 ex2 : Nat)
    (hs : w.heap[id]? = some s) (hk : s.kind = TypeKind.copyable) (hv : s.value = Variant.none)
    (hfn : s.function = some (Function.user (Except.ok v)))
    (hcs : s.continuations = []) (hq : w.pushed = [])
    (hcount : s.shared_count + 2 < 2 ^ 64)
    (hex1 : (a1.sched <|> sch) = some ex1) (hex2 : (a2.sched <|> sch) = some ex2) :
    ∃ w1 w2 w3 w4 s1 s2,
      future_then w (some id) a1.sched a1.kind a1.f =
        Except.ok (w1, Completion.normal (some w.heap.length)) ∧
      packaged_task_call w1 (some id) sch = Except.ok w2 ∧
      future_then w2 (some id) a2.sched a2.kind a2.f =
        Except.ok (w3, Completion.normal (some (w.heap.length + 1))) ∧
      (∀ fuel, 2 ≤ fuel → run_all fuel w3 = Except.ok w4) ∧
      w4.heap[w.heap.length]? = some s1 ∧
      s1.value = slot_of a1.kind (Completion.ofExcept (a1.f v)) ∧
      w4.heap[w.heap.length + 1]? = some s2 ∧
      s2.value = slot_of a2.kind (Completion.ofExcept (a2.f v)) ∧
      w4.applied = w.applied ++ [id, w.heap.length, w.heap.length + 1] := by
  have hlt : id < w.heap.length := (List.getElem?_eq_some_iff.mp hs).1
  have hc1 : size_inc s.shared_count = s.shared_count + 1 := size_inc_lt _ (by omega)
  have hc2 : size_inc (s.shared_count + 1) = s.shared_count + 2 := size_inc_lt _ (by omega)
  -- first `then`
  have h1 := then_pending_world w id s a1 hs hv (by simp [hfn]) hcs
  obtain ⟨w1, hw1⟩ : ∃ w1 : World V E, w1 = { w with heap := (w.heap.set id
      { _add_count s with continuations := [then_continuation id a1 w.heap.length] } ++
      [fresh a1.kind (Function.then_body id a1.f)]) } := ⟨_, rfl⟩
  rw [← hw1] at h1
  have hw1id : w1.heap[id]? = some
      { _add_count s with continuations := [then_continuation id a1 w.heap.length] } := by
    rw [hw1]; exact set_append_get_self _ _ _ _ hlt
  have hw1len : w1.heap.length = w.heap.length + 1 := by rw [hw1]; simp
  -- the task call
  have h2 := packaged_task_call_user_opt w1 id sch _ (Except.ok v) hw1id
    (by simpa [_add_count] using hfn)
    (by simp [fired, Completion.ofExcept, then_continuation])
    (by simp [fired, Completion.ofExcept, then_continuation, hex1])
  obtain ⟨s2, hs2⟩ : ∃ s2 : _shared_state V E, s2 = settled
      { { _add_count s with continuations := [then_continuation id a1 w.heap.length] } with
        scheduler := sch } (Completion.ofExcept (Except.ok v)) := ⟨_, rfl⟩
  obtain ⟨w2, hw2⟩ : ∃ w2 : World V E, w2 =
      { heap := w1.heap.set id s2,
        pushed := (w1.pushed ++ [(ex1, (then_continuation id a1 w.heap.length).thunk)]),
        applied := (w1.applied ++ [id]), internal := w1.internal } := ⟨_, rfl⟩
  have h2' : packaged_task_call w1 (some id) sch = Except.ok w2 := by
    rw [h2, hw2, hs2]
    simp [fired, Completion.ofExcept, pushed_opt, then_continuation, hex1]
  have hs2k : s2.kind = TypeKind.copyable := by rw [hs2]; simpa [settled, _add_count] using hk
  have hs2v : s2.value = Variant.value v := by
    rw [hs2]; simp [settled, Completion.ofExcept, _add_count, hk]
  have hs2s : s2.scheduler = sch := by rw [hs2]; simp [settled]
  have hs2c : s2.shared_count = s.shared_count + 1 := by
    rw [hs2]; simp [settled, _add_count, hc1]
  have hw2id : w2.heap[id]? = some s2 := by
    rw [hw2]
    simp only
    exact List.getElem?_set_self (by rw [hw1len]; omega)
  have hw2len : w2.heap.length = w.heap.length + 1 := by rw [hw2]; simp [hw1len]
  have hw2d : w2.heap[w.heap.length]? = some (fresh a1.kind (Function.then_body id a1.f)) := by
    rw [hw2]
    simp only
    rw [List.getElem?_set_ne (Nat.ne_of_lt hlt), hw1]
    exact set_append_get_length _ _ _ _ _
  -- second `then`
  have h3 := then_settled_world w2 id ex2 s2 a2 v hw2id hs2v (by rw [hs2s]; exact hex2)
  rw [hw2len] at h3
  obtain ⟨w3, hw3⟩ : ∃ w3 : World V E, w3 = { w2 with
      heap := (w2.heap.set id (_add_count s2) ++ [fresh a2.kind (Function.then_body id a2.f)])
      pushed := (w2.pushed ++ [(ex2, (then_continuation id a2 (w.heap.length + 1)).thunk)]) } :=
    ⟨_, rfl⟩
  rw [← hw3] at h3
  have hlt2 : id < w2.heap.length := by omega
  have hw3id : w3.heap[id]? = some (_add_count s2) := by
    rw [hw3]; exact set_append_get_self _ _ _ _ hlt2
  have hw3d1 : w3.heap[w.heap.length]? = some (fresh a1.kind (Function.then_body id a1.f)) := by
    rw [hw3]
    simp only
    rw [set_append_get _ _ _ _ _ (by omega) (Nat.ne_of_gt hlt)]
    exact hw2d
  have hw3d2 : w3.heap[w.heap.length + 1]? =
      some (fresh a2.kind (Function.then_body id a2.f)) := by
    rw [hw3]
    simp only
    rw [← hw2len]
    exact set_append_get_length _ _ _ _ _
  have hw3q : w3.pushed = [(ex1, (then_continuation id a1 w.heap.length).thunk),
      (ex2, (then_continuation id a2 (w.heap.length + 1)).thunk)] := by
    rw [hw3, hw2, hw1]; simp [hq]
  have hw3a : w3.applied = w.applied ++ [id] := by rw [hw3, hw2, hw1]
  have hs3k : (_add_count s2).kind = TypeKind.copyable := by simpa [_add_count] using hs2k
  have hs3c : (_add_count s2).shared_count ≠ 1 := by
    simp only [_add_count, hs2c, hc2]; omega
  have hs3v : (_add_count s2).value = Variant.value v := by simpa [_add_count] using hs2v
  have hs3s : (_add_count s2).scheduler = sch := by simpa [_add_count] using hs2s
  -- the two thunks
  obtain ⟨w4, sd1, hrun1, g1, g2, -, g4, g5, g6, -, gframe⟩ := run_fresh_then
    ({ w3 with pushed := [(ex2, (then_continuation id a2 (w.heap.length + 1)).thunk)] } :
      World V E) id w.heap.length ex1 (_add_count s2) a1 v hw3id hs3k hs3c hs3v hw3d1
    (Nat.ne_of_lt hlt) (by rw [hs3s]; exact hex1)
  have hw4d2 : w4.heap[w.heap.length + 1]? =
      some (fresh a2.kind (Function.then_body id a2.f)) := by
    rw [gframe _ (by omega) (by omega)]; exact hw3d2
  obtain ⟨w5, sd2, hrun2, k1, k2, -, -, k5, k6, -, kframe⟩ := run_fresh_then
    ({ w4 with pushed := [] } : World V E) id (w.heap.length + 1) ex2 (_add_count s2) a2 v g4
    hs3k hs3c hs3v hw4d2 (by omega) (by rw [hs3s]; exact hex2)
  refine ⟨w1, w2, w3, w5, sd1, sd2, h1, h2', h3, ?_, ?_, g2, k1, k2, ?_⟩
  · exact run_all_two w3 w4 w5 _ _ hw3q hrun1 g6 hrun2 k6
  · rw [kframe _ (by omega) (by omega)]; exact g1
  · rw [k5, g5, hw3a]; simp

/-- One `then` on a pending copyable state and the call of its task. -/
theorem then_and_call (w : World V E) (id : Nat) (s : _shared_state V E)
    (v : Payload V) (a1 : ThenArgs V E) (sch : Option Nat) (ex1 : Nat)
    (hs : w.heap[id]? = some s) (hk : s.kind = TypeKind.copyable) (hv : s.value = Variant.none)
    (hfn : s.function = some (Function.user (Except.ok v)))
    (hcs : s.continuations = []) (hq : w.pushed = [])
    (hcount : s.shared_count + 1 < 2 ^ 64)
    (hex1 : (a1.sched <|> sch) = some ex1) :
    ∃ w1 w2 s2,
      future_then w (some id) a1.sched a1.kind a1.f =
        Except.ok (w1, Completion.normal (some w.heap.length)) ∧
      packaged_task_call w1 (some id) sch = Except.ok w2 ∧
      w2.heap[id]? = some s2 ∧ s2.kind = TypeKind.copyable ∧ s2.value = Variant.value v ∧
      s2.scheduler = sch ∧ s2.shared_count = s.shared_count + 1 ∧
      w2.heap.length = w.heap.length + 1 ∧
      w2.heap[w.heap.length]? = some (fresh a1.kind (Function.then_body id a1.f)) ∧
      w2.pushed = [(ex1, (then_continuation id a1 w.heap.length).thunk)] ∧
      w2.applied = w.applied ++ [id] := by
  have hlt : id < w.heap.length := (List.getElem?_eq_some_iff.mp hs).1
  have hc1 : size_inc s.shared_count = s.shared_count + 1 := size_inc_lt _ (by omega)
  have h1 := then_pending_world w id s a1 hs hv (by simp [hfn]) hcs
  obtain ⟨w1, hw1⟩ : ∃ w1 : World V E, w1 = { w with heap := (w.heap.set id
      { _add_count s with continuations := [then_continuation id a1 w.heap.length] } ++
      [fresh a1.kind (Function.then_body id a1.f)]) } := ⟨_, rfl⟩
  rw [← hw1] at h1
  have hw1id : w1.heap[id]? = some
      { _add_count s with continuations := [then_continuation id a1 w.heap.length] } := by
    rw [hw1]; exact set_append_get_self _ _ _ _ hlt
  have hw1len : w1.heap.length = w.heap.length + 1 := by rw [hw1]; simp
  have h2 := packaged_task_call_user_opt w1 id sch _ (Except.ok v) hw1id
    (by simpa [_add_count] using hfn)
    (by simp [fired, Completion.ofExcept, then_continuation])
    (by simp [fired, Completion.ofExcept, then_continuation, hex1])
  obtain ⟨s2, hs2⟩ : ∃ s2 : _shared_state V E, s2 = settled
      { { _add_count s with continuations := [then_continuation id a1 w.heap.length] } with
        scheduler := sch } (Completion.ofExcept (Except.ok v)) := ⟨_, rfl⟩
  obtain ⟨w2, hw2⟩ : ∃ w2 : World V E, w2 =
      { heap := w1.heap.set id s2,
        pushed := (w1.pushed ++ [(ex1, (then_continuation id a1 w.heap.length).thunk)]),
        applied := (w1.applied ++ [id]), internal := w1.internal } := ⟨_, rfl⟩
  have h2' : packaged_task_call w1 (some id) sch = Except.ok w2 := by
    rw [h2, hw2, hs2]
    simp [fired, Completion.ofExcept, pushed_opt, then_continuation, hex1]
  refine ⟨w1, w2, s2, h1, h2', ?_, ?_, ?_, ?_, ?_, ?_, ?_, ?_, ?_⟩
  · rw [hw2]
    simp only
    exact List.getElem?_set_self (by rw [hw1len]; omega)
  · rw [hs2]; simpa [settled, _add_count] using hk
  · rw [hs2]; simp [settled, Completion.ofExcept, _add_count, hk]
  · rw [hs2]; simp [settled]
  · rw [hs2]; simp [settled, _add_count, hc1]
  · rw [hw2]; simp [hw1len]
  · rw [hw2]
    simp only
    rw [List.getElem?_set_ne (Nat.ne_of_lt hlt), hw1]
    exact set_append_get_length _ _ _ _ _
  · rw [hw2, hw1]; simp [hq]
  · rw [hw2, hw1]

/-- A `then` before the task call, its thunk run, then a `then` after and its thunk run. -/
theorem then_around_settle_run_between (w : World V E) (id : Nat) (s : _shared_state V E)
    (v : Payload V) (a1 a2 : ThenArgs V E) (sch : Option Nat) (ex1 ex2 : Nat)
    (hs : w.heap[id]? = some s) (hk : s.kind = TypeKind.copyable) (hv : s.value = Variant.none)
    (hfn : s.function = some (Function.user (Except.ok v)))
    (hcs : s.continuations = []) (hq : w.pushed = [])
    (hlive : 1 ≤ s.shared_count) (hcount : s.shared_count + 2 < 2 ^ 64)
    (hex1 : (a1.sched <|> sch) = some ex1) (hex2 : (a2.sched <|> sch) = some ex2) :
    ∃ w1 w2 w3 w4 w5 s1 s2,
      future_then w (some id) a1.sched a1.kind a1.f =
        Except.ok (w1, Completion.normal (some w.heap.length)) ∧
      packaged_task_call w1 (some id) sch = Except.ok w2 ∧
      (∀ fuel, 1 ≤ fuel → run_all fuel w2 = Except.ok w3) ∧
      future_then w3 (some id) a2.sched a2.kind a2.f =
        Except.ok (w4, Completion.normal (some (w.heap.length + 1))) ∧
      (∀ fuel, 1 ≤ fuel → run_all fuel w4 = Except.ok w5) ∧
      w5.heap[w.heap.length]? = some s1 ∧
      s1.value = slot_of a1.kind (Completion.ofExcept (a1.f v)) ∧
      w5.heap[w.heap.length + 1]? = some s2 ∧
      s2.value = slot_of a2.kind (Completion.ofExcept (a2.f v)) ∧
      w5.applied = w.applied ++ [id, w.heap.length, w.heap.length + 1] := by
  have hlt : id < w.heap.length := (List.getElem?_eq_some_iff.mp hs).1
  obtain ⟨w1, w2, s2, h1, h2, hid, hs2k, hs2v, hs2s, hs2c, hlen, hd1, hq2, ha2⟩ :=
    then_and_call w id s v a1 sch ex1 hs hk hv hfn hcs hq (by omega) hex1
  have hc2 : size_inc s2.shared_count = s.shared_count + 2 := by
    rw [hs2c]; exact size_inc_lt _ (by omega)
  -- the first thunk
  obtain ⟨w3, sd1, hrun1, g1, g2, -, g4, g5, g6, g7, gframe⟩ := run_fresh_then
    ({ w2 with pushed := [] } : World V E) id w.heap.length ex1 s2 a1 v hid hs2k
    (by rw [hs2c]; omega) hs2v hd1 (Nat.ne_of_lt hlt) (by rw [hs2s]; exact hex1)
  have hrunall1 : ∀ fuel, 1 ≤ fuel → run_all fuel w2 = Except.ok w3 := by
    intro fuel hf
    obtain ⟨n, rfl⟩ : ∃ n, fuel = n + 1 := ⟨fuel - 1, by omega⟩
    simp only [run_all, hq2, run_next, hrun1]
    exact run_all_idle n w3 g6
  -- the second `then`
  have h3 := then_settled_world w3 id ex2 s2 a2 v g4 hs2v (by rw [hs2s]; exact hex2)
  have hw3len : w3.heap.length = w.heap.length + 1 := by rw [g7]; exact hlen
  rw [hw3len] at h3
  obtain ⟨w4, hw4⟩ : ∃ w4 : World V E, w4 = { w3 with
      heap := (w3.heap.set id (_add_count s2) ++ [fresh a2.kind (Function.then_body id a2.f)])
      pushed := (w3.pushed ++ [(ex2, (then_continuation id a2 (w.heap.length + 1)).thunk)]) } :=
    ⟨_, rfl⟩
  rw [← hw4] at h3
  have hw4id : w4.heap[id]? = some (_add_count s2) := by
    rw [hw4]; exact set_append_get_self _ _ _ _ (by omega)
  have hw4d1 : w4.heap[w.heap.length]? = some sd1 := by
    rw [hw4]
    simp only
    rw [set_append_get _ _ _ _ _ (by omega) (Nat.ne_of_gt hlt)]
    exact g1
  have hw4d2 : w4.heap[w.heap.length + 1]? =
      some (fresh a2.kind (Function.then_body id a2.f)) := by
    rw [hw4]
    simp only
    rw [← hw3len]
    exact set_append_get_length _ _ _ _ _
  have hw4q : w4.pushed = [(ex2, (then_continuation id a2 (w.heap.length + 1)).thunk)] := by
    rw [hw4]; simp [g6]
  have hw4a : w4.applied = w.applied ++ [id] ++ [w.heap.length] := by
    rw [hw4]; simp only; rw [g5]; simp only; rw [ha2]
  -- the second thunk
  obtain ⟨w5, sd2, hrun2, k1, k2, -, -, k5, k6, -, kframe⟩ := run_fresh_then
    ({ w4 with pushed := [] } : World V E) id (w.heap.length + 1) ex2 (_add_count s2) a2 v
    hw4id (by simpa [_add_count] using hs2k)
    (by simp only [_add_count, hc2]; omega) (by simpa [_add_count] using hs2v) hw4d2
    (by omega) (by simpa [_add_count, hs2s] using hex2)
  have hrunall2 : ∀ fuel, 1 ≤ fuel → run_all fuel w4 = Except.ok w5 := by
    intro fuel hf
    obtain ⟨n, rfl⟩ : ∃ n, fuel = n + 1 := ⟨fuel - 1, by omega⟩
    simp only [run_all, hw4q, run_next, hrun2]
    exact run_all_idle n w5 k6
  refine ⟨w1, w2, w3, w4, w5, sd1, sd2, h1, h2, hrunall1, h3, hrunall2, ?_, g2, k1, k2, ?_⟩
  · rw [kframe _ (by omega) (by omega)]; exact hw4d1
  · rw [k5]; simp only; rw [hw4a]; simp

/-- Calling the task of an input settles the input and pushes its thunks. -/
theorem call_joint (w : World V E) (d : Joint V E) (s : _shared_state V E)
    (hs : w.heap[d.id]? = some s) (hfn : s.function = some (Function.user d.r))
    (hcs : s.continuations = [d.cont d.T])
    (hec : s.exceptional_continuations = some (d.cont (d.T + 1))) :
    packaged_task_call w (some d.id) (some d.ex) = Except.ok
      { heap := w.heap.set d.id (settled { s with scheduler := some d.ex } (Completion.ofExcept d.r))
        pushed := (w.pushed ++ d.works.map Work.pushed)
        applied := (w.applied ++ [d.id])
        internal := w.internal } := by
  have h := packaged_task_call_user_opt w d.id (some d.ex) s d.r hs hfn
    (by cases hr : d.r <;> simp [fired, Completion.ofExcept, hcs, hec, Joint.cont])
    (by cases hr : d.r <;> simp [fired, Completion.ofExcept, hcs, hec, Joint.cont])
  rw [h]
  cases hr : d.r <;>
    simp [fired, Completion.ofExcept, hcs, hec, pushed_opt, Joint.cont, Joint.works, hr,
      Work.pushed, Work.joint, Work.task, Joint.H]

/-- The closure that decrements for an input, run when the slot of the input is settled:
the value or the error is read and stored, and the remaining-count is decremented. -/
theorem eval_arrival (u w1 : World V E) (ws : Nat) (d : Joint V E) (s : _shared_state V E)
    (st : internal_state V E)
    (hs : u.heap[d.id]? = some s) (hv : s.value = d.slot)
    (hst : u.internal[ws]? = some st)
    (ha : when_all_arrive
          { heap := u.heap.set d.id (d.got s), pushed := u.pushed,
            applied := (u.applied ++ [d.H]), internal := u.internal.set ws (d.store st) } ws =
        Except.ok w1) :
    eval_function u d.H (d.arrival_function ws) =
      Except.ok (w1, Completion.normal Payload.ready) := by
  cases hr : d.r with
  | ok v =>
    simp only [Joint.slot, hr, Completion.ofExcept, slot_of] at hv
    simp only [Joint.got, Joint.store, Joint.H, hr] at ha
    simp only [Joint.arrival_function, Joint.H, hr]
    by_cases hk : d.kind = TypeKind.void
    · have hg : s._get_void = Except.ok
          ((if s.shared_count = 1 then { s with value := Variant.none } else s),
            Completion.normal ()) := by
        simp [_shared_state._get_void, hv, Variant.index]
      simp only [hk, if_true, list_set_self _ _ _ hst] at ha
      simp [Joint.handler, hk, eval_function, hs, hg, World.put, ha]
    · have hg := _get_value s _ hv
      simp only [hk, if_false] at ha
      simp [Joint.handler, hk, eval_function, hs, hg, World.put, hst, ha]
  | error e =>
    simp only [Joint.slot, hr, Completion.ofExcept, slot_of] at hv
    simp only [Joint.got, Joint.store, Joint.H, hr, list_set_self _ _ _ hs] at ha
    simp only [Joint.arrival_function, Joint.H, hr]
    simp [eval_function, hs, hv, when_all_on_error, hst, ha]

/-- The decrement for the last input: the held task is called and settles its state, to the
error list when an error was collected and else to the tuple of the slots. -/
theorem when_all_arrive_last (w : World V E) (ws R : Nat) (st : internal_state V E)
    (r : _shared_state V E)
    (hst : w.internal[ws]? = some st) (hrem : size_dec st.remaining = 0)
    (htask : st.task = some (some R))
    (hbuf : st.exceptions = [] → ∃ vals, _remove_optional st.buffer = some vals)
    (hr : w.heap[R]? = some r) (hfn : r.function = some (Function.when_all_body ws))
    (hcs : r.continuations = []) (hec : r.exceptional_continuations = none)
    (hk : r.kind ≠ TypeKind.void) :
    ∃ w1 r1 st1, when_all_arrive w ws = Except.ok w1 ∧ w1.pushed = w.pushed ∧
      w1.applied = w.applied ∧ w1.heap.length = w.heap.length ∧
      w1.heap[R]? = some r1 ∧ r1.function = none ∧ Gathered st r1.value ∧
      w1.internal[ws]? = some st1 ∧ st1.remaining = 0 ∧ st1.task = some (some R) ∧
      ∀ (a : Nat) (s : _shared_state V E), a ≠ R → w.heap[a]? = some s →
        ∃ c, w1.heap[a]? = some { s with shared_count := c } := by
  have hrlt : R < w.heap.length := (List.getElem?_eq_some_iff.mp hr).1
  have hwlt : ws < w.internal.length := (List.getElem?_eq_some_iff.mp hst).1
  obtain ⟨w0, hw0⟩ : ∃ w0 : World V E, w0 =
      ({ w with internal := w.internal.set ws { st with remaining := size_dec st.remaining } } :
        World V E).put R { r with scheduler := none } := ⟨_, rfl⟩
  have hw0r : w0.heap[R]? = some { r with scheduler := none } := by
    simp [hw0, World.put, hrlt]
  have hw0p : w0.pushed = w.pushed := by simp [hw0, World.put]
  have hw0a : w0.applied = w.applied := by simp [hw0, World.put]
  have hw0l : w0.heap.length = w.heap.length := by simp [hw0, World.put]
  have hw0i : w0.internal =
      w.internal.set ws { st with remaining := size_dec st.remaining } := by
    simp [hw0, World.put]
  obtain ⟨f1, f2, f3, f4, f5⟩ := fold_future_destroy st.futures w0
  obtain ⟨c, hc⟩ := f5 R _ hw0r
  have hwa : when_all_arrive w ws = packaged_task_call_with eval_inner
      ({ w with internal := w.internal.set ws { st with remaining := size_dec st.remaining } })
      (some R) none := by
    simp only [when_all_arrive, hst, hrem, htask, if_true]
  have hframe : ∀ (w1 : World V E) (x : _shared_state V E),
      w1.heap = (st.futures.foldl future_destroy w0).heap.set R x →
      ∀ (a : Nat) (s : _shared_state V E), a ≠ R → w.heap[a]? = some s →
        ∃ c, w1.heap[a]? = some { s with shared_count := c } := by
    intro w1 x hw1 a s ha hs
    have h0 : w0.heap[a]? = some s := by
      simp [hw0, World.put, List.getElem?_set, Ne.symm ha, hs]
    obtain ⟨c', hc'⟩ := f5 a s h0
    exact ⟨c', by rw [hw1, List.getElem?_set_ne (Ne.symm ha)]; exact hc'⟩
  by_cases hexc : st.exceptions = []
  · obtain ⟨vals, hvals⟩ := hbuf hexc
    have he : eval_inner w0 R (Function.when_all_body ws) = Except.ok
        ({ st.futures.foldl future_destroy w0 with
            internal := w0.internal.set ws
              { st with remaining := size_dec st.remaining, futures := [] } },
          Completion.normal (Payload.tuple vals)) := by
      simp [eval_inner, hw0i, hwlt, hexc, hvals]
    rw [hw0] at he
    have hcall := packaged_task_call_with_spec_opt eval_inner
      ({ w with internal := w.internal.set ws { st with remaining := size_dec st.remaining } })
      _ R none r _ _ _ hr hfn he (by rw [← hw0]; exact hc) rfl (by simp [fired, hcs])
      (by simp [fired, hcs])
    rw [← hw0] at hcall
    refine ⟨_, settled { { r with scheduler := none } with shared_count := c }
        (Completion.normal (Payload.tuple vals)),
      { st with remaining := size_dec st.remaining, futures := [] },
      hwa.trans hcall, ?_, ?_, ?_, ?_, ?_, ?_, ?_, hrem, htask, ?_⟩
    · simp [fired, hcs, f1, hw0p]
    · simp [f2, hw0a]
    · simp [f4, hw0l]
    · simp [hrlt, f4, hw0l]
    · simp [settled]
    · exact Or.inl ⟨hexc, vals, hvals, by simp [settled, hk]⟩
    · simp [hw0i, hwlt]
    · exact hframe _ _ rfl
  · have he : eval_inner w0 R (Function.when_all_body ws) = Except.ok
        ({ st.futures.foldl future_destroy w0 with
            internal := w0.internal.set ws
              { st with remaining := size_dec st.remaining, futures := [], exceptions := [] } },
          Completion.throw (Exn.exception_list st.exceptions)) := by
      simp [eval_inner, hw0i, hwlt, hexc]
    rw [hw0] at he
    have hcall := packaged_task_call_with_spec_opt eval_inner
      ({ w with internal := w.internal.set ws { st with remaining := size_dec st.remaining } })
      _ R none r _ _ _ hr hfn he (by rw [← hw0]; exact hc) rfl (by simp [fired, hcs, hec])
      (by simp [fired, hcs, hec])
    rw [← hw0] at hcall
    refine ⟨_, settled { { r with scheduler := none } with shared_count := c }
        (Completion.throw (Exn.exception_list st.exceptions)),
      { st with remaining := size_dec st.remaining, futures := [], exceptions := [] },
      hwa.trans hcall, ?_, ?_, ?_, ?_, ?_, ?_, ?_, hrem, htask, ?_⟩
    · simp [fired, hcs, hec, f1, hw0p]
    · simp [f2, hw0a]
    · simp [f4, hw0l]
    · simp [hrlt, f4, hw0l]
    · simp [settled]
    · exact Or.inr ⟨hexc, by simp [settled]⟩
    · simp [hw0i, hwlt]
    · exact hframe _ _ rfl

theorem Joint.store_keeps_remaining (d : Joint V E) (st : internal_state V E) :
    (d.store st).remaining = st.remaining := by
  unfold Joint.store; split
  · split <;> rfl
  · rfl

theorem Joint.store_keeps_task (d : Joint V E) (st : internal_state V E) :
    (d.store st).task = st.task := by
  unfold Joint.store; split
  · split <;> rfl
  · rfl

theorem Joint.store_appends_error (d : Joint V E) (st : internal_state V E) :
    (d.store st).exceptions = st.exceptions ++ d.error.toList := by
  unfold Joint.store Joint.error; split
  · split <;> simp
  · simp

theorem Joint.store_keeps_length (d : Joint V E) (st : internal_state V E) :
    (d.store st).buffer.length = st.buffer.length := by
  unfold Joint.store; split
  · split <;> simp
  · rfl

/-- Destroying a task handle changes at most the state it refers to. -/
theorem packaged_task_destroy_frame (w : World V E) (id : Nat) :
    (packaged_task_destroy w (some id)).pushed = w.pushed ∧
    (packaged_task_destroy w (some id)).applied = w.applied ∧
    (packaged_task_destroy w (some id)).internal = w.internal ∧
    (packaged_task_destroy w (some id)).heap.length = w.heap.length ∧
    ∀ a, a ≠ id → (packaged_task_destroy w (some id)).heap[a]? = w.heap[a]? := by
  cases h : w.heap[id]? with
  | none => simp [packaged_task_destroy, h]
  | some s =>
    simp only [packaged_task_destroy, h, World.put, List.length_set, true_and]
    intro a ha
    rw [List.getElem?_set_ne (Ne.symm ha)]

/-- The executor that a thunk of an input finds. -/
theorem sched_joint (w : World V E) (d : Joint V E) (task : Nat) (s : _shared_state V E)
    (hs : w.heap[d.id]? = some s) (hsch : s.scheduler = some d.ex) :
    sched w (d.cont task).thunk.captures = Except.ok d.ex := by
  simp [sched, Joint.cont, Continuation.thunk, hs, hsch]

/-- Running the thunk that decrements for an input which is not the last to arrive. -/
theorem run_arrival_nonfinal (w : World V E) (ws : Nat) (d : Joint V E)
    (s t : _shared_state V E) (st : internal_state V E)
    (hs : w.heap[d.id]? = some s) (hv : s.value = d.slot) (hsch : s.scheduler = some d.ex)
    (ht : w.heap[d.H]? = some t) (hfn : t.function = some (d.arrival_function ws))
    (hcs : t.continuations = []) (hne : d.id ≠ d.H)
    (hst : w.internal[ws]? = some st) (hrem : size_dec st.remaining ≠ 0) :
    ∃ w1, run_thunk w (d.cont d.H).thunk = Except.ok w1 ∧ w1.pushed = w.pushed ∧
      w1.applied = w.applied ++ [d.H] ∧
      w1.internal = w.internal.set ws { d.store st with remaining := size_dec st.remaining } ∧
      w1.heap.length = w.heap.length ∧ w1.heap[d.id]? = some (d.got s) ∧
      ∀ a, a ≠ d.id → a ≠ d.H → w1.heap[a]? = w.heap[a]? := by
  have hslt : d.id < w.heap.length := (List.getElem?_eq_some_iff.mp hs).1
  have htlt : d.H < w.heap.length := (List.getElem?_eq_some_iff.mp ht).1
  have hwlt : ws < w.internal.length := (List.getElem?_eq_some_iff.mp hst).1
  have hsched := sched_joint w d d.H s hs hsch
  have hu : (w.put d.H { t with scheduler := some d.ex }).heap[d.id]? = some s := by
    rw [World.put_heap_get_ne _ _ _ _ (Ne.symm hne)]; exact hs
  have harr := when_all_arrive_nonfinal
    ({ heap := (w.put d.H { t with scheduler := some d.ex }).heap.set d.id (d.got s),
       pushed := (w.put d.H { t with scheduler := some d.ex }).pushed,
       applied := ((w.put d.H { t with scheduler := some d.ex }).applied ++ [d.H]),
       internal := (w.put d.H { t with scheduler := some d.ex }).internal.set ws (d.store st) } :
      World V E) ws (d.store st) (by simp [World.put, hwlt])
    (by rw [Joint.store_keeps_remaining]; exact hrem)
  have he := eval_arrival (w.put d.H { t with scheduler := some d.ex }) _ ws d s st hu hv
    (by simpa [World.put] using hst) harr
  have hcall := packaged_task_call_with_spec_opt eval_function w _ d.H (some d.ex) t
    { t with scheduler := some d.ex } _ _ ht hfn he
    (by simp [World.put, List.getElem?_set, hne, htlt]) rfl
    (by simp [fired, hcs]) (by simp [fired, hcs])
  have htask : (d.cont d.H).thunk.captures.task = some d.H := rfl
  simp only [run_thunk, hsched, htask, packaged_task_call, hcall, packaged_task_destroy]
  simp [World.put, List.getElem?_set, hne, Ne.symm hne, htlt, hslt, fired, hcs,
    Joint.store_keeps_remaining]
  intro a h1 h2
  simp [List.getElem?_set, Ne.symm h1, Ne.symm h2]

/-- Running the thunk that decrements for the last input to arrive: the held task is called
and settles the state of the `when_all` future. -/
theorem run_arrival_final (w : World V E) (ws R : Nat) (d : Joint V E)
    (s t r : _shared_state V E) (st : internal_state V E)
    (hs : w.heap[d.id]? = some s) (hv : s.value = d.slot) (hsch : s.scheduler = some d.ex)
    (ht : w.heap[d.H]? = some t) (hfn : t.function = some (d.arrival_function ws))
    (hcs : t.continuations = []) (hne : d.id ≠ d.H)
    (hst : w.internal[ws]? = some st) (hrem : size_dec st.remaining = 0)
    (htask : st.task = some (some R))
    (hbuf : (d.store st).exceptions = [] →
      ∃ vals, _remove_optional (d.store st).buffer = some vals)
    (hr : w.heap[R]? = some r) (hrf : r.function = some (Function.when_all_body ws))
    (hrc : r.continuations = []) (hre : r.exceptional_continuations = none)
    (hrk : r.kind ≠ TypeKind.void) (hR1 : R ≠ d.id) (hR2 : R ≠ d.H) :
    ∃ w1 r1 st1, run_thunk w (d.cont d.H).thunk = Except.ok w1 ∧ w1.pushed = w.pushed ∧
      w1.applied = w.applied ++ [d.H] ∧ w1.heap.length = w.heap.length ∧
      w1.heap[R]? = some r1 ∧ r1.function = none ∧ Gathered (d.store st) r1.value ∧
      w1.internal[ws]? = some st1 ∧ st1.remaining = 0 ∧ st1.task = some (some R) ∧
      (∃ c, w1.heap[d.id]? = some { d.got s with shared_count := c }) ∧
      ∀ (a : Nat) (x : _shared_state V E), a ≠ R → a ≠ d.id → a ≠ d.H →
        w.heap[a]? = some x → ∃ c, w1.heap[a]? = some { x with shared_count := c } := by
  have hslt : d.id < w.heap.length := (List.getElem?_eq_some_iff.mp hs).1
  have htlt : d.H < w.heap.length := (List.getElem?_eq_some_iff.mp ht).1
  have hrlt : R < w.heap.length := (List.getElem?_eq_some_iff.mp hr).1
  have hwlt : ws < w.internal.length := (List.getElem?_eq_some_iff.mp hst).1
  have hsched := sched_joint w d d.H s hs hsch
  have hu : (w.put d.H { t with scheduler := some d.ex }).heap[d.id]? = some s := by
    rw [World.put_heap_get_ne _ _ _ _ (Ne.symm hne)]; exact hs
  obtain ⟨w1, r1, st1, harr, hp1, ha1, hl1, hr1, hf1, hg1, hi1, hrem1, htask1, hframe⟩ :=
    when_all_arrive_last
    ({ heap := (w.put d.H { t with scheduler := some d.ex }).heap.set d.id (d.got s),
       pushed := (w.put d.H { t with scheduler := some d.ex }).pushed,
       applied := ((w.put d.H { t with scheduler := some d.ex }).applied ++ [d.H]),
       internal := (w.put d.H { t with scheduler := some d.ex }).internal.set ws (d.store st) } :
      World V E) ws R (d.store st) r (by simp [World.put, hwlt])
    (by rw [Joint.store_keeps_remaining]; exact hrem)
    (by rw [Joint.store_keeps_task]; exact htask) hbuf
    (by simp [World.put, List.getElem?_set, hR1, hR2, Ne.symm hR1, Ne.symm hR2, hr]) hrf hrc hre hrk
  have he := eval_arrival (w.put d.H { t with scheduler := some d.ex }) _ ws d s st hu hv
    (by simpa [World.put] using hst) harr
  obtain ⟨c, hc⟩ := hframe d.H { t with scheduler := some d.ex } (Ne.symm hR2)
    (by simp [World.put, List.getElem?_set, hne, Ne.symm hne, htlt])
  have hcall := packaged_task_call_with_spec_opt eval_function w _ d.H (some d.ex) t
    _ _ _ ht hfn he hc rfl
    (by simp [fired, hcs]) (by simp [fired, hcs])
  have htask2 : (d.cont d.H).thunk.captures.task = some d.H := rfl
  have h1lt : d.H < w1.heap.length := (List.getElem?_eq_some_iff.mp hc).1
  have hrun : run_thunk w (d.cont d.H).thunk = Except.ok (packaged_task_destroy
      ({ heap := w1.heap.set d.H
            (settled { t with scheduler := some d.ex, shared_count := c }
              (Completion.normal Payload.ready)),
         pushed := (w1.pushed ++
            (fired { t with scheduler := some d.ex, shared_count := c }
              (Completion.normal Payload.ready : Completion (Payload V) E)).map
              (pushed_opt (some d.ex))),
         applied := w1.applied, internal := w1.internal } : World V E) (some d.H)) := by
    simp only [run_thunk, hsched, htask2, packaged_task_call, hcall]
  have hp1' : w1.pushed = w.pushed := by rw [hp1]; rfl
  have ha1' : w1.applied = w.applied ++ [d.H] := by rw [ha1]; rfl
  have hl1' : w1.heap.length = w.heap.length := by rw [hl1]; simp [World.put]
  obtain ⟨q1, q2, q3, q4, q5⟩ := packaged_task_destroy_frame
      ({ heap := w1.heap.set d.H
            (settled { t with scheduler := some d.ex, shared_count := c }
              (Completion.normal Payload.ready)),
         pushed := (w1.pushed ++
            (fired { t with scheduler := some d.ex, shared_count := c }
              (Completion.normal Payload.ready : Completion (Payload V) E)).map
              (pushed_opt (some d.ex))),
         applied := w1.applied, internal := w1.internal } : World V E) d.H
  refine ⟨_, r1, st1, hrun, ?_, ?_, ?_, ?_, hf1, hg1, ?_, hrem1, htask1, ?_, ?_⟩
  · rw [q1]; simp [fired, hcs, hp1']
  · rw [q2]; exact ha1'
  · rw [q4]; simp [hl1']
  · rw [q5 R hR2]
    simp only
    rw [List.getElem?_set_ne (Ne.symm hR2)]; exact hr1
  · rw [q3]; exact hi1
  · obtain ⟨c', hc'⟩ := hframe d.id (d.got s) (Ne.symm hR1)
      (by simp [World.put, hslt])
    refine ⟨c', ?_⟩
    rw [q5 d.id hne]
    simp only
    rw [List.getElem?_set_ne (Ne.symm hne)]; exact hc'
  · intro a x h1 h2 h3 hx
    obtain ⟨c', hc'⟩ := hframe a x h1
      (by simp [World.put, List.getElem?_set, Ne.symm h2, Ne.symm h3, hx])
    refine ⟨c', ?_⟩
    rw [q5 a h3]
    simp only
    rw [List.getElem?_set_ne (Ne.symm h3)]; exact hc'

/-- The `then` closure of `when_all` on an input that failed: `_get` rethrows the error and
nothing is stored or decremented. -/
theorem eval_handler_failed (u : World V E) (ws T : Nat) (d : Joint V E)
    (s : _shared_state V E) (e : Exn E)
    (hs : u.heap[d.id]? = some s) (hv : s.value = Variant.exception e) :
    eval_function u T (d.handler ws) = Except.ok (u, Completion.throw e) := by
  have hput : u.put d.id s = u := World.put_self u d.id s hs
  by_cases hk : d.kind = TypeKind.void
  · simp [Joint.handler, hk, eval_function, hs, _shared_state._get_void, hv, Variant.index, hput]
  · simp [Joint.handler, hk, eval_function, hs, _shared_state._get, hv, Variant.index, hput]

/-- Running the `then` thunk of an input that failed settles the derived state to the error
of the input and changes nothing else. -/
theorem run_dud (w : World V E) (ws : Nat) (d : Joint V E) (s t : _shared_state V E)
    (e : Exn E)
    (hs : w.heap[d.id]? = some s) (hv : s.value = Variant.exception e)
    (hsch : s.scheduler = some d.ex)
    (ht : w.heap[d.T]? = some t) (hfn : t.function = some (d.handler ws))
    (hcs : t.continuations = []) (hec : t.exceptional_continuations = none)
    (hne : d.id ≠ d.T) :
    ∃ w1, run_thunk w (d.cont d.T).thunk = Except.ok w1 ∧ w1.pushed = w.pushed ∧
      w1.applied = w.applied ∧ w1.internal = w.internal ∧
      w1.heap.length = w.heap.length ∧
      ∀ a, a ≠ d.T → w1.heap[a]? = w.heap[a]? := by
  have htlt : d.T < w.heap.length := (List.getElem?_eq_some_iff.mp ht).1
  have hsched := sched_joint w d d.T s hs hsch
  have hu : (w.put d.T { t with scheduler := some d.ex }).heap[d.id]? = some s := by
    rw [World.put_heap_get_ne _ _ _ _ (Ne.symm hne)]; exact hs
  have he := eval_handler_failed (w.put d.T { t with scheduler := some d.ex }) ws d.T d s e hu hv
  have hcall := packaged_task_call_with_spec_opt eval_function w _ d.T (some d.ex) t
    { t with scheduler := some d.ex } _ _ ht hfn he
    (by simp [World.put, htlt]) rfl
    (by simp [fired, hcs, hec]) (by simp [fired, hcs, hec])
  have htask : (d.cont d.T).thunk.captures.task = some d.T := rfl
  obtain ⟨q1, q2, q3, q4, q5⟩ := packaged_task_destroy_frame
      ({ heap := (w.put d.T { t with scheduler := some d.ex }).heap.set d.T
            (settled { t with scheduler := some d.ex } (Completion.throw e)),
         pushed := ((w.put d.T { t with scheduler := some d.ex }).pushed ++
            (fired { t with scheduler := some d.ex }
              (Completion.throw e : Completion (Payload V) E)).map (pushed_opt (some d.ex))),
         applied := (w.put d.T { t with scheduler := some d.ex }).applied,
         internal := (w.put d.T { t with scheduler := some d.ex }).internal } : World V E) d.T
  refine ⟨_, by simp only [run_thunk, hsched, htask, packaged_task_call, hcall]; rfl,
    ?_, ?_, ?_, ?_, ?_⟩
  · rw [q1]; simp [fired, hcs, hec, World.put]
  · rw [q2]; rfl
  · rw [q3]; rfl
  · rw [q4]; simp [World.put]
  · intro a ha
    rw [q5 a ha]
    simp [World.put, List.getElem?_set, Ne.symm ha]

theorem joints_at_ids (ps : List (Settling V E)) :
    ∀ (L j : Nat), (joints_at L j ps).map Joint.id = ps.map Settling.id := by
  induction ps with
  | nil => intro L j; rfl
  | cons p rest ih => intro L j; simp [joints_at, ih]

theorem joints_at_length (ps : List (Settling V E)) :
    ∀ (L j : Nat), (joints_at L j ps).length = ps.length := by
  induction ps with
  | nil => intro L j; rfl
  | cons p rest ih => intro L j; simp [joints_at, ih]

theorem joints_at_calls (ps : List (Settling V E)) :
    ∀ (L j : Nat), (joints_at L j ps).map (fun d => Step.call (some d.id) (some d.ex)) =
      ps.map (fun p => Step.call (some p.id) (some p.ex)) := by
  induction ps with
  | nil => intro L j; rfl
  | cons p rest ih => intro L j; simp [joints_at, ih]

theorem joints_at_errors (ps : List (Settling V E)) :
    ∀ (L j : Nat), (joints_at L j ps).filterMap Joint.error = ps.filterMap Settling.error := by
  induction ps with
  | nil => intro L j; rfl
  | cons p rest ih =>
    intro L j
    simp only [joints_at, List.filterMap_cons, ih]
    rfl

theorem joints_at_T_ge (ps : List (Settling V E)) :
    ∀ (L j : Nat), ∀ d ∈ joints_at L j ps, L ≤ d.T := by
  induction ps with
  | nil => intro L j d hd; simp [joints_at] at hd
  | cons p rest ih =>
    intro L j d hd
    simp only [joints_at, List.mem_cons] at hd
    rcases hd with hd | hd
    · rw [hd]
    · have := ih _ _ d hd
      omega

/-- The derived states of different inputs lie two addresses apart. -/
theorem joints_at_T_sep (ps : List (Settling V E)) :
    ∀ (L j : Nat), ∀ d ∈ joints_at L j ps, ∀ d' ∈ joints_at L j ps,
      d.T = d'.T ∨ d.T = d'.T + 1 → d = d' := by
  induction ps with
  | nil => intro L j d hd; simp [joints_at] at hd
  | cons p rest ih =>
    intro L j d hd d' hd' he
    simp only [joints_at, List.mem_cons] at hd hd'
    rcases hd with hd | hd <;> rcases hd' with hd' | hd'
    · rw [hd, hd']
    · have := joints_at_T_ge rest _ _ d' hd'
      rw [hd] at he
      simp only at he
      omega
    · have := joints_at_T_ge rest _ _ d hd
      rw [hd'] at he
      simp only at he
      omega
    · exact ih _ _ d hd d' hd' he

theorem joints_at_index_ge (ps : List (Settling V E)) :
    ∀ (L j : Nat), ∀ d ∈ joints_at L j ps, j ≤ d.index := by
  induction ps with
  | nil => intro L j d hd; simp [joints_at] at hd
  | cons p rest ih =>
    intro L j d hd
    simp only [joints_at, List.mem_cons] at hd
    rcases hd with hd | hd
    · rw [hd]
    · have := ih _ _ d hd
      split at this <;> omega

theorem joints_at_index_lt (ps : List (Settling V E)) :
    ∀ (L j : Nat), ∀ d ∈ joints_at L j ps, d.kind ≠ TypeKind.void →
      d.index < j + slots_of ps := by
  induction ps with
  | nil => intro L j d hd; simp [joints_at] at hd
  | cons p rest ih =>
    intro L j d hd hk
    simp only [joints_at, List.mem_cons] at hd
    by_cases hp : p.kind = TypeKind.void
    · have ht : slots_of (p :: rest) = slots_of rest := by simp [slots_of, hp]
      rw [ht]
      rcases hd with hd | hd
      · rw [hd] at hk; exact absurd hp hk
      · rw [if_pos hp] at hd
        exact ih _ _ d hd hk
    · have ht : slots_of (p :: rest) = slots_of rest + 1 := by simp [slots_of, hp]
      rw [ht]
      rcases hd with hd | hd
      · rw [hd]; simp only; omega
      · rw [if_neg hp] at hd
        have := ih _ _ d hd hk
        omega

/-- Every slot belongs to a non-void input. -/
theorem joints_at_slots (ps : List (Settling V E)) :
    ∀ (L j i : Nat), j ≤ i → i < j + slots_of ps →
      ∃ d ∈ joints_at L j ps, d.kind ≠ TypeKind.void ∧ d.index = i := by
  induction ps with
  | nil => intro L j i h1 h2; simp [slots_of] at h2; omega
  | cons p rest ih =>
    intro L j i h1 h2
    by_cases hp : p.kind = TypeKind.void
    · have ht : slots_of (p :: rest) = slots_of rest := by simp [slots_of, hp]
      rw [ht] at h2
      obtain ⟨d, hd, hk, hi⟩ := ih (L + 2) j i h1 h2
      exact ⟨d, by simp [joints_at, hp, hd], hk, hi⟩
    · have ht : slots_of (p :: rest) = slots_of rest + 1 := by simp [slots_of, hp]
      rw [ht] at h2
      by_cases hij : i = j
      · exact ⟨{ id := p.id, T := L, kind := p.kind, r := p.r, ex := p.ex, index := j },
          by simp [joints_at], hp, hij.symm⟩
      · obtain ⟨d, hd, hk, hi⟩ := ih (L + 2) (j + 1) i (by omega) (by omega)
        exact ⟨d, by simp [joints_at, hp, hd], hk, hi⟩

/-- The layout of the inputs of `when_all`: the inputs lie below `R`, the derived states
above it. -/
theorem placing_joints (ps : List (Settling V E)) (R L : Nat)
    (hids : (ps.map Settling.id).Nodup) (hlt : ∀ p ∈ ps, p.id < R) (hRL : R < L)
    (hlen : ps.length < 2 ^ 64) :
    Placing R (slots_of ps) (joints_at L 0 ps) := by
  refine
    { id_lt := ?_, T_gt := ?_, id_inj := ?_, T_sep := joints_at_T_sep ps L 0, index_lt := ?_,
      slots := ?_, bound := by rw [joints_at_length]; exact hlen }
  · intro d hd
    have : d.id ∈ (joints_at L 0 ps).map Joint.id := List.mem_map_of_mem _ hd
    rw [joints_at_ids] at this
    obtain ⟨p, hp, he⟩ := List.mem_map.mp this
    rw [← he]; exact hlt p hp
  · intro d hd
    have := joints_at_T_ge ps L 0 d hd
    omega
  · intro d hd d' hd' he
    exact List.inj_on_of_nodup_map (by rw [joints_at_ids]; exact hids) hd hd' he
  · intro d hd hk
    have := joints_at_index_lt ps L 0 d hd hk
    omega
  · intro j hj
    exact joints_at_slots ps L 0 j (by omega) (by omega)

theorem joints_at_nodup (ps : List (Settling V E)) (L j : Nat) :
    (joints_at L j ps).Nodup := by
  induction ps generalizing L j with
  | nil => simp [joints_at]
  | cons p rest ih =>
    simp only [joints_at, List.nodup_cons]
    refine ⟨?_, ih _ _⟩
    intro hmem
    have := joints_at_T_ge rest _ _ _ hmem
    simp only at this
    omega

theorem Joint.mem_works (d : Joint V E) (x : Work V E) (hx : x ∈ d.works) :
    x = Work.arrival d ∨ (x = Work.dud d ∧ ∃ e, d.r = Except.error e) := by
  unfold Joint.works at hx
  cases hr : d.r with
  | ok v => rw [hr] at hx; simp at hx; exact Or.inl hx
  | error e =>
    rw [hr] at hx
    simp at hx
    rcases hx with hx | hx
    · exact Or.inl hx
    · exact Or.inr ⟨hx, e, rfl⟩

theorem Joint.arrival_mem_works (d : Joint V E) : Work.arrival d ∈ d.works := by
  unfold Joint.works
  cases d.r <;> simp

theorem Joint.works_joint (d : Joint V E) (x : Work V E) (hx : x ∈ d.works) : x.joint = d := by
  rcases d.mem_works x hx with h | ⟨h, -⟩ <;> rw [h] <;> rfl

theorem Joint.works_nodup (d : Joint V E) : d.works.Nodup := by
  unfold Joint.works
  cases d.r <;> simp

theorem Joint.works_length (d : Joint V E) : d.works.length ≤ 2 := by
  unfold Joint.works
  cases d.r <;> simp

theorem Joint.works_arrivals (d : Joint V E) :
    (d.works.filter Work.is_arrival).length = 1 := by
  unfold Joint.works
  cases d.r <;> simp [List.filter, Work.is_arrival]

theorem Joint.H_cases (d : Joint V E) : d.H = d.T ∨ d.H = d.T + 1 := by
  unfold Joint.H
  cases d.r <;> simp

theorem Work.task_cases (x : Work V E) : x.task = x.joint.T ∨ x.task = x.joint.T + 1 := by
  cases x with
  | arrival d => exact d.H_cases
  | dud d => exact Or.inl rfl

/-- The slot of an input after its task has been called. -/
theorem settled_slot (d : Joint V E) (s : _shared_state V E) (hk : s.kind = d.kind) :
    (settled { s with scheduler := some d.ex } (Completion.ofExcept d.r)).value = d.slot := by
  unfold Joint.slot slot_of settled
  cases d.r <;> simp [Completion.ofExcept, hk]

/-- Calling the task of an input that has not been called keeps the program state in the
waiting phase: the thunks of the input are pushed. -/
theorem Gathering.call_task {ws R B : Nat} {base : List Nat} {ds l1 l2 : List (Joint V E)}
    {queue : List (Work V E)} {done : List (Joint V E)} {w : World V E}
    (d : Joint V E) (hP : Placing R B ds)
    (h : Gathering ws R B base ds (l1 ++ d :: l2) queue done w) :
    ∃ w1, packaged_task_call w (some d.id) (some d.ex) = Except.ok w1 ∧
      Gathering ws R B base ds (l1 ++ l2) (queue ++ d.works) done w1 := by
  have hd : d ∈ l1 ++ d :: l2 := by simp
  have hdds : d ∈ ds := h.todo_sub d hd
  obtain ⟨s, hs, hk, hfn, hcs, hec⟩ := h.todo_state d hd
  have hslt : d.id < w.heap.length := (List.getElem?_eq_some_iff.mp hs).1
  have hcall := call_joint w d s hs hfn hcs hec
  have hnd : d ∉ l1 ++ l2 ∧ (l1 ++ l2).Nodup := by
    have := List.nodup_middle.mp h.todo_nodup
    exact List.nodup_cons.mp this
  have hsub : ∀ d' ∈ l1 ++ l2, d' ∈ l1 ++ d :: l2 := by
    intro d' hd'
    simp only [List.mem_append, List.mem_cons] at hd' ⊢
    tauto
  have hlen : (l1 ++ d :: l2).length = (l1 ++ l2).length + 1 := by
    simp only [List.length_append, List.length_cons]; omega
  have hqne : ∀ x ∈ queue, x.joint ≠ d := fun x hx he => h.queue_todo x hx (he ▸ hd)
  have hidR := hP.id_lt d hdds
  have hTR := hP.T_gt d hdds
  obtain ⟨w1, hw1⟩ : ∃ w1 : World V E, w1 =
      { heap := w.heap.set d.id
          (settled { s with scheduler := some d.ex } (Completion.ofExcept d.r)),
        pushed := (w.pushed ++ d.works.map Work.pushed),
        applied := (w.applied ++ [d.id]), internal := w.internal } := ⟨_, rfl⟩
  rw [← hw1] at hcall
  have hheap : ∀ a, a ≠ d.id → w1.heap[a]? = w.heap[a]? := by
    intro a ha
    rw [hw1]; exact List.getElem?_set_ne (Ne.symm ha)
  have hself : w1.heap[d.id]? =
      some (settled { s with scheduler := some d.ex } (Completion.ofExcept d.r)) := by
    rw [hw1]; exact List.getElem?_set_self hslt
  have hint : w1.internal = w.internal := by rw [hw1]
  have hcount : ((queue ++ d.works).filter Work.is_arrival).length =
      (queue.filter Work.is_arrival).length + 1 := by
    rw [List.filter_append, List.length_append, d.works_arrivals]
  refine ⟨w1, hcall, ?_⟩
  refine
    { todo_sub := fun d' hd' => h.todo_sub d' (hsub d' hd'), queue_sub := ?_,
      done_sub := h.done_sub, cover := ?_, todo_nodup := hnd.2, queue_nodup := ?_,
      done_nodup := h.done_nodup, queue_todo := ?_,
      done_todo := fun d' hd' hm => h.done_todo d' hd' (hsub d' hm), done_queue := ?_,
      dud_failed := ?_, queue_length := ?_, count := ?_, pushed := ?_, todo_state := ?_,
      todo_then := ?_, todo_error := ?_, queue_state := ?_, queue_task := ?_, log := ?_,
      internal := ?_, waiting := ?_, finished := ?_ }
  · intro x hx
    rcases List.mem_append.mp hx with hx | hx
    · exact h.queue_sub x hx
    · rw [d.works_joint x hx]; exact hdds
  · intro d' hd'
    rcases h.cover d' hd' with hc | hc | hc
    · by_cases he : d' = d
      · right; left
        rw [he]
        exact List.mem_append_right _ d.arrival_mem_works
      · left
        simp only [List.mem_append, List.mem_cons] at hc ⊢
        tauto
    · right; left; exact List.mem_append_left _ hc
    · right; right; exact hc
  · refine List.Nodup.append h.queue_nodup d.works_nodup ?_
    intro x hx hx'
    exact hqne x hx (d.works_joint x hx')
  · intro x hx
    rcases List.mem_append.mp hx with hx | hx
    · exact fun hm => h.queue_todo x hx (hsub _ hm)
    · rw [d.works_joint x hx]; exact hnd.1
  · intro d' hd' hm
    rcases List.mem_append.mp hm with hm | hm
    · exact h.done_queue d' hd' hm
    · have := d.works_joint _ hm
      simp only [Work.joint] at this
      exact h.done_todo d' hd' (this ▸ hd)
  · intro d' hm
    rcases List.mem_append.mp hm with hm | hm
    · exact h.dud_failed d' hm
    · rcases d.mem_works _ hm with hc | ⟨hc, e, he⟩
      · cases hc
      · injection hc with hc
        exact ⟨e, hc ▸ he⟩
  · have h1 := h.queue_length
    have h2 := d.works_length
    rw [hlen] at h1
    rw [List.length_append queue]
    omega
  · have h1 := h.count
    rw [hlen] at h1
    rw [hcount]
    omega
  · rw [hw1]
    simp only [h.pushed, List.map_append]
  · intro d' hd'
    obtain ⟨s', hs', more⟩ := h.todo_state d' (hsub d' hd')
    refine ⟨s', ?_, more⟩
    rw [hheap _ (fun he => hnd.1 (hP.id_inj d' (h.todo_sub d' (hsub d' hd')) d hdds he ▸ hd'))]
    exact hs'
  · intro d' hd'
    obtain ⟨t, ht, more⟩ := h.todo_then d' (hsub d' hd')
    refine ⟨t, ?_, more⟩
    have := hP.T_gt d' (h.todo_sub d' (hsub d' hd'))
    rw [hheap _ (by omega)]
    exact ht
  · intro d' hd'
    obtain ⟨t, ht, more⟩ := h.todo_error d' (hsub d' hd')
    refine ⟨t, ?_, more⟩
    have := hP.T_gt d' (h.todo_sub d' (hsub d' hd'))
    rw [hheap _ (by omega)]
    exact ht
  · intro x hx
    rcases List.mem_append.mp hx with hx | hx
    · obtain ⟨s', hs', more⟩ := h.queue_state x hx
      refine ⟨s', ?_, more⟩
      rw [hheap _ (fun he => hqne x hx (hP.id_inj _ (h.queue_sub x hx) d hdds he))]
      exact hs'
    · rw [d.works_joint x hx]
      exact ⟨_, hself, settled_slot d s hk, rfl⟩
  · intro x hx
    rcases List.mem_append.mp hx with hx | hx
    · obtain ⟨t, ht, more⟩ := h.queue_task x hx
      refine ⟨t, ?_, more⟩
      have h1 := hP.T_gt _ (h.queue_sub x hx)
      have h2 := x.task_cases
      rw [hheap _ (by omega)]
      exact ht
    · rcases d.mem_works x hx with hc | ⟨hc, e, he⟩
      · rw [hc]
        cases hr : d.r with
        | ok v =>
          obtain ⟨t, ht, more⟩ := h.todo_then d hd
          refine ⟨t, ?_, ?_, more.2⟩
          · simp only [Work.task, Joint.H, hr]
            rw [hheap _ (by omega)]
            exact ht
          · simp only [Work.function, Joint.arrival_function, hr]
            exact more.1
        | error e =>
          obtain ⟨t, ht, more⟩ := h.todo_error d hd
          refine ⟨t, ?_, ?_, more.2⟩
          · simp only [Work.task, Joint.H, hr]
            rw [hheap _ (by omega)]
            exact ht
          · simp only [Work.function, Joint.arrival_function, hr]
            exact more.1
      · rw [hc]
        obtain ⟨t, ht, more⟩ := h.todo_then d hd
        refine ⟨t, ?_, more⟩
        simp only [Work.task]
        rw [hheap _ (by omega)]
        exact ht
  · obtain ⟨l, hl, hf⟩ := h.log
    refine ⟨l ++ [d.id], ?_, ?_⟩
    · rw [hw1]; simp only [hl, List.append_assoc]
    · rw [List.filter_append, hf]
      have : ¬ R < d.id := by omega
      simp [List.filter, this]
  · obtain ⟨st, hst, htask, hrem, hwait⟩ := h.internal
    refine ⟨st, by rw [hint]; exact hst, htask, ?_, hwait⟩
    rw [hrem, hlen, hcount]
    omega
  · intro _
    obtain ⟨r, hr, more⟩ := h.waiting (by rw [hlen]; omega)
    refine ⟨r, ?_, more⟩
    rw [hheap _ (by omega)]
    exact hr
  · intro hz
    rw [hcount] at hz
    omega

/-- The slots can all be dereferenced when every one of them is filled. -/
theorem remove_optional_filled (buf : List (Option (Payload V)))
    (h : ∀ j, j < buf.length → ∃ v, buf[j]? = some (some v)) :
    ∃ vals, _remove_optional buf = some vals := by
  induction buf with
  | nil => exact ⟨[], rfl⟩
  | cons a rest ih =>
    obtain ⟨v, hv⟩ := h 0 (by simp)
    simp only [List.getElem?_cons_zero, Option.some.injEq] at hv
    obtain ⟨vals, hvals⟩ := ih (fun j hj => by
      obtain ⟨v', hv'⟩ := h (j + 1) (by simpa using hj)
      exact ⟨v', by simpa using hv'⟩)
    exact ⟨v :: vals, by simp [_remove_optional, hv, hvals]⟩

/-- A filled slot stays filled when another input stores its value or its error. -/
theorem Joint.store_filled (d : Joint V E) (st : internal_state V E) (i : Nat) (v : Payload V)
    (h : st.buffer[i]? = some (some v)) : ∃ v', (d.store st).buffer[i]? = some (some v') := by
  have hlt : i < st.buffer.length := (List.getElem?_eq_some_iff.mp h).1
  unfold Joint.store
  cases d.r with
  | error e => exact ⟨v, h⟩
  | ok v0 =>
    by_cases hk : d.kind = TypeKind.void
    · simp only [hk, if_true]; exact ⟨v, h⟩
    · simp only [hk, if_false]
      by_cases hi : d.index = i
      · exact ⟨v0, by rw [hi]; exact List.getElem?_set_self hlt⟩
      · exact ⟨v, by rw [List.getElem?_set_ne hi]; exact h⟩

/-- The slot of a non-void input is filled once the input has stored its value. -/
theorem Joint.store_own (d : Joint V E) (st : internal_state V E)
    (hk : d.kind ≠ TypeKind.void) (he : d.error = none) (hlt : d.index < st.buffer.length) :
    ∃ v, (d.store st).buffer[d.index]? = some (some v) := by
  unfold Joint.store
  unfold Joint.error at he
  cases hr : d.r with
  | error e => rw [hr] at he; cases he
  | ok v0 =>
    simp only [hk, if_false]
    exact ⟨v0, List.getElem?_set_self hlt⟩

theorem Joint.got_failed (d : Joint V E) (s : _shared_state V E) (e : Exn E)
    (hr : d.r = Except.error e) : d.got s = s := by
  simp [Joint.got, hr]

theorem Joint.slot_failed (d : Joint V E) (e : Exn E) (hr : d.r = Except.error e) :
    d.slot = (Variant.exception e : Variant V E) := by
  simp [Joint.slot, slot_of, hr, Completion.ofExcept]

theorem Joint.H_failed (d : Joint V E) (e : Exn E) (hr : d.r = Except.error e) :
    d.H = d.T + 1 := by
  simp [Joint.H, hr]

theorem Joint.error_toList (d : Joint V E) : [d].filterMap Joint.error = d.error.toList := by
  cases h : d.error <;> simp [List.filterMap, h]

/-- Different thunks of the inputs call different tasks. -/
theorem Work.task_sep {R B : Nat} {ds : List (Joint V E)} (hP : Placing R B ds)
    (x y : Work V E) (hx : x.joint ∈ ds) (hy : y.joint ∈ ds) (hne : x ≠ y)
    (hfx : ∀ d, x = Work.dud d → ∃ e, d.r = Except.error e)
    (hfy : ∀ d, y = Work.dud d → ∃ e, d.r = Except.error e) : x.task ≠ y.task := by
  by_cases hj : x.joint = y.joint
  · cases x with
    | arrival d =>
      cases y with
      | arrival d' =>
        simp only [Work.joint] at hj
        exact absurd (by rw [hj]) hne
      | dud d' =>
        simp only [Work.joint] at hj
        obtain ⟨e, he⟩ := hfy d' rfl
        simp only [Work.task]
        rw [hj, d'.H_failed e he]
        omega
    | dud d =>
      cases y with
      | arrival d' =>
        simp only [Work.joint] at hj
        obtain ⟨e, he⟩ := hfx d rfl
        simp only [Work.task]
        rw [← hj, d.H_failed e he]
        omega
      | dud d' =>
        simp only [Work.joint] at hj
        exact absurd (by rw [hj]) hne
  · intro he
    apply hj
    rcases x.task_cases with h1 | h1 <;> rcases y.task_cases with h2 | h2
    · exact hP.T_sep _ hx _ hy (Or.inl (by omega))
    · exact hP.T_sep _ hx _ hy (Or.inr (by omega))
    · exact (hP.T_sep _ hy _ hx (Or.inr (by omega))).symm
    · exact hP.T_sep _ hx _ hy (Or.inl (by omega))

/-- The derived states of an input whose task has not been called are not the task of a
pushed thunk. -/
theorem Work.task_todo {R B : Nat} {ds : List (Joint V E)} (hP : Placing R B ds)
    (x : Work V E) (d : Joint V E) (hx : x.joint ∈ ds) (hd : d ∈ ds) (hne : x.joint ≠ d) :
    d.T ≠ x.task ∧ d.T + 1 ≠ x.task := by
  constructor
  · intro he
    apply hne
    rcases x.task_cases with h1 | h1
    · exact hP.T_sep _ hx _ hd (Or.inl (by omega))
    · exact (hP.T_sep _ hd _ hx (Or.inr (by omega))).symm
  · intro he
    apply hne
    rcases x.task_cases with h1 | h1
    · exact hP.T_sep _ hx _ hd (Or.inr (by omega))
    · exact hP.T_sep _ hx _ hd (Or.inl (by omega))

/-- The executors run the thunk of the `then` closure of a failed input: the closure
rethrows, and neither the remaining-count nor the log changes. -/
theorem Gathering.dud {ws R B : Nat} {base : List Nat} {ds todo : List (Joint V E)}
    {rest : List (Work V E)} {done : List (Joint V E)} {w : World V E}
    (d : Joint V E) (hP : Placing R B ds)
    (h : Gathering ws R B base ds todo (Work.dud d :: rest) done w) :
    ∃ w1, run_next w = Except.ok w1 ∧ Gathering ws R B base ds todo rest done w1 := by
  have hx : Work.dud d ∈ Work.dud d :: rest := List.mem_cons_self _ _
  have hdds : d ∈ ds := h.queue_sub _ hx
  obtain ⟨e, hr⟩ := h.dud_failed d hx
  obtain ⟨s, hs, hv, hsch⟩ := h.queue_state _ hx
  obtain ⟨t, ht, hfn, hcs, hec⟩ := h.queue_task _ hx
  simp only [Work.joint] at hs hv hsch
  simp only [Work.task, Work.function] at ht hfn
  rw [d.slot_failed e hr] at hv
  have hidR := hP.id_lt d hdds
  have hTR := hP.T_gt d hdds
  obtain ⟨w1, hrun, hp, ha, hi, hl, hframe⟩ :=
    run_dud ({ w with pushed := rest.map Work.pushed } : World V E) ws d s t e hs hv hsch ht hfn
      hcs hec (by omega)
  simp only at hp ha hi hl hframe
  have hnd := List.nodup_cons.mp h.queue_nodup
  have hrest : ∀ y ∈ rest, y ∈ Work.dud d :: rest := fun y hy => List.mem_cons_of_mem _ hy
  have hfilter : (Work.dud d :: rest).filter Work.is_arrival = rest.filter Work.is_arrival := by
    simp [List.filter, Work.is_arrival]
  have hfail : ∀ y ∈ Work.dud d :: rest, ∀ d', y = Work.dud d' → ∃ e, d'.r = Except.error e :=
    fun y hy d' he => h.dud_failed d' (he ▸ hy)
  have hsep : ∀ y ∈ rest, y.task ≠ d.T := fun y hy =>
    Work.task_sep hP y (Work.dud d) (h.queue_sub y (hrest y hy)) hdds
      (fun he => hnd.1 (he ▸ hy)) (hfail y (hrest y hy)) (hfail _ hx)
  have htodo : ∀ d' ∈ todo, d'.T ≠ d.T ∧ d'.T + 1 ≠ d.T := fun d' hd' =>
    Work.task_todo hP (Work.dud d) d' hdds (h.todo_sub d' hd')
      (fun he => h.queue_todo _ hx (he ▸ hd'))
  refine ⟨w1, ?_, ?_⟩
  · simp only [run_next, h.pushed, List.map_cons, Work.pushed, Work.joint, Work.task]
    exact hrun
  refine
    { todo_sub := h.todo_sub, queue_sub := fun y hy => h.queue_sub y (hrest y hy),
      done_sub := h.done_sub, cover := ?_, todo_nodup := h.todo_nodup, queue_nodup := hnd.2,
      done_nodup := h.done_nodup, queue_todo := fun y hy => h.queue_todo y (hrest y hy),
      done_todo := h.done_todo,
      done_queue := fun d' hd' hm => h.done_queue d' hd' (hrest _ hm),
      dud_failed := fun d' hm => h.dud_failed d' (hrest _ hm), queue_length := ?_,
      count := ?_, pushed := hp, todo_state := ?_,
      todo_then := ?_, todo_error := ?_, queue_state := ?_, queue_task := ?_, log := ?_,
      internal := ?_, waiting := ?_, finished := ?_ }
  · intro d' hd'
    rcases h.cover d' hd' with hc | hc | hc
    · exact Or.inl hc
    · rcases List.mem_cons.mp hc with hc | hc
      · cases hc
      · exact Or.inr (Or.inl hc)
    · exact Or.inr (Or.inr hc)
  · have := h.queue_length
    simp only [List.length_cons] at this
    omega
  · have := h.count
    rw [hfilter] at this
    exact this
  · intro d' hd'
    obtain ⟨s', hs', more⟩ := h.todo_state d' hd'
    have := hP.id_lt d' (h.todo_sub d' hd')
    exact ⟨s', by rw [hframe _ (by omega)]; exact hs', more⟩
  · intro d' hd'
    obtain ⟨t', ht', more⟩ := h.todo_then d' hd'
    exact ⟨t', by rw [hframe _ (htodo d' hd').1]; exact ht', more⟩
  · intro d' hd'
    obtain ⟨t', ht', more⟩ := h.todo_error d' hd'
    exact ⟨t', by rw [hframe _ (htodo d' hd').2]; exact ht', more⟩
  · intro y hy
    obtain ⟨s', hs', more⟩ := h.queue_state y (hrest y hy)
    have := hP.id_lt _ (h.queue_sub y (hrest y hy))
    exact ⟨s', by rw [hframe _ (by omega)]; exact hs', more⟩
  · intro y hy
    obtain ⟨t', ht', more⟩ := h.queue_task y (hrest y hy)
    exact ⟨t', by rw [hframe _ (hsep y hy)]; exact ht', more⟩
  · obtain ⟨l, hl1, hf⟩ := h.log
    exact ⟨l, by rw [ha]; exact hl1, hf⟩
  · obtain ⟨st, hst, htask, hrem, hwait⟩ := h.internal
    refine ⟨st, by rw [hi]; exact hst, htask, ?_, hwait⟩
    rw [hrem, hfilter]
  · intro hpos
    obtain ⟨r, hr1, more⟩ := h.waiting (by rw [hfilter]; exact hpos)
    exact ⟨r, by rw [hframe _ (by omega)]; exact hr1, more⟩
  · intro hz
    obtain ⟨r, hr1, more⟩ := h.finished (by rw [hfilter]; exact hz)
    exact ⟨r, by rw [hframe _ (by omega)]; exact hr1, more⟩

/-- The errors collected once one more input has stored its value or its error. -/
theorem Joint.store_collected (d : Joint V E) (st : internal_state V E)
    (done : List (Joint V E)) (h : st.exceptions = done.filterMap Joint.error) :
    (d.store st).exceptions = (done ++ [d]).filterMap Joint.error := by
  rw [d.store_appends_error, List.filterMap_append, d.error_toList, h]

/-- The executors run the thunk of the closure that decrements for an input which is not
the last to arrive: the input is stored and the remaining-count drops by one. -/
theorem Gathering.arrival {ws R B : Nat} {base : List Nat} {ds todo : List (Joint V E)}
    {rest : List (Work V E)} {done : List (Joint V E)} {w : World V E}
    (d : Joint V E) (hP : Placing R B ds)
    (h : Gathering ws R B base ds todo (Work.arrival d :: rest) done w)
    (hmore : 0 < todo.length + (rest.filter Work.is_arrival).length) :
    ∃ w1, run_next w = Except.ok w1 ∧
      Gathering ws R B base ds todo rest (done ++ [d]) w1 := by
  have hx : Work.arrival d ∈ Work.arrival d :: rest := List.mem_cons_self _ _
  have hdds : d ∈ ds := h.queue_sub _ hx
  obtain ⟨s, hs, hv, hsch⟩ := h.queue_state _ hx
  obtain ⟨t, ht, hfn, hcs, hec⟩ := h.queue_task _ hx
  simp only [Work.joint] at hs hv hsch
  simp only [Work.task, Work.function] at ht hfn
  have hidR := hP.id_lt d hdds
  have hTR := hP.T_gt d hdds
  have hH := d.H_cases
  have hfilter : (Work.arrival d :: rest).filter Work.is_arrival =
      Work.arrival d :: rest.filter Work.is_arrival := by
    simp [List.filter, Work.is_arrival]
  obtain ⟨st, hst, htask, hrem, hwait⟩ := h.internal
  have hcount := h.count
  have hbound := hP.bound
  rw [hfilter, List.length_cons] at hrem hcount
  have hwlt : ws < w.internal.length := (List.getElem?_eq_some_iff.mp hst).1
  have hdec : size_dec st.remaining = todo.length + (rest.filter Work.is_arrival).length := by
    rw [hrem, ← Nat.add_assoc]
    exact size_dec_succ _ (by omega)
  obtain ⟨hexc, hblen, hfilled⟩ := hwait (by omega)
  obtain ⟨w1, hrun, hp, ha, hi, hl, hself, hframe⟩ :=
    run_arrival_nonfinal ({ w with pushed := rest.map Work.pushed } : World V E) ws d s t st
      hs hv hsch ht hfn hcs (by omega) hst (by rw [hdec]; omega)
  simp only at hp ha hi hl hself hframe
  have hnd := List.nodup_cons.mp h.queue_nodup
  have hrest : ∀ y ∈ rest, y ∈ Work.arrival d :: rest := fun y hy => List.mem_cons_of_mem _ hy
  have hfail : ∀ y ∈ Work.arrival d :: rest, ∀ d', y = Work.dud d' →
      ∃ e, d'.r = Except.error e :=
    fun y hy d' he => h.dud_failed d' (he ▸ hy)
  have hsep : ∀ y ∈ rest, y.task ≠ d.H := fun y hy =>
    Work.task_sep hP y (Work.arrival d) (h.queue_sub y (hrest y hy)) hdds
      (fun he => hnd.1 (he ▸ hy)) (hfail y (hrest y hy)) (hfail _ hx)
  have hdtodo : d ∉ todo := h.queue_todo _ hx
  have htodo : ∀ d' ∈ todo, d'.T ≠ d.H ∧ d'.T + 1 ≠ d.H := fun d' hd' =>
    Work.task_todo hP (Work.arrival d) d' hdds (h.todo_sub d' hd')
      (fun he => hdtodo (by have he1 : d = d' := he; rw [he1]; exact hd'))
  refine ⟨w1, ?_, ?_⟩
  · simp only [run_next, h.pushed, List.map_cons, Work.pushed, Work.joint, Work.task]
    exact hrun
  refine
    { todo_sub := h.todo_sub, queue_sub := fun y hy => h.queue_sub y (hrest y hy),
      done_sub := ?_, cover := ?_, todo_nodup := h.todo_nodup, queue_nodup := hnd.2,
      done_nodup := ?_, queue_todo := fun y hy => h.queue_todo y (hrest y hy),
      done_todo := ?_, done_queue := ?_,
      dud_failed := fun d' hm => h.dud_failed d' (hrest _ hm), queue_length := ?_,
      count := ?_, pushed := hp, todo_state := ?_,
      todo_then := ?_, todo_error := ?_, queue_state := ?_, queue_task := ?_, log := ?_,
      internal := ?_, waiting := ?_, finished := ?_ }
  · intro d' hd'
    rcases List.mem_append.mp hd' with hd' | hd'
    · exact h.done_sub d' hd'
    · rw [List.mem_singleton.mp hd']; exact hdds
  · intro d' hd'
    rcases h.cover d' hd' with hc | hc | hc
    · exact Or.inl hc
    · rcases List.mem_cons.mp hc with hc | hc
      · injection hc with hc
        exact Or.inr (Or.inr (by simp [hc]))
      · exact Or.inr (Or.inl hc)
    · exact Or.inr (Or.inr (List.mem_append_left _ hc))
  · refine List.Nodup.append h.done_nodup (List.nodup_singleton d) ?_
    intro d' hd' hd2
    rw [List.mem_singleton.mp hd2] at hd'
    exact h.done_queue d hd' hx
  · intro d' hd'
    rcases List.mem_append.mp hd' with hd' | hd'
    · exact h.done_todo d' hd'
    · rw [List.mem_singleton.mp hd']; exact hdtodo
  · intro d' hd'
    rcases List.mem_append.mp hd' with hd' | hd'
    · exact fun hm => h.done_queue d' hd' (hrest _ hm)
    · rw [List.mem_singleton.mp hd']; exact hnd.1
  · have := h.queue_length
    simp only [List.length_cons] at this
    omega
  · rw [List.length_append, List.length_singleton]
    omega
  · intro d' hd'
    obtain ⟨s', hs', more⟩ := h.todo_state d' hd'
    have h1 := hP.id_lt d' (h.todo_sub d' hd')
    have h2 : d'.id ≠ d.id := fun he =>
      hdtodo (hP.id_inj d' (h.todo_sub d' hd') d hdds he ▸ hd')
    exact ⟨s', by rw [hframe _ h2 (by omega)]; exact hs', more⟩
  · intro d' hd'
    obtain ⟨t', ht', more⟩ := h.todo_then d' hd'
    have h1 := hP.T_gt d' (h.todo_sub d' hd')
    exact ⟨t', by rw [hframe _ (by omega) (htodo d' hd').1]; exact ht', more⟩
  · intro d' hd'
    obtain ⟨t', ht', more⟩ := h.todo_error d' hd'
    have h1 := hP.T_gt d' (h.todo_sub d' hd')
    exact ⟨t', by rw [hframe _ (by omega) (htodo d' hd').2]; exact ht', more⟩
  · intro y hy
    obtain ⟨s', hs', hv', hsch'⟩ := h.queue_state y (hrest y hy)
    have h1 := hP.id_lt _ (h.queue_sub y (hrest y hy))
    by_cases hj : y.joint = d
    · cases y with
      | arrival d' =>
        simp only [Work.joint] at hj
        exact absurd (hj ▸ hy) hnd.1
      | dud d' =>
        simp only [Work.joint] at hj hs' hv' hsch' ⊢
        obtain ⟨e, he⟩ := h.dud_failed d' (hrest _ hy)
        rw [hj] at he ⊢
        rw [d.got_failed s e he] at hself
        exact ⟨s, hself, hv, hsch⟩
    · have h2 : y.joint.id ≠ d.id := fun he =>
        hj (hP.id_inj _ (h.queue_sub y (hrest y hy)) d hdds he)
      exact ⟨s', by rw [hframe _ h2 (by omega)]; exact hs', hv', hsch'⟩
  · intro y hy
    obtain ⟨t', ht', more⟩ := h.queue_task y (hrest y hy)
    have h1 := hP.T_gt _ (h.queue_sub y (hrest y hy))
    have h2 := y.task_cases
    exact ⟨t', by rw [hframe _ (by omega) (hsep y hy)]; exact ht', more⟩
  · obtain ⟨l, hl1, hf⟩ := h.log
    refine ⟨l ++ [d.H], by rw [ha, hl1, List.append_assoc], ?_⟩
    rw [List.filter_append, hf, List.map_append]
    have : R < d.H := by omega
    simp [List.filter, this]
  · refine ⟨{ d.store st with remaining := size_dec st.remaining }, ?_, ?_, hdec, ?_⟩
    · rw [hi]; exact List.getElem?_set_self hwlt
    · show (d.store st).task = _
      rw [d.store_keeps_task]; exact htask
    · intro _
      refine ⟨d.store_collected st done hexc, ?_, ?_⟩
      · show (d.store st).buffer.length = B
        rw [d.store_keeps_length]; exact hblen
      · intro d' hd' hk' he'
        show ∃ v, (d.store st).buffer[d'.index]? = some (some v)
        rcases List.mem_append.mp hd' with hd' | hd'
        · obtain ⟨v, hv1⟩ := hfilled d' hd' hk' he'
          exact d.store_filled st _ v hv1
        · rw [List.mem_singleton.mp hd'] at hk' he' ⊢
          exact d.store_own st hk' he' (by rw [hblen]; exact hP.index_lt d hdds hk')
  · intro _
    obtain ⟨r, hr1, more⟩ := h.waiting (by rw [hfilter, List.length_cons]; omega)
    exact ⟨r, by rw [hframe _ (by omega) (by omega)]; exact hr1, more⟩
  · intro hz
    omega

/-- The value left by the held task, in terms of the inputs whose closures have run. -/
theorem outcome_of_gathered (st : internal_state V E) (done : List (Joint V E))
    (value : Variant V E) (h : st.exceptions = done.filterMap Joint.error)
    (hg : Gathered st value) : Outcome done value := by
  unfold Outcome
  rcases hg with ⟨h1, vals, -, h2⟩ | ⟨h1, h2⟩
  · exact Or.inl ⟨by rw [← h]; exact h1, vals, h2⟩
  · exact Or.inr ⟨by rw [← h]; exact h1, by rw [← h]; exact h2⟩

/-- The executors run the thunk of the closure that decrements for the last input to
arrive: the remaining-count drops to zero and the held task is called, which settles the
state of the `when_all` future. -/
theorem Gathering.last {ws R B : Nat} {base : List Nat} {ds todo : List (Joint V E)}
    {rest : List (Work V E)} {done : List (Joint V E)} {w : World V E}
    (d : Joint V E) (hP : Placing R B ds)
    (h : Gathering ws R B base ds todo (Work.arrival d :: rest) done w)
    (hlast : todo.length + (rest.filter Work.is_arrival).length = 0) :
    ∃ w1, run_next w = Except.ok w1 ∧
      Gathering ws R B base ds todo rest (done ++ [d]) w1 := by
  have htodo : todo = [] := List.eq_nil_of_length_eq_zero (by omega)
  subst htodo
  have hduds : ∀ y ∈ rest, Work.arrival y.joint ≠ y ∨ y.is_arrival = false := by
    intro y hy
    right
    have hnil : rest.filter Work.is_arrival = [] := List.eq_nil_of_length_eq_zero (by omega)
    have := List.filter_eq_nil_iff.mp hnil y hy
    simpa using this
  have hx : Work.arrival d ∈ Work.arrival d :: rest := List.mem_cons_self _ _
  have hdds : d ∈ ds := h.queue_sub _ hx
  obtain ⟨s, hs, hv, hsch⟩ := h.queue_state _ hx
  obtain ⟨t, ht, hfn, hcs, hec⟩ := h.queue_task _ hx
  simp only [Work.joint] at hs hv hsch
  simp only [Work.task, Work.function] at ht hfn
  have hidR := hP.id_lt d hdds
  have hTR := hP.T_gt d hdds
  have hH := d.H_cases
  have hfilter : (Work.arrival d :: rest).filter Work.is_arrival =
      Work.arrival d :: rest.filter Work.is_arrival := by
    simp [List.filter, Work.is_arrival]
  obtain ⟨st, hst, htask, hrem, hwait⟩ := h.internal
  have hcount := h.count
  have hbound := hP.bound
  rw [hfilter, List.length_cons] at hrem hcount
  have hwlt : ws < w.internal.length := (List.getElem?_eq_some_iff.mp hst).1
  have hrem1 : st.remaining = 1 := by
    rw [hrem]; simp only [List.length_nil] at hlast ⊢; omega
  have hdec : size_dec st.remaining = 0 := by rw [hrem1]; exact size_dec_one
  obtain ⟨hexc, hblen, hfilled⟩ := hwait (by omega)
  obtain ⟨r, hr, hrf, hrv, hrc, hre, hrk⟩ :=
    h.waiting (by rw [hfilter, List.length_cons]; omega)
  have hnd := List.nodup_cons.mp h.queue_nodup
  have hrest : ∀ y ∈ rest, y ∈ Work.arrival d :: rest := fun y hy => List.mem_cons_of_mem _ hy
  have hcollected := d.store_collected st done hexc
  have hbuf : (d.store st).exceptions = [] →
      ∃ vals, _remove_optional (d.store st).buffer = some vals := by
    intro hnil
    rw [hcollected] at hnil
    have herr : ∀ d' ∈ done ++ [d], d'.error = none := List.filterMap_eq_nil_iff.mp hnil
    apply remove_optional_filled
    intro j hj
    rw [d.store_keeps_length, hblen] at hj
    obtain ⟨d', hd', hk', hidx⟩ := hP.slots j hj
    rw [← hidx]
    rcases h.cover d' hd' with hc | hc | hc
    · simp at hc
    · rcases List.mem_cons.mp hc with hc | hc
      · injection hc with hc
        rw [hc]
        rw [hc] at hk'
        exact d.store_own st hk' (herr d (by simp)) (by rw [hblen]; exact hP.index_lt d hdds hk')
      · rcases hduds _ hc with h1 | h1
        · exact absurd rfl h1
        · simp [Work.is_arrival] at h1
    · obtain ⟨v, hv1⟩ := hfilled d' hc hk' (herr d' (List.mem_append_left _ hc))
      exact d.store_filled st _ v hv1
  obtain ⟨w1, r1, st1, hrun, hp, ha, hl, hr1, hf1, hg, hst1, hrem2, htask1, ⟨c, hself⟩, hframe⟩ :=
    run_arrival_final ({ w with pushed := rest.map Work.pushed } : World V E) ws R d s t r st
      hs hv hsch ht hfn hcs (by omega) hst hdec htask hbuf hr hrf hrc hre hrk (by omega)
      (by omega)
  simp only at hp ha hl hr1 hst1 hself hframe
  have hfail : ∀ y ∈ Work.arrival d :: rest, ∀ d', y = Work.dud d' →
      ∃ e, d'.r = Except.error e :=
    fun y hy d' he => h.dud_failed d' (he ▸ hy)
  have hsep : ∀ y ∈ rest, y.task ≠ d.H := fun y hy =>
    Work.task_sep hP y (Work.arrival d) (h.queue_sub y (hrest y hy)) hdds
      (fun he => hnd.1 (he ▸ hy)) (hfail y (hrest y hy)) (hfail _ hx)
  have hnone : (rest.filter Work.is_arrival).length = 0 := by omega
  refine ⟨w1, ?_, ?_⟩
  · simp only [run_next, h.pushed, List.map_cons, Work.pushed, Work.joint, Work.task]
    exact hrun
  refine
    { todo_sub := h.todo_sub, queue_sub := fun y hy => h.queue_sub y (hrest y hy),
      done_sub := ?_, cover := ?_, todo_nodup := h.todo_nodup, queue_nodup := hnd.2,
      done_nodup := ?_, queue_todo := fun y hy => h.queue_todo y (hrest y hy),
      done_todo := fun d' _ hm => by simp at hm, done_queue := ?_,
      dud_failed := fun d' hm => h.dud_failed d' (hrest _ hm), queue_length := ?_,
      count := ?_, pushed := hp, todo_state := fun d' hm => by simp at hm,
      todo_then := fun d' hm => by simp at hm, todo_error := fun d' hm => by simp at hm,
      queue_state := ?_, queue_task := ?_, log := ?_,
      internal := ?_, waiting := ?_, finished := ?_ }
  · intro d' hd'
    rcases List.mem_append.mp hd' with hd' | hd'
    · exact h.done_sub d' hd'
    · rw [List.mem_singleton.mp hd']; exact hdds
  · intro d' hd'
    rcases h.cover d' hd' with hc | hc | hc
    · exact Or.inl hc
    · rcases List.mem_cons.mp hc with hc | hc
      · injection hc with hc
        exact Or.inr (Or.inr (by simp [hc]))
      · exact Or.inr (Or.inl hc)
    · exact Or.inr (Or.inr (List.mem_append_left _ hc))
  · refine List.Nodup.append h.done_nodup (List.nodup_singleton d) ?_
    intro d' hd' hd2
    rw [List.mem_singleton.mp hd2] at hd'
    exact h.done_queue d hd' hx
  · intro d' hd'
    rcases List.mem_append.mp hd' with hd' | hd'
    · exact fun hm => h.done_queue d' hd' (hrest _ hm)
    · rw [List.mem_singleton.mp hd']; exact hnd.1
  · have := h.queue_length
    simp only [List.length_cons] at this
    omega
  · rw [List.length_append, List.length_singleton]
    omega
  · intro y hy
    obtain ⟨s', hs', hv', hsch'⟩ := h.queue_state y (hrest y hy)
    have h1 := hP.id_lt _ (h.queue_sub y (hrest y hy))
    by_cases hj : y.joint = d
    · cases y with
      | arrival d' =>
        simp only [Work.joint] at hj
        exact absurd (hj ▸ hy) hnd.1
      | dud d' =>
        simp only [Work.joint] at hj hs' hv' hsch' ⊢
        obtain ⟨e, he⟩ := h.dud_failed d' (hrest _ hy)
        rw [hj] at he ⊢
        rw [d.got_failed s e he] at hself
        exact ⟨_, hself, hv, hsch⟩
    · have h2 : y.joint.id ≠ d.id := fun he =>
        hj (hP.id_inj _ (h.queue_sub y (hrest y hy)) d hdds he)
      obtain ⟨c', hc'⟩ := hframe _ s' (by omega) h2 (by omega) hs'
      exact ⟨_, hc', hv', hsch'⟩
  · intro y hy
    obtain ⟨t', ht', more⟩ := h.queue_task y (hrest y hy)
    have h1 := hP.T_gt _ (h.queue_sub y (hrest y hy))
    have h2 := y.task_cases
    obtain ⟨c', hc'⟩ := hframe _ t' (by omega) (by omega) (hsep y hy) ht'
    exact ⟨_, hc', more⟩
  · obtain ⟨l, hl1, hf⟩ := h.log
    refine ⟨l ++ [d.H], by rw [ha, hl1, List.append_assoc], ?_⟩
    rw [List.filter_append, hf, List.map_append]
    have : R < d.H := by omega
    simp [List.filter, this]
  · refine ⟨st1, hst1, htask1, ?_, ?_⟩
    · rw [hrem2, hnone]; rfl
    · intro hpos
      omega
  · intro hpos
    simp only [List.length_nil] at hpos
    omega
  · intro _
    exact ⟨r1, hr1, hf1, outcome_of_gathered _ _ _ hcollected hg⟩

/-- The executors run the oldest pushed thunk of the inputs. -/
theorem Gathering.run {ws R B : Nat} {base : List Nat} {ds todo : List (Joint V E)}
    {rest : List (Work V E)} {done : List (Joint V E)} {w : World V E}
    (x : Work V E) (hP : Placing R B ds)
    (h : Gathering ws R B base ds todo (x :: rest) done w) :
    ∃ w1 done1, run_next w = Except.ok w1 ∧ Gathering ws R B base ds todo rest done1 w1 := by
  cases x with
  | dud d =>
    obtain ⟨w1, h1, h2⟩ := h.dud d hP
    exact ⟨w1, done, h1, h2⟩
  | arrival d =>
    by_cases hmore : 0 < todo.length + (rest.filter Work.is_arrival).length
    · obtain ⟨w1, h1, h2⟩ := h.arrival d hP hmore
      exact ⟨w1, done ++ [d], h1, h2⟩
    · obtain ⟨w1, h1, h2⟩ := h.last d hP (by omega)
      exact ⟨w1, done ++ [d], h1, h2⟩

/-- Any sequence of actions in which no task of an input is called twice keeps the program
state within the invariant: no action stops the program, and the inputs whose task was not
called are those that the sequence leaves out. -/
theorem Gathering.any_schedule {ws R B : Nat} {base : List Nat} {ds : List (Joint V E)}
    (hP : Placing R B ds) :
    ∀ (sch : List Step) (todo : List (Joint V E)) (queue : List (Work V E))
      (done : List (Joint V E)) (w : World V E),
      Gathering ws R B base ds todo queue done w →
      (sch.filter Step.is_call).Subperm
        (todo.map (fun d => Step.call (some d.id) (some d.ex))) →
      ∃ w2 todo2 queue2 done2, steps w sch = Except.ok w2 ∧
        Gathering ws R B base ds todo2 queue2 done2 w2 ∧
        todo2.length + (sch.filter Step.is_call).length = todo.length := by
  intro sch
  induction sch with
  | nil =>
    intro todo queue done w h _
    exact ⟨w, todo, queue, done, rfl, h, by simp⟩
  | cons a rest ih =>
    intro todo queue done w h hp
    cases a with
    | call task ex =>
      have hf : (Step.call task ex :: rest).filter Step.is_call =
          Step.call task ex :: rest.filter Step.is_call := by
        simp [List.filter, Step.is_call]
      rw [hf] at hp ⊢
      have hmem : Step.call task ex ∈ todo.map (fun d => Step.call (some d.id) (some d.ex)) :=
        hp.subset (List.mem_cons_self _ _)
      obtain ⟨d, hd, hde⟩ := List.mem_map.mp hmem
      obtain ⟨l1, l2, hl⟩ := List.append_of_mem hd
      subst hl
      obtain ⟨w1, hcall, hj⟩ := Gathering.call_task d hP h
      have hp1 : (rest.filter Step.is_call).Subperm
          ((l1 ++ l2).map (fun d => Step.call (some d.id) (some d.ex))) := by
        rw [← hde] at hp
        have h2 : ((l1 ++ d :: l2).map (fun d => Step.call (some d.id) (some d.ex))).Perm
            (Step.call (some d.id) (some d.ex) ::
              (l1 ++ l2).map (fun d => Step.call (some d.id) (some d.ex))) := by
          simp
        exact (List.subperm_cons _).mp (hp.trans h2.subperm)
      obtain ⟨w2, todo2, queue2, done2, hsteps, hres, hlen⟩ :=
        ih (l1 ++ l2) (queue ++ d.works) done w1 hj hp1
      refine ⟨w2, todo2, queue2, done2, ?_, hres, ?_⟩
      · injection hde with e1 e2
        subst e1; subst e2
        simp [steps, step, hcall, hsteps]
      · simp only [List.length_append, List.length_cons] at hlen ⊢
        omega
    | run =>
      have hf : (Step.run :: rest).filter Step.is_call = rest.filter Step.is_call := by
        simp [List.filter, Step.is_call]
      rw [hf] at hp ⊢
      cases queue with
      | nil =>
        obtain ⟨w2, todo2, queue2, done2, hsteps, hres, hlen⟩ := ih todo [] done w h hp
        refine ⟨w2, todo2, queue2, done2, ?_, hres, hlen⟩
        have hq : w.pushed = [] := by simpa using h.pushed
        simp [steps, step, run_next, hq, hsteps]
      | cons x qs =>
        obtain ⟨w1, done1, hrun, hj⟩ := h.run x hP
        obtain ⟨w2, todo2, queue2, done2, hsteps, hres, hlen⟩ := ih todo qs done1 w1 hj hp
        exact ⟨w2, todo2, queue2, done2, by simp [steps, step, hrun, hsteps], hres, hlen⟩

/-- The executors drain the queue: every pushed thunk of the inputs runs. -/
theorem Gathering.drain_queue {ws R B : Nat} {base : List Nat} {ds todo : List (Joint V E)}
    (hP : Placing R B ds) :
    ∀ (queue : List (Work V E)) (done : List (Joint V E)) (w : World V E),
      Gathering ws R B base ds todo queue done w →
      ∃ w3 done3, Gathering ws R B base ds todo [] done3 w3 ∧
        ∀ fuel, queue.length ≤ fuel → run_all fuel w = Except.ok w3 := by
  intro queue
  induction queue with
  | nil =>
    intro done w h
    refine ⟨w, done, h, ?_⟩
    intro fuel _
    exact run_all_idle fuel w (by simpa using h.pushed)
  | cons x rest ih =>
    intro done w h
    obtain ⟨w1, done1, hrun, hj⟩ := h.run x hP
    obtain ⟨w3, done3, hw3, hall⟩ := ih done1 w1 hj
    refine ⟨w3, done3, hw3, ?_⟩
    intro fuel hf
    cases fuel with
    | zero => simp at hf
    | succ n =>
      simp only [run_all, h.pushed, List.map_cons, hrun]
      exact hall n (by simpa using hf)

/-- Once every task has been called and nothing is pushed, the closures of all inputs have
run and the state of the `when_all` future is settled. -/
theorem Gathering.finish {ws R B : Nat} {base : List Nat} {ds done : List (Joint V E)}
    {w : World V E} (h : Gathering ws R B base ds [] [] done w) :
    w.pushed = [] ∧ done.Perm ds ∧
      ∃ r, w.heap[R]? = some r ∧ r.function = none ∧ Outcome done r.value := by
  refine ⟨by simpa using h.pushed, ?_, h.finished (by simp)⟩
  have hsub : done.Subperm ds := List.subperm_of_subset h.done_nodup (fun d hd => h.done_sub d hd)
  have hcount := h.count
  simp only [List.length_nil, List.filter_nil, Nat.zero_add] at hcount
  exact hsub.perm_of_length_le (by omega)

theorem set_append_get_succ {α : Type} (l : List α) (id : Nat) (x y z : α) :
    (l.set id x ++ [y, z])[l.length + 1]? = some z := by
  rw [List.getElem?_append_right (by simp)]
  simp

/-- The attachment loop of `when_all` over pending inputs without continuations, whatever
their callables do: every input gets its two continuations, the two derived states of each
input are allocated in order, and nothing else changes. -/
theorem when_all_attach_settling (ws : Nat) (policy : exception_policy) :
    ∀ (ps : List (Settling V E)) (u : World V E) (j : Nat) (st : internal_state V E),
      (ps.map Settling.id).Nodup →
      (∀ p ∈ ps, ∃ s, u.heap[p.id]? = some s ∧ s.kind = p.kind ∧ s.value = Variant.none ∧
        s.function = some (Function.user p.r) ∧ s.scheduler = none ∧
        s.continuations = [] ∧ s.exceptional_continuations = none) →
      u.internal[ws]? = some st →
      ∃ u1 st1, when_all_attach ws policy u j (ps.map (fun p => some p.id)) =
          Except.ok (u1, Completion.normal ()) ∧
        u1.pushed = u.pushed ∧ u1.applied = u.applied ∧
        u1.heap.length = u.heap.length + 2 * ps.length ∧
        (∀ a, a < u.heap.length → (∀ p ∈ ps, a ≠ p.id) → u1.heap[a]? = u.heap[a]?) ∧
        u1.internal[ws]? = some st1 ∧ st1.buffer = st.buffer ∧ st1.remaining = st.remaining ∧
        st1.task = st.task ∧ st1.exceptions = st.exceptions ∧
        ∀ d ∈ joints_at u.heap.length j ps,
          (∃ s, u1.heap[d.id]? = some s ∧ s.kind = d.kind ∧
            s.function = some (Function.user d.r) ∧ s.continuations = [d.cont d.T] ∧
            s.exceptional_continuations = some (d.cont (d.T + 1))) ∧
          (∃ t, u1.heap[d.T]? = some t ∧ t.function = some (d.handler ws) ∧
            t.continuations = [] ∧ t.exceptional_continuations = none) ∧
          (∃ t, u1.heap[d.T + 1]? = some t ∧
            t.function = some (Function.when_all_error_body d.id ws policy) ∧
            t.continuations = [] ∧ t.exceptional_continuations = none) := by
  intro ps
  induction ps with
  | nil =>
    intro u j st _ _ hst
    exact ⟨u, st, rfl, rfl, rfl, by simp, fun a _ _ => rfl, hst, rfl, rfl, rfl, rfl,
      fun d hd => by simp [joints_at] at hd⟩
  | cons p rest ih =>
    intro u j st hnd hpend hst
    obtain ⟨s, hs, hk, hv, hfn, hsch, hcs, hec⟩ := hpend p (List.mem_cons_self _ _)
    have hlt : p.id < u.heap.length := (List.getElem?_eq_some_iff.mp hs).1
    have hwlt : ws < u.internal.length := (List.getElem?_eq_some_iff.mp hst).1
    have hstep := when_all_attach_cons ws policy u j p.id (rest.map (fun p => some p.id)) s st
      hs hv (by simp [hfn]) hsch hcs hec hst
    simp only [List.map_cons, List.nodup_cons, List.mem_map, not_exists, not_and] at hnd
    have hrest_lt : ∀ p' ∈ rest, p'.id < u.heap.length := by
      intro p' hp'
      obtain ⟨s', hs', -⟩ := hpend p' (List.mem_cons_of_mem _ hp')
      exact (List.getElem?_eq_some_iff.mp hs').1
    have hrest_ne : ∀ p' ∈ rest, p'.id ≠ p.id := fun p' hp' => hnd.1 p' hp'
    obtain ⟨u1, st1, hatt, hp1, ha1, hl1, hframe, hi1, hb1, hr1, ht1, he1, hds⟩ :=
      ih
        ({ heap := u.heap.set p.id (attached s p.id u.heap.length) ++
            [fresh TypeKind.void
              (if s.kind = TypeKind.void then Function.when_all_void p.id ws
                else Function.when_all_nonvoid p.id ws j),
             fresh TypeKind.void (Function.when_all_error_body p.id ws policy)],
           pushed := u.pushed, applied := u.applied,
           internal := u.internal.set ws
            { st with futures := st.futures ++ [some u.heap.length, some (u.heap.length + 1)] } } :
          World V E)
        (if s.kind = TypeKind.void then j else j + 1)
        { st with futures := st.futures ++ [some u.heap.length, some (u.heap.length + 1)] } hnd.2
        (by
          intro p' hp'
          obtain ⟨s', hs', more⟩ := hpend p' (List.mem_cons_of_mem _ hp')
          refine ⟨s', ?_, more⟩
          show (u.heap.set p.id _ ++ _)[p'.id]? = some s'
          rw [set_append_get _ _ _ _ _ (hrest_lt p' hp') (hrest_ne p' hp')]
          exact hs')
        (by simp [hwlt])
    simp only [List.length_append, List.length_set, List.length_cons, List.length_nil] at hl1 hframe hds
    refine ⟨u1, st1, ?_, hp1, ha1, ?_, ?_, hi1, hb1, hr1, ht1, he1, ?_⟩
    · rw [List.map_cons, hstep]; exact hatt
    · rw [hl1]; simp only [List.length_cons]; omega
    · intro a ha hne
      rw [hframe a (by omega) (fun p' hp' => hne p' (List.mem_cons_of_mem _ hp'))]
      exact set_append_get _ _ _ _ _ ha (hne p (List.mem_cons_self _ _))
    · intro d hd
      simp only [joints_at, List.mem_cons] at hd
      rcases hd with hd | hd
      · subst hd
        refine ⟨?_, ?_, ?_⟩
        · refine ⟨attached s p.id u.heap.length, ?_, ?_, ?_, ?_, ?_⟩
          · rw [hframe p.id (by omega) (fun p' hp' => Ne.symm (hrest_ne p' hp'))]
            exact set_append_get_self _ _ _ _ hlt
          · simpa [attached] using hk
          · simpa [attached] using hfn
          · simp [attached, Joint.cont]
          · simp [attached, Joint.cont]
        · refine ⟨fresh TypeKind.void
            (if s.kind = TypeKind.void then Function.when_all_void p.id ws
              else Function.when_all_nonvoid p.id ws j), ?_, ?_, ?_, ?_⟩
          · rw [hframe u.heap.length (by omega)
              (fun p' hp' => Nat.ne_of_gt (hrest_lt p' hp'))]
            exact set_append_get_length _ _ _ _ _
          · simp [fresh, Joint.handler, hk]
          · simp [fresh]
          · simp [fresh]
        · refine ⟨fresh TypeKind.void (Function.when_all_error_body p.id ws policy),
            ?_, ?_, ?_, ?_⟩
          · rw [hframe (u.heap.length + 1) (by omega)
              (fun p' hp' => by have := hrest_lt p' hp'; omega)]
            exact set_append_get_succ _ _ _ _ _
          · simp [fresh]
          · simp [fresh]
          · simp [fresh]
      · rw [hk] at hds
        exact hds d hd

/-- The value types that `when_all` reads off its inputs. -/
theorem when_all_kinds_settling (w : World V E) (ps : List (Settling V E))
    (h : ∀ p ∈ ps, ∃ s, w.heap[p.id]? = some s ∧ s.kind = p.kind) :
    when_all_kinds w (ps.map (fun p => some p.id)) = some (ps.map Settling.kind) := by
  induction ps with
  | nil => rfl
  | cons p rest ih =>
    obtain ⟨s, hs, hk⟩ := h p (List.mem_cons_self _ _)
    have ih1 := ih (fun p' hp' => h p' (List.mem_cons_of_mem _ hp'))
    simp [when_all_kinds, hs, ih1, hk]

/-- After `when_all` over pending inputs without continuations, whatever their callables
do, the program state is in the waiting phase: every input holds the continuations of its
two closures, the held task is pending, and the remaining-count is the number of inputs. -/
theorem when_all_settling (w : World V E) (ps : List (Settling V E))
    (hne : ps ≠ []) (hlen : ps.length < 2 ^ 64) (hq : w.pushed = [])
    (hids : (ps.map Settling.id).Nodup)
    (hpending : ∀ p ∈ ps, ∃ s, w.heap[p.id]? = some s ∧ s.kind = p.kind ∧
      s.value = Variant.none ∧ s.function = some (Function.user p.r) ∧
      s.scheduler = none ∧ s.continuations = [] ∧ s.exceptional_continuations = none) :
    ∃ w1 st1, when_all w exception_policy.aggregate (ps.map (fun p => some p.id)) =
        Except.ok (w1, Completion.normal (some w.heap.length)) ∧
      w1.internal[w.internal.length]? = some st1 ∧ st1.remaining = ps.length ∧
      Gathering w.internal.length w.heap.length (slots_of ps) w.applied
        (joints_at (w.heap.length + 1) 0 ps) (joints_at (w.heap.length + 1) 0 ps) [] [] w1 := by
  have hkinds := when_all_kinds_settling w ps
    (fun p hp => by obtain ⟨s, hs, hk, -⟩ := hpending p hp; exact ⟨s, hs, hk⟩)
  have hidlt : ∀ p ∈ ps, p.id < w.heap.length := by
    intro p hp
    obtain ⟨s, hs, -⟩ := hpending p hp
    exact (List.getElem?_eq_some_iff.mp hs).1
  obtain ⟨u1, st1, hatt, hp1, ha1, hl1, hframe, hi1, hb1, hr1, ht1, he1, hds⟩ :=
    when_all_attach_settling w.internal.length exception_policy.aggregate ps
      ({ heap := w.heap ++
          [fresh (tuple_kind ((ps.map Settling.kind).filter (fun k => k ≠ TypeKind.void)))
            (Function.when_all_body w.internal.length)],
         pushed := w.pushed, applied := w.applied,
         internal := w.internal ++
          [{ buffer := ((ps.map Settling.kind).filter (fun k => k ≠ TypeKind.void)).map
               (fun _ => none),
             remaining := (ps.map (fun p => some p.id)).length % 2 ^ 64,
             task := some (some w.heap.length),
             futures := [], exceptions := [] }] } : World V E) 0
      { buffer := ((ps.map Settling.kind).filter (fun k => k ≠ TypeKind.void)).map
          (fun _ => none),
        remaining := (ps.map (fun p => some p.id)).length % 2 ^ 64,
        task := some (some w.heap.length),
        futures := [], exceptions := [] } hids
      (by
        intro p hp
        obtain ⟨s, hs, more⟩ := hpending p hp
        refine ⟨s, ?_, more⟩
        show (w.heap ++ _)[p.id]? = some s
        rw [List.getElem?_append_left (hidlt p hp)]
        exact hs)
      (by simp)
  have hcall := when_all_of_attach w u1 exception_policy.aggregate (ps.map (fun p => some p.id))
    (ps.map Settling.kind) (by simpa using hne) hkinds hatt
  obtain ⟨f1, f2, f3, f4, f5⟩ := fold_future_destroy (ps.map (fun p => some p.id)) u1
  simp only [List.length_append, List.length_cons, List.length_nil, Nat.zero_add] at hl1 hframe hds
  simp only [List.length_map] at hr1
  rw [Nat.mod_eq_of_lt hlen] at hr1
  have hpos : 0 < ps.length := List.length_pos.mpr hne
  refine ⟨_, st1, hcall, by rw [f3]; exact hi1, hr1, ?_⟩
  refine
    { todo_sub := fun d hd => hd, queue_sub := fun x hx => by simp at hx,
      done_sub := fun d hd => by simp at hd, cover := fun d hd => Or.inl hd,
      todo_nodup := joints_at_nodup ps _ _, queue_nodup := List.nodup_nil,
      done_nodup := List.nodup_nil, queue_todo := fun x hx => by simp at hx,
      done_todo := fun d hd => by simp at hd, done_queue := fun d hd => by simp at hd,
      dud_failed := fun d hd => by simp at hd, queue_length := by simp,
      count := by simp, pushed := ?_, todo_state := ?_,
      todo_then := ?_, todo_error := ?_, queue_state := fun x hx => by simp at hx,
      queue_task := fun x hx => by simp at hx, log := ?_,
      internal := ?_, waiting := ?_, finished := ?_ }
  · rw [f1, hp1]; simpa using hq
  · intro d hd
    obtain ⟨⟨s, hs, more⟩, -, -⟩ := hds d hd
    obtain ⟨c, hc⟩ := f5 _ _ hs
    exact ⟨_, hc, more⟩
  · intro d hd
    obtain ⟨-, ⟨t, ht, more⟩, -⟩ := hds d hd
    obtain ⟨c, hc⟩ := f5 _ _ ht
    exact ⟨_, hc, more⟩
  · intro d hd
    obtain ⟨-, -, t, ht, more⟩ := hds d hd
    obtain ⟨c, hc⟩ := f5 _ _ ht
    exact ⟨_, hc, more⟩
  · exact ⟨[], by rw [f2, ha1]; simp, rfl⟩
  · refine ⟨st1, by rw [f3]; exact hi1, by rw [ht1], ?_, ?_⟩
    · rw [hr1]
      simp only [List.filter_nil, List.length_nil, Nat.add_zero, joints_at_length]
    · intro _
      refine ⟨by rw [he1]; rfl, ?_, fun d hd => by simp at hd⟩
      rw [hb1]
      simp [slots_of, List.filter_map, Function.comp_def]
  · intro _
    have hR : u1.heap[w.heap.length]? = some
        (fresh (tuple_kind ((ps.map Settling.kind).filter (fun k => k ≠ TypeKind.void)))
          (Function.when_all_body w.internal.length)) := by
      rw [hframe w.heap.length (by omega) (fun p hp => Nat.ne_of_gt (hidlt p hp))]
      rw [List.getElem?_append_right (le_refl _)]
      simp
    obtain ⟨c, hc⟩ := f5 _ _ hR
    exact ⟨_, hc, rfl, rfl, rfl, rfl, tuple_kind_ne_void _⟩
  · intro hz
    simp only [List.filter_nil, List.length_nil, Nat.add_zero, joints_at_length] at hz
    omega

/-- The result of `match` when the regex does not match at `begin`. -/
theorem lexer.match_none (d : lexer._token_description_impl T X) (rest : List Char)
    (h : lexer.matched_text d rest = none) :
    d.match_ rest = Except.ok (lexer.basic_token.of_type lexer.no_match, rest) := by
  unfold lexer.matched_text at h
  unfold lexer._token_description_impl.match_
  split at h
  · cases h
  · rfl

/-- The result of `match` when the regex matches at `begin`. -/
theorem lexer.match_some (d : lexer._token_description_impl T X) (rest str : List Char)
    (h : lexer.matched_text d rest = some str) :
    d.match_ rest =
      (match d._converter str with
        | Except.error x => Except.error x
        | Except.ok c => Except.ok (lexer.token_of d._type c str, rest.drop str.length)) := by
  unfold lexer.matched_text at h
  unfold lexer._token_description_impl.match_
  split at h
  · rename_i len h1
    injection h with h
    subst h
    cases d._converter (List.take len rest) with
    | error x => rfl
    | ok c => cases c <;> rfl
  · cases h

theorem lexer.token_of_type (type : Nat) (c : lexer.Converted T) (str : List Char) :
    (lexer.token_of type c str)._type = type := by
  cases c <;> rfl

/-- The `for` loop when no description matches at `begin`. -/
theorem lexer.tokenize_for_none (descs : List (lexer._token_description_impl T X))
    (rest : List Char) (h : ∀ d ∈ descs, lexer.matched_text d rest = none) :
    lexer.tokenize_for descs rest = Except.ok (none, rest) := by
  induction descs with
  | nil => rfl
  | cons d more ih =>
    have h1 := lexer.match_none d rest (h d (List.mem_cons_self _ _))
    simp only [lexer.tokenize_for, h1, lexer.basic_token.of_type, ne_eq, not_true_eq_false,
      if_false]
    exact ih (fun e he => h e (List.mem_cons_of_mem _ he))

/-- The `for` loop when `d` is the first description that matches at `begin`. -/
theorem lexer.tokenize_for_first (pre post : List (lexer._token_description_impl T X))
    (d : lexer._token_description_impl T X) (rest str : List Char)
    (hpre : ∀ e ∈ pre, lexer.matched_text e rest = none)
    (hd : lexer.matched_text d rest = some str) (hty : d._type ≠ lexer.no_match) :
    lexer.tokenize_for (pre ++ d :: post) rest =
      (match d._converter str with
        | Except.error x => Except.error x
        | Except.ok c =>
          Except.ok (some (lexer.token_of d._type c str), rest.drop str.length)) := by
  induction pre with
  | nil =>
    have h1 := lexer.match_some d rest str hd
    simp only [List.nil_append, lexer.tokenize_for, h1]
    cases d._converter str with
    | error x => rfl
    | ok c => simp [lexer.token_of_type, hty]
  | cons e more ih =>
    have h1 := lexer.match_none e rest (hpre e (List.mem_cons_self _ _))
    simp only [List.cons_append, lexer.tokenize_for, h1, lexer.basic_token.of_type, ne_eq,
      not_true_eq_false, if_false]
    exact ih (fun e' he' => hpre e' (List.mem_cons_of_mem _ he'))

/-- Either no description matches at `begin`, or there is a first one that does. -/
theorem lexer.first_match (descs : List (lexer._token_description_impl T X))
    (rest : List Char) :
    (∀ d ∈ descs, lexer.matched_text d rest = none) ∨
    ∃ pre d post str, descs = pre ++ d :: post ∧
      (∀ e ∈ pre, lexer.matched_text e rest = none) ∧ lexer.matched_text d rest = some str := by
  induction descs with
  | nil => exact Or.inl (fun d hd => by simp at hd)
  | cons d more ih =>
    cases hd : lexer.matched_text d rest with
    | some str => exact Or.inr ⟨[], d, more, str, rfl, fun e he => by simp at he, hd⟩
    | none =>
      rcases ih with h | ⟨pre, d1, post, str, h1, h2, h3⟩
      · left
        intro e he
        rcases List.mem_cons.mp he with he | he
        · rw [he]; exact hd
        · exact h e he
      · right
        refine ⟨d :: pre, d1, post, str, by rw [h1]; rfl, ?_, h3⟩
        intro e he
        rcases List.mem_cons.mp he with he | he
        · rw [he]; exact hd
        · exact h2 e he

/-- The map keeps its values in ascending key order. -/
theorem lexer.emplace_sorted (descs : List (lexer._token_description_impl T X))
    (d : lexer._token_description_impl T X)
    (h : descs.Pairwise (fun a b => a._type < b._type)) :
    (lexer.emplace descs d).Pairwise (fun a b => a._type < b._type) ∧
      ∀ e ∈ lexer.emplace descs d, e ∈ descs ∨ e = d := by
  induction descs with
  | nil => exact ⟨by simp [lexer.emplace], fun e he => by simpa [lexer.emplace] using he⟩
  | cons e rest ih =>
    have hp := List.pairwise_cons.mp h
    obtain ⟨ih1, ih2⟩ := ih hp.2
    unfold lexer.emplace
    by_cases h1 : d._type < e._type
    · rw [if_pos h1]
      refine ⟨List.pairwise_cons.mpr ⟨?_, h⟩, ?_⟩
      · intro a ha
        rcases List.mem_cons.mp ha with ha | ha
        · rw [ha]; exact h1
        · exact lt_trans h1 (hp.1 a ha)
      · intro a ha
        rcases List.mem_cons.mp ha with ha | ha
        · exact Or.inr ha
        · exact Or.inl ha
    · rw [if_neg h1]
      by_cases h2 : d._type = e._type
      · rw [if_pos h2]
        exact ⟨h, fun a ha => Or.inl ha⟩
      · rw [if_neg h2]
        refine ⟨List.pairwise_cons.mpr ⟨?_, ih1⟩, ?_⟩
        · intro a ha
          rcases ih2 a ha with ha | ha
          · exact hp.1 a ha
          · rw [ha]; omega
        · intro a ha
          rcases List.mem_cons.mp ha with ha | ha
          · exact Or.inl (by rw [ha]; exact List.mem_cons_self _ _)
          · rcases ih2 a ha with ha | ha
            · exact Or.inl (List.mem_cons_of_mem _ ha)
            · exact Or.inr ha

/-- A description set built by `add` is in ascending order of type id and holds only
descriptions that were added. -/
theorem lexer.described_sorted (adds : List (lexer._token_description_impl T X)) :
    (lexer.described adds)._descs.Pairwise (fun a b => a._type < b._type) ∧
      ∀ e ∈ (lexer.described adds)._descs, e ∈ adds := by
  have key : ∀ (adds : List (lexer._token_description_impl T X))
      (m : lexer.basic_tokens_description T X),
      m._descs.Pairwise (fun a b => a._type < b._type) →
      (adds.foldl lexer.basic_tokens_description.add m)._descs.Pairwise
          (fun a b => a._type < b._type) ∧
        ∀ e ∈ (adds.foldl lexer.basic_tokens_description.add m)._descs,
          e ∈ m._descs ∨ e ∈ adds := by
    intro adds
    induction adds with
    | nil => intro m hm; exact ⟨hm, fun e he => Or.inl he⟩
    | cons d more ih =>
      intro m hm
      obtain ⟨h1, h2⟩ := lexer.emplace_sorted m._descs d hm
      obtain ⟨h3, h4⟩ := ih (m.add d) h1
      refine ⟨h3, ?_⟩
      intro e he
      rcases h4 e he with he | he
      · rcases h2 e he with he | he
        · exact Or.inl he
        · exact Or.inr (by rw [he]; exact List.mem_cons_self _ _)
      · exact Or.inr (List.mem_cons_of_mem _ he)
  obtain ⟨h1, h2⟩ := key adds lexer.basic_tokens_description.empty List.Pairwise.nil
  refine ⟨h1, ?_⟩
  intro e he
  rcases h2 e he with he | he
  · simp [lexer.basic_tokens_description.empty] at he
  · exact he

/-- The body of the loop when no description matches at `begin`. -/
theorem lexer.tokenize_body_none (descs : List (lexer._token_description_impl T X))
    (c : Char) (cs : List Char) (ret : List (lexer.basic_token T))
    (h : ∀ d ∈ descs, lexer.matched_text d (c :: cs) = none) :
    lexer.tokenize_body descs (c :: cs) ret =
      if c = Char.ofNat 0 then lexer.Iteration.stop (lexer.Result.returned ret)
      else lexer.Iteration.stop lexer.Result.unexpected_characters := by
  simp only [lexer.tokenize_body, lexer.tokenize_for_none descs _ h]

/-- The body of the loop when `d` is the first description that matches at `begin` and its
converter returns. -/
theorem lexer.tokenize_body_first (pre post : List (lexer._token_description_impl T X))
    (d : lexer._token_description_impl T X) (rest str : List Char)
    (ret : List (lexer.basic_token T)) (v : lexer.Converted T)
    (hpre : ∀ e ∈ pre, lexer.matched_text e rest = none)
    (hd : lexer.matched_text d rest = some str) (hty : d._type ≠ lexer.no_match)
    (hv : d._converter str = Except.ok v) :
    lexer.tokenize_body (pre ++ d :: post) rest ret =
      lexer.Iteration.next (rest.drop str.length) (ret ++ [lexer.token_of d._type v str]) := by
  simp only [lexer.tokenize_body, lexer.tokenize_for_first pre post d rest str hpre hd hty, hv]

/-- The body of the loop when `d` is the first description that matches at `begin` and its
converter raises. -/
theorem lexer.tokenize_body_raises (pre post : List (lexer._token_description_impl T X))
    (d : lexer._token_description_impl T X) (rest str : List Char)
    (ret : List (lexer.basic_token T)) (x : X)
    (hpre : ∀ e ∈ pre, lexer.matched_text e rest = none)
    (hd : lexer.matched_text d rest = some str) (hty : d._type ≠ lexer.no_match)
    (hx : d._converter str = Except.error x) :
    lexer.tokenize_body (pre ++ d :: post) rest ret =
      lexer.Iteration.stop (lexer.Result.converter_raised x) := by
  simp only [lexer.tokenize_body, lexer.tokenize_for_first pre post d rest str hpre hd hty, hx]

/-- With no description of type id `-1`, when some description matches at `begin` the body
of the loop neither returns nor throws `unexpected_characters`. -/
theorem lexer.tokenize_body_matching (descs : List (lexer._token_description_impl T X))
    (rest : List Char) (ret : List (lexer.basic_token T))
    (hno : ∀ d ∈ descs, d._type ≠ lexer.no_match)
    (pre post : List (lexer._token_description_impl T X))
    (d : lexer._token_description_impl T X) (str : List Char)
    (hdescs : descs = pre ++ d :: post)
    (hpre : ∀ e ∈ pre, lexer.matched_text e rest = none)
    (hd : lexer.matched_text d rest = some str) :
    (∃ x, lexer.tokenize_body descs rest ret =
      lexer.Iteration.stop (lexer.Result.converter_raised x)) ∨
    (∃ rest1 ret1, lexer.tokenize_body descs rest ret = lexer.Iteration.next rest1 ret1) := by
  have hty : d._type ≠ lexer.no_match := hno d (by rw [hdescs]; simp)
  rw [hdescs]
  cases hc : d._converter str with
  | error x => exact Or.inl ⟨x, lexer.tokenize_body_raises pre post d rest str ret x hpre hd hty hc⟩
  | ok v =>
    exact Or.inr ⟨_, _, lexer.tokenize_body_first pre post d rest str ret v hpre hd hty hc⟩

theorem lexer.take_append_drop_take (rest : List Char) (len : Nat) :
    rest.take len ++ rest.drop (rest.take len).length = rest := by
  by_cases h : len ≤ rest.length
  · rw [List.length_take, Nat.min_eq_left h, List.take_append_drop]
  · have h1 : rest.length ≤ len := by omega
    rw [List.take_of_length_le h1, List.drop_length, List.append_nil]

/-- The matched text and the characters after it make up the characters from `begin`. -/
theorem lexer.matched_text_append (d : lexer._token_description_impl T X)
    (rest str : List Char) (h : lexer.matched_text d rest = some str) :
    str ++ rest.drop str.length = rest := by
  unfold lexer.matched_text at h
  split at h
  · injection h with h
    rw [← h]
    exact lexer.take_append_drop_take rest _
  · cases h

/-- The literal of the token that `match` builds, when a converter to a string returns the
matched text. -/
theorem lexer.token_of_literal (type : Nat) (v : lexer.Converted T) (str : List Char)
    (hid : ∀ s, v = lexer.Converted.text s → s = str) :
    (lexer.token_of type v str).as_string = some str := by
  cases v with
  | value t => rfl
  | text s =>
    rw [hid s rfl]
    rfl

theorem lexer.tokenize_while_cons (descs : List (lexer._token_description_impl T X))
    (fuel : Nat) (c : Char) (cs : List Char) (ret : List (lexer.basic_token T)) :
    lexer.tokenize_while descs (fuel + 1) (c :: cs) ret =
      (match lexer.tokenize_body descs (c :: cs) ret with
        | lexer.Iteration.stop r => some r
        | lexer.Iteration.next rest1 ret1 => lexer.tokenize_while descs fuel rest1 ret1) := rfl

/-- The literals of the tokens that the loop pushes before it returns spell the characters
that it has passed. -/
theorem lexer.tokenize_while_literals (descs : List (lexer._token_description_impl T X))
    (hno : ∀ d ∈ descs, d._type ≠ lexer.no_match)
    (hid : ∀ d ∈ descs, ∀ str s, d._converter str = Except.ok (lexer.Converted.text s) →
      s = str) :
    ∀ (fuel : Nat) (rest : List Char) (ret toks : List (lexer.basic_token T)),
      lexer.tokenize_while descs fuel rest ret = some (lexer.Result.returned toks) →
      ∃ (new : List (lexer.basic_token T)) (lits : List (List Char)) (rest1 : List Char),
        toks = ret ++ new ∧
        new.map lexer.basic_token.as_string = lits.map some ∧ lits.flatten ++ rest1 = rest ∧
        (rest1 = [] ∨ (rest1.head? = some (Char.ofNat 0) ∧
          ∀ d ∈ descs, lexer.matched_text d rest1 = none)) := by
  intro fuel
  induction fuel with
  | zero => intro rest ret toks h; simp [lexer.tokenize_while] at h
  | succ n ih =>
    intro rest ret toks h
    cases rest with
    | nil =>
      simp only [lexer.tokenize_while, Option.some.injEq, lexer.Result.returned.injEq] at h
      exact ⟨[], [], [], by simp [h], rfl, rfl, Or.inl rfl⟩
    | cons c cs =>
      rw [lexer.tokenize_while_cons] at h
      rcases lexer.first_match descs (c :: cs) with hnone | ⟨pre, d0, post, str0, h1, h2, h3⟩
      · rw [lexer.tokenize_body_none descs c cs ret hnone] at h
        by_cases hc : c = Char.ofNat 0
        · rw [if_pos hc] at h
          simp only [Option.some.injEq, lexer.Result.returned.injEq] at h
          exact ⟨[], [], c :: cs, by simp [h], rfl, rfl, Or.inr ⟨by simp [hc], hnone⟩⟩
        · rw [if_neg hc] at h
          simp at h
      · have hd0 : d0 ∈ descs := by rw [h1]; simp
        cases hv : d0._converter str0 with
        | error x =>
          rw [h1, lexer.tokenize_body_raises pre post d0 _ str0 ret x h2 h3 (hno d0 hd0) hv] at h
          simp at h
        | ok v =>
          rw [h1, lexer.tokenize_body_first pre post d0 _ str0 ret v h2 h3 (hno d0 hd0) hv] at h
          simp only at h
          rw [← h1] at h
          obtain ⟨new, lits, rest1, e1, e2, e3, e4⟩ := ih _ _ _ h
          refine ⟨lexer.token_of d0._type v str0 :: new, str0 :: lits, rest1, ?_, ?_, ?_, e4⟩
          · rw [e1]; simp
          · rw [List.map_cons, List.map_cons, e2,
              lexer.token_of_literal d0._type v str0
                (fun s hs => hid d0 hd0 str0 s (by rw [hv, hs]))]
          · rw [List.flatten_cons, List.append_assoc, e3]
            exact lexer.matched_text_append d0 _ str0 h3

theorem invariant_1_put (w : World V E) (id : Nat) (s : _shared_state V E)
    (hw : w.invariant_1) (hs : s.invariant_1) : (w.put id s).invariant_1 := by
  intro t ht
  rcases List.mem_or_eq_of_mem_set ht with h | h
  · exact hw t h
  · rw [h]; exact hs

theorem invariant_1_get (w : World V E) (id : Nat) (s : _shared_state V E)
    (hw : w.invariant_1) (hs : w.heap[id]? = some s) : s.invariant_1 := by
  obtain ⟨h, he⟩ := List.getElem?_eq_some_iff.mp hs
  exact hw s (he ▸ List.getElem_mem h)

/-- Invariant 1 depends on the slot and the function only. -/
theorem invariant_1_congr (s t : _shared_state V E) (hv : t.value = s.value)
    (hf : t.function = s.function) (hs : s.invariant_1) : t.invariant_1 := by
  unfold _shared_state.invariant_1 at *
  rw [hv, hf]; exact hs

/-- Invariant 1 holds of a state whose slot is empty. -/
theorem invariant_1_empty (s : _shared_state V E) (hv : s.value = Variant.none) :
    s.invariant_1 := by
  intro h
  rw [hv] at h
  exact absurd rfl h

/-- Invariant 1 holds of a state without function. -/
theorem invariant_1_cleared (s : _shared_state V E) (hf : s.function = none) :
    s.invariant_1 := by
  intro _
  rw [hf]; rfl

theorem invariant_1_remove_promise (s : _shared_state V E) (hs : s.invariant_1) :
    (_remove_promise s).invariant_1 := by
  unfold _remove_promise
  simp only
  split
  · split
    · exact invariant_1_cleared _ rfl
    · exact invariant_1_congr s _ rfl rfl hs
  · exact invariant_1_congr s _ rfl rfl hs

theorem invariant_1_package (w : World V E) (k : TypeKind) (f : Function V E)
    (hw : w.invariant_1) : (package w k f).1.invariant_1 := by
  intro t ht
  simp only [package, List.mem_append, List.mem_singleton] at ht
  rcases ht with h | h
  · exact hw t h
  · rw [h]; exact invariant_1_empty _ rfl

theorem invariant_1_task_destroy (w : World V E) (task : Option Nat)
    (hw : w.invariant_1) : (packaged_task_destroy w task).invariant_1 := by
  cases task with
  | none => exact hw
  | some id =>
    cases hs : w.heap[id]? with
    | none => simpa [packaged_task_destroy, hs] using hw
    | some state =>
      simp only [packaged_task_destroy, hs]
      exact invariant_1_put w id _ hw (invariant_1_remove_promise _ (invariant_1_get w id _ hw hs))

theorem invariant_1_future_destroy (w : World V E) (task : Option Nat)
    (hw : w.invariant_1) : (future_destroy w task).invariant_1 := by
  cases task with
  | none => exact hw
  | some id =>
    cases hs : w.heap[id]? with
    | none => simpa [future_destroy, hs] using hw
    | some state =>
      simp only [future_destroy, hs]
      exact invariant_1_put w id _ hw (invariant_1_congr state (_remove_count state) (by unfold _remove_count; rfl)
          (by unfold _remove_count; rfl) (invariant_1_get w id _ hw hs))

theorem invariant_1_future_copy (w : World V E) (task : Option Nat)
    (hw : w.invariant_1) : (future_copy w task).invariant_1 := by
  cases task with
  | none => exact hw
  | some id =>
    cases hs : w.heap[id]? with
    | none => simpa [future_copy, hs] using hw
    | some state =>
      simp only [future_copy, hs]
      exact invariant_1_put w id _ hw (invariant_1_congr state (_add_count state) rfl rfl (invariant_1_get w id _ hw hs))

theorem invariant_1_add_promise (w : World V E) (task : Option Nat)
    (hw : w.invariant_1) : (packaged_task_add_promise w task).invariant_1 := by
  cases task with
  | none => exact hw
  | some id =>
    cases hs : w.heap[id]? with
    | none => simpa [packaged_task_add_promise, hs] using hw
    | some state =>
      simp only [packaged_task_add_promise, hs]
      exact invariant_1_put w id _ hw (invariant_1_congr state (_add_promise state) rfl rfl (invariant_1_get w id _ hw hs))

theorem invariant_1_fold_destroy (fs : List (Option Nat)) :
    ∀ (w : World V E), w.invariant_1 → (fs.foldl future_destroy w).invariant_1 := by
  induction fs with
  | nil => intro w hw; exact hw
  | cons f rest ih =>
    intro w hw
    exact ih _ (invariant_1_future_destroy w f hw)

/-- The slot after `try_get` of a state whose slot is empty. -/
theorem try_get_empty (s : _shared_state V E) (hv : s.value = Variant.none) :
    s.try_get.1.value = Variant.none := by
  simp [_shared_state.try_get, _move_or_copy, hv, Variant.index]

theorem try_get_function (s : _shared_state V E) : s.try_get.1.function = s.function := by
  unfold _shared_state.try_get
  simp only
  split
  · split <;> rfl
  · rfl
  · rfl

theorem try_get_void_function (s : _shared_state V E) :
    s.try_get_void.1.function = s.function := by
  unfold _shared_state.try_get_void
  split
  · split <;> rfl
  · rfl
  · rfl

theorem try_get_void_empty (s : _shared_state V E) (hv : s.value = Variant.none) :
    s.try_get_void.1.value = Variant.none := by
  simp only [_shared_state.try_get_void, hv]

/-- A state either has no function or, under invariant 1, an empty slot. -/
theorem invariant_1_cases (s : _shared_state V E) (hs : s.invariant_1) :
    s.function = none ∨ s.value = Variant.none := by
  cases hf : s.function with
  | none => exact Or.inl rfl
  | some fn =>
    right
    cases hv : s.value with
    | none => rfl
    | value t =>
      have := hs (by rw [hv]; simp [Variant.index])
      rw [hf] at this; cases this
    | exception e =>
      have := hs (by rw [hv]; simp [Variant.index])
      rw [hf] at this; cases this

theorem invariant_1_try_get (s : _shared_state V E) (hs : s.invariant_1) :
    s.try_get.1.invariant_1 := by
  rcases invariant_1_cases s hs with h | h
  · exact invariant_1_cleared _ (by rw [try_get_function, h])
  · exact invariant_1_empty _ (try_get_empty s h)

theorem invariant_1_try_get_void (s : _shared_state V E) (hs : s.invariant_1) :
    s.try_get_void.1.invariant_1 := by
  rcases invariant_1_cases s hs with h | h
  · exact invariant_1_cleared _ (by rw [try_get_void_function, h])
  · exact invariant_1_empty _ (try_get_void_empty s h)

theorem invariant_1_push (w : World V E) (ex : Nat) (t : Thunk) (hw : w.invariant_1) :
    (push w ex t).invariant_1 := hw

theorem invariant_1_add_count (s : _shared_state V E) (hs : s.invariant_1) :
    (_add_count s).invariant_1 :=
  invariant_1_congr s (_add_count s) rfl rfl hs

theorem invariant_1_add_continuation (s : _shared_state V E) (f : Continuation)
    (hs : s.invariant_1) : (_add_continuation s f : _shared_state V E × Completion Unit E).1.invariant_1 := by
  unfold _add_continuation
  split
  · split
    · exact hs
    · exact invariant_1_congr s _ rfl rfl hs
  · exact invariant_1_congr s _ rfl rfl hs

theorem invariant_1_add_exceptional (s : _shared_state V E) (f : Continuation)
    (hs : s.invariant_1) :
    (_add_exceptional_continuation s f : _shared_state V E × Completion Unit E).1.invariant_1 := by
  unfold _add_exceptional_continuation
  split
  · exact hs
  · exact invariant_1_congr s _ rfl rfl hs

/-- The member `then` keeps invariant 1. -/
theorem invariant_1_then_with (w w1 : World V E) (this : Nat) (sch : Option Nat)
    (k : TypeKind) (body : Function V E) (c : Completion (Option Nat) E)
    (hw : w.invariant_1)
    (h : _shared_state_then_with w this sch k body = Except.ok (w1, c)) : w1.invariant_1 := by
  unfold _shared_state_then_with at h
  cases hs : w.heap[this]? with
  | none => rw [hs] at h; cases h
  | some state =>
    rw [hs] at h
    simp only at h
    have hstate := invariant_1_get w this state hw hs
    have h1 := invariant_1_add_count state hstate
    have hput : (w.put this (_add_count state)).invariant_1 := invariant_1_put w this _ hw h1
    have hpw := invariant_1_package (w.put this (_add_count state)) k body hput
    split at h
    · cases h
    · split at h
      · have h2g := fun f => @invariant_1_add_continuation V E (_add_count state) f h1
        split at h
        · rename_i state2 u heq
          have h2 : state2.invariant_1 := by
            have e := congrArg Prod.fst heq
            simp only at e
            rw [← e]
            exact h2g _
          injection h with h
          injection h with h3 h4
          rw [← h3]
          exact invariant_1_put _ this _ hpw h2
        · rename_i state2 e heq
          have h2 : state2.invariant_1 := by
            have e := congrArg Prod.fst heq
            simp only at e
            rw [← e]
            exact h2g _
          injection h with h
          injection h with h3 h4
          rw [← h3]
          exact invariant_1_future_destroy _ _
            (invariant_1_task_destroy _ _ (invariant_1_put _ this _ hpw h2))
      · split at h
        · cases h
        · injection h with h
          injection h with h3 h4
          rw [← h3]
          exact hpw

/-- The member `on_error` keeps invariant 1. -/
theorem invariant_1_on_error_with (w w1 : World V E) (this : Nat) (sch : Option Nat)
    (k : TypeKind) (body_ptr : Exn E → Function V E) (body : Function V E)
    (c : Completion (Option Nat) E) (hw : w.invariant_1)
    (h : _shared_state_on_error_with w this sch k body_ptr body = Except.ok (w1, c)) :
    w1.invariant_1 := by
  unfold _shared_state_on_error_with at h
  cases hs : w.heap[this]? with
  | none => rw [hs] at h; cases h
  | some state =>
    rw [hs] at h
    simp only at h
    have hstate := invariant_1_get w this state hw hs
    have h1 := invariant_1_add_count state hstate
    have hput : (w.put this (_add_count state)).invariant_1 := invariant_1_put w this _ hw h1
    split at h
    · cases h
    · split at h
      · injection h with h
        injection h with h3 h4
        rw [← h3]
        exact hput
      · rename_i ptr _
        have hpw := invariant_1_package (w.put this (_add_count state)) k (body_ptr ptr) hput
        split at h
        · cases h
        · injection h with h
          injection h with h3 h4
          rw [← h3]
          exact hpw
      · have hpw := invariant_1_package (w.put this (_add_count state)) k body hput
        have h2g := fun f => @invariant_1_add_exceptional V E (_add_count state) f h1
        split at h
        · rename_i state2 u heq
          have h2 : state2.invariant_1 := by
            have e := congrArg Prod.fst heq
            simp only at e
            rw [← e]
            exact h2g _
          injection h with h
          injection h with h3 h4
          rw [← h3]
          exact invariant_1_put _ this _ hpw h2
        · rename_i state2 e heq
          have h2 : state2.invariant_1 := by
            have e := congrArg Prod.fst heq
            simp only at e
            rw [← e]
            exact h2g _
          injection h with h
          injection h with h3 h4
          rw [← h3]
          exact invariant_1_future_destroy _ _
            (invariant_1_task_destroy _ _ (invariant_1_put _ this _ hpw h2))

theorem invariant_1_future_try_get (w w1 : World V E) (fut : Option Nat)
    (c : Completion (Option (Payload V)) E) (hw : w.invariant_1)
    (h : future_try_get w fut = Except.ok (w1, c)) : w1.invariant_1 := by
  cases fut with
  | none => cases h
  | some id =>
    simp only [future_try_get] at h
    cases hs : w.heap[id]? with
    | none => rw [hs] at h; cases h
    | some state =>
      rw [hs] at h
      simp only at h
      split at h
      · cases h
      · injection h with h
        injection h with h3 h4
        rw [← h3]
        exact invariant_1_put w id _ hw (invariant_1_try_get state (invariant_1_get w id _ hw hs))

theorem invariant_1_future_void_try_get (w w1 : World V E) (fut : Option Nat)
    (c : Completion Bool E) (hw : w.invariant_1)
    (h : future_void_try_get w fut = Except.ok (w1, c)) : w1.invariant_1 := by
  cases fut with
  | none => cases h
  | some id =>
    simp only [future_void_try_get] at h
    cases hs : w.heap[id]? with
    | none => rw [hs] at h; cases h
    | some state =>
      rw [hs] at h
      simp only at h
      split at h
      · injection h with h
        injection h with h3 h4
        rw [← h3]
        exact invariant_1_put w id _ hw
          (invariant_1_try_get_void state (invariant_1_get w id _ hw hs))
      · cases h

/-- Invariant 1 of a program state depends on its states only. -/
theorem invariant_1_of_heap (w u : World V E) (h : u.heap = w.heap) (hw : w.invariant_1) :
    u.invariant_1 := by
  intro s hs
  rw [h] at hs
  exact hw s hs

/-- Calling a continuation pushes a thunk and changes no state. -/
theorem continuation_call_heap (w w1 : World V E) (c c1 : Continuation)
    (h : c.call w = Except.ok (w1, c1)) : w1.heap = w.heap := by
  unfold Continuation.call at h
  split at h
  · cases h
  · injection h with h
    injection h with h1 h2
    rw [← h1]
    rfl

/-- Firing the continuations of a state changes no state. -/
theorem fire_continuations_heap (id : Nat) (cs : List Continuation) :
    ∀ (w w2 : World V E) (cs1 : List Continuation),
      fire_continuations w id cs = Except.ok (w2, cs1) → w2.heap = w.heap := by
  induction cs with
  | nil =>
    intro w w2 cs1 h
    simp only [fire_continuations, Except.ok.injEq, Prod.mk.injEq] at h
    rw [← h.1]
  | cons c rest ih =>
    intro w w2 cs1 h
    simp only [fire_continuations] at h
    split at h
    · cases h
    · split at h
      · cases hc : c.call w with
        | error a => rw [hc] at h; cases h
        | ok p =>
          obtain ⟨w1, c1⟩ := p
          rw [hc] at h
          simp only at h
          cases hr : fire_continuations w1 id rest with
          | error a => rw [hr] at h; cases h
          | ok q =>
            obtain ⟨w3, rest1⟩ := q
            rw [hr] at h
            simp only [Except.ok.injEq, Prod.mk.injEq] at h
            rw [← h.1, ih _ _ _ hr, continuation_call_heap _ _ _ _ hc]
      · cases hr : fire_continuations w id rest with
        | error a => rw [hr] at h; cases h
        | ok q =>
          obtain ⟨w3, rest1⟩ := q
          rw [hr] at h
          simp only [Except.ok.injEq, Prod.mk.injEq] at h
          rw [← h.1, ih _ _ _ hr]

/-- The `try` block of `operator()` changes the invoked state only. -/
theorem packaged_task_try_heap (w w2 : World V E) (id : Nat) (c : Completion (Payload V) E)
    (h : packaged_task_try w id c = Except.ok w2) : ∃ s, w2.heap = w.heap.set id s := by
  unfold packaged_task_try at h
  split at h
  · cases h
  · split at h
    · injection h with h
      rw [← h]
      exact ⟨_, rfl⟩
    · simp only at h
      split at h
      · injection h with h
        rw [← h]
        exact ⟨_, rfl⟩
      · rename_i cont _
        split at h
        · cases h
        · rename_i w1 cont1 hc
          injection h with h
          rw [← h]
          have := continuation_call_heap _ _ _ _ hc
          simp only [World.put] at this ⊢
          rw [this, List.set_set]
          exact ⟨_, rfl⟩

/-- The member `operator()` keeps invariant 1 when the evaluation of the deferred function
does: the invoked state ends without function. -/
theorem invariant_1_call_with
    (ev : World V E → Nat → Function V E → Except Abort (World V E × Completion (Payload V) E))
    (hev : ∀ u d fn u1 c, u.invariant_1 → ev u d fn = Except.ok (u1, c) → u1.invariant_1)
    (w w1 : World V E) (task sch : Option Nat) (hw : w.invariant_1)
    (h : packaged_task_call_with ev w task sch = Except.ok w1) : w1.invariant_1 := by
  cases task with
  | none =>
    simp only [packaged_task_call_with, Except.ok.injEq] at h
    rw [← h]; exact hw
  | some id =>
    simp only [packaged_task_call_with] at h
    cases hs : w.heap[id]? with
    | none =>
      rw [hs] at h
      simp only [Except.ok.injEq] at h
      rw [← h]; exact hw
    | some state =>
      rw [hs] at h
      simp only at h
      cases hf : state.function with
      | none => rw [hf] at h; cases h
      | some fn =>
        rw [hf] at h
        simp only at h
        split at h
        · cases h
        · rename_i u1 c he
          have hst : ({ state with scheduler := sch, function := some fn } :
              _shared_state V E).invariant_1 :=
            invariant_1_congr state _ rfl hf.symm (invariant_1_get w id _ hw hs)
          have hu1 : u1.invariant_1 := hev _ _ _ _ _ (invariant_1_put w id _ hw hst) he
          cases ht : packaged_task_try u1 id c with
          | error a => rw [ht] at h; cases h
          | ok u2 =>
            rw [ht] at h
            simp only at h
            obtain ⟨s2, hs2⟩ := packaged_task_try_heap _ _ _ _ ht
            cases h2 : u2.heap[id]? with
            | none => rw [h2] at h; cases h
            | some state2 =>
              rw [h2] at h
              simp only at h
              cases hfc : fire_continuations u2 id state2.continuations with
              | error a => rw [hfc] at h; cases h
              | ok q =>
                obtain ⟨u3, conts⟩ := q
                rw [hfc] at h
                simp only at h
                have h3 := fire_continuations_heap _ _ _ _ _ hfc
                cases h4 : u3.heap[id]? with
                | none => rw [h4] at h; cases h
                | some state3 =>
                  rw [h4] at h
                  simp only [Except.ok.injEq] at h
                  rw [← h]
                  refine invariant_1_of_heap
                    (u1.put id { state3 with continuations := conts, function := none }) _ ?_
                    (invariant_1_put u1 id _ hu1 (invariant_1_cleared _ rfl))
                  simp only [World.put, h3, hs2, List.set_set]

theorem get_void_function (s s1 : _shared_state V E) (c : Completion Unit E)
    (h : s._get_void = Except.ok (s1, c)) : s1.function = s.function := by
  unfold _shared_state._get_void at h
  split at h
  · cases h
  · split at h
    · injection h with h
      injection h with h1 h2
      rw [← h1]
    · injection h with h
      injection h with h1 h2
      rw [← h1]
      split <;> rfl

theorem get_function (s s1 : _shared_state V E) (c : Completion (Payload V) E)
    (h : s._get = Except.ok (s1, c)) : s1.function = s.function := by
  unfold _shared_state._get at h
  split at h
  · cases h
  · split at h
    · injection h with h
      injection h with h1 h2
      rw [← h1]
    · simp only at h
      split at h
      · injection h with h
        injection h with h1 h2
        rw [← h1]
        split <;> rfl
      · cases h

theorem invariant_1_get_void (s s1 : _shared_state V E) (c : Completion Unit E)
    (hs : s.invariant_1) (h : s._get_void = Except.ok (s1, c)) : s1.invariant_1 := by
  rcases invariant_1_cases s hs with hf | hv
  · exact invariant_1_cleared _ (by rw [get_void_function s s1 c h, hf])
  · simp [_shared_state._get_void, hv, Variant.index] at h

theorem invariant_1_get_nonvoid (s s1 : _shared_state V E) (c : Completion (Payload V) E)
    (hs : s.invariant_1) (h : s._get = Except.ok (s1, c)) : s1.invariant_1 := by
  rcases invariant_1_cases s hs with hf | hv
  · exact invariant_1_cleared _ (by rw [get_function s s1 c h, hf])
  · simp [_shared_state._get, hv, Variant.index] at h

/-- Evaluating a closure that calls no task keeps invariant 1. -/
theorem invariant_1_eval_inner (u : World V E) (d : Nat) (fn : Function V E) (u1 : World V E)
    (c : Completion (Payload V) E) (hu : u.invariant_1)
    (h : eval_inner u d fn = Except.ok (u1, c)) : u1.invariant_1 := by
  cases fn with
  | user r =>
    simp only [eval_inner, Except.ok.injEq, Prod.mk.injEq] at h
    rw [← h.1]; exact hu
  | then_body this f =>
    simp only [eval_inner] at h
    cases hs : u.heap[this]? with
    | none => rw [hs] at h; cases h
    | some s =>
      rw [hs] at h
      simp only at h
      have hs1 := invariant_1_get u this s hu hs
      split at h
      · split at h
        · cases h
        · rename_i s1 e hg
          simp only [Except.ok.injEq, Prod.mk.injEq] at h
          rw [← h.1]
          exact invariant_1_put u this _ hu (invariant_1_get_void s s1 _ hs1 hg)
        · rename_i s1 x hg
          simp only [Except.ok.injEq, Prod.mk.injEq] at h
          rw [← h.1]
          exact invariant_1_put u this _ hu (invariant_1_get_void s s1 _ hs1 hg)
      · split at h
        · cases h
        · rename_i s1 e hg
          simp only [Except.ok.injEq, Prod.mk.injEq] at h
          rw [← h.1]
          exact invariant_1_put u this _ hu (invariant_1_get_nonvoid s s1 _ hs1 hg)
        · rename_i s1 x hg
          simp only [Except.ok.injEq, Prod.mk.injEq] at h
          rw [← h.1]
          exact invariant_1_put u this _ hu (invariant_1_get_nonvoid s s1 _ hs1 hg)
  | on_error_ptr this ptr f =>
    simp only [eval_inner, Except.ok.injEq, Prod.mk.injEq] at h
    rw [← h.1]; exact hu
  | on_error_body this f =>
    simp only [eval_inner] at h
    split at h
    · cases h
    · split at h
      · simp only [Except.ok.injEq, Prod.mk.injEq] at h
        rw [← h.1]; exact hu
      · cases h
  | when_all_body ws =>
    simp only [eval_inner] at h
    split at h
    · cases h
    · rename_i st _
      split at h
      · simp only [Except.ok.injEq, Prod.mk.injEq] at h
        rw [← h.1]
        exact invariant_1_fold_destroy st.futures u hu
      · split at h
        · cases h
        · simp only [Except.ok.injEq, Prod.mk.injEq] at h
          rw [← h.1]
          exact invariant_1_fold_destroy st.futures u hu
  | when_all_void this ws => simp [eval_inner] at h
  | when_all_nonvoid this ws index => simp [eval_inner] at h
  | when_all_error_ptr this ws policy ptr => simp [eval_inner] at h
  | when_all_error_body this ws policy => simp [eval_inner] at h

/-- The decrement of the closures of `when_all`, with the call of the held task, keeps
invariant 1. -/
theorem invariant_1_when_all_arrive (u u1 : World V E) (ws : Nat) (hu : u.invariant_1)
    (h : when_all_arrive u ws = Except.ok u1) : u1.invariant_1 := by
  unfold when_all_arrive at h
  split at h
  · cases h
  · split at h
    · split at h
      · cases h
      · refine invariant_1_call_with eval_inner
          (fun a d fn a1 c ha he => invariant_1_eval_inner a d fn a1 c ha he) _ _ _ _ ?_ h
        exact invariant_1_of_heap u _ rfl hu
    · simp only [Except.ok.injEq] at h
      rw [← h]; exact hu

theorem invariant_1_when_all_on_error (u u1 : World V E) (ws : Nat)
    (policy : exception_policy) (ptr : Exn E) (hu : u.invariant_1)
    (h : when_all_on_error u ws policy ptr = Except.ok u1) : u1.invariant_1 := by
  unfold when_all_on_error at h
  split at h
  · split at h
    · cases h
    · refine invariant_1_when_all_arrive _ _ _ ?_ h
      exact invariant_1_of_heap u _ rfl hu
  · cases h

/-- Evaluating a deferred function keeps invariant 1. -/
theorem invariant_1_eval_function (u : World V E) (d : Nat) (fn : Function V E)
    (u1 : World V E) (c : Completion (Payload V) E) (hu : u.invariant_1)
    (h : eval_function u d fn = Except.ok (u1, c)) : u1.invariant_1 := by
  cases fn with
  | user r => exact invariant_1_eval_inner u d _ u1 c hu (by simpa only [eval_function] using h)
  | then_body this f => exact invariant_1_eval_inner u d _ u1 c hu (by simpa only [eval_function] using h)
  | on_error_ptr this ptr f => exact invariant_1_eval_inner u d _ u1 c hu (by simpa only [eval_function] using h)
  | on_error_body this f => exact invariant_1_eval_inner u d _ u1 c hu (by simpa only [eval_function] using h)
  | when_all_body ws => exact invariant_1_eval_inner u d _ u1 c hu (by simpa only [eval_function] using h)
  | when_all_void this ws =>
    simp only [eval_function] at h
    cases hs : u.heap[this]? with
    | none => rw [hs] at h; cases h
    | some s =>
      rw [hs] at h
      simp only at h
      have hs1 := invariant_1_get u this s hu hs
      split at h
      · cases h
      · rename_i s1 e hg
        simp only [Except.ok.injEq, Prod.mk.injEq] at h
        rw [← h.1]
        exact invariant_1_put u this _ hu (invariant_1_get_void s s1 _ hs1 hg)
      · rename_i s1 x hg
        split at h
        · cases h
        · rename_i u2 ha
          simp only [Except.ok.injEq, Prod.mk.injEq] at h
          rw [← h.1]
          refine invariant_1_when_all_arrive _ _ _ ?_ ha
          exact invariant_1_of_heap (u.put this s1) _ rfl
            (invariant_1_put u this _ hu (invariant_1_get_void s s1 _ hs1 hg))
  | when_all_nonvoid this ws index =>
    simp only [eval_function] at h
    cases hs : u.heap[this]? with
    | none => rw [hs] at h; cases h
    | some s =>
      rw [hs] at h
      simp only at h
      have hs1 := invariant_1_get u this s hu hs
      split at h
      · cases h
      · rename_i s1 e hg
        simp only [Except.ok.injEq, Prod.mk.injEq] at h
        rw [← h.1]
        exact invariant_1_put u this _ hu (invariant_1_get_nonvoid s s1 _ hs1 hg)
      · rename_i s1 x hg
        split at h
        · cases h
        · split at h
          · cases h
          · rename_i u2 ha
            simp only [Except.ok.injEq, Prod.mk.injEq] at h
            rw [← h.1]
            refine invariant_1_when_all_arrive _ _ _ ?_ ha
            exact invariant_1_of_heap (u.put this s1) _ rfl
              (invariant_1_put u this _ hu (invariant_1_get_nonvoid s s1 _ hs1 hg))
  | when_all_error_ptr this ws policy ptr =>
    simp only [eval_function] at h
    split at h
    · cases h
    · rename_i u2 ha
      simp only [Except.ok.injEq, Prod.mk.injEq] at h
      rw [← h.1]
      refine invariant_1_when_all_on_error _ _ _ _ _ ?_ ha
      exact invariant_1_of_heap u _ rfl hu
  | when_all_error_body this ws policy =>
    simp only [eval_function] at h
    split at h
    · cases h
    · split at h
      · split at h
        · cases h
        · rename_i u2 ha
          simp only [Except.ok.injEq, Prod.mk.injEq] at h
          rw [← h.1]
          refine invariant_1_when_all_on_error _ _ _ _ _ ?_ ha
          exact invariant_1_of_heap u _ rfl hu
      · cases h

/-- The member `operator()` keeps invariant 1. -/
theorem invariant_1_call (w w1 : World V E) (task sch : Option Nat) (hw : w.invariant_1)
    (h : packaged_task_call w task sch = Except.ok w1) : w1.invariant_1 :=
  invariant_1_call_with eval_function
    (fun a d fn a1 c ha he => invariant_1_eval_function a d fn a1 c ha he) w w1 task sch hw h

/-- An executor running a thunk keeps invariant 1. -/
theorem invariant_1_run_next (w w1 : World V E) (hw : w.invariant_1)
    (h : run_next w = Except.ok w1) : w1.invariant_1 := by
  unfold run_next at h
  split at h
  · simp only [Except.ok.injEq] at h
    rw [← h]; exact hw
  · unfold run_thunk at h
    split at h
    · cases h
    · split at h
      · cases h
      · rename_i u1 hc
        simp only [Except.ok.injEq] at h
        rw [← h]
        refine invariant_1_task_destroy _ _ (invariant_1_call _ _ _ _ ?_ hc)
        exact invariant_1_of_heap w _ rfl hw

/-- Every public operation that completes keeps invariant 1. -/
theorem invariant_1_perform (w w1 : World V E) (op : Operation V E) (hw : w.invariant_1)
    (h : perform w op = Except.ok w1) : w1.invariant_1 := by
  cases op with
  | package k r =>
    simp only [perform, Except.ok.injEq] at h
    rw [← h]; exact invariant_1_package w k _ hw
  | make_ready_future k t =>
    simp only [perform, Except.ok.injEq] at h
    rw [← h]
    intro s hs
    simp only [make_ready_future, List.mem_append, List.mem_singleton] at hs
    rcases hs with hs | hs
    · exact hw s hs
    · rw [hs]; exact invariant_1_cleared _ rfl
  | make_ready_future_void =>
    simp only [perform, Except.ok.injEq] at h
    rw [← h]
    intro s hs
    simp only [make_ready_future_void, List.mem_append, List.mem_singleton] at hs
    rcases hs with hs | hs
    · exact hw s hs
    · rw [hs]; exact invariant_1_cleared _ rfl
  | call task sched_arg => exact invariant_1_call w w1 task sched_arg hw h
  | task_copy task =>
    simp only [perform, Except.ok.injEq] at h
    rw [← h]; exact invariant_1_add_promise w task hw
  | task_move task =>
    simp only [perform, Except.ok.injEq] at h
    rw [← h]; exact hw
  | task_destroy task =>
    simp only [perform, Except.ok.injEq] at h
    rw [← h]; exact invariant_1_task_destroy w task hw
  | future_copy fut =>
    simp only [perform, Except.ok.injEq] at h
    rw [← h]; exact invariant_1_future_copy w fut hw
  | future_move fut =>
    simp only [perform, Except.ok.injEq] at h
    rw [← h]; exact hw
  | future_destroy fut =>
    simp only [perform, Except.ok.injEq] at h
    rw [← h]; exact invariant_1_future_destroy w fut hw
  | try_get fut =>
    simp only [perform] at h
    cases hr : future_try_get w fut with
    | error a => rw [hr] at h; cases h
    | ok p =>
      rw [hr] at h
      simp only [Except.map, Except.ok.injEq] at h
      rw [← h]
      exact invariant_1_future_try_get w p.1 fut p.2 hw hr
  | try_get_void fut =>
    simp only [perform] at h
    cases hr : future_void_try_get w fut with
    | error a => rw [hr] at h; cases h
    | ok p =>
      rw [hr] at h
      simp only [Except.map, Except.ok.injEq] at h
      rw [← h]
      exact invariant_1_future_void_try_get w p.1 fut p.2 hw hr
  | then_to fut sched_arg k f =>
    simp only [perform] at h
    cases hr : future_then w fut sched_arg k f with
    | error a => rw [hr] at h; cases h
    | ok p =>
      rw [hr] at h
      simp only [Except.map, Except.ok.injEq] at h
      rw [← h]
      cases fut with
      | none => cases hr
      | some id => exact invariant_1_then_with w p.1 id sched_arg k _ p.2 hw hr
  | then_default fut k f =>
    simp only [perform] at h
    cases hr : future_then_default w fut k f with
    | error a => rw [hr] at h; cases h
    | ok p =>
      rw [hr] at h
      simp only [Except.map, Except.ok.injEq] at h
      rw [← h]
      cases fut with
      | none => cases hr
      | some id =>
        simp only [future_then_default, _shared_state_then_default] at hr
        split at hr
        · cases hr
        · exact invariant_1_then_with w p.1 id _ k _ p.2 hw hr
  | on_error_to fut sched_arg k f =>
    simp only [perform] at h
    cases hr : future_on_error w fut sched_arg k f with
    | error a => rw [hr] at h; cases h
    | ok p =>
      rw [hr] at h
      simp only [Except.map, Except.ok.injEq] at h
      rw [← h]
      cases fut with
      | none => cases hr
      | some id => exact invariant_1_on_error_with w p.1 id sched_arg k _ _ p.2 hw hr
  | on_error_default fut k f =>
    simp only [perform] at h
    cases hr : future_on_error_default w fut k f with
    | error a => rw [hr] at h; cases h
    | ok p =>
      rw [hr] at h
      simp only [Except.map, Except.ok.injEq] at h
      rw [← h]
      cases fut with
      | none => cases hr
      | some id =>
        simp only [future_on_error_default, _shared_state_on_error_default] at hr
        split at hr
        · cases hr
        · exact invariant_1_on_error_with w p.1 id _ k _ _ p.2 hw hr
  | run => exact invariant_1_run_next w w1 hw h

/-- Every sequence of public operations that completes keeps invariant 1. -/
theorem invariant_1_perform_all (ops : List (Operation V E)) :
    ∀ (w w1 : World V E), w.invariant_1 → perform_all w ops = Except.ok w1 → w1.invariant_1 := by
  induction ops with
  | nil =>
    intro w w1 hw h
    simp only [perform_all, Except.ok.injEq] at h
    rw [← h]; exact hw
  | cons op rest ih =>
    intro w w1 hw h
    simp only [perform_all] at h
    cases hp : perform w op with
    | error a => rw [hp] at h; cases h
    | ok w2 =>
      rw [hp] at h
      exact ih w2 w1 (invariant_1_perform w w2 op hw hp) h

/-- Replacing one object changes the number of objects equal to `x` by what the old and the
new object contribute. -/
theorem count_set_object (x new : Option (Option Nat)) :
    ∀ (l : List (Option (Option Nat))) (i : Nat) (old : Option (Option Nat)),
      l[i]? = some old →
      (l.set i new).count x + (if old = x then 1 else 0) =
        l.count x + (if new = x then 1 else 0) := by
  intro l
  induction l with
  | nil => intro i old h; simp at h
  | cons y rest ih =>
    intro i old h
    cases i with
    | zero =>
      simp only [List.getElem?_cons_zero, Option.some.injEq] at h
      subst h
      simp only [List.set_cons_zero, List.count_cons, beq_iff_eq]
      omega
    | succ j =>
      simp only [List.getElem?_cons_succ] at h
      have := ih j old h
      simp only [List.set_cons_succ, List.count_cons, beq_iff_eq]
      omega

/-- An object that survives a replacement was there before or is the new object. -/
theorem mem_set_object (l : List (Option (Option Nat))) (i : Nat) (new y : Option (Option Nat))
    (h : y ∈ l.set i new) : y ∈ l ∨ y = new :=
  List.mem_or_eq_of_mem_set h

/-- The object at an index is one of the objects. -/
theorem mem_of_get_object (l : List (Option (Option Nat))) (i : Nat) (x : Option (Option Nat))
    (h : l[i]? = some x) : x ∈ l := by
  obtain ⟨hlt, he⟩ := List.getElem?_eq_some_iff.mp h
  exact he ▸ List.getElem_mem hlt

theorem size_inc_mod (n : Nat) : size_inc (n % 2 ^ 64) = (n + 1) % 2 ^ 64 := by
  unfold size_inc
  omega

theorem size_dec_mod (n : Nat) : size_dec ((n + 1) % 2 ^ 64) = n % 2 ^ 64 := by
  unfold size_dec
  omega

/-- The tally survives a change of the objects and of the other contributions that keeps
every sum. -/
theorem Tallied.objs_of {cnt : _shared_state V E → Nat} {heap : List (_shared_state V E)}
    {objs : List (Option (Option Nat))} {extra : Nat → Nat}
    (h : Tallied cnt heap objs extra) (objs1 : List (Option (Option Nat))) (extra1 : Nat → Nat)
    (hvalid : ∀ a, some (some a) ∈ objs1 → a < heap.length)
    (hsum : ∀ b, objs1.count (some (some b)) + extra1 b =
      objs.count (some (some b)) + extra b) :
    Tallied cnt heap objs1 extra1 :=
  ⟨hvalid, fun a s hs => by rw [hsum a]; exact h.count a s hs⟩

/-- The tally survives the replacement of one state when the counter of the new state is
the new sum and the other sums are kept. -/
theorem Tallied.set_of {cnt : _shared_state V E → Nat} {heap : List (_shared_state V E)}
    {objs : List (Option (Option Nat))} {extra : Nat → Nat}
    (h : Tallied cnt heap objs extra) (objs1 : List (Option (Option Nat))) (extra1 : Nat → Nat)
    (a : Nat) (s1 : _shared_state V E)
    (hvalid : ∀ b, some (some b) ∈ objs1 → b < heap.length)
    (hc : cnt s1 = (objs1.count (some (some a)) + extra1 a) % 2 ^ 64)
    (hsum : ∀ b, b ≠ a → objs1.count (some (some b)) + extra1 b =
      objs.count (some (some b)) + extra b) :
    Tallied cnt (heap.set a s1) objs1 extra1 := by
  refine ⟨fun b hb => by rw [List.length_set]; exact hvalid b hb, ?_⟩
  intro b s hs
  by_cases hba : b = a
  · subst hba
    have hlt : b < heap.length := by
      have := (List.getElem?_eq_some_iff.mp hs).1
      rwa [List.length_set] at this
    rw [List.getElem?_set_self hlt] at hs
    cases hs
    exact hc
  · rw [List.getElem?_set_ne (fun e => hba e.symm)] at hs
    rw [hsum b hba]
    exact h.count b s hs

/-- An object gives up its reference to a state whose counter is decremented. -/
theorem Tallied.drop {cnt : _shared_state V E → Nat} {heap : List (_shared_state V E)}
    {objs : List (Option (Option Nat))} {extra : Nat → Nat}
    (h : Tallied cnt heap objs extra) (i a : Nat) (s s1 : _shared_state V E)
    (x : Option (Option Nat))
    (hi : objs[i]? = some (some (some a))) (hs : heap[a]? = some s)
    (hc : cnt s1 = size_dec (cnt s)) (hx : ∀ b, x ≠ some (some b)) :
    Tallied cnt (heap.set a s1) (objs.set i x) extra := by
  have hcount : ∀ b, (objs.set i x).count (some (some b)) + (if a = b then 1 else 0) =
      objs.count (some (some b)) := by
    intro b
    have := count_set_object (some (some b)) x objs i _ hi
    simp only [Option.some.injEq, hx b, if_false] at this
    omega
  refine h.set_of _ _ a s1 ?_ ?_ ?_
  · intro b hb
    rcases mem_set_object _ _ _ _ hb with hb | hb
    · exact h.valid b hb
    · exact absurd hb.symm (hx b)
  · rw [hc, h.count a s hs]
    have := hcount a
    simp only [if_true] at this
    rw [← this, show (objs.set i x).count (some (some a)) + 1 + extra a =
      ((objs.set i x).count (some (some a)) + extra a) + 1 by omega]
    exact size_dec_mod _
  · intro b hb
    have := hcount b
    rw [if_neg (fun e => hb e.symm)] at this
    omega

/-- An object that refers to no state is made to refer to a state whose counter is
incremented. -/
theorem Tallied.gain_set {cnt : _shared_state V E → Nat} {heap : List (_shared_state V E)}
    {objs : List (Option (Option Nat))} {extra : Nat → Nat}
    (h : Tallied cnt heap objs extra) (i a : Nat) (s s1 : _shared_state V E)
    (x : Option (Option Nat))
    (hi : objs[i]? = some x) (hx : ∀ b, x ≠ some (some b)) (hs : heap[a]? = some s)
    (hc : cnt s1 = size_inc (cnt s)) :
    Tallied cnt (heap.set a s1) (objs.set i (some (some a))) extra := by
  have hcount : ∀ b, (objs.set i (some (some a))).count (some (some b)) =
      objs.count (some (some b)) + (if a = b then 1 else 0) := by
    intro b
    have := count_set_object (some (some b)) (some (some a)) objs i _ hi
    simp only [Option.some.injEq, hx b, if_false] at this
    omega
  refine h.set_of _ _ a s1 ?_ ?_ ?_
  · intro b hb
    rcases mem_set_object _ _ _ _ hb with hb | hb
    · exact h.valid b hb
    · simp only [Option.some.injEq] at hb
      rw [hb]
      exact (List.getElem?_eq_some_iff.mp hs).1
  · rw [hc, h.count a s hs, hcount a, if_pos rfl,
      show objs.count (some (some a)) + 1 + extra a =
        (objs.count (some (some a)) + extra a) + 1 by omega]
    exact size_inc_mod _
  · intro b hb
    rw [hcount b, if_neg (fun e => hb e.symm)]
    omega

/-- A new object refers to a state whose counter is incremented. -/
theorem Tallied.gain_append {cnt : _shared_state V E → Nat} {heap : List (_shared_state V E)}
    {objs : List (Option (Option Nat))} {extra : Nat → Nat}
    (h : Tallied cnt heap objs extra) (a : Nat) (s s1 : _shared_state V E)
    (hs : heap[a]? = some s) (hc : cnt s1 = size_inc (cnt s)) :
    Tallied cnt (heap.set a s1) (objs ++ [some (some a)]) extra := by
  have hcount : ∀ b, (objs ++ [some (some a)]).count (some (some b)) =
      objs.count (some (some b)) + (if a = b then 1 else 0) := by
    intro b
    simp [List.count_append, List.count_singleton]
  refine h.set_of _ _ a s1 ?_ ?_ ?_
  · intro b hb
    rcases List.mem_append.mp hb with hb | hb
    · exact h.valid b hb
    · simp only [List.mem_singleton, Option.some.injEq] at hb
      rw [hb]
      exact (List.getElem?_eq_some_iff.mp hs).1
  · rw [hc, h.count a s hs, hcount a, if_pos rfl,
      show objs.count (some (some a)) + 1 + extra a =
        (objs.count (some (some a)) + extra a) + 1 by omega]
    exact size_inc_mod _
  · intro b hb
    rw [hcount b, if_neg (fun e => hb e.symm)]
    omega

/-- An object that refers to no state is replaced by another such object. -/
theorem Tallied.blank_set {cnt : _shared_state V E → Nat} {heap : List (_shared_state V E)}
    {objs : List (Option (Option Nat))} {extra : Nat → Nat}
    (h : Tallied cnt heap objs extra) (i : Nat) (x y : Option (Option Nat))
    (hi : objs[i]? = some x) (hx : ∀ b, x ≠ some (some b)) (hy : ∀ b, y ≠ some (some b)) :
    Tallied cnt heap (objs.set i y) extra := by
  refine h.objs_of _ _ ?_ ?_
  · intro b hb
    rcases mem_set_object _ _ _ _ hb with hb | hb
    · exact h.valid b hb
    · exact absurd hb.symm (hy b)
  · intro b
    have := count_set_object (some (some b)) y objs i _ hi
    simp only [hx b, hy b, if_false] at this
    omega

/-- A new object that refers to no state. -/
theorem Tallied.blank_append {cnt : _shared_state V E → Nat} {heap : List (_shared_state V E)}
    {objs : List (Option (Option Nat))} {extra : Nat → Nat}
    (h : Tallied cnt heap objs extra) (y : Option (Option Nat))
    (hy : ∀ b, y ≠ some (some b)) :
    Tallied cnt heap (objs ++ [y]) extra := by
  refine h.objs_of _ _ ?_ ?_
  · intro b hb
    rcases List.mem_append.mp hb with hb | hb
    · exact h.valid b hb
    · simp only [List.mem_singleton] at hb
      exact absurd hb.symm (hy b)
  · intro b
    have : ¬ (y = some (some b)) := hy b
    simp [List.count_append, List.count_singleton, this]

/-- A state is replaced by one with the same counter. -/
theorem Tallied.same {cnt : _shared_state V E → Nat} {heap : List (_shared_state V E)}
    {objs : List (Option (Option Nat))} {extra : Nat → Nat}
    (h : Tallied cnt heap objs extra) (a : Nat) (s s1 : _shared_state V E)
    (hs : heap[a]? = some s) (hc : cnt s1 = cnt s) :
    Tallied cnt (heap.set a s1) objs extra :=
  h.set_of _ _ a s1 h.valid (by rw [hc]; exact h.count a s hs) (fun _ _ => rfl)

/-- The counter of a state is incremented on behalf of another contribution. -/
theorem Tallied.extra_inc {cnt : _shared_state V E → Nat} {heap : List (_shared_state V E)}
    {objs : List (Option (Option Nat))} {extra : Nat → Nat}
    (h : Tallied cnt heap objs extra) (extra1 : Nat → Nat) (a : Nat) (s s1 : _shared_state V E)
    (hs : heap[a]? = some s) (hc : cnt s1 = size_inc (cnt s))
    (he : ∀ b, extra1 b = extra b + (if b = a then 1 else 0)) :
    Tallied cnt (heap.set a s1) objs extra1 := by
  refine h.set_of _ _ a s1 h.valid ?_ ?_
  · rw [hc, h.count a s hs, he a, if_pos rfl,
      show objs.count (some (some a)) + (extra a + 1) =
        (objs.count (some (some a)) + extra a) + 1 by omega]
    exact size_inc_mod _
  · intro b hb
    rw [he b, if_neg hb]
    rfl

/-- A state is allocated, with or without one new object that refers to it. -/
theorem Tallied.alloc {cnt : _shared_state V E → Nat} {heap : List (_shared_state V E)}
    {objs : List (Option (Option Nat))} {extra : Nat → Nat}
    (h : Tallied cnt heap objs extra) (s : _shared_state V E)
    (news : List (Option (Option Nat)))
    (hnews : news = [] ∨ news = [some (some heap.length)])
    (hc : cnt s = news.length) (he : extra heap.length = 0) :
    Tallied cnt (heap ++ [s]) (objs ++ news) extra := by
  have hfresh : objs.count (some (some heap.length)) = 0 := by
    rw [List.count_eq_zero]
    intro hm
    exact absurd (h.valid _ hm) (lt_irrefl _)
  constructor
  · intro b hb
    rw [List.length_append, List.length_singleton]
    rcases List.mem_append.mp hb with hb | hb
    · exact Nat.lt_succ_of_lt (h.valid b hb)
    · rcases hnews with hn | hn
      · rw [hn] at hb; cases hb
      · rw [hn] at hb
        simp only [List.mem_singleton, Option.some.injEq] at hb
        omega
  · intro b s0 hs0
    by_cases hb : b < heap.length
    · rw [List.getElem?_append_left hb] at hs0
      have hne : heap.length ≠ b := by omega
      have : (objs ++ news).count (some (some b)) = objs.count (some (some b)) := by
        rcases hnews with hn | hn
        · rw [hn]; simp
        · rw [hn]; simp [List.count_append, List.count_singleton, hne]
      rw [this]
      exact h.count b s0 hs0
    · have hlen : b < (heap ++ [s]).length := (List.getElem?_eq_some_iff.mp hs0).1
      rw [List.length_append, List.length_singleton] at hlen
      have hbe : b = heap.length := by omega
      subst hbe
      rw [List.getElem?_append_right (le_refl _)] at hs0
      simp only [Nat.sub_self, List.getElem?_cons_zero, Option.some.injEq] at hs0
      subst hs0
      rw [hc, he, List.count_append, hfresh]
      rcases hnews with hn | hn
      · rw [hn]; rfl
      · rw [hn]; simp [List.count_singleton]

/-- The reference of the object `j` goes to the object `i`, which referred to no state. -/
theorem Tallied.transfer {cnt : _shared_state V E → Nat} {heap : List (_shared_state V E)}
    {objs : List (Option (Option Nat))} {extra : Nat → Nat}
    (h : Tallied cnt heap objs extra) (i j : Nat) (x : Option (Option Nat)) (g : Option Nat)
    (hi : objs[i]? = some x) (hx : ∀ b, x ≠ some (some b))
    (hj : objs[j]? = some (some g)) (hij : i ≠ j) :
    Tallied cnt heap ((objs.set i (some g)).set j (some none)) extra := by
  have hj1 : (objs.set i (some g))[j]? = some (some g) := by
    rw [List.getElem?_set_ne hij]; exact hj
  refine h.objs_of _ _ ?_ ?_
  · intro b hb
    rcases mem_set_object _ _ _ _ hb with hb | hb
    · rcases mem_set_object _ _ _ _ hb with hb | hb
      · exact h.valid b hb
      · exact h.valid b (by rw [hb]; exact mem_of_get_object _ _ _ hj)
    · cases hb
  · intro b
    have h1 := count_set_object (some (some b)) (some none) (objs.set i (some g)) j _ hj1
    have h2 := count_set_object (some (some b)) (some g) objs i _ hi
    simp only [hx b, if_false] at h2
    have h3 : ¬ (some (none : Option Nat) = some (some b)) := by simp
    simp only [h3, if_false] at h1
    omega

/-- The reference of the object `j` goes to a new object. -/
theorem Tallied.move_append {cnt : _shared_state V E → Nat} {heap : List (_shared_state V E)}
    {objs : List (Option (Option Nat))} {extra : Nat → Nat}
    (h : Tallied cnt heap objs extra) (j : Nat) (g : Option Nat)
    (hj : objs[j]? = some (some g)) :
    Tallied cnt heap (objs.set j (some none) ++ [some g]) extra := by
  refine h.objs_of _ _ ?_ ?_
  · intro b hb
    rcases List.mem_append.mp hb with hb | hb
    · rcases mem_set_object _ _ _ _ hb with hb | hb
      · exact h.valid b hb
      · cases hb
    · simp only [List.mem_singleton] at hb
      exact h.valid b (by rw [hb]; exact mem_of_get_object _ _ _ hj)
  · intro b
    have h1 := count_set_object (some (some b)) (some none) objs j _ hj
    have h3 : ¬ (some (none : Option Nat) = some (some b)) := by simp
    simp only [h3, if_false] at h1
    rw [List.count_append, List.count_singleton]
    simp only [beq_iff_eq]
    omega

theorem remove_promise_count (s : _shared_state V E) :
    (_remove_promise s).promise_count = size_dec s.promise_count := by
  simp only [_remove_promise]
  split
  · split <;> simp only
  · simp only

theorem add_promise_count (s : _shared_state V E) :
    (_add_promise s).promise_count = size_inc s.promise_count := rfl

/-- The member `_state` of an object is read from an object that is alive. -/
theorem Tasks.task_state_ok (t : Tasks V E) (i : Nat) (h : Option Nat)
    (hs : t._state i = Except.ok h) : t.objects[i]? = some (some h) := by
  unfold Tasks._state at hs
  split at hs
  · rename_i g hg
    cases hs
    exact hg
  · cases hs

theorem packaged_task_remove_promise_length (w : World V E) (h : Option Nat) :
    (packaged_task_remove_promise w h).heap.length = w.heap.length := by
  unfold packaged_task_remove_promise
  split
  · rfl
  · split
    · rfl
    · simp [World.put]

/-- The member `_remove_promise` of an object that then stops referring to its state. -/
theorem Tallied.remove_promise {heap : List (_shared_state V E)}
    {objs : List (Option (Option Nat))} {extra : Nat → Nat} (w : World V E)
    (hw : w.heap = heap)
    (h : Tallied _shared_state.promise_count heap objs extra) (i : Nat) (g : Option Nat)
    (x : Option (Option Nat)) (hi : objs[i]? = some (some g)) (hx : ∀ b, x ≠ some (some b)) :
    Tallied _shared_state.promise_count (packaged_task_remove_promise w g).heap
      (objs.set i x) extra := by
  subst hw
  cases g with
  | none =>
    exact h.blank_set i (some none) x hi (by simp) hx
  | some a =>
    have hlt := h.valid a (mem_of_get_object _ _ _ hi)
    have hs : w.heap[a]? = some w.heap[a] := List.getElem?_eq_getElem hlt
    simp only [packaged_task_remove_promise, hs, World.put]
    exact h.drop i a _ _ x hi hs (remove_promise_count _) hx

/-- The member `_add_promise` of an object that has just been given its handle. -/
theorem Tallied.add_promise_set {heap : List (_shared_state V E)}
    {objs : List (Option (Option Nat))} {extra : Nat → Nat} (w : World V E)
    (hw : w.heap = heap)
    (h : Tallied _shared_state.promise_count heap objs extra) (i : Nat) (g : Option Nat)
    (x : Option (Option Nat)) (hi : objs[i]? = some x) (hx : ∀ b, x ≠ some (some b))
    (hg : ∀ b, g = some b → b < heap.length) :
    Tallied _shared_state.promise_count (packaged_task_add_promise w g).heap
      (objs.set i (some g)) extra := by
  subst hw
  cases g with
  | none =>
    exact h.blank_set i x (some none) hi hx (by simp)
  | some a =>
    have hlt := hg a rfl
    have hs : w.heap[a]? = some w.heap[a] := List.getElem?_eq_getElem hlt
    simp only [packaged_task_add_promise, hs, World.put]
    exact h.gain_set i a _ _ x hi hx hs (add_promise_count _)

/-- The member `_add_promise` of a new object. -/
theorem Tallied.add_promise_append {heap : List (_shared_state V E)}
    {objs : List (Option (Option Nat))} {extra : Nat → Nat} (w : World V E)
    (hw : w.heap = heap)
    (h : Tallied _shared_state.promise_count heap objs extra) (g : Option Nat)
    (hg : ∀ b, g = some b → b < heap.length) :
    Tallied _shared_state.promise_count (packaged_task_add_promise w g).heap
      (objs ++ [some g]) extra := by
  subst hw
  cases g with
  | none =>
    exact h.blank_append (some none) (by simp)
  | some a =>
    have hlt := hg a rfl
    have hs : w.heap[a]? = some w.heap[a] := List.getElem?_eq_getElem hlt
    simp only [packaged_task_add_promise, hs, World.put]
    exact h.gain_append a _ _ hs (add_promise_count _)

/-- The handle of an object alive refers to a state of the heap. -/
theorem Tallied.handle_valid {cnt : _shared_state V E → Nat} {heap : List (_shared_state V E)}
    {objs : List (Option (Option Nat))} {extra : Nat → Nat}
    (h : Tallied cnt heap objs extra) (i : Nat) (g : Option Nat)
    (hi : objs[i]? = some (some g)) : ∀ b, g = some b → b < heap.length := by
  intro b hb
  subst hb
  exact h.valid b (mem_of_get_object _ _ _ hi)

/-- After an object was replaced, the object at its index is the new one. -/
theorem get_set_object (l : List (Option (Option Nat))) (i : Nat) (x y : Option (Option Nat))
    (h : l[i]? = some x) : (l.set i y)[i]? = some y :=
  List.getElem?_set_self (List.getElem?_eq_some_iff.mp h).1

/-- Every action on the task objects keeps the producer counts in agreement with them. -/
theorem Tasks.Counted.after_step (t t1 : Tasks V E) (act : Tasks.Action V E) (h : t.Counted)
    (hs : t.step act = Except.ok t1) : t1.Counted := by
  unfold Tasks.Counted at h ⊢
  cases act with
  | package k r =>
    simp only [Tasks.step, Except.ok.injEq] at hs
    rw [← hs]
    simp only [package_world, package]
    exact h.alloc _ [some (some t.world.heap.length)] (Or.inr rfl) rfl rfl
  | copy other =>
    simp only [Tasks.step] at hs
    cases hg : t._state other with
    | error a => rw [hg] at hs; cases hs
    | ok g =>
      rw [hg] at hs
      simp only [Except.ok.injEq] at hs
      rw [← hs]
      have hi := Tasks.task_state_ok t other g hg
      exact Tallied.add_promise_append t.world rfl h g (h.handle_valid other g hi)
  | move other =>
    simp only [Tasks.step] at hs
    cases hg : t._state other with
    | error a => rw [hg] at hs; cases hs
    | ok g =>
      rw [hg] at hs
      simp only [Except.ok.injEq] at hs
      rw [← hs]
      have hi := Tasks.task_state_ok t other g hg
      exact h.move_append other g hi
  | copy_assign this other =>
    simp only [Tasks.step, packaged_task_copy_assign_statements] at hs
    cases hh : t._state this with
    | error a => rw [hh] at hs; cases hs
    | ok g0 =>
      rw [hh] at hs
      cases hg : t._state other with
      | error a => rw [hg] at hs; cases hs
      | ok g =>
        rw [hg] at hs
        simp only [Except.ok.injEq] at hs
        rw [← hs]
        have hi := Tasks.task_state_ok t this g0 hh
        have hj := Tasks.task_state_ok t other g hg
        have h1 := Tallied.remove_promise t.world rfl h this g0 (some none) hi (by simp)
        have h2 := Tallied.add_promise_set (packaged_task_remove_promise t.world g0) rfl h1
          this g (some none) (get_set_object _ _ _ _ hi) (by simp)
          (by rw [packaged_task_remove_promise_length]; exact h.handle_valid other g hj)
        rw [List.set_set] at h2
        exact h2
  | move_assign this other =>
    simp only [Tasks.step, packaged_task_move_assign_statements] at hs
    cases hh : t._state this with
    | error a => rw [hh] at hs; cases hs
    | ok g0 =>
      rw [hh] at hs
      cases hg : t._state other with
      | error a => rw [hg] at hs; cases hs
      | ok g =>
        rw [hg] at hs
        simp only [Except.ok.injEq] at hs
        rw [← hs]
        have hi := Tasks.task_state_ok t this g0 hh
        have hj := Tasks.task_state_ok t other g hg
        have h1 := Tallied.remove_promise t.world rfl h this g0 (some none) hi (by simp)
        by_cases hto : this = other
        · subst hto
          simp only [List.set_set]
          exact h1
        · have h2 := h1.transfer this other (some none) g (get_set_object _ _ _ _ hi) (by simp)
            (by rw [List.getElem?_set_ne hto]; exact hj) hto
          rw [List.set_set] at h2
          exact h2
  | destroy this =>
    simp only [Tasks.step] at hs
    cases hh : t._state this with
    | error a => rw [hh] at hs; cases hs
    | ok g0 =>
      rw [hh] at hs
      simp only [Except.ok.injEq] at hs
      rw [← hs]
      have hi := Tasks.task_state_ok t this g0 hh
      exact Tallied.remove_promise t.world rfl h this g0 none hi (by simp)

/-- Every sequence of actions keeps the producer counts in agreement with the objects. -/
theorem Tasks.Counted.after_run (acts : List (Tasks.Action V E)) :
    ∀ (t t1 : Tasks V E), t.Counted → t.run acts = Except.ok t1 → t1.Counted := by
  induction acts with
  | nil =>
    intro t t1 h hs
    simp only [Tasks.run, Except.ok.injEq] at hs
    rw [← hs]; exact h
  | cons act rest ih =>
    intro t t1 h hs
    simp only [Tasks.run] at hs
    cases hp : t.step act with
    | error a => rw [hp] at hs; cases hs
    | ok t2 =>
      rw [hp] at hs
      exact ih t2 t1 (Tasks.Counted.after_step t t2 act h hp) hs

theorem Tasks.Counted.initially : (Tasks.empty : Tasks V E).Counted :=
  ⟨fun a ha => by simp [Tasks.empty] at ha, fun a s hs => by simp [Tasks.empty, World.empty] at hs⟩

/-- The state of a reference has a counter that is not zero, as long as the objects are
fewer than `2 ^ 64`. -/
theorem Tallied.referred_pos {cnt : _shared_state V E → Nat} {heap : List (_shared_state V E)}
    {objs : List (Option (Option Nat))}
    (h : Tallied cnt heap objs (fun _ => 0)) (hb : objs.length < 2 ^ 64) (i b : Nat)
    (s : _shared_state V E) (hi : objs[i]? = some (some (some b))) (hs : heap[b]? = some s) :
    cnt s ≠ 0 := by
  have h1 : 0 < objs.count (some (some b)) :=
    List.count_pos_iff.mpr (mem_of_get_object _ _ _ hi)
  have h2 : objs.count (some (some b)) ≤ objs.length := List.count_le_length _ _
  have h3 := h.count b s hs
  simp only [Nat.add_zero] at h3
  rw [h3, Nat.mod_eq_of_lt (by omega)]
  omega

theorem remove_promise_pending_of_count (s : _shared_state V E)
    (h : (_remove_promise s).promise_count ≠ 0) :
    _is_pending (_remove_promise s) = _is_pending s := by
  have hc := remove_promise_count s
  rw [hc] at h
  simp only [_remove_promise]
  split
  · rename_i h0
    exact absurd h0 h
  · simp only [_is_pending]

theorem kept_remove_promise (w : World V E) (g : Option Nat) (hw : w.promises_kept)
    (hg : ∀ a s, g = some a → w.heap[a]? = some s → s.promise_count ≠ 0) :
    (packaged_task_remove_promise w g).promises_kept := by
  cases g with
  | none => exact hw
  | some a =>
    cases hs : w.heap[a]? with
    | none => simp only [packaged_task_remove_promise, hs]; exact hw
    | some s =>
      simp only [packaged_task_remove_promise, hs, World.put]
      have hlt : a < w.heap.length := (List.getElem?_eq_some_iff.mp hs).1
      unfold World.promises_kept
      intro b s1 hs1 hc
      by_cases hba : b = a
      · subst hba
        simp only [List.getElem?_set_self hlt, Option.some.injEq] at hs1
        subst hs1
        rw [remove_promise_pending_of_count s hc]
        exact hw b s hs (hg b s rfl hs)
      · simp only [List.getElem?_set_ne (fun e => hba e.symm)] at hs1
        exact hw b s1 hs1 hc

theorem kept_add_promise (w : World V E) (g : Option Nat) (hw : w.promises_kept)
    (hg : ∀ a s, g = some a → w.heap[a]? = some s → s.promise_count ≠ 0) :
    (packaged_task_add_promise w g).promises_kept := by
  cases g with
  | none => exact hw
  | some a =>
    cases hs : w.heap[a]? with
    | none => simp only [packaged_task_add_promise, hs]; exact hw
    | some s =>
      simp only [packaged_task_add_promise, hs, World.put]
      have hlt : a < w.heap.length := (List.getElem?_eq_some_iff.mp hs).1
      unfold World.promises_kept
      intro b s1 hs1 hc
      by_cases hba : b = a
      · subst hba
        simp only [List.getElem?_set_self hlt, Option.some.injEq] at hs1
        subst hs1
        exact hw b s hs (hg b s rfl hs)
      · simp only [List.getElem?_set_ne (fun e => hba e.symm)] at hs1
        exact hw b s1 hs1 hc

theorem kept_package (w : World V E) (k : TypeKind) (f : Function V E) (hw : w.promises_kept) :
    (package w k f).1.promises_kept := by
  unfold World.promises_kept
  intro b s hs hc
  simp only [package_world] at hs
  by_cases hb : b < w.heap.length
  · rw [List.getElem?_append_left hb] at hs
    exact hw b s hs hc
  · have hlen := (List.getElem?_eq_some_iff.mp hs).1
    rw [List.length_append, List.length_singleton] at hlen
    have hbe : b = w.heap.length := by omega
    subst hbe
    rw [List.getElem?_append_right (le_refl _)] at hs
    simp only [Nat.sub_self, List.getElem?_cons_zero, Option.some.injEq] at hs
    subst hs
    rfl

theorem packaged_task_destroy_eq (w : World V E) (g : Option Nat) :
    packaged_task_destroy w g = packaged_task_remove_promise w g := rfl

/-- An action does not remove objects. -/
theorem Tasks.step_length (t t1 : Tasks V E) (act : Tasks.Action V E)
    (hs : t.step act = Except.ok t1) : t.objects.length ≤ t1.objects.length := by
  cases act with
  | package k r =>
    simp only [Tasks.step, Except.ok.injEq] at hs
    rw [← hs]; simp
  | copy other =>
    simp only [Tasks.step] at hs
    split at hs
    · cases hs
    · simp only [Except.ok.injEq] at hs
      rw [← hs]; simp
  | move other =>
    simp only [Tasks.step] at hs
    split at hs
    · cases hs
    · simp only [Except.ok.injEq] at hs
      rw [← hs]; simp
  | copy_assign this other =>
    simp only [Tasks.step, packaged_task_copy_assign_statements] at hs
    split at hs
    · cases hs
    · split at hs
      · cases hs
      · simp only [Except.ok.injEq] at hs
        rw [← hs]; simp
  | move_assign this other =>
    simp only [Tasks.step, packaged_task_move_assign_statements] at hs
    split at hs
    · cases hs
    · split at hs
      · cases hs
      · simp only [Except.ok.injEq] at hs
        rw [← hs]; simp
  | destroy this =>
    simp only [Tasks.step] at hs
    split at hs
    · cases hs
    · simp only [Except.ok.injEq] at hs
      rw [← hs]; simp

theorem Tasks.run_length (acts : List (Tasks.Action V E)) :
    ∀ (t t1 : Tasks V E), t.run acts = Except.ok t1 → t.objects.length ≤ t1.objects.length := by
  induction acts with
  | nil =>
    intro t t1 hs
    simp only [Tasks.run, Except.ok.injEq] at hs
    rw [hs]
  | cons act rest ih =>
    intro t t1 hs
    simp only [Tasks.run] at hs
    cases hp : t.step act with
    | error a => rw [hp] at hs; cases hs
    | ok t2 =>
      rw [hp] at hs
      exact le_trans (Tasks.step_length t t2 act hp) (ih t2 t1 hs)

/-- An action other than the copy assignment of an object to itself keeps every state with
a producer count above zero pending. -/
theorem Tasks.kept_step (t t1 : Tasks V E) (act : Tasks.Action V E) (h : t.Counted)
    (hk : t.world.promises_kept) (hself : act.self_copy = false)
    (hb : t.objects.length < 2 ^ 64)
    (hs : t.step act = Except.ok t1) : t1.world.promises_kept := by
  unfold Tasks.Counted at h
  cases act with
  | package k r =>
    simp only [Tasks.step, Except.ok.injEq] at hs
    rw [← hs]
    exact kept_package _ _ _ hk
  | copy other =>
    simp only [Tasks.step] at hs
    cases hg : t._state other with
    | error a => rw [hg] at hs; cases hs
    | ok g =>
      rw [hg] at hs
      simp only [Except.ok.injEq] at hs
      rw [← hs]
      have hi := Tasks.task_state_ok t other g hg
      exact kept_add_promise _ g hk
        (fun a s hga hsa => h.referred_pos hb other a s (hga ▸ hi) hsa)
  | move other =>
    simp only [Tasks.step] at hs
    cases hg : t._state other with
    | error a => rw [hg] at hs; cases hs
    | ok g =>
      rw [hg] at hs
      simp only [Except.ok.injEq] at hs
      rw [← hs]
      exact hk
  | copy_assign this other =>
    simp only [Tasks.Action.self_copy, beq_eq_false_iff_ne, ne_eq] at hself
    simp only [Tasks.step, packaged_task_copy_assign_statements] at hs
    cases hh : t._state this with
    | error a => rw [hh] at hs; cases hs
    | ok g0 =>
      rw [hh] at hs
      cases hg : t._state other with
      | error a => rw [hg] at hs; cases hs
      | ok g =>
        rw [hg] at hs
        simp only [Except.ok.injEq] at hs
        rw [← hs]
        have hi := Tasks.task_state_ok t this g0 hh
        have hj := Tasks.task_state_ok t other g hg
        have h1 := Tallied.remove_promise t.world rfl h this g0 (some none) hi (by simp)
        have hk1 := kept_remove_promise t.world g0 hk
          (fun a s hga hsa => h.referred_pos hb this a s (hga ▸ hi) hsa)
        refine kept_add_promise _ g hk1 ?_
        intro a s hga hsa
        refine h1.referred_pos (by rw [List.length_set]; exact hb) other a s ?_ hsa
        rw [List.getElem?_set_ne hself, ← hga]
        exact hj
  | move_assign this other =>
    simp only [Tasks.step, packaged_task_move_assign_statements] at hs
    cases hh : t._state this with
    | error a => rw [hh] at hs; cases hs
    | ok g0 =>
      rw [hh] at hs
      cases hg : t._state other with
      | error a => rw [hg] at hs; cases hs
      | ok g =>
        rw [hg] at hs
        simp only [Except.ok.injEq] at hs
        rw [← hs]
        have hi := Tasks.task_state_ok t this g0 hh
        exact kept_remove_promise t.world g0 hk
          (fun a s hga hsa => h.referred_pos hb this a s (hga ▸ hi) hsa)
  | destroy this =>
    simp only [Tasks.step] at hs
    cases hh : t._state this with
    | error a => rw [hh] at hs; cases hs
    | ok g0 =>
      rw [hh] at hs
      simp only [Except.ok.injEq] at hs
      rw [← hs]
      have hi := Tasks.task_state_ok t this g0 hh
      rw [packaged_task_destroy_eq]
      exact kept_remove_promise t.world g0 hk
        (fun a s hga hsa => h.referred_pos hb this a s (hga ▸ hi) hsa)

/-- A sequence of actions without a copy assignment of an object to itself keeps every
state with a producer count above zero pending. -/
theorem Tasks.kept_run (acts : List (Tasks.Action V E)) :
    ∀ (t t1 : Tasks V E), t.Counted → t.world.promises_kept →
      (∀ act ∈ acts, act.self_copy = false) → t1.objects.length < 2 ^ 64 →
      t.run acts = Except.ok t1 → t1.world.promises_kept := by
  induction acts with
  | nil =>
    intro t t1 _ hk _ _ hs
    simp only [Tasks.run, Except.ok.injEq] at hs
    rw [← hs]; exact hk
  | cons act rest ih =>
    intro t t1 h hk hself hb hs
    simp only [Tasks.run] at hs
    cases hp : t.step act with
    | error a => rw [hp] at hs; cases hs
    | ok t2 =>
      rw [hp] at hs
      have hlen2 := Tasks.run_length rest t2 t1 hs
      have hlen1 := Tasks.step_length t t2 act hp
      exact ih t2 t1 (Tasks.Counted.after_step t t2 act h hp)
        (Tasks.kept_step t t2 act h hk (hself act (List.mem_cons_self _ _)) (by omega) hp)
        (fun a ha => hself a (List.mem_cons_of_mem _ ha)) hb hs

/-- The state at an address is one of the states. -/
theorem mem_of_get_state (l : List (_shared_state V E)) (i : Nat) (x : _shared_state V E)
    (h : l[i]? = some x) : x ∈ l := by
  obtain ⟨hlt, he⟩ := List.getElem?_eq_some_iff.mp h
  exact he ▸ List.getElem_mem hlt

theorem World.Frame.refl (w : World V E) : w.Frame w :=
  ⟨rfl, fun a s s1 hs hs1 => by rw [hs] at hs1; cases hs1; exact ⟨rfl, Or.inl rfl⟩⟩

theorem World.Frame.trans {w w1 w2 : World V E} (h1 : w.Frame w1) (h2 : w1.Frame w2) :
    w.Frame w2 := by
  refine ⟨h2.1.trans h1.1, ?_⟩
  intro a s s2 hs hs2
  have hlt : a < w1.heap.length := by
    rw [h1.1]; exact (List.getElem?_eq_some_iff.mp hs).1
  have hs1 : w1.heap[a]? = some w1.heap[a] := List.getElem?_eq_getElem hlt
  obtain ⟨c1, f1⟩ := h1.2 a s _ hs hs1
  obtain ⟨c2, f2⟩ := h2.2 a _ s2 hs1 hs2
  refine ⟨c2.trans c1, ?_⟩
  rcases f2 with f2 | f2
  · rcases f1 with f1 | f1
    · exact Or.inl (f2.trans f1)
    · exact Or.inr (f2.trans f1)
  · exact Or.inr f2

/-- A program state with the same states. -/
theorem World.Frame.of_heap (w w1 : World V E) (h : w1.heap = w.heap) : w.Frame w1 := by
  refine ⟨by rw [h], ?_⟩
  intro a s s1 hs hs1
  rw [h, hs] at hs1
  cases hs1
  exact ⟨rfl, Or.inl rfl⟩

/-- One state is replaced by a state with the same consumer count and the same function
or none. -/
theorem World.Frame.put (w : World V E) (a : Nat) (s s1 : _shared_state V E)
    (hs : w.heap[a]? = some s) (hc : s1.shared_count = s.shared_count)
    (hf : s1.function = s.function ∨ s1.function = none) : w.Frame (w.put a s1) := by
  have hlt : a < w.heap.length := (List.getElem?_eq_some_iff.mp hs).1
  refine ⟨by simp [World.put], ?_⟩
  intro b t t1 ht ht1
  simp only [World.put] at ht1
  by_cases hba : b = a
  · subst hba
    rw [List.getElem?_set_self hlt] at ht1
    rw [hs] at ht
    cases ht
    cases ht1
    exact ⟨hc, hf⟩
  · rw [List.getElem?_set_ne (fun e => hba e.symm), ht] at ht1
    cases ht1
    exact ⟨rfl, Or.inl rfl⟩

/-- The states of a frame hold the same tally. -/
theorem Tallied.of_frame {objs : List (Option (Option Nat))} {extra : Nat → Nat}
    (w w1 : World V E) (h : Tallied _shared_state.shared_count w.heap objs extra)
    (hf : w.Frame w1) : Tallied _shared_state.shared_count w1.heap objs extra := by
  refine ⟨fun a ha => by rw [hf.1]; exact h.valid a ha, ?_⟩
  intro a s1 hs1
  have hlt : a < w.heap.length := by
    rw [← hf.1]; exact (List.getElem?_eq_some_iff.mp hs1).1
  have hs : w.heap[a]? = some w.heap[a] := List.getElem?_eq_getElem hlt
  rw [(hf.2 a _ s1 hs hs1).1]
  exact h.count a _ hs

/-- The states of a frame hold no closure of `when_all` if the states before held none. -/
theorem World.plain_frame (w w1 : World V E) (h : w.plain) (hf : w.Frame w1) : w1.plain := by
  intro s1 hs1 fn hfn
  obtain ⟨a, hlt, ha⟩ := List.getElem_of_mem hs1
  have hs1a : w1.heap[a]? = some s1 := by rw [List.getElem?_eq_getElem hlt, ha]
  have hlt0 : a < w.heap.length := by rw [← hf.1]; exact hlt
  have hs : w.heap[a]? = some w.heap[a] := List.getElem?_eq_getElem hlt0
  rcases (hf.2 a _ s1 hs hs1a).2 with hfun | hfun
  · exact h _ (List.getElem_mem hlt0) fn (by rw [← hfun]; exact hfn)
  · rw [hfun] at hfn; cases hfn

theorem get_void_shared_count (s s1 : _shared_state V E) (c : Completion Unit E)
    (h : s._get_void = Except.ok (s1, c)) : s1.shared_count = s.shared_count := by
  unfold _shared_state._get_void at h
  split at h
  · cases h
  · split at h
    · injection h with h
      injection h with h1 h2
      rw [← h1]
    · injection h with h
      injection h with h1 h2
      rw [← h1]
      split <;> rfl

theorem get_shared_count (s s1 : _shared_state V E) (c : Completion (Payload V) E)
    (h : s._get = Except.ok (s1, c)) : s1.shared_count = s.shared_count := by
  unfold _shared_state._get at h
  split at h
  · cases h
  · split at h
    · injection h with h
      injection h with h1 h2
      rw [← h1]
    · simp only at h
      split at h
      · injection h with h
        injection h with h1 h2
        rw [← h1]
        split <;> rfl
      · cases h

/-- Evaluating a closure made for a callable of a caller changes at most the value slot of
the upstream state. -/
theorem frame_eval_inner (u : World V E) (d : Nat) (fn : Function V E) (u1 : World V E)
    (c : Completion (Payload V) E) (hp : fn.plain = true)
    (h : eval_inner u d fn = Except.ok (u1, c)) : u.Frame u1 := by
  cases fn with
  | user r =>
    simp only [eval_inner, Except.ok.injEq, Prod.mk.injEq] at h
    rw [← h.1]; exact World.Frame.of_heap _ _ rfl
  | then_body this f =>
    simp only [eval_inner] at h
    cases hs : u.heap[this]? with
    | none => rw [hs] at h; cases h
    | some s =>
      rw [hs] at h
      simp only at h
      split at h
      · split at h
        · cases h
        · rename_i s1 e hg
          simp only [Except.ok.injEq, Prod.mk.injEq] at h
          rw [← h.1]
          exact World.Frame.put u this s s1 hs (get_void_shared_count s s1 _ hg)
            (Or.inl (get_void_function s s1 _ hg))
        · rename_i s1 x hg
          simp only [Except.ok.injEq, Prod.mk.injEq] at h
          rw [← h.1]
          exact (World.Frame.put u this s s1 hs (get_void_shared_count s s1 _ hg)
            (Or.inl (get_void_function s s1 _ hg))).trans (World.Frame.of_heap _ _ rfl)
      · split at h
        · cases h
        · rename_i s1 e hg
          simp only [Except.ok.injEq, Prod.mk.injEq] at h
          rw [← h.1]
          exact World.Frame.put u this s s1 hs (get_shared_count s s1 _ hg)
            (Or.inl (get_function s s1 _ hg))
        · rename_i s1 x hg
          simp only [Except.ok.injEq, Prod.mk.injEq] at h
          rw [← h.1]
          exact (World.Frame.put u this s s1 hs (get_shared_count s s1 _ hg)
            (Or.inl (get_function s s1 _ hg))).trans (World.Frame.of_heap _ _ rfl)
  | on_error_ptr this ptr f =>
    simp only [eval_inner, Except.ok.injEq, Prod.mk.injEq] at h
    rw [← h.1]; exact World.Frame.of_heap _ _ rfl
  | on_error_body this f =>
    simp only [eval_inner] at h
    split at h
    · cases h
    · split at h
      · simp only [Except.ok.injEq, Prod.mk.injEq] at h
        rw [← h.1]; exact World.Frame.of_heap _ _ rfl
      · cases h
  | when_all_body ws => cases hp
  | when_all_void this ws => cases hp
  | when_all_nonvoid this ws index => cases hp
  | when_all_error_ptr this ws policy ptr => cases hp
  | when_all_error_body this ws policy => cases hp

/-- On a closure made for a callable of a caller the two evaluators agree. -/
theorem eval_function_plain (u : World V E) (d : Nat) (fn : Function V E)
    (hp : fn.plain = true) : eval_function u d fn = eval_inner u d fn := by
  cases fn with
  | user r => simp only [eval_function]
  | then_body this f => simp only [eval_function]
  | on_error_ptr this ptr f => simp only [eval_function]
  | on_error_body this f => simp only [eval_function]
  | when_all_body ws => cases hp
  | when_all_void this ws => cases hp
  | when_all_nonvoid this ws index => cases hp
  | when_all_error_ptr this ws policy ptr => cases hp
  | when_all_error_body this ws policy => cases hp

/-- The `try` block of `operator()` changes the value slot and the failure continuation of
the invoked state only. -/
theorem frame_try (w w2 : World V E) (id : Nat) (c : Completion (Payload V) E)
    (h : packaged_task_try w id c = Except.ok w2) : w.Frame w2 := by
  unfold packaged_task_try at h
  cases hs : w.heap[id]? with
  | none => rw [hs] at h; cases h
  | some state =>
    rw [hs] at h
    cases c with
    | normal r =>
      simp only [Except.ok.injEq] at h
      rw [← h]
      exact World.Frame.put w id state _ hs rfl (Or.inl rfl)
    | throw e =>
      simp only at h
      have hf1 : w.Frame (w.put id { state with value := Variant.exception e }) :=
        World.Frame.put w id state _ hs rfl (Or.inl rfl)
      split at h
      · injection h with h
        rw [← h]
        exact hf1
      · rename_i cont _
        split at h
        · cases h
        · rename_i w1 cont1 hc
          injection h with h
          rw [← h]
          have h1 := continuation_call_heap _ _ _ _ hc
          have hf2 := World.Frame.of_heap _ w1 h1
          have hlt : id < w.heap.length := (List.getElem?_eq_some_iff.mp hs).1
          have hs1 : w1.heap[id]? = some { state with value := Variant.exception e } := by
            rw [h1]
            simp only [World.put]
            exact List.getElem?_set_self hlt
          exact (hf1.trans hf2).trans (World.Frame.put w1 id _ _ hs1 rfl (Or.inl rfl))

/-- The member `operator()` on a state whose function was made for a callable of a caller
changes no consumer count and adds no function. -/
theorem frame_call (w w1 : World V E) (task sch : Option Nat) (hw : w.plain)
    (h : packaged_task_call w task sch = Except.ok w1) : w.Frame w1 := by
  unfold packaged_task_call at h
  cases task with
  | none =>
    simp only [packaged_task_call_with, Except.ok.injEq] at h
    rw [← h]; exact World.Frame.refl w
  | some id =>
    simp only [packaged_task_call_with] at h
    cases hs : w.heap[id]? with
    | none =>
      rw [hs] at h
      simp only [Except.ok.injEq] at h
      rw [← h]; exact World.Frame.refl w
    | some state =>
      rw [hs] at h
      simp only at h
      split at h
      · cases h
      · rename_i fn hf
        have hp : fn.plain = true :=
          hw state (mem_of_get_state _ _ _ hs) fn hf
        rw [eval_function_plain _ _ _ hp] at h
        have hf0 : w.Frame (w.put id { state with scheduler := sch }) :=
          World.Frame.put w id state _ hs rfl (Or.inl rfl)
        split at h
        · cases h
        · rename_i u1 c he
          have hf1 := frame_eval_inner _ _ _ _ _ hp he
          split at h
          · cases h
          · rename_i u2 ht
            have hf2 := frame_try _ _ _ _ ht
            split at h
            · cases h
            · rename_i state2 h2
              split at h
              · cases h
              · rename_i u3 conts hfc
                have hf3 := World.Frame.of_heap _ _ (fire_continuations_heap _ _ _ _ _ hfc)
                split at h
                · cases h
                · rename_i state3 h3
                  simp only [Except.ok.injEq] at h
                  rw [← h]
                  exact (((hf0.trans hf1).trans hf2).trans hf3).trans
                    (World.Frame.put u3 id state3 _ h3 rfl (Or.inr rfl))

theorem remove_count_count (s : _shared_state V E) :
    (_remove_count s).shared_count = size_dec s.shared_count := by
  simp only [_remove_count]

theorem add_count_count (s : _shared_state V E) :
    (_add_count s).shared_count = size_inc s.shared_count := by
  simp only [_add_count]

theorem future_destroy_eq (w : World V E) (g : Option Nat) :
    future_destroy w g = future_remove_count w g := rfl

theorem future_copy_eq (w : World V E) (g : Option Nat) :
    future_copy w g = future_add_count w g := rfl

theorem future_remove_count_length (w : World V E) (h : Option Nat) :
    (future_remove_count w h).heap.length = w.heap.length := by
  unfold future_remove_count
  split
  · rfl
  · split
    · rfl
    · simp [World.put]

/-- The member `_remove_count` of an object that then stops referring to its state. -/
theorem Tallied.remove_count {heap : List (_shared_state V E)}
    {objs : List (Option (Option Nat))} {extra : Nat → Nat} (w : World V E)
    (hw : w.heap = heap)
    (h : Tallied _shared_state.shared_count heap objs extra) (i : Nat) (g : Option Nat)
    (x : Option (Option Nat)) (hi : objs[i]? = some (some g)) (hx : ∀ b, x ≠ some (some b)) :
    Tallied _shared_state.shared_count (future_remove_count w g).heap
      (objs.set i x) extra := by
  subst hw
  cases g with
  | none =>
    exact h.blank_set i (some none) x hi (by simp) hx
  | some a =>
    have hlt := h.valid a (mem_of_get_object _ _ _ hi)
    have hs : w.heap[a]? = some w.heap[a] := List.getElem?_eq_getElem hlt
    simp only [future_remove_count, hs, World.put]
    exact h.drop i a _ _ x hi hs (remove_count_count _) hx

/-- The member `_add_count` of an object that has just been given its handle. -/
theorem Tallied.add_count_set {heap : List (_shared_state V E)}
    {objs : List (Option (Option Nat))} {extra : Nat → Nat} (w : World V E)
    (hw : w.heap = heap)
    (h : Tallied _shared_state.shared_count heap objs extra) (i : Nat) (g : Option Nat)
    (x : Option (Option Nat)) (hi : objs[i]? = some x) (hx : ∀ b, x ≠ some (some b))
    (hg : ∀ b, g = some b → b < heap.length) :
    Tallied _shared_state.shared_count (future_add_count w g).heap
      (objs.set i (some g)) extra := by
  subst hw
  cases g with
  | none =>
    exact h.blank_set i x (some none) hi hx (by simp)
  | some a =>
    have hlt := hg a rfl
    have hs : w.heap[a]? = some w.heap[a] := List.getElem?_eq_getElem hlt
    simp only [future_add_count, hs, World.put]
    exact h.gain_set i a _ _ x hi hx hs (add_count_count _)

/-- The member `_add_count` of a new object. -/
theorem Tallied.add_count_append {heap : List (_shared_state V E)}
    {objs : List (Option (Option Nat))} {extra : Nat → Nat} (w : World V E)
    (hw : w.heap = heap)
    (h : Tallied _shared_state.shared_count heap objs extra) (g : Option Nat)
    (hg : ∀ b, g = some b → b < heap.length) :
    Tallied _shared_state.shared_count (future_add_count w g).heap
      (objs ++ [some g]) extra := by
  subst hw
  cases g with
  | none =>
    exact h.blank_append (some none) (by simp)
  | some a =>
    have hlt := hg a rfl
    have hs : w.heap[a]? = some w.heap[a] := List.getElem?_eq_getElem hlt
    simp only [future_add_count, hs, World.put]
    exact h.gain_append a _ _ hs (add_count_count _)

/-- A destroyed object at the end of the objects can be left out. -/
theorem Tallied.forget {cnt : _shared_state V E → Nat} {heap : List (_shared_state V E)}
    {objs : List (Option (Option Nat))} {extra : Nat → Nat}
    (h : Tallied cnt heap (objs ++ [none]) extra) : Tallied cnt heap objs extra := by
  refine h.objs_of _ _ (fun a ha => h.valid a (List.mem_append_left _ ha)) ?_
  intro b
  simp [List.count_append, List.count_singleton]

/-- The other contributions can be given by another function with the same values. -/
theorem Tallied.congr_extra {cnt : _shared_state V E → Nat} {heap : List (_shared_state V E)}
    {objs : List (Option (Option Nat))} {extra : Nat → Nat}
    (h : Tallied cnt heap objs extra) (extra1 : Nat → Nat) (he : ∀ b, extra1 b = extra b) :
    Tallied cnt heap objs extra1 :=
  h.objs_of _ _ h.valid (fun b => by rw [he b])

/-- The factory `package` allocates a state with one future. -/
theorem Tallied.package {objs : List (Option (Option Nat))} {extra : Nat → Nat}
    (w : World V E) (k : TypeKind) (f : Function V E)
    (h : Tallied _shared_state.shared_count w.heap objs extra)
    (he : extra w.heap.length = 0) :
    Tallied _shared_state.shared_count (package w k f).1.heap
      (objs ++ [some (package w k f).2.future]) extra := by
  simp only [package_world, package]
  exact h.alloc _ [some (some w.heap.length)] (Or.inr rfl) rfl he

/-- Destroying a task changes no consumer count and adds no function. -/
theorem frame_task_destroy (w : World V E) (task : Option Nat) :
    w.Frame (packaged_task_destroy w task) := by
  cases task with
  | none => exact World.Frame.refl w
  | some id =>
    cases hs : w.heap[id]? with
    | none => simp only [packaged_task_destroy, hs]; exact World.Frame.refl w
    | some s =>
      simp only [packaged_task_destroy, hs]
      refine World.Frame.put w id s _ hs ?_ ?_
      · simp only [_remove_promise]
        split
        · split <;> simp only
        · simp only
      · simp only [_remove_promise]
        split
        · split
          · exact Or.inr (by simp only)
          · exact Or.inl (by simp only)
        · exact Or.inl (by simp only)

/-- An executor running its oldest pushed thunk changes no consumer count and adds no
function. -/
theorem frame_run_next (w w1 : World V E) (hw : w.plain) (h : run_next w = Except.ok w1) :
    w.Frame w1 := by
  unfold run_next at h
  split at h
  · simp only [Except.ok.injEq] at h
    rw [← h]; exact World.Frame.refl w
  · rename_i ex t rest hp
    unfold run_thunk at h
    split at h
    · cases h
    · split at h
      · cases h
      · rename_i u1 hc
        simp only [Except.ok.injEq] at h
        rw [← h]
        have hf0 : w.Frame { w with pushed := rest } := World.Frame.of_heap _ _ rfl
        have hf1 := frame_call _ _ _ _ (World.plain_frame _ _ hw hf0) hc
        exact (hf0.trans hf1).trans (frame_task_destroy _ _)

theorem try_get_shared_count (s : _shared_state V E) :
    s.try_get.1.shared_count = s.shared_count := by
  unfold _shared_state.try_get
  simp only
  split
  · split <;> rfl
  · rfl
  · rfl

theorem try_get_void_shared_count (s : _shared_state V E) :
    s.try_get_void.1.shared_count = s.shared_count := by
  unfold _shared_state.try_get_void
  split
  · split <;> rfl
  · rfl
  · rfl

/-- The member `try_get` changes at most the value slot of the state. -/
theorem frame_try_get (w : World V E) (g : Option Nat)
    (p : World V E × Completion (Option (Payload V)) E)
    (h : future_try_get w g = Except.ok p) : w.Frame p.1 := by
  cases g with
  | none => cases h
  | some id =>
    simp only [future_try_get] at h
    cases hs : w.heap[id]? with
    | none => rw [hs] at h; cases h
    | some state =>
      rw [hs] at h
      simp only at h
      split at h
      · cases h
      · simp only [Except.ok.injEq] at h
        rw [← h]
        exact World.Frame.put w id state _ hs (try_get_shared_count state)
          (Or.inl (try_get_function state))

/-- The member `try_get` of `future<void>` changes at most the value slot of the state. -/
theorem frame_try_get_void (w : World V E) (g : Option Nat)
    (p : World V E × Completion Bool E)
    (h : future_void_try_get w g = Except.ok p) : w.Frame p.1 := by
  cases g with
  | none => cases h
  | some id =>
    simp only [future_void_try_get] at h
    cases hs : w.heap[id]? with
    | none => rw [hs] at h; cases h
    | some state =>
      rw [hs] at h
      simp only at h
      split at h
      · simp only [Except.ok.injEq] at h
        rw [← h]
        exact World.Frame.put w id state _ hs (try_get_void_shared_count state)
          (Or.inl (try_get_void_function state))
      · cases h

/-- Allocating a state with a plain function, or with none, keeps the states plain. -/
theorem World.plain_append (w : World V E) (s : _shared_state V E) (hw : w.plain)
    (hs : ∀ fn, s.function = some fn → fn.plain = true) :
    ({ w with heap := w.heap ++ [s] } : World V E).plain := by
  intro s1 hs1 fn hfn
  simp only [List.mem_append, List.mem_singleton] at hs1
  rcases hs1 with h1 | h1
  · exact hw s1 h1 fn hfn
  · rw [h1] at hfn; exact hs fn hfn

theorem World.plain_package (w : World V E) (k : TypeKind) (f : Function V E) (hw : w.plain)
    (hf : f.plain = true) : (package w k f).1.plain := by
  rw [package_world]
  refine World.plain_append w _ hw ?_
  intro fn hfn
  simp only [Option.some.injEq] at hfn
  rw [← hfn]; exact hf

theorem add_continuation_frame (s : _shared_state V E) (f : Continuation) :
    (_add_continuation s f).1.shared_count = s.shared_count ∧
      (_add_continuation s f).1.function = s.function := by
  unfold _add_continuation
  split
  · split <;> exact ⟨rfl, rfl⟩
  · exact ⟨rfl, rfl⟩

theorem add_exceptional_frame (s : _shared_state V E) (f : Continuation) :
    (_add_exceptional_continuation s f).1.shared_count = s.shared_count ∧
      (_add_exceptional_continuation s f).1.function = s.function := by
  unfold _add_exceptional_continuation
  split <;> exact ⟨rfl, rfl⟩

theorem put_length (u : World V E) (a : Nat) (s : _shared_state V E) :
    (u.put a s).heap.length = u.heap.length := by
  simp [World.put]

/-- The last object of a list is replaced. -/
theorem set_last_object (l : List (Option (Option Nat))) (x y : Option (Option Nat)) :
    (l ++ [x]).set l.length y = l ++ [y] := by
  induction l with
  | nil => rfl
  | cons a rest ih => simp only [List.cons_append, List.length_cons, List.set_cons_succ, ih]

theorem get_last_object (l : List (Option (Option Nat))) (x : Option (Option Nat)) :
    (l ++ [x])[l.length]? = some x := by
  rw [List.getElem?_append_right (le_refl _)]
  simp

/-- The state at `this` after it was replaced and a state was allocated. -/
theorem get_set_append_state (heap : List (_shared_state V E)) (this : Nat)
    (s new : _shared_state V E) (hlt : this < heap.length) :
    (heap.set this s ++ [new])[this]? = some s := by
  rw [List.getElem?_append_left (by rw [List.length_set]; exact hlt)]
  exact List.getElem?_set_self hlt

/-- The tally after `then` packaged a closure: the count of the state was raised on behalf
of the call, and a state with one future was allocated. -/
theorem tallied_attach_package {objs : List (Option (Option Nat))} {extra : Nat → Nat}
    (w : World V E) (this : Nat) (state : _shared_state V E) (k : TypeKind)
    (body : Function V E)
    (h : Tallied _shared_state.shared_count w.heap objs extra)
    (he : extra w.heap.length = 0) (hs : w.heap[this]? = some state) :
    Tallied _shared_state.shared_count (package (w.put this (_add_count state)) k body).1.heap
      (objs ++ [some (package (w.put this (_add_count state)) k body).2.future])
      (fun b => extra b + (if b = this then 1 else 0)) := by
  have hlt : this < w.heap.length := (List.getElem?_eq_some_iff.mp hs).1
  have hA : Tallied _shared_state.shared_count (w.put this (_add_count state)).heap objs
      (fun b => extra b + (if b = this then 1 else 0)) :=
    h.extra_inc _ this state _ hs (add_count_count _) (fun b => rfl)
  refine Tallied.package _ k body hA ?_
  simp only [World.put, List.length_set, he]
  rw [if_neg (by omega)]

/-- The effect of `then` on the tally: one more contribution to the state, and the
returned future as a new object when the call returns. -/
theorem tallied_then_with {objs : List (Option (Option Nat))} {extra : Nat → Nat}
    (w w1 : World V E) (this : Nat) (sched_arg : Option Nat) (k : TypeKind)
    (body : Function V E) (c : Completion (Option Nat) E)
    (h : Tallied _shared_state.shared_count w.heap objs extra)
    (he : extra w.heap.length = 0)
    (hr : _shared_state_then_with w this sched_arg k body = Except.ok (w1, c)) :
    this < w.heap.length ∧ w.heap.length ≤ w1.heap.length ∧
    Tallied _shared_state.shared_count w1.heap (objs ++ Futures.returned c)
      (fun b => extra b + (if b = this then 1 else 0)) := by
  unfold _shared_state_then_with at hr
  cases hs : w.heap[this]? with
  | none => rw [hs] at hr; cases hr
  | some state =>
    rw [hs] at hr
    simp only at hr
    have hlt : this < w.heap.length := (List.getElem?_eq_some_iff.mp hs).1
    have hB := tallied_attach_package w this state k body h he hs
    have hlen : (package (w.put this (_add_count state)) k body).1.heap.length =
        w.heap.length + 1 := by
      simp [package_world, World.put]
    have hthis : (package (w.put this (_add_count state)) k body).1.heap[this]? =
        some (_add_count state) := by
      simp only [package_world, World.put]
      exact get_set_append_state _ _ _ _ hlt
    split at hr
    · cases hr
    · split at hr
      · split at hr
        · rename_i state2 u hac
          simp only [Except.ok.injEq, Prod.mk.injEq] at hr
          rw [← hr.1, ← hr.2]
          have hfr := add_continuation_frame (_add_count state)
            { captures := { this := this, provided := sched_arg,
                            task := (package (w.put this (_add_count state)) k body).2.packaged_task,
                            state := some this } }
          rw [hac] at hfr
          refine ⟨hlt, ?_, ?_⟩
          · rw [put_length, hlen]; omega
          · exact hB.same this _ state2 hthis hfr.1
        · rename_i state2 e hac
          simp only [Except.ok.injEq, Prod.mk.injEq] at hr
          rw [← hr.1, ← hr.2]
          have hfr := add_continuation_frame (_add_count state)
            { captures := { this := this, provided := sched_arg,
                            task := (package (w.put this (_add_count state)) k body).2.packaged_task,
                            state := some this } }
          rw [hac] at hfr
          have hC := hB.same this _ state2 hthis hfr.1
          have hD := Tallied.of_frame
            ((package (w.put this (_add_count state)) k body).1.put this state2) _ hC
            (frame_task_destroy _
              (package (w.put this (_add_count state)) k body).2.packaged_task)
          have hE := Tallied.remove_count _ rfl hD objs.length
            (package (w.put this (_add_count state)) k body).2.future none
            (get_last_object _ _) (by simp)
          rw [set_last_object] at hE
          refine ⟨hlt, ?_, ?_⟩
          · rw [future_destroy_eq, future_remove_count_length]
            have := (frame_task_destroy
              ((package (w.put this (_add_count state)) k body).1.put this state2)
              (package (w.put this (_add_count state)) k body).2.packaged_task).1
            rw [this, put_length, hlen]; omega
          · simp only [Futures.returned, List.append_nil]
            exact hE.forget
      · split at hr
        · cases hr
        · rename_i ex hsch
          simp only [Except.ok.injEq, Prod.mk.injEq] at hr
          rw [← hr.1, ← hr.2]
          refine ⟨hlt, ?_, ?_⟩
          · simp only [push]; omega
          · exact hB

/-- The effect of `on_error` on the tally: one more contribution to the state, and the
returned future as a new object when the call returns. -/
theorem tallied_on_error_with {objs : List (Option (Option Nat))} {extra : Nat → Nat}
    (w w1 : World V E) (this : Nat) (sched_arg : Option Nat) (k : TypeKind)
    (body_ptr : Exn E → Function V E) (body : Function V E) (c : Completion (Option Nat) E)
    (h : Tallied _shared_state.shared_count w.heap objs extra)
    (he : extra w.heap.length = 0)
    (hr : _shared_state_on_error_with w this sched_arg k body_ptr body = Except.ok (w1, c)) :
    this < w.heap.length ∧ w.heap.length ≤ w1.heap.length ∧
    Tallied _shared_state.shared_count w1.heap (objs ++ Futures.returned c)
      (fun b => extra b + (if b = this then 1 else 0)) := by
  unfold _shared_state_on_error_with at hr
  cases hs : w.heap[this]? with
  | none => rw [hs] at hr; cases hr
  | some state =>
    rw [hs] at hr
    simp only at hr
    have hlt : this < w.heap.length := (List.getElem?_eq_some_iff.mp hs).1
    have hlen : ∀ fn, (package (w.put this (_add_count state)) k fn).1.heap.length =
        w.heap.length + 1 := by
      intro fn
      simp [package_world, World.put]
    have hthis : ∀ fn, (package (w.put this (_add_count state)) k fn).1.heap[this]? =
        some (_add_count state) := by
      intro fn
      simp only [package_world, World.put]
      exact get_set_append_state _ _ _ _ hlt
    split at hr
    · cases hr
    · split at hr
      · simp only [Except.ok.injEq, Prod.mk.injEq] at hr
        rw [← hr.1, ← hr.2]
        have hA : Tallied _shared_state.shared_count (w.put this (_add_count state)).heap objs
            (fun b => extra b + (if b = this then 1 else 0)) :=
          h.extra_inc _ this state _ hs (add_count_count _) (fun b => rfl)
        refine ⟨hlt, ?_, ?_⟩
        · simp [World.put]
        · exact hA.blank_append (some none) (by simp)
      · rename_i ptr hv
        have hB := tallied_attach_package w this state k (body_ptr ptr) h he hs
        split at hr
        · cases hr
        · rename_i ex hsch
          simp only [Except.ok.injEq, Prod.mk.injEq] at hr
          rw [← hr.1, ← hr.2]
          refine ⟨hlt, ?_, ?_⟩
          · have := hlen (body_ptr ptr)
            simp only [push]; omega
          · exact hB
      · have hB := tallied_attach_package w this state k body h he hs
        split at hr
        · rename_i state2 u hac
          simp only [Except.ok.injEq, Prod.mk.injEq] at hr
          rw [← hr.1, ← hr.2]
          have hfr := add_exceptional_frame (_add_count state)
            { captures := { this := this, provided := sched_arg,
                            task := (package (w.put this (_add_count state)) k body).2.packaged_task,
                            state := some this } }
          rw [hac] at hfr
          refine ⟨hlt, ?_, ?_⟩
          · rw [put_length, hlen body]; omega
          · exact hB.same this _ state2 (hthis body) hfr.1
        · rename_i state2 e hac
          simp only [Except.ok.injEq, Prod.mk.injEq] at hr
          rw [← hr.1, ← hr.2]
          have hfr := add_exceptional_frame (_add_count state)
            { captures := { this := this, provided := sched_arg,
                            task := (package (w.put this (_add_count state)) k body).2.packaged_task,
                            state := some this } }
          rw [hac] at hfr
          have hC := hB.same this _ state2 (hthis body) hfr.1
          have hD := Tallied.of_frame
            ((package (w.put this (_add_count state)) k body).1.put this state2) _ hC
            (frame_task_destroy _
              (package (w.put this (_add_count state)) k body).2.packaged_task)
          have hE := Tallied.remove_count _ rfl hD objs.length
            (package (w.put this (_add_count state)) k body).2.future none
            (get_last_object _ _) (by simp)
          rw [set_last_object] at hE
          refine ⟨hlt, ?_, ?_⟩
          · rw [future_destroy_eq, future_remove_count_length]
            have := (frame_task_destroy
              ((package (w.put this (_add_count state)) k body).1.put this state2)
              (package (w.put this (_add_count state)) k body).2.packaged_task).1
            rw [this, put_length, hlen body]; omega
          · simp only [Futures.returned, List.append_nil]
            exact hE.forget

/-- Replacing a state by one with the same function, or with none, keeps the states
plain. -/
theorem World.plain_put (w : World V E) (a : Nat) (s s1 : _shared_state V E) (hw : w.plain)
    (hs : w.heap[a]? = some s) (hf : s1.function = s.function ∨ s1.function = none) :
    (w.put a s1).plain := by
  intro s2 hs2 fn hfn
  simp only [World.put] at hs2
  rcases List.mem_or_eq_of_mem_set hs2 with h2 | h2
  · exact hw s2 h2 fn hfn
  · rw [h2] at hfn
    rcases hf with hf | hf
    · rw [hf] at hfn
      exact hw s (mem_of_get_state _ _ _ hs) fn hfn
    · rw [hf] at hfn; cases hfn

theorem remove_count_function (s : _shared_state V E) :
    (_remove_count s).function = s.function := by
  unfold _remove_count
  rfl

theorem add_count_function (s : _shared_state V E) :
    (_add_count s).function = s.function := by
  unfold _add_count
  rfl

theorem World.plain_remove_count (w : World V E) (g : Option Nat) (hw : w.plain) :
    (future_remove_count w g).plain := by
  cases g with
  | none => exact hw
  | some a =>
    cases hs : w.heap[a]? with
    | none => simp only [future_remove_count, hs]; exact hw
    | some s =>
      simp only [future_remove_count, hs]
      exact World.plain_put w a s _ hw hs (Or.inl (remove_count_function s))

theorem World.plain_add_count (w : World V E) (g : Option Nat) (hw : w.plain) :
    (future_add_count w g).plain := by
  cases g with
  | none => exact hw
  | some a =>
    cases hs : w.heap[a]? with
    | none => simp only [future_add_count, hs]; exact hw
    | some s =>
      simp only [future_add_count, hs]
      exact World.plain_put w a s _ hw hs (Or.inl (add_count_function s))

theorem future_add_count_length (w : World V E) (h : Option Nat) :
    (future_add_count w h).heap.length = w.heap.length := by
  unfold future_add_count
  split
  · rfl
  · split
    · rfl
    · simp [World.put]

/-- The member `then` keeps the states plain when its closure is. -/
theorem World.plain_then_with (w w1 : World V E) (this : Nat) (sched_arg : Option Nat)
    (k : TypeKind) (body : Function V E) (c : Completion (Option Nat) E) (hw : w.plain)
    (hp : body.plain = true)
    (hr : _shared_state_then_with w this sched_arg k body = Except.ok (w1, c)) : w1.plain := by
  unfold _shared_state_then_with at hr
  cases hs : w.heap[this]? with
  | none => rw [hs] at hr; cases hr
  | some state =>
    rw [hs] at hr
    simp only at hr
    have hlt : this < w.heap.length := (List.getElem?_eq_some_iff.mp hs).1
    have hA : (w.put this (_add_count state)).plain :=
      World.plain_put w this state _ hw hs (Or.inl (add_count_function state))
    have hB := World.plain_package _ k body hA hp
    have hthis : (package (w.put this (_add_count state)) k body).1.heap[this]? =
        some (_add_count state) := by
      simp only [package_world, World.put]
      exact get_set_append_state _ _ _ _ hlt
    split at hr
    · cases hr
    · split at hr
      · split at hr
        · rename_i state2 u hac
          simp only [Except.ok.injEq, Prod.mk.injEq] at hr
          rw [← hr.1]
          have hfr := add_continuation_frame (_add_count state)
            { captures := { this := this, provided := sched_arg,
                            task := (package (w.put this (_add_count state)) k body).2.packaged_task,
                            state := some this } }
          rw [hac] at hfr
          exact World.plain_put _ this _ state2 hB hthis (Or.inl hfr.2)
        · rename_i state2 e hac
          simp only [Except.ok.injEq, Prod.mk.injEq] at hr
          rw [← hr.1]
          have hfr := add_continuation_frame (_add_count state)
            { captures := { this := this, provided := sched_arg,
                            task := (package (w.put this (_add_count state)) k body).2.packaged_task,
                            state := some this } }
          rw [hac] at hfr
          have hC := World.plain_put _ this _ state2 hB hthis (Or.inl hfr.2)
          rw [future_destroy_eq]
          exact World.plain_remove_count _ _
            (World.plain_frame _ _ hC (frame_task_destroy _ _))
      · split at hr
        · cases hr
        · simp only [Except.ok.injEq, Prod.mk.injEq] at hr
          rw [← hr.1]
          exact hB

/-- The member `on_error` keeps the states plain when its closures are. -/
theorem World.plain_on_error_with (w w1 : World V E) (this : Nat) (sched_arg : Option Nat)
    (k : TypeKind) (body_ptr : Exn E → Function V E) (body : Function V E)
    (c : Completion (Option Nat) E) (hw : w.plain)
    (hpp : ∀ ptr, (body_ptr ptr).plain = true) (hp : body.plain = true)
    (hr : _shared_state_on_error_with w this sched_arg k body_ptr body = Except.ok (w1, c)) :
    w1.plain := by
  unfold _shared_state_on_error_with at hr
  cases hs : w.heap[this]? with
  | none => rw [hs] at hr; cases hr
  | some state =>
    rw [hs] at hr
    simp only at hr
    have hlt : this < w.heap.length := (List.getElem?_eq_some_iff.mp hs).1
    have hA : (w.put this (_add_count state)).plain :=
      World.plain_put w this state _ hw hs (Or.inl (add_count_function state))
    have hthis : ∀ fn, (package (w.put this (_add_count state)) k fn).1.heap[this]? =
        some (_add_count state) := by
      intro fn
      simp only [package_world, World.put]
      exact get_set_append_state _ _ _ _ hlt
    split at hr
    · cases hr
    · split at hr
      · simp only [Except.ok.injEq, Prod.mk.injEq] at hr
        rw [← hr.1]
        exact hA
      · rename_i ptr hv
        split at hr
        · cases hr
        · simp only [Except.ok.injEq, Prod.mk.injEq] at hr
          rw [← hr.1]
          exact World.plain_package _ k _ hA (hpp ptr)
      · have hB := World.plain_package _ k body hA hp
        split at hr
        · rename_i state2 u hac
          simp only [Except.ok.injEq, Prod.mk.injEq] at hr
          rw [← hr.1]
          have hfr := add_exceptional_frame (_add_count state)
            { captures := { this := this, provided := sched_arg,
                            task := (package (w.put this (_add_count state)) k body).2.packaged_task,
                            state := some this } }
          rw [hac] at hfr
          exact World.plain_put _ this _ state2 hB (hthis body) (Or.inl hfr.2)
        · rename_i state2 e hac
          simp only [Except.ok.injEq, Prod.mk.injEq] at hr
          rw [← hr.1]
          have hfr := add_exceptional_frame (_add_count state)
            { captures := { this := this, provided := sched_arg,
                            task := (package (w.put this (_add_count state)) k body).2.packaged_task,
                            state := some this } }
          rw [hac] at hfr
          have hC := World.plain_put _ this _ state2 hB (hthis body) (Or.inl hfr.2)
          rw [future_destroy_eq]
          exact World.plain_remove_count _ _
            (World.plain_frame _ _ hC (frame_task_destroy _ _))

/-- The member `_state` of an object is read from an object that is alive. -/
theorem Futures.future_state_ok (t : Futures V E) (i : Nat) (h : Option Nat)
    (hs : t._state i = Except.ok h) : t.objects[i]? = some (some h) := by
  unfold Futures._state at hs
  split at hs
  · rename_i g hg
    cases hs
    exact hg
  · cases hs

/-- No call is logged for an address beyond the states. -/
theorem Futures.Counted.fresh_extra {t : Futures V E} (h : t.Counted) :
    t.attachments t.world.heap.length = 0 := by
  unfold Futures.attachments
  rw [List.count_eq_zero]
  intro hm
  exact absurd (h.logged _ hm) (lt_irrefl _)

/-- A change of the states that keeps the consumer counts and adds no function keeps the
agreement. -/
theorem Futures.Counted.framed {t : Futures V E} (h : t.Counted) (w1 : World V E)
    (hf : t.world.Frame w1) : Futures.Counted { t with world := w1 } :=
  ⟨Tallied.of_frame _ _ h.tally hf, fun a ha => by rw [hf.1]; exact h.logged a ha,
    World.plain_frame _ _ h.plain hf⟩

/-- The program after a logged call of `then` or `on_error` on the state `id`. -/
theorem Futures.Counted.attached_to {t : Futures V E} (h : t.Counted) (w1 : World V E)
    (id : Nat) (c : Completion (Option Nat) E)
    (htal : id < t.world.heap.length ∧ t.world.heap.length ≤ w1.heap.length ∧
      Tallied _shared_state.shared_count w1.heap (t.objects ++ Futures.returned c)
        (fun b => t.attachments b + (if b = id then 1 else 0)))
    (hpl : w1.plain) :
    Futures.Counted
      { world := w1, objects := t.objects ++ Futures.returned c,
        attached := t.attached ++ (some id).toList } := by
  refine ⟨?_, ?_, hpl⟩
  · refine htal.2.2.congr_extra _ ?_
    intro b
    simp only [Futures.attachments, Option.toList, List.count_append, List.count_singleton,
      beq_iff_eq]
    by_cases hb : b = id
    · simp [hb]
    · have : ¬ (id = b) := fun e => hb e.symm
      simp [hb, this]
  · intro a ha
    simp only [Option.toList, List.mem_append, List.mem_singleton] at ha
    rcases ha with ha | ha
    · exact lt_of_lt_of_le (h.logged a ha) htal.2.1
    · rw [ha]; exact lt_of_lt_of_le htal.1 htal.2.1

theorem Futures.Counted.at_start : (Futures.empty : Futures V E).Counted :=
  ⟨⟨fun a ha => by simp [Futures.empty] at ha,
    fun a s hs => by simp [Futures.empty, World.empty] at hs⟩,
   fun a ha => by simp [Futures.empty] at ha,
   fun s hs => by simp [Futures.empty, World.empty] at hs⟩

/-- A factory of ready futures allocates a settled state with one future. -/
theorem Futures.Counted.ready {t : Futures V E} (h : t.Counted) (s : _shared_state V E)
    (hc : s.shared_count = 1) (hf : s.function = none) :
    Futures.Counted
      { t with world := { t.world with heap := t.world.heap ++ [s] },
               objects := t.objects ++ [some (some t.world.heap.length)] } := by
  refine ⟨?_, ?_, ?_⟩
  · exact h.tally.alloc s [some (some t.world.heap.length)] (Or.inr rfl) hc h.fresh_extra
  · intro a ha
    simp only [List.length_append, List.length_singleton]
    exact Nat.lt_succ_of_lt (h.logged a ha)
  · exact World.plain_append _ s h.plain (fun fn hfn => by rw [hf] at hfn; cases hfn)

/-- Every action on the future objects keeps the consumer counts in agreement with the
objects and the logged calls. -/
theorem Futures.Counted.through_step (t t1 : Futures V E) (act : Futures.Action V E) (h : t.Counted)
    (hs : t.step act = Except.ok t1) : t1.Counted := by
  cases act with
  | package k r =>
    simp only [Futures.step, Except.ok.injEq] at hs
    rw [← hs]
    refine ⟨Tallied.package _ k _ h.tally h.fresh_extra, ?_, World.plain_package _ k _ h.plain rfl⟩
    intro a ha
    simp only [package_world, List.length_append, List.length_singleton]
    exact Nat.lt_succ_of_lt (h.logged a ha)
  | make_ready_future k v =>
    simp only [Futures.step, Except.ok.injEq, make_ready_future] at hs
    rw [← hs]
    exact h.ready _ (by simp only [_add_count, _shared_state.of_value, size_inc_zero])
      (by simp only [_add_count, _shared_state.of_value])
  | make_ready_future_void =>
    simp only [Futures.step, Except.ok.injEq, make_ready_future_void] at hs
    rw [← hs]
    exact h.ready _ (by simp only [_add_count, _shared_state.of_value, size_inc_zero])
      (by simp only [_add_count, _shared_state.of_value])
  | copy other =>
    simp only [Futures.step] at hs
    cases hg : t._state other with
    | error a => rw [hg] at hs; cases hs
    | ok g =>
      rw [hg] at hs
      simp only [Except.ok.injEq] at hs
      rw [← hs]
      have hi := Futures.future_state_ok t other g hg
      refine ⟨?_, ?_, ?_⟩
      · rw [future_copy_eq]
        exact Tallied.add_count_append t.world rfl h.tally g (h.tally.handle_valid other g hi)
      · intro a ha
        simp only [future_copy_eq, future_add_count_length]
        exact h.logged a ha
      · rw [future_copy_eq]
        exact World.plain_add_count _ _ h.plain
  | move other =>
    simp only [Futures.step] at hs
    cases hg : t._state other with
    | error a => rw [hg] at hs; cases hs
    | ok g =>
      rw [hg] at hs
      simp only [Except.ok.injEq] at hs
      rw [← hs]
      have hi := Futures.future_state_ok t other g hg
      exact ⟨h.tally.move_append other g hi, h.logged, h.plain⟩
  | copy_assign this other =>
    simp only [Futures.step, future_copy_assign] at hs
    cases hh : t._state this with
    | error a => rw [hh] at hs; cases hs
    | ok g0 =>
      rw [hh] at hs
      cases hg : t._state other with
      | error a => rw [hg] at hs; cases hs
      | ok g =>
        rw [hg] at hs
        simp only [Except.ok.injEq] at hs
        rw [← hs]
        have hi := Futures.future_state_ok t this g0 hh
        have hj := Futures.future_state_ok t other g hg
        have h1 := Tallied.remove_count t.world rfl h.tally this g0 (some none) hi (by simp)
        have h2 := Tallied.add_count_set (future_remove_count t.world g0) rfl h1
          this g (some none) (get_set_object _ _ _ _ hi) (by simp)
          (by rw [future_remove_count_length]; exact h.tally.handle_valid other g hj)
        rw [List.set_set] at h2
        refine ⟨h2, ?_, World.plain_add_count _ _ (World.plain_remove_count _ _ h.plain)⟩
        intro a ha
        simp only [future_add_count_length, future_remove_count_length]
        exact h.logged a ha
  | move_assign this other =>
    simp only [Futures.step, future_move_assign] at hs
    cases hh : t._state this with
    | error a => rw [hh] at hs; cases hs
    | ok g0 =>
      rw [hh] at hs
      cases hg : t._state other with
      | error a => rw [hg] at hs; cases hs
      | ok g =>
        rw [hg] at hs
        simp only [Except.ok.injEq] at hs
        rw [← hs]
        have hi := Futures.future_state_ok t this g0 hh
        have hj := Futures.future_state_ok t other g hg
        have h1 := Tallied.remove_count t.world rfl h.tally this g0 (some none) hi (by simp)
        refine ⟨?_, ?_, World.plain_remove_count _ _ h.plain⟩
        · by_cases hto : this = other
          · subst hto
            simp only [List.set_set]
            exact h1
          · have h2 := h1.transfer this other (some none) g (get_set_object _ _ _ _ hi)
              (by simp) (by rw [List.getElem?_set_ne hto]; exact hj) hto
            rw [List.set_set] at h2
            exact h2
        · intro a ha
          simp only [future_remove_count_length]
          exact h.logged a ha
  | destroy this =>
    simp only [Futures.step] at hs
    cases hh : t._state this with
    | error a => rw [hh] at hs; cases hs
    | ok g0 =>
      rw [hh] at hs
      simp only [Except.ok.injEq] at hs
      rw [← hs]
      have hi := Futures.future_state_ok t this g0 hh
      refine ⟨?_, ?_, ?_⟩
      · rw [future_destroy_eq]
        exact Tallied.remove_count t.world rfl h.tally this g0 none hi (by simp)
      · intro a ha
        simp only [future_destroy_eq, future_remove_count_length]
        exact h.logged a ha
      · rw [future_destroy_eq]
        exact World.plain_remove_count _ _ h.plain
  | try_get this =>
    simp only [Futures.step] at hs
    cases hh : t._state this with
    | error a => rw [hh] at hs; cases hs
    | ok g0 =>
      rw [hh] at hs
      simp only at hs
      cases hr : future_try_get t.world g0 with
      | error a => rw [hr] at hs; cases hs
      | ok p =>
        rw [hr] at hs
        simp only [Except.ok.injEq] at hs
        rw [← hs]
        exact h.framed p.1 (frame_try_get _ _ _ hr)
  | try_get_void this =>
    simp only [Futures.step] at hs
    cases hh : t._state this with
    | error a => rw [hh] at hs; cases hs
    | ok g0 =>
      rw [hh] at hs
      simp only at hs
      cases hr : future_void_try_get t.world g0 with
      | error a => rw [hr] at hs; cases hs
      | ok p =>
        rw [hr] at hs
        simp only [Except.ok.injEq] at hs
        rw [← hs]
        exact h.framed p.1 (frame_try_get_void _ _ _ hr)
  | then_to this sched_arg k f =>
    simp only [Futures.step] at hs
    cases hh : t._state this with
    | error a => rw [hh] at hs; cases hs
    | ok g0 =>
      rw [hh] at hs
      simp only at hs
      cases g0 with
      | none => simp [Futures.attach, future_then] at hs
      | some id =>
        cases hr : future_then t.world (some id) sched_arg k f with
        | error a => rw [hr] at hs; simp [Futures.attach] at hs
        | ok p =>
          obtain ⟨w1, c⟩ := p
          rw [hr] at hs
          simp only [Futures.attach, Except.ok.injEq] at hs
          rw [← hs]
          simp only [future_then, _shared_state_then] at hr
          exact h.attached_to w1 id c
            (tallied_then_with _ _ _ _ _ _ _ h.tally h.fresh_extra hr)
            (World.plain_then_with _ _ _ _ _ _ _ h.plain (by rfl) hr)
  | then_default this k f =>
    simp only [Futures.step] at hs
    cases hh : t._state this with
    | error a => rw [hh] at hs; cases hs
    | ok g0 =>
      rw [hh] at hs
      simp only at hs
      cases g0 with
      | none => simp [Futures.attach, future_then_default] at hs
      | some id =>
        cases hr : future_then_default t.world (some id) k f with
        | error a => rw [hr] at hs; simp [Futures.attach] at hs
        | ok p =>
          obtain ⟨w1, c⟩ := p
          rw [hr] at hs
          simp only [Futures.attach, Except.ok.injEq] at hs
          rw [← hs]
          simp only [future_then_default, _shared_state_then_default] at hr
          split at hr
          · cases hr
          · exact h.attached_to w1 id c
              (tallied_then_with _ _ _ _ _ _ _ h.tally h.fresh_extra hr)
              (World.plain_then_with _ _ _ _ _ _ _ h.plain (by rfl) hr)
  | on_error_to this sched_arg k f =>
    simp only [Futures.step] at hs
    cases hh : t._state this with
    | error a => rw [hh] at hs; cases hs
    | ok g0 =>
      rw [hh] at hs
      simp only at hs
      cases g0 with
      | none => simp [Futures.attach, future_on_error] at hs
      | some id =>
        cases hr : future_on_error t.world (some id) sched_arg k f with
        | error a => rw [hr] at hs; simp [Futures.attach] at hs
        | ok p =>
          obtain ⟨w1, c⟩ := p
          rw [hr] at hs
          simp only [Futures.attach, Except.ok.injEq] at hs
          rw [← hs]
          simp only [future_on_error, _shared_state_on_error] at hr
          exact h.attached_to w1 id c
            (tallied_on_error_with _ _ _ _ _ _ _ _ h.tally h.fresh_extra hr)
            (World.plain_on_error_with _ _ _ _ _ _ _ _ h.plain (fun _ => by rfl) (by rfl) hr)
  | on_error_default this k f =>
    simp only [Futures.step] at hs
    cases hh : t._state this with
    | error a => rw [hh] at hs; cases hs
    | ok g0 =>
      rw [hh] at hs
      simp only at hs
      cases g0 with
      | none => simp [Futures.attach, future_on_error_default] at hs
      | some id =>
        cases hr : future_on_error_default t.world (some id) k f with
        | error a => rw [hr] at hs; simp [Futures.attach] at hs
        | ok p =>
          obtain ⟨w1, c⟩ := p
          rw [hr] at hs
          simp only [Futures.attach, Except.ok.injEq] at hs
          rw [← hs]
          simp only [future_on_error_default, _shared_state_on_error_default] at hr
          split at hr
          · cases hr
          · exact h.attached_to w1 id c
              (tallied_on_error_with _ _ _ _ _ _ _ _ h.tally h.fresh_extra hr)
              (World.plain_on_error_with _ _ _ _ _ _ _ _ h.plain (fun _ => by rfl) (by rfl) hr)
  | call task sched_arg =>
    simp only [Futures.step] at hs
    cases hr : packaged_task_call t.world task sched_arg with
    | error a => rw [hr] at hs; cases hs
    | ok w1 =>
      rw [hr] at hs
      simp only [Except.ok.injEq] at hs
      rw [← hs]
      exact h.framed w1 (frame_call _ _ _ _ h.plain hr)
  | run =>
    simp only [Futures.step] at hs
    cases hr : run_next t.world with
    | error a => rw [hr] at hs; cases hs
    | ok w1 =>
      rw [hr] at hs
      simp only [Except.ok.injEq] at hs
      rw [← hs]
      exact h.framed w1 (frame_run_next _ _ h.plain hr)

/-- Every sequence of actions keeps the consumer counts in agreement with the objects and
the logged calls. -/
theorem Futures.Counted.through_run (acts : List (Futures.Action V E)) :
    ∀ (t t1 : Futures V E), t.Counted → t.run acts = Except.ok t1 → t1.Counted := by
  induction acts with
  | nil =>
    intro t t1 h hs
    simp only [Futures.run, Except.ok.injEq] at hs
    rw [← hs]; exact h
  | cons act rest ih =>
    intro t t1 h hs
    simp only [Futures.run] at hs
    cases hp : t.step act with
    | error a => rw [hp] at hs; cases hs
    | ok t2 =>
      rw [hp] at hs
      exact ih t2 t1 (Futures.Counted.through_step t t2 act h hp) hs

/-- On a copyable state that holds a value and whose consumer count is not 1, `try_get`
returns the value and leaves the state as it is. -/
theorem try_get_copyable_shared (s : _shared_state V E) (v : Payload V)
    (hv : s.value = Variant.value v) (hk : s.kind = TypeKind.copyable)
    (hne : s.shared_count ≠ 1) : s.try_get = (s, Completion.normal (some v)) := by
  obtain ⟨kind, value, pc, sc, sch, cs, ec, fn⟩ := s
  simp only at hv hk hne
  subst hv hk
  simp [_shared_state.try_get, _move_or_copy, hne, Variant.index]

/-- Every action logs one call when it is a call of `then` or `on_error`, and none
otherwise. -/
theorem Futures.step_attached (t t1 : Futures V E) (act : Futures.Action V E)
    (hs : t.step act = Except.ok t1) :
    t1.attached.length = t.attached.length + (if act.attaches = true then 1 else 0) := by
  have hatt : ∀ (g : Option Nat) (r : Except Abort (World V E × Completion (Option Nat) E)),
      (g = none → ∀ p, r ≠ Except.ok p) → t.attach g r = Except.ok t1 →
      t1.attached.length = t.attached.length + 1 := by
    intro g r hg h
    cases r with
    | error a => cases h
    | ok p =>
      cases g with
      | none => exact absurd rfl (hg rfl p)
      | some id =>
        simp only [Futures.attach, Except.ok.injEq] at h
        rw [← h]
        simp
  cases act with
  | package k r =>
    simp only [Futures.step, Except.ok.injEq] at hs
    rw [← hs]; rfl
  | make_ready_future k v =>
    simp only [Futures.step, Except.ok.injEq] at hs
    rw [← hs]; rfl
  | make_ready_future_void =>
    simp only [Futures.step, Except.ok.injEq] at hs
    rw [← hs]; rfl
  | copy other =>
    simp only [Futures.step] at hs
    split at hs
    · cases hs
    · simp only [Except.ok.injEq] at hs
      rw [← hs]; rfl
  | move other =>
    simp only [Futures.step] at hs
    split at hs
    · cases hs
    · simp only [Except.ok.injEq] at hs
      rw [← hs]; rfl
  | copy_assign this other =>
    simp only [Futures.step, future_copy_assign] at hs
    split at hs
    · cases hs
    · split at hs
      · cases hs
      · simp only [Except.ok.injEq] at hs
        rw [← hs]; rfl
  | move_assign this other =>
    simp only [Futures.step, future_move_assign] at hs
    split at hs
    · cases hs
    · split at hs
      · cases hs
      · simp only [Except.ok.injEq] at hs
        rw [← hs]; rfl
  | destroy this =>
    simp only [Futures.step] at hs
    split at hs
    · cases hs
    · simp only [Except.ok.injEq] at hs
      rw [← hs]; rfl
  | try_get this =>
    simp only [Futures.step] at hs
    split at hs
    · cases hs
    · split at hs
      · cases hs
      · simp only [Except.ok.injEq] at hs
        rw [← hs]; rfl
  | try_get_void this =>
    simp only [Futures.step] at hs
    split at hs
    · cases hs
    · split at hs
      · cases hs
      · simp only [Except.ok.injEq] at hs
        rw [← hs]; rfl
  | then_to this sched_arg k f =>
    simp only [Futures.step] at hs
    split at hs
    · cases hs
    · exact hatt _ _ (fun hg p => by rw [hg]; simp [future_then]) hs
  | then_default this k f =>
    simp only [Futures.step] at hs
    split at hs
    · cases hs
    · exact hatt _ _ (fun hg p => by rw [hg]; simp [future_then_default]) hs
  | on_error_to this sched_arg k f =>
    simp only [Futures.step] at hs
    split at hs
    · cases hs
    · exact hatt _ _ (fun hg p => by rw [hg]; simp [future_on_error]) hs
  | on_error_default this k f =>
    simp only [Futures.step] at hs
    split at hs
    · cases hs
    · exact hatt _ _ (fun hg p => by rw [hg]; simp [future_on_error_default]) hs
  | call task sched_arg =>
    simp only [Futures.step] at hs
    split at hs
    · cases hs
    · simp only [Except.ok.injEq] at hs
      rw [← hs]; rfl
  | run =>
    simp only [Futures.step] at hs
    split at hs
    · cases hs
    · simp only [Except.ok.injEq] at hs
      rw [← hs]; rfl

/-- The log holds one entry for each call of `then` or `on_error`. -/
theorem Futures.run_attached (acts : List (Futures.Action V E)) :
    ∀ (t t1 : Futures V E), t.run acts = Except.ok t1 →
      t1.attached.length = t.attached.length + acts.countP Futures.Action.attaches := by
  induction acts with
  | nil =>
    intro t t1 hs
    simp only [Futures.run, Except.ok.injEq] at hs
    rw [← hs]; rfl
  | cons act rest ih =>
    intro t t1 hs
    simp only [Futures.run] at hs
    cases hp : t.step act with
    | error a => rw [hp] at hs; cases hs
    | ok t2 =>
      rw [hp] at hs
      rw [ih t2 t1 hs, Futures.step_attached t t2 act hp, List.countP_cons]
      omega

/-- The consumer count of a state, without wrapping, when the objects and the logged calls
are fewer than `2 ^ 64`. -/
theorem Futures.Counted.exact {t : Futures V E} (h : t.Counted)
    (hb : t.objects.length + t.attached.length < 2 ^ 64) (a : Nat) (s : _shared_state V E)
    (hs : t.world.heap[a]? = some s) : s.shared_count = t.handles a + t.attachments a := by
  have h1 : t.objects.count (some (some a)) ≤ t.objects.length := List.count_le_length _ _
  have h2 : t.attached.count a ≤ t.attached.length := List.count_le_length _ _
  have hc := h.tally.count a s hs
  unfold Futures.handles Futures.attachments at *
  rw [hc]
  exact Nat.mod_eq_of_lt (by omega)

/-- Descriptions that do not match leave the choice of the specification as it is. -/
theorem lexer.spec_fold_none (rest : List Char) :
    ∀ (l : List (lexer._token_description_impl T X))
      (best : Option (lexer._token_description_impl T X × List Char)),
      (∀ d ∈ l, lexer.matched_text d rest = none) →
      l.foldl (lexer.spec_better rest) best = best := by
  intro l
  induction l with
  | nil => intro best _; rfl
  | cons d more ih =>
    intro best h
    simp only [List.foldl_cons, lexer.spec_better, h d (List.mem_cons_self _ _)]
    exact ih best (fun e he => h e (List.mem_cons_of_mem _ he))

/-- Descriptions of a type id that is not smaller leave the choice of the specification as
it is. -/
theorem lexer.spec_fold_keep (rest : List Char) (b : lexer._token_description_impl T X)
    (s : List Char) :
    ∀ (l : List (lexer._token_description_impl T X)),
      (∀ d ∈ l, b._type ≤ d._type) →
      l.foldl (lexer.spec_better rest) (some (b, s)) = some (b, s) := by
  intro l
  induction l with
  | nil => intro _; rfl
  | cons d more ih =>
    intro h
    have hd := h d (List.mem_cons_self _ _)
    have hstep : lexer.spec_better rest (some (b, s)) d = some (b, s) := by
      unfold lexer.spec_better
      cases lexer.matched_text d rest with
      | none => rfl
      | some str => simp only [if_neg (Nat.not_lt.mpr hd)]
    rw [List.foldl_cons, hstep]
    exact ih (fun e he => h e (List.mem_cons_of_mem _ he))

/-- When no description matches at a position the specification has no description to
use. -/
theorem lexer.spec_lowest_match_none (descs : List (lexer._token_description_impl T X))
    (rest : List Char) (h : ∀ d ∈ descs, lexer.matched_text d rest = none) :
    lexer.spec_lowest_match descs rest = none :=
  lexer.spec_fold_none rest descs none h

/-- In a list in ascending order of type id the description that the specification uses is
the first one that matches. -/
theorem lexer.spec_lowest_match_first (pre post : List (lexer._token_description_impl T X))
    (d : lexer._token_description_impl T X) (rest str : List Char)
    (hpre : ∀ e ∈ pre, lexer.matched_text e rest = none)
    (hd : lexer.matched_text d rest = some str)
    (hsorted : (pre ++ d :: post).Pairwise (fun a b => a._type < b._type)) :
    lexer.spec_lowest_match (pre ++ d :: post) rest = some (d, str) := by
  unfold lexer.spec_lowest_match
  rw [List.foldl_append, lexer.spec_fold_none rest pre none hpre, List.foldl_cons]
  have hstep : lexer.spec_better rest none d = some (d, str) := by
    simp only [lexer.spec_better, hd]
  rw [hstep]
  refine lexer.spec_fold_keep rest d str post ?_
  intro e he
  exact Nat.le_of_lt ((List.pairwise_cons.mp (List.pairwise_append.mp hsorted).2.1).1 e he)

/-- One step of the search keeps the choice of the specification right. -/
theorem lexer.spec_better_chosen (rest : List Char)
    (seen : List (lexer._token_description_impl T X))
    (best : Option (lexer._token_description_impl T X × List Char))
    (d : lexer._token_description_impl T X) (h : lexer.spec_chosen rest seen best) :
    lexer.spec_chosen rest (seen ++ [d]) (lexer.spec_better rest best d) := by
  obtain ⟨h1, h2⟩ := h
  unfold lexer.spec_better
  cases hm : lexer.matched_text d rest with
  | none =>
    simp only
    constructor
    · intro hb e he
      rcases List.mem_append.mp he with he | he
      · exact h1 hb e he
      · rw [List.mem_singleton.mp he]; exact hm
    · intro b s hb
      obtain ⟨m1, m2, m3⟩ := h2 b s hb
      refine ⟨List.mem_append_left _ m1, m2, ?_⟩
      intro d1 hd1 s1 hs1
      rcases List.mem_append.mp hd1 with hd1 | hd1
      · exact m3 d1 hd1 s1 hs1
      · rw [List.mem_singleton.mp hd1, hm] at hs1; cases hs1
  | some str =>
    cases best with
    | none =>
      simp only
      constructor
      · intro hb; cases hb
      · intro b s hb
        simp only [Option.some.injEq, Prod.mk.injEq] at hb
        obtain ⟨rfl, rfl⟩ := hb
        refine ⟨List.mem_append_right _ (List.mem_singleton.mpr rfl), hm, ?_⟩
        intro d1 hd1 s1 hs1
        rcases List.mem_append.mp hd1 with hd1 | hd1
        · rw [h1 rfl d1 hd1] at hs1; cases hs1
        · rw [List.mem_singleton.mp hd1]
    | some p =>
      obtain ⟨b0, s0⟩ := p
      obtain ⟨m1, m2, m3⟩ := h2 b0 s0 rfl
      simp only
      by_cases hlt : d._type < b0._type
      · rw [if_pos hlt]
        constructor
        · intro hb; cases hb
        · intro b s hb
          simp only [Option.some.injEq, Prod.mk.injEq] at hb
          obtain ⟨rfl, rfl⟩ := hb
          refine ⟨List.mem_append_right _ (List.mem_singleton.mpr rfl), hm, ?_⟩
          intro d1 hd1 s1 hs1
          rcases List.mem_append.mp hd1 with hd1 | hd1
          · exact Nat.le_of_lt (lt_of_lt_of_le hlt (m3 d1 hd1 s1 hs1))
          · rw [List.mem_singleton.mp hd1]
      · rw [if_neg hlt]
        constructor
        · intro hb; cases hb
        · intro b s hb
          simp only [Option.some.injEq, Prod.mk.injEq] at hb
          obtain ⟨rfl, rfl⟩ := hb
          refine ⟨List.mem_append_left _ m1, m2, ?_⟩
          intro d1 hd1 s1 hs1
          rcases List.mem_append.mp hd1 with hd1 | hd1
          · exact m3 d1 hd1 s1 hs1
          · rw [List.mem_singleton.mp hd1]
            exact Nat.not_lt.mp hlt

/-- The search of the specification keeps its choice right over any list. -/
theorem lexer.spec_fold_chosen (rest : List Char) :
    ∀ (l seen : List (lexer._token_description_impl T X))
      (best : Option (lexer._token_description_impl T X × List Char)),
      lexer.spec_chosen rest seen best →
      lexer.spec_chosen rest (seen ++ l) (l.foldl (lexer.spec_better rest) best) := by
  intro l
  induction l with
  | nil => intro seen best h; simpa using h
  | cons d more ih =>
    intro seen best h
    have := ih (seen ++ [d]) _ (lexer.spec_better_chosen rest seen best d h)
    simpa using this

/-- The description that the specification uses at a position is one that matches there
and whose type id is smallest among those that match; there is none exactly when no
description matches. -/
theorem lexer.spec_lowest_match_chosen (descs : List (lexer._token_description_impl T X))
    (rest : List Char) : lexer.spec_chosen rest descs (lexer.spec_lowest_match descs rest) := by
  have := lexer.spec_fold_chosen rest descs [] none
    ⟨fun _ d hd => (by cases hd), fun b s hb => (by cases hb)⟩
  simpa [lexer.spec_lowest_match] using this

/-- On a description set in ascending order of type id and without the type id `-1`, the
loop of `tokenize` does what the specification says. -/
theorem lexer.tokenize_while_spec (descs : List (lexer._token_description_impl T X))
    (hsorted : descs.Pairwise (fun a b => a._type < b._type))
    (hno : ∀ d ∈ descs, d._type ≠ lexer.no_match) :
    ∀ (fuel : Nat) (rest : List Char) (ret : List (lexer.basic_token T)),
      lexer.tokenize_while descs fuel rest ret = lexer.spec_tokenize descs fuel rest ret := by
  intro fuel
  induction fuel with
  | zero => intro rest ret; rfl
  | succ fuel ih =>
    intro rest ret
    cases rest with
    | nil => rfl
    | cons c cs =>
      rcases lexer.first_match descs (c :: cs) with hnone | ⟨pre, d0, post, str0, h1, h2, h3⟩
      · simp only [lexer.tokenize_while, lexer.spec_tokenize,
          lexer.tokenize_body_none descs c cs ret hnone,
          lexer.spec_lowest_match_none descs (c :: cs) hnone]
        by_cases hc : c = Char.ofNat 0
        · simp only [if_pos hc]
        · simp only [if_neg hc]
      · have hty : d0._type ≠ lexer.no_match := hno d0 (by rw [h1]; simp)
        have hspec : lexer.spec_lowest_match descs (c :: cs) = some (d0, str0) := by
          rw [h1]
          exact lexer.spec_lowest_match_first pre post d0 (c :: cs) str0 h2 h3 (h1 ▸ hsorted)
        cases hc : d0._converter str0 with
        | error x =>
          have hb := lexer.tokenize_body_raises pre post d0 (c :: cs) str0 ret x h2 h3 hty hc
          rw [← h1] at hb
          simp only [lexer.tokenize_while, lexer.spec_tokenize, hb, hspec, hc]
        | ok v =>
          have hb := lexer.tokenize_body_first pre post d0 (c :: cs) str0 ret v h2 h3 hty hc
          rw [← h1] at hb
          simp only [lexer.tokenize_while, lexer.spec_tokenize, hb, hspec, hc]
          exact ih _ _

end lemmas

/-! ## Settling a packaged task and polling -/

section claims

variable {V E : Type}

/-- C1. Invoking the task returned by `package(f)` once returns and settles the state
of the paired future: the slot is `Value(f())` (the payload-free `Value` for `void`)
when `f` returns, `Failure(e)` when `f` raises `e`, and the deferred function is absent
afterwards. -/
theorem package_call_settles (w : World V E) (k : TypeKind) (r : Except (Exn E) (Payload V))
    (sched_arg : Option Nat) :
    (package w k (Function.user r)).2.future = some w.heap.length ∧
    ∃ w1 s, packaged_task_call (package w k (Function.user r)).1
        (package w k (Function.user r)).2.packaged_task sched_arg = Except.ok w1 ∧
      w1.heap[w.heap.length]? = some s ∧ s.function = none ∧
      s.value = (match r with
        | Except.ok v => Variant.value (if k = TypeKind.void then Payload.ready else v)
        | Except.error e => Variant.exception e) := by
  refine ⟨rfl, ?_⟩
  cases r with
  | ok v =>
    simp [package, packaged_task_call, packaged_task_call_with, eval_function, eval_inner, packaged_task_try, fire_continuations,
      World.put, _add_count, _add_promise, _shared_state.init, Completion.ofExcept]
  | error e =>
    simp [package, packaged_task_call, packaged_task_call_with, eval_function, eval_inner, packaged_task_try, fire_continuations,
      World.put, _add_count, _add_promise, _shared_state.init, Completion.ofExcept]

/-- C2. On a state whose slot is `Value(v)`, `try_get` returns `v`; with consumer
count 1 the slot is reset to Empty and the next `try_get` returns absent; with a
consumer count above 1 and a copyable `T` the state, slot `Value(v)` included, is
unchanged. -/
theorem try_get_value (s : _shared_state V E) (v : Payload V)
    (hv : s.value = Variant.value v) :
    s.try_get.2 = Completion.normal (some v) ∧
    (s.shared_count = 1 →
      s.try_get.1 = { s with value := Variant.none } ∧
      s.try_get.1.try_get = ({ s with value := Variant.none }, Completion.normal none)) ∧
    (1 < s.shared_count → s.kind = TypeKind.copyable → s.try_get.1 = s) := by
  refine ⟨?_, ?_, ?_⟩
  · by_cases hk : s.kind = TypeKind.copyable <;> by_cases hc : s.shared_count = 1 <;>
      simp [_shared_state.try_get, _move_or_copy, hv, hk, hc, Variant.index]
  · intro hc
    by_cases hk : s.kind = TypeKind.copyable <;>
      simp [_shared_state.try_get, _move_or_copy, hv, hk, hc, Variant.index]
  · intro hc hk
    have hne : s.shared_count ≠ 1 := by omega
    obtain ⟨kind, value, pc, sc, sch, cs, ec, fn⟩ := s
    simp only at hv hk hne
    subst hv hk
    simp [_shared_state.try_get, _move_or_copy, hne, Variant.index]

/-- Witness of C2: `package` of a callable returning 42, the task run, `try_get` twice. -/
theorem try_get_value_witness :
    ∃ w s, packaged_task_call pending_42.1 pending_42.2.packaged_task none = Except.ok w ∧
      w.heap[0]? = some s ∧ s.value = Variant.value (Payload.obj 42) ∧ s.shared_count = 1 ∧
      s.try_get.2 = Completion.normal (some (Payload.obj 42)) ∧
      s.try_get.1.try_get.2 = Completion.normal none :=
  ⟨_, _, rfl, rfl, rfl, rfl, (try_get_value _ (Payload.obj 42) rfl).1,
    congrArg Prod.snd ((try_get_value _ (Payload.obj 42) rfl).2.1 rfl).2⟩

/-- C3. On a pending state `try_get` returns absent (`false` for `void`) and the
whole program state, in particular the slot, the deferred function, the
continuations and both counters of that state, is left as it was. -/
theorem try_get_pending (w : World V E) (id : Nat) (s : _shared_state V E)
    (hs : w.heap[id]? = some s) (hp : _is_pending s = true) :
    (s.kind ≠ TypeKind.void →
      future_try_get w (some id) = Except.ok (w, Completion.normal none)) ∧
    (s.kind = TypeKind.void →
      future_void_try_get w (some id) = Except.ok (w, Completion.normal false)) := by
  have hv : s.value = Variant.none := by
    cases hval : s.value <;> simp_all [_is_pending, Variant.index]
  clear hp
  obtain ⟨kind, value, pc, sc, sch, cs, ec, fn⟩ := s
  simp only at hv
  subst hv
  constructor
  · intro hk
    have h1 : (_shared_state.mk kind Variant.none pc sc sch cs ec fn).try_get =
        (_shared_state.mk kind Variant.none pc sc sch cs ec fn, Completion.normal none) := by
      by_cases hc : kind = TypeKind.copyable <;>
        simp [_shared_state.try_get, _move_or_copy, hc, Variant.index]
    simp only [ne_eq] at hk
    simp [future_try_get, hs, hk, h1, World.put_self w id _ hs]
  · intro hk
    simp only at hk
    subst hk
    simp [future_void_try_get, hs, _shared_state.try_get_void, World.put_self w id _ hs]

/-- Witness of C3: the future of `package` of a callable returning 42, before the task runs. -/
theorem try_get_pending_witness :
    (∃ s, pending_42.1.heap[0]? = some s ∧ _is_pending s = true ∧ s.kind ≠ TypeKind.void) ∧
    future_try_get pending_42.1 (some 0) = Except.ok (pending_42.1, Completion.normal none) :=
  ⟨⟨_, rfl, rfl, by decide⟩,
    (try_get_pending pending_42.1 0 _ rfl rfl).1 (by decide)⟩

/-- C4, evaluated on the code. For a non-copyable `T` whose task raised the user error 9,
the first `try_get` re-raises that error but leaves the slot Empty, and the second
`try_get` returns absent instead of re-raising. -/
theorem try_get_noncopyable_failure_drains :
    ∃ w1 w2 w3 s,
      packaged_task_call raising_noncopyable.1 raising_noncopyable.2.packaged_task none =
        Except.ok w1 ∧
      future_try_get w1 raising_noncopyable.2.future =
        Except.ok (w2, Completion.throw (Exn.user 9)) ∧
      w2.heap[0]? = some s ∧ s.value = Variant.none ∧
      future_try_get w2 raising_noncopyable.2.future = Except.ok (w3, Completion.normal none) :=
  ⟨_, _, _, _, rfl, rfl, rfl, rfl, rfl⟩

/-- C5. For a non-copyable value type `try_get` on a `Value(v)` state returns `v`
and empties the slot whatever the consumer count; the second `try_get` returns
absent. -/
theorem try_get_noncopyable_destructive (s : _shared_state V E) (v : Payload V)
    (hk : s.kind = TypeKind.noncopyable) (hv : s.value = Variant.value v) :
    s.try_get = ({ s with value := Variant.none }, Completion.normal (some v)) ∧
    s.try_get.1.try_get = ({ s with value := Variant.none }, Completion.normal none) := by
  by_cases hc : s.shared_count = 1 <;>
    simp [_shared_state.try_get, _move_or_copy, hv, hk, hc, Variant.index]

/-- Witness of C5: a non-copyable ready state holding 42, read twice. -/
theorem try_get_noncopyable_destructive_witness :
    ready_noncopyable_42.kind = TypeKind.noncopyable ∧
    ready_noncopyable_42.value = Variant.value (Payload.obj 42) ∧
    ready_noncopyable_42.try_get.2 = Completion.normal (some (Payload.obj 42)) ∧
    ready_noncopyable_42.try_get.1.try_get.2 = Completion.normal none :=
  ⟨rfl, rfl,
    congrArg Prod.snd (try_get_noncopyable_destructive ready_noncopyable_42 _ rfl rfl).1,
    congrArg Prod.snd (try_get_noncopyable_destructive ready_noncopyable_42 _ rfl rfl).2⟩

/-! ## Continuations -/

/-- C6. For every value `v`, every `f` returning `r` on `v` and every executor `exec`,
`make_ready_future(v).then(exec, f)` pushes exactly one thunk to `exec`; once the executors
have run their work (whether or not the temporary ready future has been destroyed first) the
derived state holds `Value(r)`, and `try_get` on the derived future returns `r`. -/
theorem ready_then_settles (w : World V E) (k kU : TypeKind) (v r : Payload V)
    (f : Payload V → Except (Exn E) (Payload V)) (exec : Nat) (drop : Bool)
    (hk : k ≠ TypeKind.void) (hkU : kU ≠ TypeKind.void) (hq : w.pushed = [])
    (hf : f v = Except.ok r) :
    ∃ w1 w2 w3 d t s,
      future_then (make_ready_future w k v).1 (make_ready_future w k v).2 (some exec) kU f =
        Except.ok (w1, Completion.normal (some d)) ∧
      w1.pushed = [(exec, t)] ∧
      (∀ fuel, run_all (fuel + 1)
        (if drop then future_destroy w1 (make_ready_future w k v).2 else w1) = Except.ok w2) ∧
      w2.pushed = [] ∧
      w2.heap[d]? = some s ∧ s.value = Variant.value r ∧ s.function = none ∧
      future_try_get w2 (some d) = Except.ok (w3, Completion.normal (some r)) := by
  have h0 : (make_ready_future w k v).1.heap[w.heap.length]? =
      some (_add_count (_shared_state.of_value k v)) := by simp [make_ready_future]
  have hlen : (make_ready_future w k v).1.heap.length = w.heap.length + 1 := by
    simp [make_ready_future]
  obtain ⟨w1, sd, hthen, hu1, hd1, hfn, hkd, -, hcs, hec, -, -, hpush, -, -⟩ :=
    then_settled (make_ready_future w k v).1 w.heap.length exec _ ⟨some exec, kU, f⟩ v h0 rfl rfl
  rw [hlen] at hd1 hthen
  have hpush1 : w1.pushed = [(exec, (then_continuation w.heap.length
      (⟨some exec, kU, f⟩ : ThenArgs V E) (w.heap.length + 1)).thunk)] := by
    rw [hpush, hlen]; simp [make_ready_future, hq]
  have hult : w.heap.length < w1.heap.length := (List.getElem?_eq_some_iff.mp hu1).1
  cases drop with
  | false =>
    obtain ⟨w2, w3, s, hrun, hp2, hs2, hv2, hf2, -, htry⟩ :=
      ready_then_run w1 w.heap.length (w.heap.length + 1) exec _ sd f v r _ hu1 hd1 (by omega)
        (by simpa [_add_count, _shared_state.of_value] using hk) rfl hfn (by rw [hkd]; exact hkU)
        hcs hec rfl rfl hpush1 hf
    exact ⟨w1, w2, w3, _, _, s, hthen, hpush1, by simpa using hrun, hp2, hs2, hv2, hf2, htry⟩
  | true =>
    have hu1d : (future_destroy w1 (some w.heap.length)).heap[w.heap.length]? =
        some (_remove_count (_add_count (_add_count (_shared_state.of_value k v)))) := by
      simp [future_destroy, hu1, World.put, hult]
    have hd1d : (future_destroy w1 (some w.heap.length)).heap[w.heap.length + 1]? = some sd := by
      simp [future_destroy, hu1, World.put, List.getElem?_set, hd1]
    obtain ⟨w2, w3, s, hrun, hp2, hs2, hv2, hf2, -, htry⟩ :=
      ready_then_run (future_destroy w1 (some w.heap.length)) w.heap.length (w.heap.length + 1)
        exec _ sd f v r _ hu1d hd1d (by omega)
        (by simpa [_add_count, _remove_count, _shared_state.of_value] using hk) rfl hfn
        (by rw [hkd]; exact hkU) hcs hec rfl rfl
        (by simpa [future_destroy, hu1, World.put] using hpush1) hf
    exact ⟨w1, w2, w3, _, _, s, hthen, hpush1,
      by simpa [make_ready_future] using hrun, hp2, hs2, hv2, hf2, htry⟩

/-- Witness of C6: `make_ready_future(5).then(exec, x + 1)` yields 6. -/
theorem ready_then_settles_witness :
    ∃ w1 w2 w3 d t s,
      future_then (make_ready_future (World.empty : World Nat Nat) TypeKind.copyable (Payload.obj 5)).1
          (make_ready_future (World.empty : World Nat Nat) TypeKind.copyable (Payload.obj 5)).2
          (some 0) TypeKind.copyable plus_one =
        Except.ok (w1, Completion.normal (some d)) ∧
      w1.pushed = [(0, t)] ∧
      (∀ fuel, run_all (fuel + 1)
        (if true then future_destroy w1
          (make_ready_future (World.empty : World Nat Nat) TypeKind.copyable (Payload.obj 5)).2
          else w1) = Except.ok w2) ∧
      w2.pushed = [] ∧
      w2.heap[d]? = some s ∧ s.value = Variant.value (Payload.obj 6) ∧ s.function = none ∧
      future_try_get w2 (some d) = Except.ok (w3, Completion.normal (some (Payload.obj 6))) :=
  ready_then_settles World.empty TypeKind.copyable TypeKind.copyable (Payload.obj 5) (Payload.obj 6)
    plus_one 0 true (by decide) (by decide) rfl rfl

/-- C7. On a pending state of copyable or `void` value type with no continuation yet, N
sequential `then` attachments succeed and return N fresh derived futures; when the task is
then called with an executor and its function returns `v`, the state settles to Value and
the thunks pushed are, in push order, those of the attachments in attachment order: the
i-th new thunk holds the task of the i-th derived future. -/
theorem then_continuations_fire_in_order (w : World V E) (id ex : Nat) (s : _shared_state V E)
    (v : Payload V) (args : List (ThenArgs V E))
    (hs : w.heap[id]? = some s) (hv : s.value = Variant.none)
    (hfn : s.function = some (Function.user (Except.ok v)))
    (hk : s.kind ≠ TypeKind.noncopyable) (hcs : s.continuations = []) :
    ∃ w1 w2 s2,
      then_all w (some id) args = Except.ok
        (w1, Completion.normal ((List.range' w.heap.length args.length).map some)) ∧
      w1.pushed = w.pushed ∧
      packaged_task_call w1 (some id) (some ex) = Except.ok w2 ∧
      w2.heap[id]? = some s2 ∧
      s2.value = Variant.value (if s.kind = TypeKind.void then Payload.ready else v) ∧
      w2.pushed = w.pushed ++ (List.zipWith (then_continuation id) args
        (List.range' w.heap.length args.length)).map (pushed_by ex) ∧
      (w2.pushed.drop w.pushed.length).map (fun p => p.2.captures.task) =
        (List.range' w.heap.length args.length).map some := by
  obtain ⟨w1, s1, hall, hs1, -, hp1, -, -, hf1, hk1, -, -, hc1⟩ :=
    then_all_pending id args w s hs hv (by simp [hfn]) hk
  rw [hcs, List.nil_append] at hc1
  have hlt : id < w1.heap.length := (List.getElem?_eq_some_iff.mp hs1).1
  have hcall := packaged_task_call_user w1 id ex s1 (Except.ok v) hs1 (by rw [hf1, hfn])
    (by simp only [fired, Completion.ofExcept, List.nil_append]
        rw [hc1]
        exact then_continuation_this id args _)
  simp only [fired, Completion.ofExcept, List.nil_append, hc1, hp1] at hcall
  refine ⟨w1, _, _, hall, hp1, hcall, by simp [hlt]; rfl, ?_, rfl, ?_⟩
  · simp [settled, hk1]
  · simp only [List.drop_left, List.map_map]
    exact then_continuation_tasks id ex args _ (by simp)

/-- Witness of C7: three attachments on the future of a callable returning 42. -/
theorem then_continuations_fire_in_order_witness :
    ∃ w1 w2,
      then_all pending_42.1 (some 0) three_thens =
        Except.ok (w1, Completion.normal [some 1, some 2, some 3]) ∧
      packaged_task_call w1 (some 0) (some 7) = Except.ok w2 ∧
      w2.pushed.map (fun p => (p.1, p.2.captures.task)) = [(0, some 1), (7, some 2), (1, some 3)] :=
  match then_continuations_fire_in_order pending_42.1 0 7 _ (Payload.obj 42) three_thens
      rfl rfl rfl (by decide) rfl with
  | ⟨w1, w2, _, h1, _, h2, _, _, h3, _⟩ => ⟨w1, w2, h1, h2, by rw [h3]; rfl⟩

/-- C8, refuted as stated. A task whose function raises the user error 9, with one success
continuation queued by `then` and no failure continuation: after the call the slot is
`Failure` and the thunk of the success continuation has been pushed. -/
theorem success_continuation_fires_on_failure :
    ∃ w1 w2 s,
      future_then raising_copyable.1 raising_copyable.2.future (some 0) TypeKind.copyable plus_one =
        Except.ok (w1, Completion.normal (some 1)) ∧
      s.continuations = [then_continuation 0 (⟨some 0, TypeKind.copyable, plus_one⟩ : ThenArgs Nat Nat) 1] ∧
      w1.heap[0]? = some s ∧ w1.pushed = [] ∧
      packaged_task_call w1 raising_copyable.2.packaged_task none = Except.ok w2 ∧
      (∃ s2, w2.heap[0]? = some s2 ∧ s2.value = Variant.exception (Exn.user 9)) ∧
      w2.pushed = [(0, (then_continuation 0
        (⟨some 0, TypeKind.copyable, plus_one⟩ : ThenArgs Nat Nat) 1).thunk)] :=
  ⟨_, _, _, rfl, rfl, rfl, rfl, rfl, ⟨_, rfl, rfl⟩, rfl⟩

/-- C8, amended. When a task is called with an executor and its function raises `e`, the
slot becomes `Failure(e)`, the queued failure continuation (if any) is called first and then
every queued success continuation, in attachment order; when the function returns, only the
success continuations are called. Success continuations are fired whenever the slot is not
Empty. -/
theorem call_fires_continuations (w : World V E) (id ex : Nat) (s : _shared_state V E)
    (r : Except (Exn E) (Payload V))
    (hs : w.heap[id]? = some s) (hfn : s.function = some (Function.user r))
    (hcs : ∀ k ∈ s.continuations, k.captures.this = id)
    (hec : ∀ k ∈ s.exceptional_continuations, k.captures.this = id) :
    ∃ w1 s1, packaged_task_call w (some id) (some ex) = Except.ok w1 ∧
      w1.heap[id]? = some s1 ∧ s1.function = none ∧
      (∀ e, r = Except.error e →
        s1.value = Variant.exception e ∧
        w1.pushed = w.pushed ++
          (s.exceptional_continuations.toList ++ s.continuations).map (pushed_by ex)) ∧
      (∀ v, r = Except.ok v →
        s1.value = Variant.value (if s.kind = TypeKind.void then Payload.ready else v) ∧
        w1.pushed = w.pushed ++ s.continuations.map (pushed_by ex)) := by
  have hlt : id < w.heap.length := (List.getElem?_eq_some_iff.mp hs).1
  have hcall := packaged_task_call_user w id ex s r hs hfn
    (by intro k hk
        cases r with
        | ok v => exact hcs k (by simpa [fired, Completion.ofExcept] using hk)
        | error e =>
          simp only [fired, Completion.ofExcept, List.mem_append, Option.mem_toList] at hk
          rcases hk with hk | hk
          · exact hec k hk
          · exact hcs k hk)
  refine ⟨_, _, hcall, by simp [hlt]; rfl, by simp [settled], ?_, ?_⟩
  · intro e he
    subst he
    simp [settled, fired, Completion.ofExcept]
  · intro v hv
    subst hv
    simp [settled, fired, Completion.ofExcept]

/-- Witness of C8 amended: a raising task with one `then` (executor 0) and one `on_error`
(executor 1) queued pushes the failure thunk first, then the success thunk. -/
theorem call_fires_continuations_witness :
    ∃ w1 s1, packaged_task_call pending_with_both (some 0) (some 5) = Except.ok w1 ∧
      w1.heap[0]? = some s1 ∧ s1.value = Variant.exception (Exn.user 9) ∧
      w1.pushed.map (fun p => (p.1, p.2.captures.task)) = [(1, some 2), (0, some 1)] :=
  match call_fires_continuations pending_with_both 0 5 _ (Except.error (Exn.user 9)) rfl rfl
      (by decide) (by decide) with
  | ⟨w1, s1, h1, h2, _, h4, _⟩ =>
    ⟨w1, s1, h1, h2, (h4 _ rfl).1, by rw [(h4 _ rfl).2]; rfl⟩

/-- C9. When the thunk of a `then` continuation runs while the upstream slot is
`Failure(e)`, the derived state becomes `Failure(e)` with the same error, its function is
cleared, the upstream state is untouched and `f` is not applied (the log of applied
callables is unchanged). -/
theorem then_adopts_upstream_failure (w : World V E) (t : Thunk) (d this ex : Nat)
    (sd su : _shared_state V E) (f : Payload V → Except (Exn E) (Payload V)) (e : Exn E)
    (htask : t.captures.task = some d) (hsched : sched w t.captures = Except.ok ex)
    (hd : w.heap[d]? = some sd) (hfn : sd.function = some (Function.then_body this f))
    (hcs : ∀ k ∈ sd.continuations, k.captures.this = d)
    (hec : ∀ k ∈ sd.exceptional_continuations, k.captures.this = d)
    (hu : w.heap[this]? = some su) (hne : this ≠ d)
    (hv : su.value = Variant.exception e) :
    ∃ w1 sd1, run_thunk w t = Except.ok w1 ∧ w1.heap[d]? = some sd1 ∧
      sd1.value = Variant.exception e ∧ sd1.function = none ∧
      w1.heap[this]? = some su ∧ w1.applied = w.applied := by
  obtain ⟨w1, sd1, h1, h2, h3, h4, -, -, h5, h6, -⟩ :=
    (run_thunk_then w t d this ex sd su f htask hsched hd hfn hcs hec hu hne).1 e hv
  exact ⟨w1, sd1, h1, h2, h3, h4, h5, h6⟩

/-- Witness of C9: `package` of a callable raising 9, `then(exec, x + 1)`, the task
called, the pushed thunk run. -/
theorem then_adopts_upstream_failure_witness :
    ∃ w1 w3 t sd,
      future_then raising_copyable.1 raising_copyable.2.future (some 0) TypeKind.copyable plus_one =
        Except.ok (w1, Completion.normal (some 1)) ∧
      packaged_task_call w1 raising_copyable.2.packaged_task none = Except.ok raised_after_then ∧
      raised_after_then.pushed = [(0, t)] ∧
      run_next raised_after_then = Except.ok w3 ∧ w3.heap[1]? = some sd ∧
      sd.value = Variant.exception (Exn.user 9) ∧ w3.applied = [0] :=
  match then_adopts_upstream_failure { raised_after_then with pushed := [] }
      (then_continuation 0 (⟨some 0, TypeKind.copyable, plus_one⟩ : ThenArgs Nat Nat) 1).thunk
      1 0 0 _ _ plus_one (Exn.user 9) rfl rfl rfl rfl (by decide) (by decide) rfl (by decide)
      rfl with
  | ⟨w3, sd, h1, h2, h3, _, _, h6⟩ => ⟨_, w3, _, sd, rfl, rfl, rfl, h1, h2, h3, h6⟩

/-- C10, evaluated on the code. After the task of `package(f)` has run with `f` raising
`e`, the state is `Failure(e)` with no function, `_is_valid` reports it invalid, and
`on_error(executor, h)` stops at the assertion `what do?` instead of scheduling `h`. -/
theorem on_error_after_failure_aborts (w : World V E) (k kU : TypeKind) (e : Exn E)
    (h : Exn E → Except (Exn E) (Payload V)) (exec : Nat) (sched_arg : Option Nat) :
    ∃ w1 s,
      packaged_task_call (package w k (Function.user (Except.error e))).1
        (package w k (Function.user (Except.error e))).2.packaged_task sched_arg = Except.ok w1 ∧
      w1.heap[w.heap.length]? = some s ∧ s.value = Variant.exception e ∧ s.function = none ∧
      _is_valid s = false ∧
      future_on_error w1 (package w k (Function.user (Except.error e))).2.future (some exec) kU h =
        Except.error Abort.what_do := by
  simp [package, packaged_task_call, packaged_task_call_with, eval_function, eval_inner, packaged_task_try, fire_continuations,
    World.put, _add_count, _add_promise, _shared_state.init, Completion.ofExcept, _is_valid,
    Variant.index, future_on_error, _shared_state_on_error, _shared_state_on_error_with]

/-! ## Failure continuations, multiplicity and broken promises -/

/-- C11. On a state already settled to `Value(v)`, `on_error` raises the consumer count,
allocates no derived state, pushes nothing to any executor, applies no callable, and
returns normally with the vacuous future (a future without state, so nothing it refers
to can settle). -/
theorem on_error_on_value_is_vacuous (w : World V E) (id : Nat) (s : _shared_state V E)
    (v : Payload V) (p : Option Nat) (k : TypeKind) (h : Exn E → Except (Exn E) (Payload V))
    (hs : w.heap[id]? = some s) (hv : s.value = Variant.value v) :
    future_on_error w (some id) p k h =
      Except.ok (w.put id (_add_count s), Completion.normal none) ∧
    (w.put id (_add_count s)).heap.length = w.heap.length ∧
    (w.put id (_add_count s)).pushed = w.pushed ∧
    (w.put id (_add_count s)).applied = w.applied ∧
    (_add_count s).value = Variant.value v := by
  simp [future_on_error, _shared_state_on_error, _shared_state_on_error_with, hs, _is_valid, hv,
    Variant.index, _add_count, get_1_of_unit, World.put]

/-- Witness of C11: `on_error` on the future of `make_ready_future(5)`. -/
theorem on_error_on_value_is_vacuous_witness :
    ∃ w1, future_on_error ready_5.1 ready_5.2 (some 0) TypeKind.copyable
        (fun _ => Except.ok (Payload.obj 7)) = Except.ok (w1, Completion.normal none) ∧
      w1.heap.length = 1 ∧ w1.pushed = [] ∧ w1.applied = [] :=
  match on_error_on_value_is_vacuous ready_5.1 0 _ (Payload.obj 5) (some 0) TypeKind.copyable
      (fun _ => Except.ok (Payload.obj 7)) rfl rfl with
  | ⟨h1, h2, h3, h4, _⟩ => ⟨_, h1, h2, h3, h4⟩

/-- C12. On a pending state without a failure continuation, the first `on_error` records
its callback in the failure slot; a second `on_error` throws
`multiple_exceptional_continuations` and leaves the recorded failure continuation, the
Empty slot, the deferred function, the success continuations and the executor queue as
they were. -/
theorem second_on_error_throws (w : World V E) (id : Nat) (s : _shared_state V E)
    (p1 p2 : Option Nat) (k1 k2 : TypeKind) (h1 h2 : Exn E → Except (Exn E) (Payload V))
    (hs : w.heap[id]? = some s) (hv : s.value = Variant.none) (hfn : s.function.isSome = true)
    (hec : s.exceptional_continuations = none) :
    ∃ w1 w2 s1 s2 c,
      future_on_error w (some id) p1 k1 h1 =
        Except.ok (w1, Completion.normal (some w.heap.length)) ∧
      w1.heap[id]? = some s1 ∧ s1.exceptional_continuations = some c ∧
      c.captures = { this := id, provided := p1, task := some w.heap.length, state := some id } ∧
      future_on_error w1 (some id) p2 k2 h2 =
        Except.ok (w2, Completion.throw Exn.multiple_exceptional_continuations) ∧
      w2.heap[id]? = some s2 ∧ s2.exceptional_continuations = some c ∧
      s2.value = Variant.none ∧ s2.function = s.function ∧ s2.continuations = s.continuations ∧
      w2.pushed = w.pushed := by
  obtain ⟨w1, s1, sd, h1', hs1, -, hp1, -, -, hv1, hf1, -, hc1, -, -, he1, -⟩ :=
    on_error_pending w id s p1 k1 h1 hs hv hfn hec
  obtain ⟨w2, s2, h2', hs2, hp2, -, hv2, hf2, -, hc2, he2⟩ :=
    on_error_pending_occupied w1 id s1 p2 k2 h2 _ hs1 hv1 (by rw [hf1]; exact hfn) he1
  exact ⟨w1, w2, s1, s2, _, h1', hs1, he1, rfl, h2', hs2, he2, hv2, by rw [hf2, hf1],
    by rw [hc2, hc1], by rw [hp2, hp1]⟩

/-- Witness of C12: two `on_error` attachments on the future of a pending task. -/
theorem second_on_error_throws_witness :
    ∃ w1 w2,
      future_on_error pending_42.1 (some 0) (some 0) TypeKind.copyable
        (fun _ => Except.ok (Payload.obj 7)) = Except.ok (w1, Completion.normal (some 1)) ∧
      future_on_error w1 (some 0) (some 1) TypeKind.copyable
        (fun _ => Except.ok (Payload.obj 8)) =
          Except.ok (w2, Completion.throw Exn.multiple_exceptional_continuations) :=
  match second_on_error_throws pending_42.1 0 _ (some 0) (some 1) TypeKind.copyable
      TypeKind.copyable (fun _ => Except.ok (Payload.obj 7)) (fun _ => Except.ok (Payload.obj 8))
      rfl rfl rfl rfl with
  | ⟨w1, w2, _, _, _, h1, _, _, _, h2, _⟩ => ⟨w1, w2, h1, h2⟩

/-- C13. On the settled state of a ready future of non-copyable value type a second `then`
is not rejected: both calls return a derived future and push a thunk, where the claim has
the second call signal `multiple_noncopyable_continuations`. The executor then runs the
first thunk, which moves the value out of the slot, and the second thunk stops at the
assertion at the head of `_get`. -/
theorem second_then_on_ready_noncopyable_succeeds :
    ∃ s w1 w2 w3 s3,
      ready_noncopyable.1.heap[0]? = some s ∧ s.kind = TypeKind.noncopyable ∧
      s.value = Variant.value (Payload.obj 42) ∧
      future_then ready_noncopyable.1 ready_noncopyable.2 (some 0) TypeKind.copyable plus_one =
        Except.ok (w1, Completion.normal (some 1)) ∧
      future_then w1 ready_noncopyable.2 (some 0) TypeKind.copyable plus_one =
        Except.ok (w2, Completion.normal (some 2)) ∧
      w2.pushed.map (fun p => p.2.captures.task) = [some 1, some 2] ∧
      run_next w2 = Except.ok w3 ∧
      w3.heap[0]? = some s3 ∧ s3.value = Variant.none ∧
      run_next w3 = Except.error Abort.get_on_empty :=
  ⟨_, _, _, _, _, rfl, rfl, rfl, rfl, rfl, rfl, rfl, rfl, rfl, rfl⟩

/-- The pending branch of `then` goes through `_add_continuation` and its gate: while the
state is pending, for a non-copyable value type the first `then` queues its continuation
and a second `then` throws `multiple_noncopyable_continuations`, leaving the first
continuation, the Empty slot and the deferred function in place; for a copyable or `void`
value type any number of `then` attachments succeed. -/
theorem then_multiplicity_while_pending (w : World V E) (id : Nat) (s : _shared_state V E)
    (hs : w.heap[id]? = some s) (hv : s.value = Variant.none) (hfn : s.function.isSome = true) :
    (s.kind = TypeKind.noncopyable → s.continuations = [] → ∀ a1 a2 : ThenArgs V E,
      ∃ w1 w2 s1 s2,
        future_then w (some id) a1.sched a1.kind a1.f =
          Except.ok (w1, Completion.normal (some w.heap.length)) ∧
        w1.heap[id]? = some s1 ∧
        s1.continuations = [then_continuation id a1 w.heap.length] ∧
        future_then w1 (some id) a2.sched a2.kind a2.f =
          Except.ok (w2, Completion.throw Exn.multiple_noncopyable_continuations) ∧
        w2.heap[id]? = some s2 ∧
        s2.continuations = [then_continuation id a1 w.heap.length] ∧
        s2.value = Variant.none ∧ s2.function = s.function) ∧
    (s.kind ≠ TypeKind.noncopyable → ∀ args : List (ThenArgs V E),
      ∃ w1, then_all w (some id) args =
        Except.ok (w1, Completion.normal ((List.range' w.heap.length args.length).map some))) := by
  constructor
  · intro hk hcs a1 a2
    obtain ⟨w1, s1, h1, hs1, -, -, -, hv1, hf1, hk1, -, -, hc1⟩ :=
      then_pending w id s a1 hs hv hfn (Or.inr hcs)
    rw [hcs, List.nil_append] at hc1
    obtain ⟨w2, s2, h2, hs2, -, -, hv2, hf2, -, hc2, -⟩ :=
      then_pending_occupied w1 id s1 a2 _ hs1 hv1 (by rw [hf1]; exact hfn) (by rw [hk1]; exact hk)
        hc1
    exact ⟨w1, w2, s1, s2, h1, hs1, hc1, h2, hs2, hc2, hv2, by rw [hf2, hf1]⟩
  · intro hk args
    obtain ⟨w1, -, h1, -⟩ := then_all_pending id args w s hs hv hfn hk
    exact ⟨w1, h1⟩

/-- An instance of `then_multiplicity_while_pending`: two attachments on a pending
non-copyable future, three on a pending copyable one. -/
theorem then_multiplicity_while_pending_witness :
    ∃ w1 w2,
      future_then pending_noncopyable_42.1 (some 0) (some 0) TypeKind.copyable plus_one =
        Except.ok (w1, Completion.normal (some 1)) ∧
      future_then w1 (some 0) (some 1) TypeKind.copyable plus_one =
        Except.ok (w2, Completion.throw Exn.multiple_noncopyable_continuations) ∧
      (∃ w3, then_all pending_42.1 (some 0) three_thens =
        Except.ok (w3, Completion.normal [some 1, some 2, some 3])) :=
  match (then_multiplicity_while_pending pending_noncopyable_42.1 0 _ rfl rfl rfl).1 rfl rfl
      ⟨some 0, TypeKind.copyable, plus_one⟩ ⟨some 1, TypeKind.copyable, plus_one⟩,
    (then_multiplicity_while_pending pending_42.1 0 _ rfl rfl rfl).2 (by decide) three_thens with
  | ⟨w1, w2, _, _, h1, _, _, h2, _⟩, ⟨w3, h3⟩ => ⟨w1, w2, h1, h2, w3, h3⟩

/-- C14, evaluated on the code. Destroying the only task of `package(f)` before it ran
leaves the state with slot `Failure(broken_promise)`, no function and producer count 0,
and `try_get` re-raises `broken_promise`; but `_is_valid` reports the state invalid and an
`on_error` attached afterwards stops at the assertion `what do?` instead of receiving the
error. -/
theorem on_error_after_broken_promise_aborts (w : World V E) (k kU : TypeKind)
    (f : Function V E) (h : Exn E → Except (Exn E) (Payload V)) (exec : Nat) :
    ∃ s, (packaged_task_destroy (package w k f).1 (package w k f).2.packaged_task).heap[
        w.heap.length]? = some s ∧
      s.value = Variant.exception Exn.broken_promise ∧ s.function = none ∧
      s.promise_count = 0 ∧
      s.try_get.2 = Completion.throw Exn.broken_promise ∧
      s.try_get_void.2 = Completion.throw Exn.broken_promise ∧
      _is_valid s = false ∧
      future_on_error (packaged_task_destroy (package w k f).1 (package w k f).2.packaged_task)
        (package w k f).2.future (some exec) kU h = Except.error Abort.what_do := by
  have hrm : _remove_promise (_shared_state.mk k Variant.none 1 1 none [] none (some f)) =
      _shared_state.mk k (Variant.exception Exn.broken_promise) 0 1 none [] none none :=
    remove_promise_pending _ rfl rfl rfl
  have hw : packaged_task_destroy (package w k f).1 (package w k f).2.packaged_task =
      { w with heap := w.heap ++
          [_shared_state.mk k (Variant.exception Exn.broken_promise) 0 1 none [] none none] } := by
    rw [package_world]
    simp [package, packaged_task_destroy, World.put, hrm]
  rw [hw]
  refine ⟨_shared_state.mk k (Variant.exception Exn.broken_promise) 0 1 none [] none none,
    by simp, rfl, rfl, rfl, ?_, rfl, rfl, ?_⟩
  · by_cases hk : k = TypeKind.copyable <;>
      simp [_shared_state.try_get, _move_or_copy, Variant.index, hk]
  · simp [package, future_on_error, _shared_state_on_error, _shared_state_on_error_with,
      _is_valid, Variant.index]

/-- C15, evaluated on the code. With a failure continuation attached by `on_error` while
the state was pending, destroying the only task sets the slot to
`Failure(broken_promise)` but calls no continuation: nothing is pushed to any executor,
the continuation still holds its task, and the derived state stays pending. -/
theorem broken_promise_does_not_fire (w : World V E) (k kU : TypeKind)
    (f : Function V E) (h : Exn E → Except (Exn E) (Payload V)) (exec : Nat) :
    ∃ w1 s sd c,
      future_on_error (package w k f).1 (package w k f).2.future (some exec) kU h =
        Except.ok (w1, Completion.normal (some (w.heap.length + 1))) ∧
      (packaged_task_destroy w1 (package w k f).2.packaged_task).heap[w.heap.length]? = some s ∧
      s.value = Variant.exception Exn.broken_promise ∧ s.function = none ∧
      s.exceptional_continuations = some c ∧ c.captures.task = some (w.heap.length + 1) ∧
      (packaged_task_destroy w1 (package w k f).2.packaged_task).pushed = w.pushed ∧
      (packaged_task_destroy w1 (package w k f).2.packaged_task).applied = w.applied ∧
      (packaged_task_destroy w1 (package w k f).2.packaged_task).heap[w.heap.length + 1]? =
        some sd ∧
      _is_pending sd = true ∧ sd.function = some (Function.on_error_body w.heap.length h) := by
  have h0 : (package w k f).1.heap[w.heap.length]? = some (_add_count (_add_promise
      { (_shared_state.init k : _shared_state V E) with function := some f })) := by
    simp [package]
  have hlen : (package w k f).1.heap.length = w.heap.length + 1 := by simp [package]
  obtain ⟨w1, s1, sd, h1, hs1, -, hp1, ha1, -, hv1, hf1, -, -, -, hpc1, he1, hd1, hdv, hdf, -⟩ :=
    on_error_pending (package w k f).1 w.heap.length _ (some exec) kU h h0 rfl rfl rfl
  rw [hlen] at h1 hd1 he1
  have hlt : w.heap.length < w1.heap.length := (List.getElem?_eq_some_iff.mp hs1).1
  have hrm := remove_promise_pending s1 hv1 (by rw [hf1]; rfl)
    (by rw [hpc1]; simp [_add_count, _add_promise, _shared_state.init, size_inc_zero])
  refine ⟨w1, _remove_promise s1, sd,
    ⟨⟨w.heap.length, some exec, some (w.heap.length + 1), some w.heap.length⟩⟩,
    h1, ?_, ?_, ?_, ?_, rfl, ?_, ?_, ?_, ?_, hdf⟩
  · simp only [package, packaged_task_destroy, hs1, World.put, List.getElem?_set_self hlt]
  · rw [hrm]
  · rw [hrm]
  · rw [hrm]; exact he1
  · simp [package, packaged_task_destroy, hs1, World.put, hp1]
  · simp [package, packaged_task_destroy, hs1, World.put, ha1]
  · simp [package, packaged_task_destroy, hs1, World.put, List.getElem?_set, hd1]
  · simp [_is_pending, hdv, hdf, Variant.index]

/-- C16, evaluated on the code. After the task of `package(f)` has run once the function
is cleared, and a second call is no no-op: it dereferences the cleared function, which
stops the program. -/
theorem second_call_dereferences_cleared_function (w : World V E) (k : TypeKind)
    (r : Except (Exn E) (Payload V)) (sched1 sched2 : Option Nat) :
    ∃ w1 s, packaged_task_call (package w k (Function.user r)).1
        (package w k (Function.user r)).2.packaged_task sched1 = Except.ok w1 ∧
      w1.heap[w.heap.length]? = some s ∧ s.function = none ∧
      packaged_task_call w1 (package w k (Function.user r)).2.packaged_task sched2 =
        Except.error Abort.empty_function := by
  cases r <;>
  simp [package, packaged_task_call, packaged_task_call_with, eval_function, eval_inner,
    packaged_task_try, fire_continuations,
    World.put, _add_count, _add_promise, _shared_state.init, Completion.ofExcept]

/-- C17. The no-argument overloads of `then` and `on_error` pass the scheduler of the
state as the executor argument. On a `Value` slot `then` pushes its thunk to the executor
argument if there is one, else to the scheduler of the state, and stops at the assertion
of `sched` when there is neither. A continuation queued on a pending state is pushed, when
the task is called, to the executor argument of the attachment if there is one, else to the
executor passed to the call, and the call stops at the assertion when there is neither. -/
theorem chosen_executor (w : World V E) (id : Nat) (s : _shared_state V E)
    (a : ThenArgs V E) (p : Option Nat) (k : TypeKind) (h : Exn E → Except (Exn E) (Payload V))
    (sched_arg : Option Nat) (hs : w.heap[id]? = some s) :
    future_then_default w (some id) a.kind a.f = future_then w (some id) s.scheduler a.kind a.f ∧
    future_on_error_default w (some id) k h = future_on_error w (some id) s.scheduler k h ∧
    (∀ v, s.value = Variant.value v →
      (match a.sched <|> s.scheduler with
        | some ex => ∃ w1, future_then w (some id) a.sched a.kind a.f =
              Except.ok (w1, Completion.normal (some w.heap.length)) ∧
            w1.pushed = w.pushed ++ [(ex, (then_continuation id a w.heap.length).thunk)]
        | none => future_then w (some id) a.sched a.kind a.f = Except.error Abort.no_executor)) ∧
    (s.value = Variant.none → s.continuations = [] → s.exceptional_continuations = none →
      (∀ v, s.function = some (Function.user (Except.ok v)) →
        ∃ w1, future_then w (some id) a.sched a.kind a.f =
            Except.ok (w1, Completion.normal (some w.heap.length)) ∧ w1.pushed = w.pushed ∧
          (match a.sched <|> sched_arg with
            | some ex => ∃ w2, packaged_task_call w1 (some id) sched_arg = Except.ok w2 ∧
                w2.pushed = w.pushed ++ [(ex, (then_continuation id a w.heap.length).thunk)]
            | none => packaged_task_call w1 (some id) sched_arg =
                Except.error Abort.no_executor)) ∧
      (∀ e, s.function = some (Function.user (Except.error e)) →
        ∃ w1 t, future_on_error w (some id) p k h =
            Except.ok (w1, Completion.normal (some w.heap.length)) ∧ w1.pushed = w.pushed ∧
          t.captures = { this := id, provided := p, task := some w.heap.length,
                         state := some id } ∧
          (match p <|> sched_arg with
            | some ex => ∃ w2, packaged_task_call w1 (some id) sched_arg = Except.ok w2 ∧
                w2.pushed = w.pushed ++ [(ex, t)]
            | none => packaged_task_call w1 (some id) sched_arg =
                Except.error Abort.no_executor))) := by
  refine ⟨?_, ?_, ?_, ?_⟩
  · simp [future_then_default, _shared_state_then_default, hs, future_then, _shared_state_then]
  · simp [future_on_error_default, _shared_state_on_error_default, hs, future_on_error,
      _shared_state_on_error]
  · intro v hv
    cases hex : (a.sched <|> s.scheduler) with
    | some ex =>
      obtain ⟨w1, sd, h1, -, -, -, -, -, -, -, -, -, hp, -, -⟩ := then_settled w id ex s a v hs hv hex
      exact ⟨w1, h1, hp⟩
    | none => exact then_settled_no_executor w id s a v hs hv hex
  · intro hv hcs hec
    constructor
    · intro v hfn
      obtain ⟨w1, s1, h1, hs1, -, hp1, -, hv1, hf1, -, he1, -, hc1⟩ :=
        then_pending w id s a hs hv (by simp [hfn]) (Or.inr hcs)
      rw [hcs, List.nil_append] at hc1
      refine ⟨w1, h1, hp1, ?_⟩
      have hfired : fired s1 (Completion.ofExcept (Except.ok v : Except (Exn E) (Payload V))) =
          [then_continuation id a w.heap.length] := by
        simp [fired, Completion.ofExcept, hc1]
      cases hex : (a.sched <|> sched_arg) with
      | some ex =>
        have hcall := packaged_task_call_user_opt w1 id sched_arg s1 (Except.ok v) hs1
          (by rw [hf1, hfn]) (by rw [hfired]; simp [then_continuation])
          (by rw [hfired]; simp [then_continuation, hex])
        refine ⟨_, hcall, ?_⟩
        simp [hfired, hp1, pushed_opt, then_continuation, hex]
      | none =>
        have ha : a.sched = none := by cases ha : a.sched <;> simp [ha] at hex ⊢
        have hsa : sched_arg = none := by rw [ha] at hex; simpa using hex
        subst hsa
        exact packaged_task_call_user_no_executor w1 id s1 (Except.ok v) _ hs1 (by rw [hf1, hfn])
          (by rw [hfired]; rfl) rfl (by simp [then_continuation, ha])
    · intro e hfn
      obtain ⟨w1, s1, sd, h1, hs1, -, hp1, -, -, hv1, hf1, -, hc1, -, -, he1, -⟩ :=
        on_error_pending w id s p k h hs hv (by simp [hfn]) hec
      refine ⟨w1, ⟨⟨id, p, some w.heap.length, some id⟩⟩, h1, hp1, rfl, ?_⟩
      have hfired : fired s1 (Completion.ofExcept (Except.error e : Except (Exn E) (Payload V))) =
          [⟨⟨id, p, some w.heap.length, some id⟩⟩] := by
        simp [fired, Completion.ofExcept, hc1, hcs, he1]
      cases hex : (p <|> sched_arg) with
      | some ex =>
        have hcall := packaged_task_call_user_opt w1 id sched_arg s1 (Except.error e) hs1
          (by rw [hf1, hfn]) (by rw [hfired]; simp)
          (by rw [hfired]; simp [hex])
        refine ⟨_, hcall, ?_⟩
        simp [hfired, hp1, pushed_opt, hex, Continuation.thunk]
      | none =>
        have ha : p = none := by cases ha : p <;> simp [ha] at hex ⊢
        have hsa : sched_arg = none := by rw [ha] at hex; simpa using hex
        subst hsa
        exact packaged_task_call_user_no_executor w1 id s1 (Except.error e) _ hs1
          (by rw [hf1, hfn]) (by rw [hfired]; rfl) rfl (by simp [ha])

/-- Witness of C17: `then` without any executor on the future of `make_ready_future(5)`. -/
theorem chosen_executor_witness :
    future_then ready_5.1 (some 0) none TypeKind.copyable plus_one =
      Except.error Abort.no_executor ∧
    (∃ w1, future_then ready_5.1 (some 0) (some 4) TypeKind.copyable plus_one =
        Except.ok (w1, Completion.normal (some 1)) ∧
      w1.pushed.map Prod.fst = [4]) :=
  ⟨(chosen_executor ready_5.1 0 _ ⟨none, TypeKind.copyable, plus_one⟩ none TypeKind.copyable
      (fun _ => Except.ok (Payload.obj 7)) none rfl).2.2.1 (Payload.obj 5) rfl,
    match (chosen_executor ready_5.1 0 _ ⟨some 4, TypeKind.copyable, plus_one⟩ none
      TypeKind.copyable (fun _ => Except.ok (Payload.obj 7)) none rfl).2.2.1 (Payload.obj 5)
      rfl with
    | ⟨w1, h1, h2⟩ => ⟨w1, h1, by rw [h2]; rfl⟩⟩

/-- C18. The factory `package(f)` appends one state to the heap: slot Empty, function `f`
present (so the state is pending), no continuation of either kind, no scheduler, producer
count 1 and consumer count 1; the task and the future it returns both refer to that
state, and nothing else changes. -/
theorem package_creates_pending (w : World V E) (k : TypeKind) (f : Function V E) :
    ∃ s, (package w k f).1.heap = w.heap ++ [s] ∧
      (package w k f).2.packaged_task = some w.heap.length ∧
      (package w k f).2.future = some w.heap.length ∧
      (package w k f).1.heap[w.heap.length]? = some s ∧
      s.kind = k ∧ s.value = Variant.none ∧ s.function = some f ∧ _is_pending s = true ∧
      s.continuations = [] ∧ s.exceptional_continuations = none ∧ s.scheduler = none ∧
      s.promise_count = 1 ∧ s.shared_count = 1 ∧
      (package w k f).1.pushed = w.pushed ∧ (package w k f).1.applied = w.applied := by
  simp [package, _add_count, _add_promise, _shared_state.init, size_inc_zero, _is_pending,
    Variant.index]

/-- C19. The factory `make_ready_future(v)` appends one settled state: slot `Value(v)`, no
function, producer count 0, consumer count 1, and `try_get` on the returned future
returns `v`; `make_ready_future()` does the same for `void` and its `try_get` returns
`true`. -/
theorem make_ready_future_is_settled (w : World V E) (k : TypeKind) (v : Payload V) :
    (∃ s, (make_ready_future w k v).1.heap = w.heap ++ [s] ∧
      (make_ready_future w k v).2 = some w.heap.length ∧
      s.kind = k ∧ s.value = Variant.value v ∧ s.function = none ∧
      s.promise_count = 0 ∧ s.shared_count = 1 ∧
      s.continuations = [] ∧ s.exceptional_continuations = none ∧ s.scheduler = none ∧
      (k ≠ TypeKind.void → ∃ w1, future_try_get (make_ready_future w k v).1
        (make_ready_future w k v).2 = Except.ok (w1, Completion.normal (some v)))) ∧
    (∃ s, (make_ready_future_void w).1.heap = w.heap ++ [s] ∧
      (make_ready_future_void w).2 = some w.heap.length ∧
      s.kind = TypeKind.void ∧ s.value = Variant.value Payload.ready ∧ s.function = none ∧
      s.promise_count = 0 ∧ s.shared_count = 1 ∧
      s.continuations = [] ∧ s.exceptional_continuations = none ∧ s.scheduler = none ∧
      ∃ w1, future_void_try_get (make_ready_future_void w).1 (make_ready_future_void w).2 =
        Except.ok (w1, Completion.normal true)) := by
  constructor
  · refine ⟨_add_count (_shared_state.of_value k v), rfl, rfl, rfl, rfl, rfl, rfl, rfl, rfl, rfl,
      rfl, ?_⟩
    intro hk
    by_cases hc : k = TypeKind.copyable <;>
      simp [make_ready_future, _add_count, _shared_state.of_value, size_inc_zero, future_try_get,
        _shared_state.try_get, _move_or_copy, Variant.index, hk, hc]
  · refine ⟨_add_count (_shared_state.of_value TypeKind.void Payload.ready), rfl, rfl, rfl, rfl,
      rfl, rfl, rfl, rfl, rfl, rfl, ?_⟩
    simp [make_ready_future_void, _add_count, _shared_state.of_value, size_inc_zero,
      future_void_try_get, _shared_state.try_get_void]

/-! ## `when_all` -/

/-- C23. `when_all` without inputs, under either policy, returns the future of
`make_ready_future()`: one `void` state is allocated, settled to `Value`, without function,
nothing is pushed, and `try_get` on the returned future returns `true`. -/
theorem when_all_of_nothing (w : World V E) (policy : exception_policy) :
    ∃ w1 s, when_all w policy [] = Except.ok (w1, Completion.normal (some w.heap.length)) ∧
      w1.heap = w.heap ++ [s] ∧ s.kind = TypeKind.void ∧
      s.value = Variant.value Payload.ready ∧ s.function = none ∧ s.shared_count = 1 ∧
      w1.pushed = w.pushed ∧ w1.applied = w.applied ∧
      ∃ w2, future_void_try_get w1 (some w.heap.length) = Except.ok (w2, Completion.normal true) := by
  refine ⟨_, _add_count (_shared_state.of_value TypeKind.void Payload.ready), rfl, rfl, rfl, rfl,
    rfl, rfl, rfl, rfl, ?_⟩
  simp [make_ready_future_void, _add_count, _shared_state.of_value, size_inc_zero,
    future_void_try_get, _shared_state.try_get_void]

/-- C27, refuted. The function `_is_valid` holds exactly when the slot is `Value` or the
function is present, so it rejects every `Failure` slot without function. A task that raises
and a dropped last producer both leave such a state, on which `then` and `on_error` stop at
the assertion `what do?`. -/
theorem is_valid_rejects_settled_failure (w : World V E) (k kU : TypeKind) (e : Exn E)
    (fn : Function V E) (f : Payload V → Except (Exn E) (Payload V))
    (h : Exn E → Except (Exn E) (Payload V)) (exec : Option Nat) (sched_arg : Option Nat) :
    (∀ s : _shared_state V E,
      (_is_valid s = true ↔ (s.value.index = 0 ∨ s.function.isSome = true)) ∧
      (s.value.index = 1 → s.function = none → _is_valid s = false)) ∧
    (∃ w1 s,
      packaged_task_call (package w k (Function.user (Except.error e))).1
        (some w.heap.length) sched_arg = Except.ok w1 ∧
      w1.heap[w.heap.length]? = some s ∧ s.value = Variant.exception e ∧
      _is_valid s = false ∧
      future_then w1 (some w.heap.length) exec kU f = Except.error Abort.what_do ∧
      future_on_error w1 (some w.heap.length) exec kU h = Except.error Abort.what_do) ∧
    (∃ s,
      (packaged_task_destroy (package w k fn).1 (some w.heap.length)).heap[w.heap.length]? =
        some s ∧
      s.value = Variant.exception Exn.broken_promise ∧ _is_valid s = false ∧
      future_then (packaged_task_destroy (package w k fn).1 (some w.heap.length))
        (some w.heap.length) exec kU f = Except.error Abort.what_do ∧
      future_on_error (packaged_task_destroy (package w k fn).1 (some w.heap.length))
        (some w.heap.length) exec kU h = Except.error Abort.what_do) := by
  refine ⟨?_, ?_, ?_⟩
  · intro s
    constructor
    · simp [_is_valid]
    · intro h1 h2
      simp [_is_valid, h1, h2]
  · simp [package, packaged_task_call, packaged_task_call_with, eval_function, eval_inner,
      packaged_task_try, fire_continuations, World.put, _add_count, _add_promise,
      _shared_state.init, Completion.ofExcept, _is_valid, Variant.index, future_then,
      _shared_state_then, _shared_state_then_with, future_on_error, _shared_state_on_error,
      _shared_state_on_error_with]
  · rw [package_destroy_world]
    simp [_is_valid, Variant.index, future_then, _shared_state_then, _shared_state_then_with,
      future_on_error, _shared_state_on_error, _shared_state_on_error_with]

/-- C21, refuted. `when_all` over futures made by `make_ready_future`, at least one, stops at
the assertion of `sched`: the handlers are attached with `then(f)`, which hands on the absent
scheduler of the settled state, and no executor is found for the thunk. The call of the
spec, over the futures of 1, of the text `a` and of `make_ready_future()`, is an instance. -/
theorem when_all_of_ready_futures_aborts (w : World V E) (policy : exception_policy)
    (k : TypeKind) (v : Payload V) (rest : List (TypeKind × Payload V)) :
    when_all (make_ready_all w ((k, v) :: rest)).1 policy (make_ready_all w ((k, v) :: rest)).2 =
      Except.error Abort.no_executor ∧
    when_all
      (make_ready_all (World.empty : World (Nat ⊕ String) Nat)
        [(TypeKind.copyable, Payload.obj (Sum.inl 1)),
         (TypeKind.copyable, Payload.obj (Sum.inr "a")), (TypeKind.void, Payload.ready)]).1
      exception_policy.aggregate [some 0, some 1, some 2] = Except.error Abort.no_executor := by
  constructor
  · obtain ⟨states, h1, h2, h3, h4⟩ := make_ready_all_spec ((k, v) :: rest) w
    cases states with
    | nil => simp at h2
    | cons s0 more =>
      obtain ⟨hsch, -, t, hv⟩ := h4 s0 (List.mem_cons_self _ _)
      have hfirst : (make_ready_all w ((k, v) :: rest)).2 =
          some w.heap.length :: (List.range' (w.heap.length + 1) rest.length).map some := by
        rw [h3]; simp [List.range']
      obtain ⟨kinds, hk⟩ := when_all_kinds_some (make_ready_all w ((k, v) :: rest)).1
        (make_ready_all w ((k, v) :: rest)).2 (by
          intro f hf
          rw [h3] at hf
          obtain ⟨id, hid, rfl⟩ := List.mem_map.mp hf
          refine ⟨id, rfl, ?_⟩
          rw [h1]
          have := List.mem_range'_1.mp hid
          simp only [List.length_append, h2]
          omega)
      apply when_all_of_attach_abort _ _ _ kinds _ (by rw [hfirst]; simp) hk
      rw [hfirst]
      apply when_all_attach_ready_aborts _ _ _ _ _ _ s0 t _ hv hsch
      rw [h1]
      show ((w.heap ++ s0 :: more) ++ _)[w.heap.length]? = some s0
      rw [List.getElem?_append_left (by simp), List.getElem?_append_right (le_refl _)]
      simp
  · rfl

/-- C24, refuted. For a non-copyable value type the thunk of a `then` can find the slot of
its upstream state Empty, and `_get` stops at its assertion. First: `then` on a pending
state, the task is called, `try_get` takes the value, the thunk runs. Second: two `then`
on the state of `make_ready_future(42)`; the first thunk takes the value, the second finds
the slot Empty. -/
theorem continuation_sees_empty_slot :
    (∃ w1 w2 w3 s,
      future_then pending_noncopyable_42.1 (some 0) (some 0) TypeKind.copyable plus_one =
        Except.ok (w1, Completion.normal (some 1)) ∧
      packaged_task_call w1 (some 0) (some 0) = Except.ok w2 ∧
      future_try_get w2 (some 0) = Except.ok (w3, Completion.normal (some (Payload.obj 42))) ∧
      w3.pushed.map (fun p => p.2.captures.task) = [some 1] ∧
      w3.heap[0]? = some s ∧ s.value = Variant.none ∧ s.function = none ∧
      run_next w3 = Except.error Abort.get_on_empty) ∧
    (∃ w1 w2 w3 s,
      future_then ready_noncopyable.1 (some 0) (some 0) TypeKind.copyable plus_one =
        Except.ok (w1, Completion.normal (some 1)) ∧
      future_then w1 (some 0) (some 0) TypeKind.copyable plus_one =
        Except.ok (w2, Completion.normal (some 2)) ∧
      run_next w2 = Except.ok w3 ∧
      w3.pushed.map (fun p => p.2.captures.task) = [some 2] ∧
      w3.heap[0]? = some s ∧ s.value = Variant.none ∧ s.function = none ∧
      run_next w3 = Except.error Abort.get_on_empty) :=
  ⟨⟨_, _, _, _, rfl, rfl, rfl, rfl, rfl, rfl, rfl, rfl⟩,
   ⟨_, _, _, _, rfl, rfl, rfl, rfl, rfl, rfl, rfl, rfl⟩⟩

/-- C26. When the thunk of `then(exec, f)` runs on an upstream `Value(v)` and `f` raises `e`,
the derived state is settled to `Failure(e)`; the slot of the upstream state still holds `v`
or is Empty, its function and continuations are as before, its failure continuation is not
fired (only continuations of the derived state are pushed), and no other state changes. -/
theorem continuation_error_stays_downstream (w : World V E) (t : Thunk) (d this ex : Nat)
    (sd su : _shared_state V E) (f : Payload V → Except (Exn E) (Payload V)) (v : Payload V)
    (e : Exn E)
    (htask : t.captures.task = some d) (hsched : sched w t.captures = Except.ok ex)
    (hd : w.heap[d]? = some sd) (hfn : sd.function = some (Function.then_body this f))
    (hcs : ∀ k ∈ sd.continuations, k.captures.this = d)
    (hec : ∀ k ∈ sd.exceptional_continuations, k.captures.this = d)
    (hu : w.heap[this]? = some su) (hne : this ≠ d) (hv : su.value = Variant.value v)
    (hf : f (then_argument su v) = Except.error e) :
    ∃ w1 sd1 su1, run_thunk w t = Except.ok w1 ∧
      w1.heap[d]? = some sd1 ∧ sd1.value = Variant.exception e ∧ sd1.function = none ∧
      w1.heap[this]? = some su1 ∧
      (su1.value = Variant.value v ∨ su1.value = Variant.none) ∧
      su1.function = su.function ∧ su1.continuations = su.continuations ∧
      su1.exceptional_continuations = su.exceptional_continuations ∧
      w1.pushed = w.pushed ++
        (sd.exceptional_continuations.toList ++ sd.continuations).map (pushed_by ex) ∧
      ∀ a, a ≠ d → a ≠ this → w1.heap[a]? = w.heap[a]? := by
  obtain ⟨w1, sd1, hrun, h1, h2, h3, -, -, h6, -, h8, -, -, hframe⟩ :=
    run_thunk_then_value w t d this ex sd su f v htask hsched hd hfn hcs hec hu hne hv
  obtain ⟨g1, g2, g3, g4, -, -, -⟩ := after_get_any_spec su
  rw [hf] at h2 h8
  refine ⟨w1, sd1, after_get_any su, hrun, h1, h2, h3, h6, ?_, g2, g3, g4, ?_, hframe⟩
  · rw [hv] at g1; exact g1
  · rw [h8]; rfl

/-- Witness of C26: `make_ready_future(5).then(4, f)` with `f` raising the user error 9. -/
theorem continuation_error_stays_downstream_witness :
    ∃ w1 sd1 su1,
      run_thunk ready_5_then_raising ⟨⟨0, some 4, some 1, some 0⟩⟩ = Except.ok w1 ∧
      w1.heap[1]? = some sd1 ∧ sd1.value = Variant.exception (Exn.user 9) ∧
      w1.heap[0]? = some su1 ∧
      (su1.value = Variant.value (Payload.obj 5) ∨ su1.value = Variant.none) :=
  match continuation_error_stays_downstream ready_5_then_raising ⟨⟨0, some 4, some 1, some 0⟩⟩
      1 0 4 _ _ (fun _ => Except.error (Exn.user 9)) (Payload.obj 5) (Exn.user 9)
      rfl rfl rfl rfl (by intro k hk; cases hk) (by intro k hk; cases hk) rfl (by decide) rfl
      rfl with
  | ⟨w1, sd1, su1, h1, h2, h3, _, h5, h6, _⟩ => ⟨w1, sd1, su1, h1, h2, h3, h5, h6⟩

/-- C25. For a copyable value type, a pending state with a live future, a task returning `v`,
one `then` attached before the task is called and one attached after it: the thunk of each
applies its function to `v`, so that the first derived state is settled to the completion of
`f1 v` and the second to the completion of `f2 v`. This holds when both thunks run after the
second attachment, and when the first thunk runs before the second attachment. -/
theorem then_before_and_after_settle_observe_same_value (w : World V E) (id : Nat)
    (s : _shared_state V E) (v : Payload V) (a1 a2 : ThenArgs V E) (sch : Option Nat)
    (ex1 ex2 : Nat)
    (hs : w.heap[id]? = some s) (hk : s.kind = TypeKind.copyable) (hv : s.value = Variant.none)
    (hfn : s.function = some (Function.user (Except.ok v)))
    (hcs : s.continuations = []) (hq : w.pushed = [])
    (hlive : 1 ≤ s.shared_count) (hcount : s.shared_count + 2 < 2 ^ 64)
    (hex1 : (a1.sched <|> sch) = some ex1) (hex2 : (a2.sched <|> sch) = some ex2) :
    (∃ w1 w2 w3 w4 s1 s2,
      future_then w (some id) a1.sched a1.kind a1.f =
        Except.ok (w1, Completion.normal (some w.heap.length)) ∧
      packaged_task_call w1 (some id) sch = Except.ok w2 ∧
      future_then w2 (some id) a2.sched a2.kind a2.f =
        Except.ok (w3, Completion.normal (some (w.heap.length + 1))) ∧
      (∀ fuel, 2 ≤ fuel → run_all fuel w3 = Except.ok w4) ∧
      w4.heap[w.heap.length]? = some s1 ∧
      s1.value = slot_of a1.kind (Completion.ofExcept (a1.f v)) ∧
      w4.heap[w.heap.length + 1]? = some s2 ∧
      s2.value = slot_of a2.kind (Completion.ofExcept (a2.f v)) ∧
      w4.applied = w.applied ++ [id, w.heap.length, w.heap.length + 1]) ∧
    (∃ w1 w2 w3 w4 w5 s1 s2,
      future_then w (some id) a1.sched a1.kind a1.f =
        Except.ok (w1, Completion.normal (some w.heap.length)) ∧
      packaged_task_call w1 (some id) sch = Except.ok w2 ∧
      (∀ fuel, 1 ≤ fuel → run_all fuel w2 = Except.ok w3) ∧
      future_then w3 (some id) a2.sched a2.kind a2.f =
        Except.ok (w4, Completion.normal (some (w.heap.length + 1))) ∧
      (∀ fuel, 1 ≤ fuel → run_all fuel w4 = Except.ok w5) ∧
      w5.heap[w.heap.length]? = some s1 ∧
      s1.value = slot_of a1.kind (Completion.ofExcept (a1.f v)) ∧
      w5.heap[w.heap.length + 1]? = some s2 ∧
      s2.value = slot_of a2.kind (Completion.ofExcept (a2.f v)) ∧
      w5.applied = w.applied ++ [id, w.heap.length, w.heap.length + 1]) :=
  ⟨then_around_settle_queued w id s v a1 a2 sch ex1 ex2 hs hk hv hfn hcs hq hcount hex1 hex2,
   then_around_settle_run_between w id s v a1 a2 sch ex1 ex2 hs hk hv hfn hcs hq hlive hcount
     hex1 hex2⟩

/-- Witness of C25: a task returning 42, `x + 1` attached to executor 0 before the call and
without executor after the call with executor 3; both derived states hold 43. -/
theorem then_before_and_after_settle_observe_same_value_witness :
    ∃ w1 w2 w3 w4 s1 s2,
      future_then pending_42.1 (some 0) (some 0) TypeKind.copyable plus_one =
        Except.ok (w1, Completion.normal (some 1)) ∧
      packaged_task_call w1 (some 0) (some 3) = Except.ok w2 ∧
      future_then w2 (some 0) none TypeKind.copyable plus_one =
        Except.ok (w3, Completion.normal (some 2)) ∧
      (∀ fuel, 2 ≤ fuel → run_all fuel w3 = Except.ok w4) ∧
      w4.heap[1]? = some s1 ∧ s1.value = Variant.value (Payload.obj 43) ∧
      w4.heap[2]? = some s2 ∧ s2.value = Variant.value (Payload.obj 43) ∧
      w4.applied = [0, 1, 2] :=
  (then_before_and_after_settle_observe_same_value pending_42.1 0 _ (Payload.obj 42)
    ⟨some 0, TypeKind.copyable, plus_one⟩ ⟨none, TypeKind.copyable, plus_one⟩ (some 3) 0 3
    rfl rfl rfl rfl rfl rfl (by decide) (by decide) rfl rfl).1

/-- C28, refuted for `Failure`. On the `Value` state of `make_ready_future(v)`,
`then(ex, f)` pushes exactly one thunk to `ex` at once and records no continuation. On the
pending state of `package(fn)` it pushes nothing and records exactly one continuation, whose
call pushes the thunk to `ex`. On the `Failure` state that a raising task leaves it stops at
the assertion `what do?` and pushes nothing. -/
theorem then_pushes_or_records (w : World V E) (k kU : TypeKind) (v : Payload V) (e : Exn E)
    (fn : Function V E) (f : Payload V → Except (Exn E) (Payload V)) (ex : Nat)
    (sched_arg : Option Nat) :
    (∃ w1 s1 t, future_then (make_ready_future w k v).1 (some w.heap.length) (some ex) kU f =
        Except.ok (w1, Completion.normal (some (w.heap.length + 1))) ∧
      w1.pushed = w.pushed ++ [(ex, t)] ∧ t.captures.task = some (w.heap.length + 1) ∧
      w1.heap[w.heap.length]? = some s1 ∧ s1.continuations = [] ∧
      s1.value = Variant.value v) ∧
    (∃ w1 s1 c, future_then (package w k fn).1 (some w.heap.length) (some ex) kU f =
        Except.ok (w1, Completion.normal (some (w.heap.length + 1))) ∧
      w1.pushed = w.pushed ∧ w1.heap[w.heap.length]? = some s1 ∧ s1.continuations = [c] ∧
      s1.value = Variant.none ∧ c.thunk.captures.task = some (w.heap.length + 1) ∧
      ∀ w2 : World V E, c.call w2 = Except.ok (push w2 ex c.thunk, c.moved_from)) ∧
    (∃ w1 s, packaged_task_call (package w k (Function.user (Except.error e))).1
        (some w.heap.length) sched_arg = Except.ok w1 ∧
      w1.heap[w.heap.length]? = some s ∧ s.value = Variant.exception e ∧
      w1.pushed = w.pushed ∧
      future_then w1 (some w.heap.length) (some ex) kU f = Except.error Abort.what_do) := by
  refine ⟨?_, ?_, ?_⟩
  · obtain ⟨w1, sd, h1, h2, -, -, -, -, -, -, -, -, hp, -, -⟩ :=
      then_settled (make_ready_future w k v).1 w.heap.length ex
        (_add_count (_shared_state.of_value k v)) ⟨some ex, kU, f⟩ v
        (by simp [make_ready_future]) rfl rfl
    have hl : (make_ready_future w k v).1.heap.length = w.heap.length + 1 := by
      simp [make_ready_future]
    rw [hl] at h1 hp
    exact ⟨w1, _, _, h1, hp, rfl, h2, rfl, rfl⟩
  · obtain ⟨w1, s1, h1, h2, -, hp, -, hv, -, -, -, -, hc⟩ :=
      then_pending (package w k fn).1 w.heap.length
        (_add_count (_add_promise { (_shared_state.init k : _shared_state V E) with
          function := some fn })) ⟨some ex, kU, f⟩
        (by simp [package]) rfl rfl (Or.inr rfl)
    have hl : (package w k fn).1.heap.length = w.heap.length + 1 := by
      simp [package]
    rw [hl] at h1 hc
    refine ⟨w1, s1, _, h1, hp, h2, hc, hv, rfl, ?_⟩
    intro w2
    simp [Continuation.call, sched, then_continuation]
  · simp [package, packaged_task_call, packaged_task_call_with, eval_function, eval_inner,
      packaged_task_try, fire_continuations, World.put, _add_count, _add_promise,
      _shared_state.init, Completion.ofExcept, _is_valid, Variant.index, future_then,
      _shared_state_then, _shared_state_then_with]

/-- C29. When the task of a state with a queued failure continuation returns normally, the
call settles the state to `Value`, pushes the thunks of the success continuations and
nothing else, leaves the failure continuation uncalled (it still holds its task), applies no
function other than the callable of the task, and changes no other state: the state derived
by `on_error` stays as it was, pending. -/
theorem failure_continuation_not_fired_on_value (w : World V E) (id : Nat) (sch : Option Nat)
    (s : _shared_state V E) (v : Payload V) (c : Continuation)
    (hs : w.heap[id]? = some s) (hfn : s.function = some (Function.user (Except.ok v)))
    (hec : s.exceptional_continuations = some c)
    (hthis : ∀ k ∈ s.continuations, k.captures.this = id)
    (hres : ∀ k ∈ s.continuations, (k.captures.provided <|> sch).isSome = true) :
    ∃ w1 s1, packaged_task_call w (some id) sch = Except.ok w1 ∧
      w1.heap[id]? = some s1 ∧
      s1.value = Variant.value (if s.kind = TypeKind.void then Payload.ready else v) ∧
      s1.exceptional_continuations = some c ∧
      w1.pushed = w.pushed ++ s.continuations.map (pushed_opt sch) ∧
      w1.applied = w.applied ++ [id] ∧
      ∀ d, d ≠ id → w1.heap[d]? = w.heap[d]? := by
  have hlt : id < w.heap.length := (List.getElem?_eq_some_iff.mp hs).1
  have hcall := packaged_task_call_user_opt w id sch s (Except.ok v) hs hfn
    (by simpa [fired, Completion.ofExcept] using hthis)
    (by simpa [fired, Completion.ofExcept] using hres)
  refine ⟨_, settled { s with scheduler := sch } (Completion.normal v), hcall, ?_, ?_, ?_, ?_, ?_,
    ?_⟩
  · simp [hlt, Completion.ofExcept]
  · simp [settled]
  · simp [settled, hec]
  · simp [fired, Completion.ofExcept]
  · rfl
  · intro d hne
    simp only
    rw [List.getElem?_set_ne (Ne.symm hne)]

/-- Witness of C29: a task returning 42 whose future has an `on_error` to executor 1; after
the call nothing is pushed and the state derived by `on_error` is still pending. -/
theorem failure_continuation_not_fired_on_value_witness :
    ∃ w1 s1, packaged_task_call pending_42_with_on_error (some 0) (some 5) = Except.ok w1 ∧
      w1.heap[0]? = some s1 ∧ s1.value = Variant.value (Payload.obj 42) ∧
      w1.pushed = [] ∧ w1.applied = [0] ∧
      (w1.heap[1]?).map (fun sd => _is_pending sd) = some true :=
  match failure_continuation_not_fired_on_value pending_42_with_on_error 0 (some 5) _
      (Payload.obj 42) ⟨⟨0, some 1, some 1, some 0⟩⟩ rfl rfl rfl
      (by intro k hk; cases hk) (by intro k hk; cases hk) with
  | ⟨w1, s1, h1, h2, h3, _, h5, h6, h7⟩ =>
    ⟨w1, s1, h1, h2, h3, h5, h6, by rw [h7 1 (by decide)]; rfl⟩

/-! ## `when_all` over inputs that may fail -/

/-- C22. The call of the claim, `when_all(aggregate, ready(1), failed(E1), failed(E2))`,
returns no future: with the inputs in this order it stops at the assertion of `sched` when
the value handler is attached to the ready input, and with a failed input first it stops
at the assertion `what do?` of `then`. When the first input was settled to `Value(1)` by
a task called with an executor instead, the call stops at `what do?` on the second
input. -/
theorem when_all_over_settled_failures_aborts :
    (∃ s0 s1 s2, ready_and_two_failed.heap = [s0, s1, s2] ∧
      s0.value = Variant.value (Payload.obj 1) ∧ s0.function.isNone = true ∧
      s1.value = Variant.exception (Exn.user 5) ∧ s1.function.isNone = true ∧
      s2.value = Variant.exception (Exn.user 6) ∧ s2.function.isNone = true) ∧
    when_all ready_and_two_failed exception_policy.aggregate [some 0, some 1, some 2] =
      Except.error Abort.no_executor ∧
    when_all ready_and_two_failed exception_policy.aggregate [some 1, some 2, some 0] =
      Except.error Abort.what_do ∧
    (∃ t0 t1 t2, settled_by_tasks.heap = [t0, t1, t2] ∧
      t0.value = Variant.value (Payload.obj 1) ∧ t0.scheduler = some 7 ∧
      t1.value = Variant.exception (Exn.user 5) ∧
      t2.value = Variant.exception (Exn.user 6)) ∧
    when_all settled_by_tasks exception_policy.aggregate [some 0, some 1, some 2] =
      Except.error Abort.what_do :=
  ⟨⟨_, _, _, rfl, rfl, rfl, rfl, rfl, rfl, rfl⟩, rfl, rfl, ⟨_, _, _, rfl, rfl, rfl, rfl, rfl⟩, rfl⟩

/-- A pending input whose callable raises and that already has a failure continuation makes
`when_all` throw `multiple_exceptional_continuations`, so no future is returned; when the
task of the input is then called and the executors have run every pushed thunk, the input
is settled to `Failure` while the state of the task that `when_all` packaged is still
pending and its remaining-count is still 1. -/
theorem when_all_throws_on_occupied_raising_input :
    ∃ s w1 w2 w3 s3 r st,
      pending_with_both.heap[0]? = some s ∧ _is_pending s = true ∧
      s.function = some (Function.user (Except.error (Exn.user 9))) ∧
      when_all pending_with_both exception_policy.aggregate [some 0] =
        Except.ok (w1, Completion.throw Exn.multiple_exceptional_continuations) ∧
      steps w1 [Step.call (some 0) (some 7)] = Except.ok w2 ∧
      run_all 10 w2 = Except.ok w3 ∧ w3.pushed = [] ∧
      w3.heap[0]? = some s3 ∧ s3.value = Variant.exception (Exn.user 9) ∧
      w3.heap[3]? = some r ∧ r.function = some (Function.when_all_body 0) ∧
      r.value = Variant.none ∧ w3.internal[0]? = some st ∧ st.remaining = 1 :=
  ⟨_, _, _, _, _, _, _, rfl, rfl, rfl, rfl, rfl, rfl, rfl, rfl, rfl, rfl, rfl, rfl, rfl, rfl⟩

/-- On inputs that are still pending `when_all` collects the errors. For every list of
distinct pending futures without continuations of which at least one has a callable that
raises, `when_all(aggregate, ...)` returns a future; after any sequence of actions in which
the task of every input is called once with an executor, the executors running pushed
thunks in between, and after the executors have run what is still pushed, the state of
that future holds a `Failure` carrying an error list: the list is a permutation of the
errors of the inputs that failed, so its length is the number of failed inputs. -/
theorem when_all_collects_errors (w : World V E) (ps : List (Settling V E)) (sch : List Step)
    (hlen : ps.length < 2 ^ 64) (hq : w.pushed = [])
    (hids : (ps.map Settling.id).Nodup)
    (hpending : ∀ p ∈ ps, ∃ s, w.heap[p.id]? = some s ∧ s.kind = p.kind ∧
      s.value = Variant.none ∧ s.function = some (Function.user p.r) ∧
      s.scheduler = none ∧ s.continuations = [] ∧ s.exceptional_continuations = none)
    (hfail : ps.filterMap Settling.error ≠ [])
    (hsch : (sch.filter Step.is_call).Perm
      (ps.map (fun p => Step.call (some p.id) (some p.ex)))) :
    ∃ w1 w2 w3 r es,
      when_all w exception_policy.aggregate (ps.map (fun p => some p.id)) =
        Except.ok (w1, Completion.normal (some w.heap.length)) ∧
      steps w1 sch = Except.ok w2 ∧
      (∀ fuel, 2 * ps.length ≤ fuel → run_all fuel w2 = Except.ok w3) ∧
      w3.pushed = [] ∧ w3.heap[w.heap.length]? = some r ∧ r.function = none ∧
      r.value = Variant.exception (Exn.exception_list es) ∧
      es.Perm (ps.filterMap Settling.error) ∧
      es.length = (ps.filterMap Settling.error).length := by
  have hne : ps ≠ [] := by
    intro h
    rw [h] at hfail
    exact hfail rfl
  obtain ⟨w1, st1, hw1, -, -, hj⟩ := when_all_settling w ps hne hlen hq hids hpending
  have hP : Placing w.heap.length (slots_of ps) (joints_at (w.heap.length + 1) 0 ps) :=
    placing_joints ps _ _ hids
      (fun p hp => by
        obtain ⟨s, hs, -⟩ := hpending p hp
        exact (List.getElem?_eq_some_iff.mp hs).1)
      (by omega) hlen
  obtain ⟨w2, todo2, queue2, done2, hw2, hj2, hlen2⟩ := Gathering.any_schedule hP sch _ _ _ w1 hj
    (by rw [joints_at_calls]; exact hsch.subperm)
  have htodo : todo2 = [] := by
    apply List.eq_nil_of_length_eq_zero
    have := hsch.length_eq
    rw [List.length_map] at this
    rw [joints_at_length] at hlen2
    omega
  subst htodo
  obtain ⟨w3, done3, hj3, hall⟩ := Gathering.drain_queue hP queue2 done2 w2 hj2
  have hqlen : queue2.length ≤ 2 * ps.length := by
    have := hj2.queue_length
    rw [joints_at_length] at this
    simpa using this
  obtain ⟨hp3, hperm, r, hr, hf, hout⟩ := hj3.finish
  have herrs : (done3.filterMap Joint.error).Perm (ps.filterMap Settling.error) := by
    rw [← joints_at_errors ps (w.heap.length + 1) 0]
    exact hperm.filterMap _
  refine ⟨w1, w2, w3, r, done3.filterMap Joint.error, hw1, hw2,
    fun fuel hfu => hall fuel (by omega), hp3, hr, hf, ?_, herrs, herrs.length_eq⟩
  rcases hout with ⟨h1, -⟩ | ⟨-, h2⟩
  · rw [h1] at herrs
    exact absurd herrs.symm.eq_nil hfail
  · exact h2

/-- An instance of `when_all_collects_errors`: three pending futures whose callables return
1, raise 5 and raise 6, their tasks called in the order second, third, first: the error
list has length 2. -/
theorem when_all_collects_errors_witness :
    ∃ w1 w2 w3 r es,
      when_all one_value_two_raising exception_policy.aggregate [some 0, some 1, some 2] =
        Except.ok (w1, Completion.normal (some 3)) ∧
      steps w1 raising_interleaved = Except.ok w2 ∧
      (∀ fuel, 6 ≤ fuel → run_all fuel w2 = Except.ok w3) ∧
      w3.pushed = [] ∧ w3.heap[3]? = some r ∧ r.function = none ∧
      r.value = Variant.exception (Exn.exception_list es) ∧
      es.Perm [Exn.user 5, Exn.user 6] ∧ es.length = 2 :=
  when_all_collects_errors one_value_two_raising raising_inputs raising_interleaved
    (by simp [raising_inputs]) rfl (by decide)
    (by
      intro p hp
      simp only [raising_inputs, List.mem_cons, List.mem_singleton, List.not_mem_nil,
        or_false] at hp
      rcases hp with rfl | rfl | rfl
      · exact ⟨_, rfl, rfl, rfl, rfl, rfl, rfl, rfl⟩
      · exact ⟨_, rfl, rfl, rfl, rfl, rfl, rfl, rfl⟩
      · exact ⟨_, rfl, rfl, rfl, rfl, rfl, rfl, rfl⟩)
    (by simp [raising_inputs, Settling.error])
    (by decide)

/-- C36, refuted as stated. A description whose type id is `2 ^ 64 - 1`, the value of the
`-1` that marks a failed match, is never emitted: on the input `ab`, at whose every
position the regex of the description matches, `tokenize` advances past `a`, pushes
nothing, and throws `unexpected_characters` at `b`. -/
theorem lexer.tokenize_drops_type_minus_one :
    (lexer.described [lexer.marked])._descs = [lexer.marked] ∧
    lexer.matched_text lexer.marked ['a', 'b'] = some ['a'] ∧
    lexer.matched_text lexer.marked ['b'] = some ['b'] ∧
    lexer.tokenize_for [lexer.marked] ['a', 'b'] = Except.ok (none, ['b']) ∧
    ∀ fuel, lexer.tokenize (fuel + 1) ['a', 'b'] (lexer.described [lexer.marked]) =
      some lexer.Result.unexpected_characters := by
  refine ⟨rfl, by decide, by decide, rfl, ?_⟩
  intro fuel
  rfl

/-- One iteration of the loop of `tokenize`. For a description set built by `add` from
descriptions none of which has the type id `2 ^ 64 - 1`, at a position that is not the end:
when some description matches at the position, the description of the smallest type id
among those that match is taken: when its converter returns, its token is pushed and the
position advances past the matched text; when its converter raises, the call ends with
that exception. The iteration returns the tokens collected so far if and only if no
description matches and the character is NUL, and throws `unexpected_characters` if and
only if no description matches and the character is not NUL. -/
theorem lexer.tokenize_body_lowest_type (adds : List (lexer._token_description_impl T X))
    (c : Char) (cs : List Char) (ret : List (lexer.basic_token T))
    (hno : ∀ d ∈ adds, d._type ≠ lexer.no_match) :
    (∀ d ∈ (lexer.described adds)._descs, ∀ str, lexer.matched_text d (c :: cs) = some str →
      ∃ d0 ∈ (lexer.described adds)._descs, ∃ str0,
        lexer.matched_text d0 (c :: cs) = some str0 ∧
        (∀ d1 ∈ (lexer.described adds)._descs, ∀ str1,
          lexer.matched_text d1 (c :: cs) = some str1 → d0._type ≤ d1._type) ∧
        (∀ v, d0._converter str0 = Except.ok v →
          lexer.tokenize_body (lexer.described adds)._descs (c :: cs) ret =
            lexer.Iteration.next ((c :: cs).drop str0.length)
              (ret ++ [lexer.token_of d0._type v str0])) ∧
        (∀ x, d0._converter str0 = Except.error x →
          lexer.tokenize_body (lexer.described adds)._descs (c :: cs) ret =
            lexer.Iteration.stop (lexer.Result.converter_raised x))) ∧
    (lexer.tokenize_body (lexer.described adds)._descs (c :: cs) ret =
        lexer.Iteration.stop (lexer.Result.returned ret) ↔
      (∀ d ∈ (lexer.described adds)._descs, lexer.matched_text d (c :: cs) = none) ∧
        c = Char.ofNat 0) ∧
    (lexer.tokenize_body (lexer.described adds)._descs (c :: cs) ret =
        lexer.Iteration.stop lexer.Result.unexpected_characters ↔
      (∀ d ∈ (lexer.described adds)._descs, lexer.matched_text d (c :: cs) = none) ∧
        c ≠ Char.ofNat 0) := by
  obtain ⟨hsorted, hmem⟩ := lexer.described_sorted adds
  have hno1 : ∀ d ∈ (lexer.described adds)._descs, d._type ≠ lexer.no_match :=
    fun d hd => hno d (hmem d hd)
  obtain ⟨descs, hdescs⟩ : ∃ descs, descs = (lexer.described adds)._descs := ⟨_, rfl⟩
  rw [← hdescs] at hsorted hno1 ⊢
  clear hdescs hmem hno
  refine ⟨?_, ?_, ?_⟩
  · intro d hd str hstr
    rcases lexer.first_match descs (c :: cs) with hnone | ⟨pre, d0, post, str0, h1, h2, h3⟩
    · rw [hnone d hd] at hstr; cases hstr
    · have hd0 : d0 ∈ descs := by rw [h1]; simp
      refine ⟨d0, hd0, str0, h3, ?_, ?_, ?_⟩
      · intro d1 hd1 str1 hstr1
        rw [h1] at hd1 hsorted
        rcases List.mem_append.mp hd1 with hp | hp
        · rw [h2 d1 hp] at hstr1; cases hstr1
        · rcases List.mem_cons.mp hp with hp | hp
          · rw [hp]
          · have := (List.pairwise_cons.mp (List.pairwise_append.mp hsorted).2.1).1 d1 hp
            omega
      · intro v hv
        rw [h1]
        exact lexer.tokenize_body_first pre post d0 _ str0 ret v h2 h3 (hno1 d0 hd0) hv
      · intro x hx
        rw [h1]
        exact lexer.tokenize_body_raises pre post d0 _ str0 ret x h2 h3 (hno1 d0 hd0) hx
  · constructor
    · intro h
      rcases lexer.first_match descs (c :: cs) with hnone | ⟨pre, d0, post, str0, h1, h2, h3⟩
      · refine ⟨hnone, ?_⟩
        rw [lexer.tokenize_body_none descs c cs ret hnone] at h
        by_contra hc
        rw [if_neg hc] at h
        injection h with h
        cases h
      · rcases lexer.tokenize_body_matching descs (c :: cs) ret hno1 pre post d0 str0 h1 h2 h3
          with ⟨x, hx⟩ | ⟨r1, t1, hn⟩
        · rw [hx] at h; injection h with h; cases h
        · rw [hn] at h; cases h
    · rintro ⟨hnone, hc⟩
      rw [lexer.tokenize_body_none descs c cs ret hnone, if_pos hc]
  · constructor
    · intro h
      rcases lexer.first_match descs (c :: cs) with hnone | ⟨pre, d0, post, str0, h1, h2, h3⟩
      · refine ⟨hnone, ?_⟩
        rw [lexer.tokenize_body_none descs c cs ret hnone] at h
        intro hc
        rw [if_pos hc] at h
        injection h with h
        cases h
      · rcases lexer.tokenize_body_matching descs (c :: cs) ret hno1 pre post d0 str0 h1 h2 h3
          with ⟨x, hx⟩ | ⟨r1, t1, hn⟩
        · rw [hx] at h; injection h with h; cases h
        · rw [hn] at h; cases h
    · rintro ⟨hnone, hc⟩
      rw [lexer.tokenize_body_none descs c cs ret hnone, if_neg hc]

/-- C37, refuted as stated. The literal of a token of a description that converts to a
string is the converted string, not the matched text: with a description that converts to
upper case, `tokenize` on `ab` consumes the whole input and returns one token whose literal
is `AB`. -/
theorem lexer.tokenize_literal_is_converted_string :
    ∃ tok, lexer.tokenize 3 ['a', 'b'] (lexer.described [lexer.shouting]) =
        some (lexer.Result.returned [tok]) ∧
      tok.as_string = some ['A', 'B'] ∧
      lexer.matched_text lexer.shouting ['a', 'b'] = some ['a', 'b'] :=
  ⟨_, rfl, rfl, by decide⟩

/-- C37, amended. For a description set in which no description has the type id
`2 ^ 64 - 1` and every converter to a string returns the matched text, when `tokenize`
returns, the literals of the returned tokens, concatenated in order, followed by the
characters that were not consumed, are the input; and either nothing was left, or the
first character left is NUL and no description matches there. -/
theorem lexer.tokenize_literals_spell_input (def_ : lexer.basic_tokens_description T X)
    (fuel : Nat) (str : List Char) (toks : List (lexer.basic_token T))
    (hno : ∀ d ∈ def_._descs, d._type ≠ lexer.no_match)
    (hid : ∀ d ∈ def_._descs, ∀ str s,
      d._converter str = Except.ok (lexer.Converted.text s) → s = str)
    (h : lexer.tokenize fuel str def_ = some (lexer.Result.returned toks)) :
    ∃ (lits : List (List Char)) (rest : List Char),
      toks.map lexer.basic_token.as_string = lits.map some ∧
      lits.flatten ++ rest = str ∧
      (rest = [] ∨ (rest.head? = some (Char.ofNat 0) ∧
        ∀ d ∈ def_._descs, lexer.matched_text d rest = none)) := by
  obtain ⟨new, lits, rest1, e1, e2, e3, e4⟩ :=
    lexer.tokenize_while_literals def_._descs hno hid fuel str [] toks h
  rw [List.nil_append] at e1
  rw [← e1] at e2
  exact ⟨lits, rest1, e2, e3, e4⟩

/-- C36, amended. For a description set built by `add` from descriptions none of which has
the type id `2 ^ 64 - 1`, `tokenize` computes, for every input and every fuel, what the
specification describes (`lexer.spec_tokenize`): at each position that is not the end it
takes the description that `lexer.spec_lowest_match` gives, emits its token and advances
past the matched text, or ends with the exception of its converter; when there is none it
returns the tokens collected so far if the character is NUL and throws
`unexpected_characters` if not. The description that `lexer.spec_lowest_match` gives at a
position is one that matches there and whose type id is smallest among those that match,
and there is none exactly when no description matches there. -/
theorem lexer.tokenize_greedy_lowest_type (adds : List (lexer._token_description_impl T X))
    (fuel : Nat) (str : List Char)
    (hno : ∀ d ∈ adds, d._type ≠ lexer.no_match) :
    lexer.tokenize fuel str (lexer.described adds) =
      lexer.spec_tokenize (lexer.described adds)._descs fuel str [] ∧
    ∀ rest : List Char,
      (lexer.spec_lowest_match (lexer.described adds)._descs rest = none ↔
        ∀ d ∈ (lexer.described adds)._descs, lexer.matched_text d rest = none) ∧
      ∀ d0 str0, lexer.spec_lowest_match (lexer.described adds)._descs rest = some (d0, str0) →
        d0 ∈ (lexer.described adds)._descs ∧ lexer.matched_text d0 rest = some str0 ∧
        ∀ d1 ∈ (lexer.described adds)._descs, ∀ str1,
          lexer.matched_text d1 rest = some str1 → d0._type ≤ d1._type := by
  obtain ⟨hsorted, hmem⟩ := lexer.described_sorted adds
  refine ⟨lexer.tokenize_while_spec _ hsorted (fun d hd => hno d (hmem d hd)) fuel str [], ?_⟩
  intro rest
  obtain ⟨h1, h2⟩ := lexer.spec_lowest_match_chosen (lexer.described adds)._descs rest
  exact ⟨⟨h1, lexer.spec_lowest_match_none _ rest⟩, h2⟩

/-- Witness of C36: the descriptions `words` and `digits`, added in this order, on the
characters `12a`: at the first position both match and the token of `digits`, of the
smaller type id, is emitted for `12`, then the token of `words` for `a`. -/
theorem lexer.tokenize_greedy_lowest_type_witness :
    (∀ d ∈ [lexer.words, lexer.digits], d._type ≠ lexer.no_match) ∧
    lexer.matched_text lexer.words ['1', '2', 'a'] = some ['1', '2', 'a'] ∧
    lexer.matched_text lexer.digits ['1', '2', 'a'] = some ['1', '2'] ∧
    lexer.tokenize 4 ['1', '2', 'a'] (lexer.described [lexer.words, lexer.digits]) =
      some (lexer.Result.returned
        [lexer.token_of 0 (lexer.Converted.value 2) ['1', '2'],
         lexer.token_of 1 (lexer.Converted.text ['a']) ['a']]) ∧
    (lexer.tokenize 4 ['1', '2', 'a'] (lexer.described [lexer.words, lexer.digits]) =
      lexer.spec_tokenize (lexer.described [lexer.words, lexer.digits])._descs 4
        ['1', '2', 'a'] [] ∧
    ∀ rest : List Char,
      (lexer.spec_lowest_match (lexer.described [lexer.words, lexer.digits])._descs rest =
          none ↔
        ∀ d ∈ (lexer.described [lexer.words, lexer.digits])._descs,
          lexer.matched_text d rest = none) ∧
      ∀ d0 str0,
        lexer.spec_lowest_match (lexer.described [lexer.words, lexer.digits])._descs rest =
          some (d0, str0) →
        d0 ∈ (lexer.described [lexer.words, lexer.digits])._descs ∧
        lexer.matched_text d0 rest = some str0 ∧
        ∀ d1 ∈ (lexer.described [lexer.words, lexer.digits])._descs, ∀ str1,
          lexer.matched_text d1 rest = some str1 → d0._type ≤ d1._type) :=
  ⟨by intro d hd; simp at hd; rcases hd with rfl | rfl <;> decide, by decide, by decide, rfl,
    lexer.tokenize_greedy_lowest_type [lexer.words, lexer.digits] 4 ['1', '2', 'a']
      (by intro d hd; simp at hd; rcases hd with rfl | rfl <;> decide)⟩

/-- Witness of C37: the descriptions `words` and `digits` on the characters `12a`, NUL,
`z`: the literals `12` and `a` are followed by what is left from the NUL on. -/
theorem lexer.tokenize_literals_spell_input_witness :
    lexer.tokenize 5 ['1', '2', 'a', Char.ofNat 0, 'z']
        (lexer.described [lexer.words, lexer.digits]) =
      some (lexer.Result.returned
        [lexer.basic_token.of_value 0 2 ['1', '2'],
         lexer.basic_token.of_string 1 ['a'] ['a']]) ∧
    ∃ (lits : List (List Char)) (rest : List Char),
      [lexer.basic_token.of_value 0 2 ['1', '2'],
        (lexer.basic_token.of_string 1 ['a'] ['a'] : lexer.basic_token Nat)].map
          lexer.basic_token.as_string = lits.map some ∧
      lits.flatten ++ rest = ['1', '2', 'a', Char.ofNat 0, 'z'] ∧
      (rest = [] ∨ (rest.head? = some (Char.ofNat 0) ∧
        ∀ d ∈ (lexer.described [lexer.words, lexer.digits])._descs,
          lexer.matched_text d rest = none)) :=
  ⟨rfl,
    lexer.tokenize_literals_spell_input (lexer.described [lexer.words, lexer.digits]) 5
      ['1', '2', 'a', Char.ofNat 0, 'z'] _
      (by
        intro d hd
        have hdescs : (lexer.described [lexer.words, lexer.digits])._descs =
            [lexer.digits, lexer.words] := rfl
        rw [hdescs] at hd
        simp at hd
        rcases hd with rfl | rfl <;> decide)
      (by
        intro d hd str s h
        have hdescs : (lexer.described [lexer.words, lexer.digits])._descs =
            [lexer.digits, lexer.words] := rfl
        rw [hdescs] at hd
        simp at hd
        rcases hd with rfl | rfl
        · simp [lexer.digits] at h
        · simp [lexer.words] at h
          exact h.symm)
      rfl⟩

/-- C31. Invariant 1 of the data model (a value slot holding `Value` or `Failure` implies
an absent deferred function) holds in the empty program and is kept by every sequence of
public operations that complete: package, make_ready_future, task invocation, task copy,
move and destroy, future copy, move and destroy, try_get, then, on_error, and the
executor running a pushed continuation. -/
theorem operations_keep_invariant_1 (w w1 : World V E) (ops : List (Operation V E))
    (hw : w.invariant_1) (h : perform_all w ops = Except.ok w1) :
    (World.empty : World V E).invariant_1 ∧ w1.invariant_1 :=
  ⟨fun s hs => absurd hs (List.not_mem_nil s), invariant_1_perform_all ops w w1 hw h⟩

/-- Witness of C31: the run `settle_and_read` completes from the empty program; its first
state ends settled to a value with no deferred function. -/
theorem operations_keep_invariant_1_witness :
    ∃ w1 : World Nat Nat, ∃ s : _shared_state Nat Nat,
      (World.empty : World Nat Nat).invariant_1 ∧
      perform_all World.empty settle_and_read = Except.ok w1 ∧
      w1.invariant_1 ∧
      w1.heap[0]? = some s ∧ s.value = Variant.value (Payload.obj 7) ∧ s.function.isNone = true :=
  ⟨_, _, fun s hs => absurd hs (List.not_mem_nil s), rfl,
    (operations_keep_invariant_1 World.empty _ settle_and_read
      (fun s hs => absurd hs (List.not_mem_nil s)) rfl).2, rfl, rfl, rfl⟩

/-! ## Counters of a state and the objects that refer to it -/

/-- C32. After every sequence of `package`, copy construction, move construction,
destruction and the statements of the two assignment operators, the producer count of every
state is the number of task objects alive that refer to it, modulo `2 ^ 64`, and that number
itself while the objects are fewer than `2 ^ 64`. The operators `operator=` themselves never
return: after their statements control flows off the end of a function that returns
`packaged_task &`. The run `Tasks.sample` ends with two objects on the first state and none
on the second. -/
theorem producer_count_is_live_task_handles :
    (∀ (acts : List (Tasks.Action V E)) (t : Tasks V E),
      Tasks.run Tasks.empty acts = Except.ok t →
      ∀ (a : Nat) (s : _shared_state V E), t.world.heap[a]? = some s →
        s.promise_count = t.handles a % 2 ^ 64 ∧
        (t.objects.length < 2 ^ 64 → s.promise_count = t.handles a)) ∧
    (∀ (t t1 : Tasks V E) (this other : Nat),
      packaged_task_copy_assign t this other ≠ Except.ok t1 ∧
      packaged_task_move_assign t this other ≠ Except.ok t1) ∧
    (∃ (t : Tasks Nat Nat) (s0 s1 : _shared_state Nat Nat),
      Tasks.run Tasks.empty Tasks.sample = Except.ok t ∧
      t.objects = [some none, some (some 0), none, some (some 0)] ∧
      t.world.heap = [s0, s1] ∧ s0.promise_count = 2 ∧ s1.promise_count = 0 ∧
      packaged_task_copy_assign t 1 3 = Except.error Abort.no_return ∧
      packaged_task_move_assign t 1 3 = Except.error Abort.no_return) := by
  refine ⟨?_, ?_, ?_⟩
  · intro acts t hrun a s hs
    have h := Tasks.Counted.after_run acts _ t Tasks.Counted.initially hrun
    have hc := h.count a s hs
    simp only [Nat.add_zero] at hc
    have hle : t.objects.count (some (some a)) ≤ t.objects.length := List.count_le_length _ _
    unfold Tasks.handles
    refine ⟨hc, fun hb => ?_⟩
    rw [hc]
    exact Nat.mod_eq_of_lt (by omega)
  · intro t t1 this other
    constructor
    · unfold packaged_task_copy_assign
      split <;> exact fun h => by cases h
    · unfold packaged_task_move_assign
      split <;> exact fun h => by cases h
  · exact ⟨_, _, _, rfl, rfl, rfl, rfl, rfl, rfl, rfl⟩

/-- C35. The copy assignment of a task object to itself, when it is the only object of a
pending state, breaks the promise although the object goes on referring to the state:
after `package` and the statements of `task = task` the state holds the broken-promise
exception, its function is cleared, and its producer count is 1 again. Apart from that,
after every sequence of `package`, copy and move construction, destruction and the
statements of assignments between different objects, with fewer than `2 ^ 64` objects,
every state to which a task object alive refers is pending. -/
theorem self_assignment_breaks_promise :
    (∃ (t : Tasks Nat Nat) (s : _shared_state Nat Nat),
      Tasks.run Tasks.empty Tasks.self_assignment = Except.ok t ∧
      t.objects = [some (some 0)] ∧ t.handles 0 = 1 ∧
      t.world.heap = [s] ∧ s.promise_count = 1 ∧
      s.value = Variant.exception Exn.broken_promise ∧ s.function.isNone = true ∧
      _is_pending s = false) ∧
    (∀ (acts : List (Tasks.Action V E)) (t : Tasks V E),
      Tasks.run Tasks.empty acts = Except.ok t →
      (∀ act ∈ acts, act.self_copy = false) →
      t.objects.length < 2 ^ 64 →
      ∀ (a : Nat) (s : _shared_state V E), t.world.heap[a]? = some s →
        0 < t.handles a → _is_pending s = true) := by
  refine ⟨⟨_, _, rfl, rfl, rfl, rfl, rfl, rfl, rfl, rfl⟩, ?_⟩
  intro acts t hrun hself hb a s hs hpos
  have h := Tasks.Counted.after_run acts _ t Tasks.Counted.initially hrun
  have hk := Tasks.kept_run acts _ t Tasks.Counted.initially
    (fun b s0 hs0 _ => by simp [Tasks.empty, World.empty] at hs0) hself hb hrun
  have hc := h.count a s hs
  simp only [Nat.add_zero] at hc
  have hle : t.objects.count (some (some a)) ≤ t.objects.length := List.count_le_length _ _
  unfold Tasks.handles at hpos
  refine hk a s hs ?_
  rw [hc, Nat.mod_eq_of_lt (by omega)]
  omega

/-- C33, refuted as stated. A call of `then` changes the consumer count: after `package`
the state has one future and the count 1; after `then` on that future the state still has
one future that refers to it, the returned future referring to the new state, and the
count is 2. -/
theorem then_raises_consumer_count :
    ∃ (t0 t : Futures Nat Nat) (s0 s : _shared_state Nat Nat),
      Futures.run Futures.empty (Futures.attach_once.take 1) = Except.ok t0 ∧
      t0.world.heap[0]? = some s0 ∧ t0.handles 0 = 1 ∧ s0.shared_count = 1 ∧
      Futures.run Futures.empty Futures.attach_once = Except.ok t ∧
      t.objects = [some (some 0), some (some 1)] ∧
      t.world.heap[0]? = some s ∧ t.handles 0 = 1 ∧ s.shared_count = 2 :=
  ⟨_, _, _, _, rfl, rfl, rfl, rfl, rfl, rfl, rfl, rfl, rfl⟩

/-- C33, amended. After every sequence of factory calls, copy and move constructions,
assignments and destructions of futures, calls of `try_get`, `then` and `on_error`, task
calls and executor runs, the consumer count of every state is the number of future objects
alive that refer to it plus the number of calls of `then` and `on_error` made on it, modulo
`2 ^ 64`, and that sum itself while the objects and the calls are fewer than `2 ^ 64`. The
calls counted are exactly the actions `then` and `on_error` of the sequence. -/
theorem consumer_count_is_futures_plus_attachments (acts : List (Futures.Action V E))
    (t : Futures V E) (hrun : Futures.run Futures.empty acts = Except.ok t) :
    (∀ (a : Nat) (s : _shared_state V E), t.world.heap[a]? = some s →
      s.shared_count = (t.handles a + t.attachments a) % 2 ^ 64 ∧
      (t.objects.length + t.attached.length < 2 ^ 64 →
        s.shared_count = t.handles a + t.attachments a)) ∧
    t.attached.length = acts.countP Futures.Action.attaches ∧
    (∀ a ∈ t.attached, a < t.world.heap.length) := by
  have h := Futures.Counted.through_run acts _ t Futures.Counted.at_start hrun
  refine ⟨fun a s hs => ⟨h.tally.count a s hs, fun hb => h.exact hb a s hs⟩, ?_, h.logged⟩
  have := Futures.run_attached acts _ t hrun
  simpa [Futures.empty] using this

/-- Witness of C33: in the run `attach_and_settle` the first state ends with one future and
two logged calls, and its consumer count is 3. -/
theorem consumer_count_is_futures_plus_attachments_witness :
    ∃ (t : Futures Nat Nat) (s : _shared_state Nat Nat),
      Futures.run Futures.empty Futures.attach_and_settle = Except.ok t ∧
      t.world.heap[0]? = some s ∧ t.handles 0 = 1 ∧ t.attachments 0 = 2 ∧
      s.shared_count = 3 ∧
      ((∀ (a : Nat) (s : _shared_state Nat Nat), t.world.heap[a]? = some s →
        s.shared_count = (t.handles a + t.attachments a) % 2 ^ 64 ∧
        (t.objects.length + t.attached.length < 2 ^ 64 →
          s.shared_count = t.handles a + t.attachments a)) ∧
      t.attached.length = Futures.attach_and_settle.countP Futures.Action.attaches ∧
      (∀ a ∈ t.attached, a < t.world.heap.length)) :=
  ⟨_, _, rfl, rfl, rfl, rfl, rfl,
    consumer_count_is_futures_plus_attachments Futures.attach_and_settle _ rfl⟩

/-- C34. In a program reached by any sequence of actions, with fewer than `2 ^ 64` objects
and calls, let a future object be alive and refer to a copyable state on which `then` or
`on_error` has been called and which holds `Value(v)`. Then the consumer count of the state
is at least 2, `try_get` on the future returns `v` and leaves the whole program state, the
slot `Value(v)` included, as it is, and so does every further call of `try_get`. -/
theorem try_get_never_drains_after_attachment (acts : List (Futures.Action V E))
    (t : Futures V E) (i a n : Nat) (s : _shared_state V E) (v : Payload V)
    (hrun : Futures.run Futures.empty acts = Except.ok t)
    (hb : t.objects.length + t.attached.length < 2 ^ 64)
    (hi : t.objects[i]? = some (some (some a)))
    (ha : a ∈ t.attached)
    (hs : t.world.heap[a]? = some s) (hk : s.kind = TypeKind.copyable)
    (hv : s.value = Variant.value v) :
    2 ≤ s.shared_count ∧
    future_try_get t.world (some a) = Except.ok (t.world, Completion.normal (some v)) ∧
    t.step (Futures.Action.try_get i) = Except.ok t ∧
    t.run (List.replicate n (Futures.Action.try_get i)) = Except.ok t := by
  have h := Futures.Counted.through_run acts _ t Futures.Counted.at_start hrun
  have hc := h.exact hb a s hs
  have h1 : 0 < t.handles a := List.count_pos_iff.mpr (mem_of_get_object _ _ _ hi)
  have h2 : 0 < t.attachments a := List.count_pos_iff.mpr ha
  have hge : 2 ≤ s.shared_count := by omega
  have htry : future_try_get t.world (some a) =
      Except.ok (t.world, Completion.normal (some v)) := by
    have hkind : s.kind ≠ TypeKind.void := by rw [hk]; decide
    simp only [future_try_get, hs, hkind, if_false,
      try_get_copyable_shared s v hv hk (by omega), World.put_self _ _ _ hs]
  have hstep : t.step (Futures.Action.try_get i) = Except.ok t := by
    have hst : t._state i = Except.ok (some a) := by
      simp only [Futures._state, hi]
    simp only [Futures.step, hst, htry]
  refine ⟨hge, htry, hstep, ?_⟩
  induction n with
  | zero => rfl
  | succ m ih =>
    simp only [List.replicate_succ, Futures.run, hstep]
    exact ih

/-- Witness of C34: in the run `attach_and_settle` the first future is alive, its state
holds `Value(7)` and has two logged calls; `try_get` returns 7 three more times. -/
theorem try_get_never_drains_after_attachment_witness :
    ∃ (t : Futures Nat Nat) (s : _shared_state Nat Nat),
      Futures.run Futures.empty Futures.attach_and_settle = Except.ok t ∧
      t.objects.length + t.attached.length < 2 ^ 64 ∧
      t.objects[0]? = some (some (some 0)) ∧ 0 ∈ t.attached ∧
      t.world.heap[0]? = some s ∧ s.kind = TypeKind.copyable ∧
      s.value = Variant.value (Payload.obj 7) ∧
      (2 ≤ s.shared_count ∧
        future_try_get t.world (some 0) =
          Except.ok (t.world, Completion.normal (some (Payload.obj 7))) ∧
        t.step (Futures.Action.try_get 0) = Except.ok t ∧
        t.run (List.replicate 3 (Futures.Action.try_get 0)) = Except.ok t) :=
  ⟨_, _, rfl, by decide, rfl, by decide, rfl, rfl, rfl,
    try_get_never_drains_after_attachment Futures.attach_and_settle _ 0 0 3 _ _ rfl
      (by decide) rfl (by decide) rfl rfl rfl⟩

end claims

end Reaver
